import Mathlib

/-! # Server-to-engineer allocation solvers

A shallow embedding of the allocation solvers of the repository and the
properties checked against them.

Conventions of the embedding.

* C++ `int` values are `Int`; loop indices, day numbers and counters that only
  count up from zero are `Nat`.
* `vector<T>` is `List T`; `v[i]` is `List.getD` and `v[i] = x` is `List.set`.
* `set<int>` is the ascending duplicate-free list of its elements
  (`setInsert`); `map<int, T>` is the list of its entries in ascending key
  order (`mapPush`, `mapInsert`, `mapGet`), which is the order in which a
  range-`for` visits them.
* `sort` over pairs with the default `operator<` is `sortBy` with the
  lexicographic comparison; on pairwise distinct entries the result does not
  depend on the sorting algorithm.
* `sort` with a comparison that looks at a part of the entries only
  (main.cpp line 1253, constraint_solver.cpp line 74) leaves the order of the
  entries it does not separate to the library. There the sorting function is
  an argument `sort` of the definitions that call it; the theorems hold for
  every sorting function, or for every one with the guarantee `StdSort` of
  `std::sort`.
* Console output is not modelled.

Every solver of the repository is a separate program with its own
`Solution`, constants and member functions; each lives in a namespace named
after its class.
-/

/-! ## Containers shared by the solvers -/

/-- Insertion into a `set`: the list stays ascending and duplicate-free. -/
def setInsert {α : Type} [LT α] [DecidableRel (fun (a b : α) => a < b)] [DecidableEq α]
    (x : α) : List α → List α
  | [] => [x]
  | y :: ys =>
    if x < y then x :: y :: ys
    else if x = y then y :: ys
    else y :: setInsert x ys

/-- Inserts every element of `xs` into the set `s`, in order. -/
def setInsertAll {α : Type} [LT α] [DecidableRel (fun (a b : α) => a < b)] [DecidableEq α]
    (xs : List α) (s : List α) : List α :=
  xs.foldl (fun acc x => setInsert x acc) s

/-- Statement `m[k].push_back(d)` on a `map<int, vector<int>>`. -/
def mapPush (k : Int) (d : Nat) : List (Int × List Nat) → List (Int × List Nat)
  | [] => [(k, [d])]
  | (k', ds) :: m =>
    if k < k' then (k, [d]) :: (k', ds) :: m
    else if k = k' then (k', ds ++ [d]) :: m
    else (k', ds) :: mapPush k d m

/-- Statement `m[k].insert(d)` on a `map<int, set<int>>`. -/
def mapInsert (k : Int) (d : Nat) : List (Int × List Nat) → List (Int × List Nat)
  | [] => [(k, [d])]
  | (k', ds) :: m =>
    if k < k' then (k, [d]) :: (k', ds) :: m
    else if k = k' then (k', setInsert d ds) :: m
    else (k', ds) :: mapInsert k d m

/-- Read access `m[k]` (or `m.at(k)` on a key that is present): the value
stored under `k`, the empty container when there is none. -/
def mapGet (m : List (Int × List Nat)) (k : Int) : List Nat :=
  match m.find? (fun kv => kv.1 == k) with
  | some kv => kv.2
  | none => []

/-- Test `m.count(k)` on a map. -/
def mapHas (m : List (Int × List Nat)) (k : Int) : Bool :=
  m.any (fun kv => kv.1 == k)

/-- One step of a stable insertion sort: `x` goes after every entry that the
comparison `comp` puts before it. -/
def insertBy {α : Type} (comp : α → α → Bool) (x : α) : List α → List α
  | [] => [x]
  | y :: ys => if comp y x then y :: insertBy comp x ys else x :: y :: ys

/-- Sorting with the strict comparison `comp` (`comp a b`: `a` goes before
`b`). Entries that `comp` does not separate keep their order. -/
def sortBy {α : Type} (comp : α → α → Bool) (l : List α) : List α :=
  l.foldr (insertBy comp) []

/-- The `operator<` of `pair<int, int>`. -/
def pairLt (a b : Int × Int) : Bool :=
  decide (a.1 < b.1) || (!decide (b.1 < a.1) && decide (a.2 < b.2))

/-- Call `sort(v.rbegin(), v.rend())` on a vector of pairs: descending order. -/
def sortDesc (l : List (Int × Int)) : List (Int × Int) :=
  sortBy (fun a b => pairLt b a) l

/-- Entry `allocation[e]`. -/
def rowOf (allocation : List (List Int)) (e : Nat) : List Int :=
  allocation.getD e []

/-- Entry `allocation[e][i]`. -/
def slotOf (allocation : List (List Int)) (e i : Nat) : Int :=
  (rowOf allocation e).getD i (-1)

/-- Assignment `allocation[e][i] = v`. -/
def setSlot (allocation : List (List Int)) (e i : Nat) (v : Int) : List (List Int) :=
  allocation.set e ((rowOf allocation e).set i v)

/-- Statement `allocation[e].push_back(v)`. -/
def pushSlot (allocation : List (List Int)) (e : Nat) (v : Int) : List (List Int) :=
  allocation.set e (rowOf allocation e ++ [v])

/-- Entry `daily_work[e][d]`. -/
def worksOn (daily_work : List (List Bool)) (e d : Nat) : Bool :=
  (daily_work.getD e []).getD d false

/-- Assignment `daily_work[e][d] = true`. -/
def markWork (daily_work : List (List Bool)) (e d : Nat) : List (List Bool) :=
  daily_work.set e ((daily_work.getD e []).set d true)

/-- The days of `days` that are not yet in the work-day set `work`. -/
def newDays (work : List Nat) (days : List Nat) : Nat :=
  (days.filter (fun d => !work.contains d)).length

/-! ## main.cpp: `ServerAllocationSolver` -/

namespace ServerAllocationSolver

def NUM_ENGINEERS : Nat := 336
def NUM_SERVERS : Nat := 1620
def MAX_SERVERS_PER_ENGINEER : Nat := 5
def NUM_DAYS : Nat := 22
def FIRST_14_DAYS : Nat := 14
def MAX_REST_DAYS : Nat := 410

/-- The struct `Solution` of main.cpp. -/
structure Solution where
  allocation : List (List Int)
  daily_work : List (List Bool)
  total_rest_days : Nat
  valid : Bool
deriving DecidableEq, Repr

/-- The constructor `Solution()`: no slot at all in any row. -/
def Solution.init : Solution :=
  { allocation := List.replicate NUM_ENGINEERS []
    daily_work := List.replicate NUM_ENGINEERS (List.replicate NUM_DAYS false)
    total_rest_days := 0
    valid := false }

/-- Entry `server_to_engineer[server]`. -/
def ownerOf (server_to_engineer : List Int) (server : Int) : Int :=
  server_to_engineer.getD server.toNat (-1)

/-- Assignment `server_to_engineer[server] = engineer`. -/
def setOwner (server_to_engineer : List Int) (server : Int) (engineer : Int) : List Int :=
  server_to_engineer.set server.toNat engineer

/-- The map `server_days` built from `daily_alarms` (days 0 .. NUM_DAYS-1). -/
def buildServerDays (daily_alarms : List (List Int)) : List (Int × List Nat) :=
  (List.range NUM_DAYS).foldl
    (fun m day => (daily_alarms.getD day []).foldl (fun m server => mapPush server day m) m) []

/-- The marking loop of `calculateDailyWork` (lines 697-704), also used by
`tryAggressiveServerSwap` for `temp_daily_work` (lines 992-999). -/
def markAlarms (daily_alarms : List (List Int)) (server_to_engineer : List Int)
    (daily_work : List (List Bool)) : List (List Bool) :=
  (List.range NUM_DAYS).foldl
    (fun dw day =>
      (daily_alarms.getD day []).foldl
        (fun dw server =>
          let engineer := ownerOf server_to_engineer server
          if engineer ≠ -1 then markWork dw engineer.toNat day else dw) dw)
    daily_work

/-- Number of days of `0 .. NUM_DAYS-1` on which engineer `e` works. -/
def workCount (daily_work : List (List Bool)) (e : Nat) : Nat :=
  ((List.range NUM_DAYS).filter (fun d => worksOn daily_work e d)).length

/-- Number of days of `0 .. NUM_DAYS-1` on which engineer `e` rests. -/
def restCount (daily_work : List (List Bool)) (e : Nat) : Nat :=
  ((List.range NUM_DAYS).filter (fun d => !worksOn daily_work e d)).length

/-- The flag `works_in_first_14` of `calculateDailyWork` for engineer `e`. -/
def worksInFirst14 (daily_work : List (List Bool)) (e : Nat) : Bool :=
  (List.range NUM_DAYS).any (fun d => worksOn daily_work e d && decide (d < FIRST_14_DAYS))

/-- Function `calculateDailyWork` (lines 688-777): the work days are read off
the member `server_to_engineer`, not off `solution.allocation`. -/
def calculateDailyWork (daily_alarms : List (List Int)) (server_to_engineer : List Int)
    (solution : Solution) : Solution :=
  let cleared := solution.daily_work.map (fun r => r.map (fun _ => false))
  let dw := markAlarms daily_alarms server_to_engineer cleared
  { allocation := solution.allocation
    daily_work := dw
    total_rest_days := ((List.range NUM_ENGINEERS).map (restCount dw)).sum
    valid := (List.range NUM_ENGINEERS).all (worksInFirst14 dw) }

/-- The vector `first_14_list` (lines 1198-1208): the servers of days 0..13
in ascending order, each once. -/
def first14List (daily_alarms : List (List Int)) : List Int :=
  (List.range 14).foldl (fun acc day => setInsertAll (daily_alarms.getD day []) acc) []

/-- The variables that `optimalWorkDaysAllocation` updates while it assigns. -/
structure AllocState where
  allocation : List (List Int)
  server_to_engineer : List Int
  engineer_load : List Nat
deriving DecidableEq, Repr

/-- Assigns `server` to `engineer`: `push_back`, owner, load (lines 1215-1217
and 1319-1321). -/
def assignServer (st : AllocState) (engineer : Nat) (server : Int) : AllocState :=
  { allocation := pushSlot st.allocation engineer server
    server_to_engineer := setOwner st.server_to_engineer server engineer
    engineer_load := st.engineer_load.set engineer (st.engineer_load.getD engineer 0 + 1) }

/-- Phase 1 of `optimalWorkDaysAllocation` (lines 1185-1219): after the reset
engineer `e` gets the `e`-th server of `first_14_list`, while both last. -/
def phase1 (first_14_list : List Int) : AllocState :=
  ((List.range NUM_ENGINEERS).zip first_14_list).foldl
    (fun st es => assignServer st es.1 es.2)
    { allocation := List.replicate NUM_ENGINEERS []
      server_to_engineer := List.replicate NUM_SERVERS (-1)
      engineer_load := List.replicate NUM_ENGINEERS 0 }

/-- Entry `target_work_days[engineer]` (lines 1227-1234). -/
def targetWorkDays (engineer : Nat) : Nat :=
  if engineer < 74 then 20 else 21

/-- The comparison of the sort of `server_coverage` (lines 1254-1256): more
days first. -/
def coverageBefore (a b : Int × Nat) : Bool :=
  decide (a.2 > b.2)

/-- The vector `server_coverage` (lines 1245-1256): the unassigned servers
with their number of days, in map order, handed to `std::sort` with
`coverageBefore`. The order that the library gives to servers of equal
coverage is not fixed by the source: `sort` is the sorting function. -/
def serverCoverage (sort : List (Int × Nat) → List (Int × Nat))
    (server_days : List (Int × List Nat)) (server_to_engineer : List Int) :
    List (Int × Nat) :=
  sort
    ((server_days.filter (fun kv => ownerOf server_to_engineer kv.1 == -1)).map
      (fun kv => (kv.1, kv.2.length)))

/-- The set `engineer_work_days[e]` at the start of a pass (lines 1268-1277). -/
def engineerWorkDays (server_days : List (Int × List Nat)) (allocation : List (List Int))
    (e : Nat) : List Nat :=
  (rowOf allocation e).foldl
    (fun acc server =>
      if server ≠ -1 && mapHas server_days server then
        setInsertAll (mapGet server_days server) acc
      else acc) []

/-- The vector `engineer_deficit` of a pass, sorted (lines 1280-1290). -/
def engineerDeficit (work_days : List (List Nat)) (engineer_load : List Nat) : List (Int × Int) :=
  sortDesc
    (((List.range NUM_ENGINEERS).filter
        (fun engineer =>
          decide ((targetWorkDays engineer : Int) - ((work_days.getD engineer []).length : Int) > 0)
            && decide (engineer_load.getD engineer 0 < MAX_SERVERS_PER_ENGINEER))).map
      (fun engineer =>
        ((targetWorkDays engineer : Int) - ((work_days.getD engineer []).length : Int),
          (engineer : Int))))

/-- The search for `best_server` and `best_gain` (lines 1298-1316). -/
def bestServer (server_days : List (Int × List Nat)) (server_coverage : List (Int × Nat))
    (server_to_engineer : List Int) (work : List Nat) : Int × Nat :=
  server_coverage.foldl
    (fun best sc =>
      if ownerOf server_to_engineer sc.1 ≠ -1 then best
      else
        let gain := newDays work (mapGet server_days sc.1)
        if gain > best.2 then (sc.1, gain) else best)
    (-1, 0)

/-- One turn of the loop over `engineer_deficit` (lines 1293-1330); the
second component is the flag `progress`. -/
def passStep (server_days : List (Int × List Nat)) (server_coverage : List (Int × Nat))
    (work_days : List (List Nat)) (acc : AllocState × Bool) (de : Int × Int) :
    AllocState × Bool :=
  let engineer := de.2.toNat
  if acc.1.engineer_load.getD engineer 0 ≥ MAX_SERVERS_PER_ENGINEER then acc
  else
    let best := bestServer server_days server_coverage acc.1.server_to_engineer
      (work_days.getD engineer [])
    if best.1 ≠ -1 && decide (best.2 > 0) then (assignServer acc.1 engineer best.1, true)
    else acc

/-- One pass of the `while` loop of Phase 2 (lines 1264-1330). -/
def phase2Pass (server_days : List (Int × List Nat)) (server_coverage : List (Int × Nat))
    (st : AllocState) : AllocState × Bool :=
  let work_days := (List.range NUM_ENGINEERS).map (engineerWorkDays server_days st.allocation)
  (engineerDeficit work_days st.engineer_load).foldl
    (passStep server_days server_coverage work_days) (st, false)

/-- The loop `while (progress && iteration < 1000)`; `fuel` is the number of
passes that `iteration < 1000` still allows. -/
def phase2Loop (server_days : List (Int × List Nat)) (server_coverage : List (Int × Nat)) :
    Nat → AllocState → AllocState
  | 0, st => st
  | fuel + 1, st =>
    let r := phase2Pass server_days server_coverage st
    if r.2 then phase2Loop server_days server_coverage fuel r.1 else r.1

/-- The padding loop (lines 1349-1353). -/
def padRow (row : List Int) : List Int :=
  row ++ List.replicate (MAX_SERVERS_PER_ENGINEER - row.length) (-1)

/-- The state in which `optimalWorkDaysAllocation` leaves its assignment
loops (lines 1185-1346), before padding. -/
def optimalAssign (sort : List (Int × Nat) → List (Int × Nat))
    (daily_alarms : List (List Int)) : AllocState :=
  let st1 := phase1 (first14List daily_alarms)
  let server_days := buildServerDays daily_alarms
  phase2Loop server_days (serverCoverage sort server_days st1.server_to_engineer) 1000 st1

/-- Function `optimalWorkDaysAllocation` (lines 1184-1376): the solution and
the member `server_to_engineer` it leaves behind. -/
def optimalWorkDaysAllocation (sort : List (Int × Nat) → List (Int × Nat))
    (daily_alarms : List (List Int)) : Solution × List Int :=
  let st := optimalAssign sort daily_alarms
  (calculateDailyWork daily_alarms st.server_to_engineer
    { Solution.init with allocation := st.allocation.map padRow }, st.server_to_engineer)

/-- Function `saveSolution` (lines 1379-1396): the integers written, line by
line. -/
def saveSolution (solution : Solution) : List (List Int) :=
  (List.range NUM_ENGINEERS).map
    (fun e => (List.range MAX_SERVERS_PER_ENGINEER).map (fun i => slotOf solution.allocation e i))

/-- A loop `for (int& s : row) if (s == a) { s = b; break; }`. -/
def replaceFirst (a b : Int) : List Int → List Int
  | [] => []
  | x :: xs => if x = a then b :: xs else x :: replaceFirst a b xs

/-- What the refinement moves read and write: `solution.allocation`, the
member `server_to_engineer`, and the flag that a move was made. -/
structure MoveState where
  allocation : List (List Int)
  server_to_engineer : List Int
  improved : Bool
deriving DecidableEq, Repr

/-- The vector `server_gains` of `aggressiveServerReallocation`, sorted
(lines 878-895). -/
def serverGains (server_days : List (Int × List Nat)) (server_to_engineer : List Int)
    (daily_work : List (List Bool)) (engineer : Nat) : List (Int × Int) :=
  sortDesc
    (((server_days.filter (fun kv => ownerOf server_to_engineer kv.1 ≠ (engineer : Int))).map
        (fun kv =>
          (((kv.2.filter (fun day => !worksOn daily_work engineer day)).length : Int), kv.1))).filter
      (fun gs => decide (gs.1 > 0)))

/-- The flag `would_lose_first_14` (lines 908-927). -/
def wouldLoseFirst14 (server_days : List (Int × List Nat)) (allocation : List (List Int))
    (daily_work : List (List Bool)) (current_owner : Nat) (server : Int) : Bool :=
  !(List.range FIRST_14_DAYS).any
    (fun day =>
      worksOn daily_work current_owner day &&
        (rowOf allocation current_owner).any
          (fun s => !(s == server || s == -1) && (mapGet server_days s).contains day))

/-- The reassignment of `server` from `current_owner` to `engineer`
(lines 943-958). -/
def reassign (st : MoveState) (current_owner engineer : Nat) (server : Int) : MoveState :=
  let a1 := st.allocation.set current_owner
    (replaceFirst server (-1) (rowOf st.allocation current_owner))
  if (rowOf a1 engineer).contains (-1) then
    { allocation := a1.set engineer (replaceFirst (-1) server (rowOf a1 engineer))
      server_to_engineer := setOwner st.server_to_engineer server engineer
      improved := true }
  else { st with allocation := a1 }

/-- The loop over `server_gains` (lines 898-961). -/
def reallocLoop (server_days : List (Int × List Nat)) (daily_work : List (List Bool))
    (engineer : Nat) : List (Int × Int) → MoveState → MoveState
  | [], st => st
  | (gain, server) :: rest, st =>
    if gain ≤ 1 then st
    else
      let current_owner := ownerOf st.server_to_engineer server
      if current_owner = -1 then reallocLoop server_days daily_work engineer rest st
      else if wouldLoseFirst14 server_days st.allocation daily_work current_owner.toNat server
      then reallocLoop server_days daily_work engineer rest st
      else if ((rowOf st.allocation engineer).filter (fun s => s ≠ -1)).length
          < MAX_SERVERS_PER_ENGINEER
      then reallocLoop server_days daily_work engineer rest
        (reassign st current_owner.toNat engineer server)
      else reallocLoop server_days daily_work engineer rest st

/-- Function `aggressiveServerReallocation` (lines 874-964). The flag of the
result is the value returned; the flag of the argument is not read. -/
def aggressiveServerReallocation (server_days : List (Int × List Nat))
    (daily_work : List (List Bool)) (engineer : Nat) (st : MoveState) : MoveState :=
  reallocLoop server_days daily_work engineer
    (serverGains server_days st.server_to_engineer daily_work engineer)
    { st with improved := false }

/-- The slot pairs `(i, j)` in the order of the two nested loops. -/
def slotPairs : List (Nat × Nat) :=
  (List.range MAX_SERVERS_PER_ENGINEER).flatMap
    (fun i => (List.range MAX_SERVERS_PER_ENGINEER).map (fun j => (i, j)))

/-- Whether engineer `e` works on one of the days `0 .. FIRST_14_DAYS-1`. -/
def hasFirst14 (daily_work : List (List Bool)) (e : Nat) : Bool :=
  (List.range FIRST_14_DAYS).any (fun day => worksOn daily_work e day)

/-- The body of the nested loops of `tryAggressiveServerSwap` (lines 969-1035)
over the remaining slot pairs. The flag of the result is the value returned. -/
def swapLoop (daily_alarms : List (List Int)) (daily_work : List (List Bool))
    (engineer1 engineer2 : Nat) : List (Nat × Nat) → MoveState → MoveState
  | [], st => { st with improved := false }
  | (i, j) :: rest, st =>
    let server1 := slotOf st.allocation engineer1 i
    let server2 := slotOf st.allocation engineer2 j
    if server1 = -1 ∨ server2 = -1 then swapLoop daily_alarms daily_work engineer1 engineer2 rest st
    else
      let before := workCount daily_work engineer1 + workCount daily_work engineer2
      let a1 := setSlot (setSlot st.allocation engineer1 i server2) engineer2 j server1
      let o1 := setOwner (setOwner st.server_to_engineer server1 engineer2) server2 engineer1
      let temp_daily_work := markAlarms daily_alarms o1
        (List.replicate NUM_ENGINEERS (List.replicate NUM_DAYS false))
      let after := workCount temp_daily_work engineer1 + workCount temp_daily_work engineer2
      let maintains_first_14 :=
        if hasFirst14 temp_daily_work engineer1 then hasFirst14 temp_daily_work engineer2
        else false
      if decide (after > before) && maintains_first_14 then
        { allocation := a1, server_to_engineer := o1, improved := true }
      else
        swapLoop daily_alarms daily_work engineer1 engineer2 rest
          { st with
            allocation := setSlot (setSlot a1 engineer1 i server1) engineer2 j server2
            server_to_engineer := setOwner (setOwner o1 server1 engineer1) server2 engineer2 }

/-- Function `tryAggressiveServerSwap` (lines 966-1038). -/
def tryAggressiveServerSwap (daily_alarms : List (List Int)) (daily_work : List (List Bool))
    (engineer1 engineer2 : Nat) (st : MoveState) : MoveState :=
  swapLoop daily_alarms daily_work engineer1 engineer2 slotPairs st

/-- The vector `engineer_rest_days`, sorted (lines 798-806 and 847-855). -/
def engineerRestDays (daily_work : List (List Bool)) : List (Int × Int) :=
  sortDesc ((List.range NUM_ENGINEERS).map (fun e => ((restCount daily_work e : Int), (e : Int))))

/-- The loop over `j` (lines 832-837): swaps with the engineers that follow
position `i`, last first. -/
def swapWithOthers (daily_alarms : List (List Int)) (daily_work : List (List Bool))
    (engineer : Nat) (others : List (Int × Int)) (st : MoveState) : MoveState :=
  others.foldl
    (fun st other =>
      let r := tryAggressiveServerSwap daily_alarms daily_work engineer other.2.toNat st
      { r with improved := st.improved || r.improved })
    st

/-- The loop over `i` (lines 820-838) on the positions that remain. -/
def processEngineers (daily_alarms : List (List Int)) (server_days : List (Int × List Nat))
    (daily_work : List (List Bool)) (engineer_rest_days : List (Int × Int)) :
    List (Nat × (Int × Int)) → MoveState → MoveState
  | [], st => st
  | (i, (current_rest, engineer)) :: rest, st =>
    if current_rest ≤ 2 then st
    else
      let r := aggressiveServerReallocation server_days daily_work engineer.toNat st
      let st1 := { r with improved := st.improved || r.improved }
      let st2 := swapWithOthers daily_alarms daily_work engineer.toNat
        ((engineer_rest_days.drop (i + 1)).reverse) st1
      processEngineers daily_alarms server_days daily_work engineer_rest_days rest st2

/-- The moves of one iteration and the evaluation that follows them
(lines 816-840): `optimized` after `calculateDailyWork`, the member
`server_to_engineer`, and the flag `improved`. -/
def iterationMoves (daily_alarms : List (List Int)) (server_days : List (Int × List Nat))
    (engineer_rest_days : List (Int × Int)) (server_to_engineer : List Int)
    (solution : Solution) : Solution × List Int × Bool :=
  let st := processEngineers daily_alarms server_days solution.daily_work engineer_rest_days
    ((engineer_rest_days.take 50).enum)
    { allocation := solution.allocation, server_to_engineer := server_to_engineer,
      improved := false }
  (calculateDailyWork daily_alarms st.server_to_engineer
    { solution with allocation := st.allocation }, st.server_to_engineer, st.improved)

/-- The loop `for (iteration = 0; iteration < 50; iteration++)` of
`constraintPropagationOptimization` (lines 815-867); `fuel` is the number of
iterations left. -/
def optimizationLoop (daily_alarms : List (List Int)) (server_days : List (Int × List Nat)) :
    Nat → List (Int × Int) → List Int → Solution → Solution × List Int
  | 0, _, server_to_engineer, solution => (solution, server_to_engineer)
  | fuel + 1, engineer_rest_days, server_to_engineer, solution =>
    let r := iterationMoves daily_alarms server_days engineer_rest_days server_to_engineer solution
    let optimized := r.1
    if optimized.valid && decide (optimized.total_rest_days < solution.total_rest_days) then
      if optimized.total_rest_days ≤ MAX_REST_DAYS then (optimized, r.2.1)
      else if !r.2.2 then (optimized, r.2.1)
      else optimizationLoop daily_alarms server_days fuel
        (engineerRestDays optimized.daily_work) r.2.1 optimized
    else if !r.2.2 then (solution, r.2.1)
    else optimizationLoop daily_alarms server_days fuel engineer_rest_days r.2.1 solution

/-- Function `constraintPropagationOptimization` (lines 779-872). -/
def constraintPropagationOptimization (daily_alarms : List (List Int))
    (server_to_engineer : List Int) (solution : Solution) : Solution × List Int :=
  if solution.total_rest_days ≤ MAX_REST_DAYS then (solution, server_to_engineer)
  else
    optimizationLoop daily_alarms (buildServerDays daily_alarms) 50
      (engineerRestDays solution.daily_work) server_to_engineer solution

/-- Function `solve` (lines 79-108); `sort` is the sorting function of
`optimalWorkDaysAllocation`. -/
def solve (sort : List (Int × Nat) → List (Int × Nat)) (daily_alarms : List (List Int)) :
    Solution :=
  let r := optimalWorkDaysAllocation sort daily_alarms
  let initial := r.1
  if !initial.valid then Solution.init
  else if initial.total_rest_days > MAX_REST_DAYS then
    let optimized := (constraintPropagationOptimization daily_alarms r.2 initial).1
    if optimized.valid then optimized else initial
  else initial

end ServerAllocationSolver

/-! ## Members shared by the score-ranked solvers

`realistic_solver.cpp`, `ultimate_solver.cpp` and `precise_solver.cpp` read the
file into `daily_alarms` and `server_to_days` with the same loop and rank the
servers in `server_efficiency`. The scores are `double` values that are
small integers (or, in `precise_solver.cpp`, halves of integers); they are
kept exactly, as `Int` (doubled where halves occur). -/

/-- The loop that fills `server_to_days` from the day lines read so far. -/
def buildServerToDays (daily_alarms : List (List Int)) : List (Int × List Nat) :=
  (daily_alarms.enum).foldl
    (fun m dl => dl.2.foldl (fun m server => mapInsert server dl.1 m) m) []

/-- The counter of the continuity loop: the positions `i ≥ 1` of the
ascending `day_list` with `day_list[i] == day_list[i-1] + 1`. -/
def consecutiveCount : List Nat → Nat
  | [] => 0
  | [_] => 0
  | a :: b :: rest => (if b = a + 1 then 1 else 0) + consecutiveCount (b :: rest)

/-- The union of the day sets of the servers held in row `e`, built in slot
order (the loops at realistic_solver.cpp 190-197, precise_solver.cpp 230-237). -/
def rowDays (server_to_days : List (Int × List Nat)) (allocation : List (List Int)) (e : Nat) :
    List Nat :=
  (List.range 5).foldl
    (fun acc i =>
      if slotOf allocation e i ≠ -1 then
        setInsertAll (mapGet server_to_days (slotOf allocation e i)) acc
      else acc) []

/-- Whether the day set `days` has a day below 14. -/
def hasDayBelow14 (days : List Nat) : Bool :=
  (List.range 14).any (fun day => days.contains day)

/-! ## realistic_solver.cpp: `RealisticSolver` -/

namespace RealisticSolver

def NUM_ENGINEERS : Nat := 336
def NUM_SERVERS : Nat := 1620
def MAX_SERVERS_PER_ENGINEER : Nat := 5

/-- The struct `Solution` of realistic_solver.cpp. -/
structure Solution where
  allocation : List (List Int)
  daily_work : List (List Bool)
  total_rest_days : Nat
  num_days : Nat
  valid : Bool
deriving DecidableEq, Repr

/-- The constructor `Solution(days)`. -/
def Solution.new (days : Nat) : Solution :=
  { allocation := List.replicate NUM_ENGINEERS (List.replicate MAX_SERVERS_PER_ENGINEER (-1))
    daily_work := List.replicate NUM_ENGINEERS (List.replicate days false)
    total_rest_days := 0
    num_days := days
    valid := false }

/-- The members of the solver once `loadAlarmData` has run. -/
structure Solver where
  daily_alarms : List (List Int)
  server_to_days : List (Int × List Nat)
  server_efficiency : List (Int × Int)
  num_days : Nat
deriving DecidableEq, Repr

/-- The score of a server with day set `days` (lines 68-102). -/
def score (days : List Nat) : Int :=
  let first_14_count := (days.filter (fun day => day < 14)).length
  if first_14_count > 0 then
    (days.length : Int) * 10 + (first_14_count : Int) * 50
      + ((days.length : Int) - (first_14_count : Int)) * 20
      + ((1 + consecutiveCount days : Nat) : Int) * 5
  else 0

/-- Function `loadAlarmData` (lines 40-120) on the day lines of the file
(the lines that start with a digit, each as the integers read from it). -/
def loadAlarmData (lines : List (List Int)) : Solver :=
  let server_to_days := buildServerToDays lines
  { daily_alarms := lines
    server_to_days := server_to_days
    server_efficiency := sortDesc (server_to_days.map (fun kv => (score kv.2, kv.1)))
    num_days := lines.length }

/-- The variables of the greedy loop of Phase 1 for one engineer. -/
structure GreedyState where
  allocation : List (List Int)
  server_used : List Bool
  current_work_days : List Nat
  servers_assigned : Nat
deriving DecidableEq, Repr

/-- One turn of the loop over `server_efficiency` in Phase 1 (lines 142-168). -/
def greedyStep (server_to_days : List (Int × List Nat)) (engineer : Nat) (st : GreedyState)
    (ss : Int × Int) : GreedyState :=
  if st.server_used.getD ss.2.toNat false || decide (st.servers_assigned ≥ MAX_SERVERS_PER_ENGINEER)
      || decide (ss.1 ≤ 0) then st
  else
    let new_work_days := setInsertAll (mapGet server_to_days ss.2) st.current_work_days
    if hasDayBelow14 new_work_days
        && decide (new_work_days.length > st.current_work_days.length) then
      { allocation := setSlot st.allocation engineer st.servers_assigned ss.2
        server_used := st.server_used.set ss.2.toNat true
        current_work_days := new_work_days
        servers_assigned := st.servers_assigned + 1 }
    else st

/-- The body of the loop over the engineers in Phase 1 (lines 137-174). -/
def greedyEngineer (s : Solver) (acc : List (List Int) × List Bool) (engineer : Nat) :
    List (List Int) × List Bool :=
  let r := s.server_efficiency.foldl (greedyStep s.server_to_days engineer)
    { allocation := acc.1, server_used := acc.2, current_work_days := [], servers_assigned := 0 }
  (r.allocation, r.server_used)

/-- Phase 1 of `solve` (lines 134-174). -/
def phase1 (s : Solver) : List (List Int) × List Bool :=
  (List.range NUM_ENGINEERS).foldl (greedyEngineer s)
    ((Solution.new s.num_days).allocation, List.replicate NUM_SERVERS false)

/-- The loop over the replacement candidates for one slot (lines 200-238):
the temporary replacement is kept when it improves, undone otherwise. The
third component is the flag `improved`. -/
def tryCandidates (server_to_days : List (Int × List Nat)) (engineer slot : Nat)
    (current_server : Int) (current_days : List Nat) :
    List (Int × Int) → List (List Int) × List Bool → List (List Int) × List Bool × Bool
  | [], st => (st.1, st.2, false)
  | ss :: rest, st =>
    if st.2.getD ss.2.toNat false || decide (ss.1 ≤ 0) then
      tryCandidates server_to_days engineer slot current_server current_days rest st
    else
      let a1 := setSlot st.1 engineer slot ss.2
      let u1 := (st.2.set current_server.toNat false).set ss.2.toNat true
      let new_days := rowDays server_to_days a1 engineer
      if hasDayBelow14 new_days && decide (new_days.length > current_days.length) then
        (a1, u1, true)
      else
        tryCandidates server_to_days engineer slot current_server current_days rest
          (setSlot a1 engineer slot current_server,
            (u1.set ss.2.toNat false).set current_server.toNat true)

/-- The loop over the slots of one engineer (lines 184-240) on the slots that
remain. -/
def trySlots (s : Solver) (engineer : Nat) :
    List Nat → List (List Int) × List Bool → List (List Int) × List Bool × Bool
  | [], st => (st.1, st.2, false)
  | slot :: rest, st =>
    if slotOf st.1 engineer slot = -1 then trySlots s engineer rest st
    else
      let r := tryCandidates s.server_to_days engineer slot (slotOf st.1 engineer slot)
        (rowDays s.server_to_days st.1 engineer) s.server_efficiency st
      if r.2.2 then r else trySlots s engineer rest (r.1, r.2.1)

/-- The loop over the engineers in one iteration of Phase 2 (lines 182-242)
on the engineers that remain. -/
def tryEngineers (s : Solver) :
    List Nat → List (List Int) × List Bool → List (List Int) × List Bool × Bool
  | [], st => (st.1, st.2, false)
  | engineer :: rest, st =>
    let r := trySlots s engineer (List.range MAX_SERVERS_PER_ENGINEER) st
    if r.2.2 then r else tryEngineers s rest (r.1, r.2.1)

/-- The loop `for (iteration = 0; iteration < 20; iteration++)` of Phase 2
(lines 179-248); `fuel` is the number of iterations left. -/
def phase2 (s : Solver) : Nat → List (List Int) × List Bool → List (List Int) × List Bool
  | 0, st => st
  | fuel + 1, st =>
    let r := tryEngineers s (List.range NUM_ENGINEERS) st
    if r.2.2 then phase2 s fuel (r.1, r.2.1) else (r.1, r.2.1)

/-- The allocation and the vector `server_used` at the end of Phase 2
(line 248 of `solve`). -/
def solveAlloc (s : Solver) : List (List Int) × List Bool :=
  phase2 s 20 (phase1 s)

/-- The row `daily_work[engineer]` as `calculateFinalResults` fills it
(lines 320-331): all false, then true on the days below `num_days` of the
servers held. -/
def markRow (server_to_days : List (Int × List Nat)) (allocation : List (List Int))
    (num_days : Nat) (engineer : Nat) (row : List Bool) : List Bool :=
  (List.range MAX_SERVERS_PER_ENGINEER).foldl
    (fun r i =>
      if slotOf allocation engineer i = -1 then r
      else
        (mapGet server_to_days (slotOf allocation engineer i)).foldl
          (fun r day => if day < num_days then r.set day true else r) r)
    (row.map (fun _ => false))

/-- The number of days below `num_days` that are marked in `row`. -/
def countWork (num_days : Nat) (row : List Bool) : Nat :=
  ((List.range num_days).filter (fun day => row.getD day false)).length

/-- The flag `has_first_14_work` of `calculateFinalResults` (lines 349-358). -/
def rowHasFirst14 (num_days : Nat) (row : List Bool) : Bool :=
  (List.range num_days).any (fun day => row.getD day false && decide (day < 14))

/-- Function `calculateFinalResults` (lines 316-400): validity is the
first-14-days constraint alone. -/
def calculateFinalResults (s : Solver) (solution : Solution) : Solution :=
  let dw := (solution.daily_work.enum).map
    (fun er => if er.1 < NUM_ENGINEERS then
      markRow s.server_to_days solution.allocation solution.num_days er.1 er.2 else er.2)
  { solution with
    daily_work := dw
    total_rest_days := ((List.range NUM_ENGINEERS).map
      (fun e => solution.num_days - countWork solution.num_days (dw.getD e []))).sum
    valid := decide (((List.range NUM_ENGINEERS).filter
      (fun e => rowHasFirst14 solution.num_days (dw.getD e []))).length = NUM_ENGINEERS) }

/-- Function `solve` (lines 122-254). -/
def solve (s : Solver) : Solution :=
  calculateFinalResults s { Solution.new s.num_days with allocation := (solveAlloc s).1 }

end RealisticSolver

/-! ## ultimate_solver.cpp: `UltimateConstraintSolver` -/

namespace UltimateConstraintSolver

def NUM_ENGINEERS : Nat := 336
def NUM_SERVERS : Nat := 1620
def MAX_SERVERS_PER_ENGINEER : Nat := 5
def MAX_REST_DAYS : Nat := 410

/-- The struct `Solution` of ultimate_solver.cpp. -/
structure Solution where
  allocation : List (List Int)
  daily_work : List (List Bool)
  total_rest_days : Nat
  num_days : Nat
  valid : Bool
deriving DecidableEq, Repr

/-- The constructor `Solution(days)`. -/
def Solution.new (days : Nat) : Solution :=
  { allocation := List.replicate NUM_ENGINEERS (List.replicate MAX_SERVERS_PER_ENGINEER (-1))
    daily_work := List.replicate NUM_ENGINEERS (List.replicate days false)
    total_rest_days := 0
    num_days := days
    valid := false }

/-- The members of the solver once `loadAlarmData` has run. -/
structure Solver where
  daily_alarms : List (List Int)
  server_to_days : List (Int × List Nat)
  server_efficiency : List (Int × Int)
  num_days : Nat
deriving DecidableEq, Repr

/-- The score of a server with day set `days` (lines 68-99). -/
def score (days : List Nat) : Int :=
  let first_14_count := (days.filter (fun day => day < 14)).length
  (days.length : Int) * 2 + (first_14_count : Int) * 10
    + (if first_14_count ≥ 14 then 100 else 0) + (consecutiveCount days : Int)

/-- Function `loadAlarmData` (lines 41-114) on the day lines of the file. -/
def loadAlarmData (lines : List (List Int)) : Solver :=
  let server_to_days := buildServerToDays lines
  { daily_alarms := lines
    server_to_days := server_to_days
    server_efficiency := sortDesc (server_to_days.map (fun kv => (score kv.2, kv.1)))
    num_days := lines.length }

/-- The row `daily_work[engineer]` as `calculateFinalResults` fills it
(lines 281-292). -/
def markRow (server_to_days : List (Int × List Nat)) (allocation : List (List Int))
    (num_days : Nat) (engineer : Nat) (row : List Bool) : List Bool :=
  (List.range MAX_SERVERS_PER_ENGINEER).foldl
    (fun r i =>
      if slotOf allocation engineer i = -1 then r
      else
        (mapGet server_to_days (slotOf allocation engineer i)).foldl
          (fun r day => if day < num_days then r.set day true else r) r)
    (row.map (fun _ => false))

/-- The counter `work_days` (lines 294-299). -/
def countWork (num_days : Nat) (row : List Bool) : Nat :=
  ((List.range num_days).filter (fun day => row.getD day false)).length

/-- The flag `has_first_14_work` (lines 310-319). -/
def rowHasFirst14 (num_days : Nat) (row : List Bool) : Bool :=
  (List.range num_days).any (fun day => row.getD day false && decide (day < 14))

/-- Function `calculateFinalResults` (lines 277-371). -/
def calculateFinalResults (s : Solver) (solution : Solution) : Solution :=
  let dw := (solution.daily_work.enum).map
    (fun er => if er.1 < NUM_ENGINEERS then
      markRow s.server_to_days solution.allocation solution.num_days er.1 er.2 else er.2)
  let total_rest_days := ((List.range NUM_ENGINEERS).map
      (fun e => solution.num_days - countWork solution.num_days (dw.getD e []))).sum
  let engineers_with_first_14_work := ((List.range NUM_ENGINEERS).filter
      (fun e => rowHasFirst14 solution.num_days (dw.getD e []))).length
  { solution with
    daily_work := dw
    total_rest_days := total_rest_days
    valid := decide (total_rest_days ≤ MAX_REST_DAYS)
      && decide (engineers_with_first_14_work = NUM_ENGINEERS) }

end UltimateConstraintSolver

/-! ## precise_solver.cpp: `PreciseILPSolver` -/

namespace PreciseILPSolver

def NUM_ENGINEERS : Nat := 336
def NUM_SERVERS : Nat := 1620
def MAX_SERVERS_PER_ENGINEER : Nat := 5
def NUM_DAYS : Nat := 22
def MAX_REST_DAYS : Nat := 410

/-- The struct `Solution` of precise_solver.cpp. -/
structure Solution where
  allocation : List (List Int)
  daily_work : List (List Bool)
  total_rest_days : Int
  valid : Bool
deriving DecidableEq, Repr

/-- The constructor `Solution()`. -/
def Solution.init : Solution :=
  { allocation := List.replicate NUM_ENGINEERS (List.replicate MAX_SERVERS_PER_ENGINEER (-1))
    daily_work := List.replicate NUM_ENGINEERS (List.replicate NUM_DAYS false)
    total_rest_days := 0
    valid := false }

/-- The members of the solver once `loadAlarmData` has run. -/
structure Solver where
  daily_alarms : List (List Int)
  server_to_days : List (Int × List Nat)
  server_efficiency : List (Int × Int)
deriving DecidableEq, Repr

/-- Twice the score of a server with day set `days` (lines 64-89): the
source adds 1.0 a day, 5.0 a day below 14 and 0.5 a consecutive pair. -/
def score2 (days : List Nat) : Int :=
  (days.length : Int) * 2 + ((days.filter (fun day => day < 14)).length : Int) * 10
    + (consecutiveCount days : Int)

/-- Function `loadAlarmData` (lines 38-103) on the day lines of the file: at
most `NUM_DAYS` of them are read, and `daily_alarms` has `NUM_DAYS` entries. -/
def loadAlarmData (lines : List (List Int)) : Solver :=
  let read := lines.take NUM_DAYS
  let server_to_days := buildServerToDays read
  { daily_alarms := read ++ List.replicate (NUM_DAYS - read.length) []
    server_to_days := server_to_days
    server_efficiency := sortDesc (server_to_days.map (fun kv => (score2 kv.2, kv.1))) }

/-- The variables that `solve` maintains: the allocation, `server_used`, and
the incremental bookkeeping `engineer_rest_days` and `total_rest_days`. -/
structure Books where
  allocation : List (List Int)
  server_used : List Bool
  engineer_rest_days : List Int
  total_rest_days : Int
deriving DecidableEq, Repr

/-- The target `target_rest_days` of an engineer (lines 114-136). -/
def targetRestDays (engineer : Nat) : Int :=
  if (engineer : Int) < (NUM_ENGINEERS : Int) - ((MAX_REST_DAYS : Int) - (NUM_ENGINEERS : Int))
  then 1 else 2

/-- The loop over `server_efficiency` in Phase 1 for one engineer
(lines 144-188), with `current_work_days` and `servers_assigned`. -/
def assignLoop (server_to_days : List (Int × List Nat)) (engineer : Nat) :
    List (Int × Int) → Books × List Nat × Nat → Books × List Nat × Nat
  | [], st => st
  | ss :: rest, st =>
    if st.1.server_used.getD ss.2.toNat false || decide (st.2.2 ≥ MAX_SERVERS_PER_ENGINEER) then
      assignLoop server_to_days engineer rest st
    else
      let new_work_days := setInsertAll (mapGet server_to_days ss.2) st.2.1
      let new_work_count : Int := (new_work_days.length : Int)
      let new_rest_count : Int := (NUM_DAYS : Int) - new_work_count
      let target_rest_days := targetRestDays engineer
      let target_work_days : Int := (NUM_DAYS : Int) - target_rest_days
      let should_assign :=
        decide (new_work_count ≤ target_work_days) &&
          (decide (new_rest_count < st.1.engineer_rest_days.getD engineer 0)
            || decide (new_rest_count = target_rest_days))
      if should_assign then
        let rest_reduction := st.1.engineer_rest_days.getD engineer 0 - new_rest_count
        let b : Books :=
          { allocation := setSlot st.1.allocation engineer st.2.2 ss.2
            server_used := st.1.server_used.set ss.2.toNat true
            engineer_rest_days := st.1.engineer_rest_days.set engineer new_rest_count
            total_rest_days := st.1.total_rest_days - rest_reduction }
        if new_rest_count = target_rest_days then (b, new_work_days, st.2.2 + 1)
        else assignLoop server_to_days engineer rest (b, new_work_days, st.2.2 + 1)
      else assignLoop server_to_days engineer rest st

/-- Phase 1 of `solve` (lines 122-195). -/
def phase1 (s : Solver) : Books :=
  (List.range NUM_ENGINEERS).foldl
    (fun b engineer => (assignLoop s.server_to_days engineer s.server_efficiency (b, [], 0)).1)
    { allocation := Solution.init.allocation
      server_used := List.replicate NUM_SERVERS false
      engineer_rest_days := List.replicate NUM_ENGINEERS (NUM_DAYS : Int)
      total_rest_days := (NUM_ENGINEERS : Int) * (NUM_DAYS : Int) }

/-- The first empty slot of row `engineer` (lines 220-226). -/
def emptySlot (allocation : List (List Int)) (engineer : Nat) : Option Nat :=
  (List.range MAX_SERVERS_PER_ENGINEER).find? (fun i => slotOf allocation engineer i == -1)

/-- The loop over `server_efficiency` that tops up one engineer
(lines 216-255); the results are the books, `excess` and whether a server was
assigned. -/
def topUpLoop (server_to_days : List (Int × List Nat)) (engineer : Nat) :
    List (Int × Int) → Books × Int → Books × Int × Bool
  | [], st => (st.1, st.2, false)
  | ss :: rest, st =>
    if st.1.server_used.getD ss.2.toNat false then
      topUpLoop server_to_days engineer rest st
    else
      match emptySlot st.1.allocation engineer with
      | none => topUpLoop server_to_days engineer rest st
      | some empty_slot =>
        let current_work_days := rowDays server_to_days st.1.allocation engineer
        let new_work_days := setInsertAll (mapGet server_to_days ss.2) current_work_days
        let work_increase : Int :=
          (new_work_days.length : Int) - (current_work_days.length : Int)
        if work_increase > 0 ∧ work_increase ≤ st.2 then
          ({ allocation := setSlot st.1.allocation engineer empty_slot ss.2
             server_used := st.1.server_used.set ss.2.toNat true
             engineer_rest_days := st.1.engineer_rest_days.set engineer
               (st.1.engineer_rest_days.getD engineer 0 - work_increase)
             total_rest_days := st.1.total_rest_days - work_increase },
            st.2 - work_increase, true)
        else topUpLoop server_to_days engineer rest st

/-- The loop over the engineers of the branch `total_rest_days > MAX_REST_DAYS`
(lines 213-257) on the engineers that remain; the flag is `improved`. -/
def topUpEngineers (s : Solver) : List Nat → Books × Int × Bool → Books × Int × Bool
  | [], st => st
  | engineer :: rest, st =>
    if st.2.1 > 0 then
      if st.1.engineer_rest_days.getD engineer 0 > 1 then
        let r := topUpLoop s.server_to_days engineer s.server_efficiency (st.1, st.2.1)
        topUpEngineers s rest (r.1, r.2.1, st.2.2 || r.2.2)
      else topUpEngineers s rest st
    else st

/-- The union of the day sets of the servers of row `engineer` other than the
one in slot `i` (lines 271-278). -/
def rowDaysWithout (server_to_days : List (Int × List Nat)) (allocation : List (List Int))
    (engineer i : Nat) : List Nat :=
  (List.range MAX_SERVERS_PER_ENGINEER).foldl
    (fun acc j =>
      if j ≠ i ∧ slotOf allocation engineer j ≠ -1 then
        setInsertAll (mapGet server_to_days (slotOf allocation engineer j)) acc
      else acc) []

/-- The loop over the slots, last first, that removes a server of one
engineer (lines 266-305). -/
def removeLoop (server_to_days : List (Int × List Nat)) (engineer : Nat) :
    List Nat → Books × Int → Books × Int × Bool
  | [], st => (st.1, st.2, false)
  | i :: rest, st =>
    if slotOf st.1.allocation engineer i ≠ -1 then
      let server := slotOf st.1.allocation engineer i
      let new_work_days := rowDaysWithout server_to_days st.1.allocation engineer i
      if new_work_days.any (fun day => decide (day < 14)) then
        let current_work : Int := (NUM_DAYS : Int) - st.1.engineer_rest_days.getD engineer 0
        let rest_increase : Int := current_work - (new_work_days.length : Int)
        if rest_increase > 0 ∧ rest_increase ≤ st.2 then
          ({ allocation := setSlot st.1.allocation engineer i (-1)
             server_used := st.1.server_used.set server.toNat false
             engineer_rest_days := st.1.engineer_rest_days.set engineer
               (st.1.engineer_rest_days.getD engineer 0 + rest_increase)
             total_rest_days := st.1.total_rest_days + rest_increase },
            st.2 - rest_increase, true)
        else removeLoop server_to_days engineer rest st
      else removeLoop server_to_days engineer rest st
    else removeLoop server_to_days engineer rest st

/-- The loop over the engineers of the branch `total_rest_days < MAX_REST_DAYS`
(lines 263-307) on the engineers that remain; the flag is `improved`. -/
def removeEngineers (s : Solver) : List Nat → Books × Int × Bool → Books × Int × Bool
  | [], st => st
  | engineer :: rest, st =>
    if st.2.1 > 0 then
      if st.1.engineer_rest_days.getD engineer 0 < 3 then
        let r := removeLoop s.server_to_days engineer
          ((List.range MAX_SERVERS_PER_ENGINEER).reverse) (st.1, st.2.1)
        removeEngineers s rest (r.1, r.2.1, st.2.2 || r.2.2)
      else removeEngineers s rest st
    else st

/-- The loop `for (iteration = 0; iteration < 100; iteration++)` of Phase 2
(lines 200-314); `fuel` is the number of iterations left. -/
def phase2 (s : Solver) : Nat → Books → Books
  | 0, b => b
  | fuel + 1, b =>
    if b.total_rest_days = (MAX_REST_DAYS : Int) then b
    else if b.total_rest_days > (MAX_REST_DAYS : Int) then
      let r := topUpEngineers s (List.range NUM_ENGINEERS)
        (b, b.total_rest_days - (MAX_REST_DAYS : Int), false)
      if r.2.2 then phase2 s fuel r.1 else r.1
    else
      let r := removeEngineers s (List.range NUM_ENGINEERS)
        (b, (MAX_REST_DAYS : Int) - b.total_rest_days, false)
      if r.2.2 then phase2 s fuel r.1 else r.1

/-- The books of `solve` when Phase 2 ends (line 314). -/
def solveBooks (s : Solver) : Books :=
  phase2 s 100 (phase1 s)

/-- The row `daily_work[engineer]` as `calculateFinalResults` fills it
(lines 327-336). -/
def markRow (server_to_days : List (Int × List Nat)) (allocation : List (List Int))
    (engineer : Nat) (row : List Bool) : List Bool :=
  (List.range MAX_SERVERS_PER_ENGINEER).foldl
    (fun r i =>
      if slotOf allocation engineer i = -1 then r
      else (mapGet server_to_days (slotOf allocation engineer i)).foldl
        (fun r day => r.set day true) r)
    (row.map (fun _ => false))

/-- The counter `work_days` (lines 338-343). -/
def countWork (row : List Bool) : Nat :=
  ((List.range NUM_DAYS).filter (fun day => row.getD day false)).length

/-- The flag `has_first_14_work` (lines 354-363). -/
def rowHasFirst14 (row : List Bool) : Bool :=
  (List.range NUM_DAYS).any (fun day => row.getD day false && decide (day < 14))

/-- Function `calculateFinalResults` (lines 323-411). -/
def calculateFinalResults (s : Solver) (solution : Solution) : Solution :=
  let dw := (solution.daily_work.enum).map
    (fun er => if er.1 < NUM_ENGINEERS then
      markRow s.server_to_days solution.allocation er.1 er.2 else er.2)
  let total_rest_days : Int := ((List.range NUM_ENGINEERS).map
      (fun e => (NUM_DAYS : Int) - (countWork (dw.getD e []) : Int))).sum
  let engineers_with_first_14_work := ((List.range NUM_ENGINEERS).filter
      (fun e => rowHasFirst14 (dw.getD e []))).length
  { allocation := solution.allocation
    daily_work := dw
    total_rest_days := total_rest_days
    valid := decide (total_rest_days ≤ (MAX_REST_DAYS : Int))
      && decide (engineers_with_first_14_work = NUM_ENGINEERS) }

/-- Function `solve` (lines 105-320). -/
def solve (s : Solver) : Solution :=
  calculateFinalResults s { Solution.init with allocation := (solveBooks s).allocation }

end PreciseILPSolver

/-! ## Evaluation by scanning the alarm lists

`mathematical_solver.cpp` and `optimal_allocation.cpp` evaluate an allocation
with the same loops: a server works on a day when it occurs in that day's
alarm list. -/

/-- The row `daily_work[engineer]` after the loops over the servers of the
row and over the days `0 .. num_days-1` (mathematical_solver.cpp 244-257,
optimal_allocation.cpp 166-179). -/
def scanRow (daily_alarms : List (List Int)) (num_days : Nat) (servers : List Int)
    (row : List Bool) : List Bool :=
  servers.foldl
    (fun r server =>
      if server = -1 then r
      else (List.range num_days).foldl
        (fun r day => if (daily_alarms.getD day []).contains server then r.set day true else r) r)
    (row.map (fun _ => false))

/-- The `operator<` of `tuple<double, int, int>` on integer-valued scores. -/
def tripleLt (a b : Int × Int × Int) : Bool :=
  decide (a.1 < b.1) ||
    (!decide (b.1 < a.1) &&
      (decide (a.2.1 < b.2.1) || (!decide (b.2.1 < a.2.1) && decide (a.2.2 < b.2.2))))

/-! ## mathematical_solver.cpp: `MathematicalServerAllocationSolver` -/

namespace MathematicalServerAllocationSolver

def NUM_ENGINEERS : Nat := 336
def NUM_SERVERS : Nat := 1620
def MAX_SERVERS_PER_ENGINEER : Nat := 5
def NUM_DAYS : Nat := 22
def MAX_REST_DAYS : Nat := 410
def TARGET_WORK_DAYS_74 : Nat := 20
def TARGET_WORK_DAYS_262 : Nat := 21

/-- The struct `Solution` of mathematical_solver.cpp. -/
structure Solution where
  allocation : List (List Int)
  daily_work : List (List Bool)
  total_rest_days : Nat
  valid : Bool
deriving DecidableEq, Repr

/-- The constructor `Solution()`. -/
def Solution.init : Solution :=
  { allocation := List.replicate NUM_ENGINEERS []
    daily_work := List.replicate NUM_ENGINEERS (List.replicate NUM_DAYS false)
    total_rest_days := 0
    valid := false }

/-- Function `loadAlarmData` (lines 36-66) on the day lines of the file: the
member `daily_alarms`, of `NUM_DAYS` entries. -/
def loadAlarmData (lines : List (List Int)) : List (List Int) :=
  lines.take NUM_DAYS ++ List.replicate (NUM_DAYS - (lines.take NUM_DAYS).length) []

/-- The map `server_to_days` of `solve` (lines 79-84). -/
def serverToDays (daily_alarms : List (List Int)) : List (Int × List Nat) :=
  (List.range NUM_DAYS).foldl
    (fun m day => (daily_alarms.getD day []).foldl (fun m server => mapInsert server day m) m) []

/-- The vector `server_scores`, sorted (lines 87-107). -/
def serverScores (server_to_days : List (Int × List Nat)) : List (Int × Int × Int) :=
  sortBy (fun a b => tripleLt b a)
    (server_to_days.map
      (fun kv =>
        ((kv.2.length : Int) + (if kv.2.any (fun day => decide (day < 14)) then 10 else 0),
          (kv.2.length : Int), kv.1)))

/-- The target `target_days` of an engineer. -/
def targetDays (engineer : Nat) : Nat :=
  if engineer < 74 then TARGET_WORK_DAYS_74 else TARGET_WORK_DAYS_262

/-- The variables that `solve` updates. -/
structure Assign where
  allocation : List (List Int)
  server_assigned : List Bool
  engineer_work_days : List (List Nat)
deriving DecidableEq, Repr

/-- The loop over `server_scores` in Phase 1 for one engineer (lines 120-146),
with the counter `servers_assigned`. -/
def assignLoop (server_to_days : List (Int × List Nat)) (engineer : Nat) :
    List (Int × Int × Int) → Assign × Nat → Assign × Nat
  | [], st => st
  | sc :: rest, st =>
    let server := sc.2.2
    if st.1.server_assigned.getD server.toNat false
        || decide (st.2 ≥ MAX_SERVERS_PER_ENGINEER) then
      assignLoop server_to_days engineer rest st
    else
      let current := st.1.engineer_work_days.getD engineer []
      let new_work_days := setInsertAll (mapGet server_to_days server) current
      if new_work_days.length ≤ targetDays engineer ∧ new_work_days.length > current.length then
        let a : Assign :=
          { allocation := pushSlot st.1.allocation engineer server
            server_assigned := st.1.server_assigned.set server.toNat true
            engineer_work_days := st.1.engineer_work_days.set engineer new_work_days }
        if new_work_days.length = targetDays engineer then (a, st.2 + 1)
        else assignLoop server_to_days engineer rest (a, st.2 + 1)
      else assignLoop server_to_days engineer rest st

/-- The padding loop (lines 149-151). -/
def padRow (row : List Int) : List Int :=
  row ++ List.replicate (MAX_SERVERS_PER_ENGINEER - row.length) (-1)

/-- Phase 1 of `solve` (lines 109-158). -/
def phase1 (server_to_days : List (Int × List Nat)) (server_scores : List (Int × Int × Int)) :
    Assign :=
  (List.range NUM_ENGINEERS).foldl
    (fun a engineer =>
      let r := (assignLoop server_to_days engineer server_scores (a, 0)).1
      { r with allocation := r.allocation.set engineer (padRow (rowOf r.allocation engineer)) })
    { allocation := List.replicate NUM_ENGINEERS []
      server_assigned := List.replicate NUM_SERVERS false
      engineer_work_days := List.replicate NUM_ENGINEERS [] }

/-- The top-up loop of Phase 2 for one engineer (lines 174-201); the flag
tells whether a server was assigned. -/
def topUpLoop (server_to_days : List (Int × List Nat)) (engineer : Nat) :
    List (Int × Int × Int) → Assign → Assign × Bool
  | [], a => (a, false)
  | sc :: rest, a =>
    let server := sc.2.2
    if !a.server_assigned.getD server.toNat false then
      match (List.range MAX_SERVERS_PER_ENGINEER).find?
          (fun i => slotOf a.allocation engineer i == -1) with
      | none => topUpLoop server_to_days engineer rest a
      | some empty_slot =>
        let new_work_days :=
          setInsertAll (mapGet server_to_days server) (a.engineer_work_days.getD engineer [])
        if new_work_days.length ≤ targetDays engineer then
          ({ allocation := setSlot a.allocation engineer empty_slot server
             server_assigned := a.server_assigned.set server.toNat true
             engineer_work_days := a.engineer_work_days.set engineer new_work_days }, true)
        else topUpLoop server_to_days engineer rest a
    else topUpLoop server_to_days engineer rest a

/-- The union of the day sets of the servers of row `engineer` other than the
one in slot `i` (lines 208-215). -/
def rowDaysWithout (server_to_days : List (Int × List Nat)) (allocation : List (List Int))
    (engineer i : Nat) : List Nat :=
  (List.range MAX_SERVERS_PER_ENGINEER).foldl
    (fun acc j =>
      if j ≠ i ∧ slotOf allocation engineer j ≠ -1 then
        setInsertAll (mapGet server_to_days (slotOf allocation engineer j)) acc
      else acc) []

/-- The removal loop of Phase 2 for one engineer (lines 204-225). -/
def removeLoop (server_to_days : List (Int × List Nat)) (engineer : Nat) :
    List Nat → Assign → Assign × Bool
  | [], a => (a, false)
  | i :: rest, a =>
    let server := slotOf a.allocation engineer i
    if server ≠ -1 then
      let new_work_days := rowDaysWithout server_to_days a.allocation engineer i
      if new_work_days.length ≥ targetDays engineer then
        ({ allocation := setSlot a.allocation engineer i (-1)
           server_assigned := a.server_assigned.set server.toNat false
           engineer_work_days := a.engineer_work_days.set engineer new_work_days }, true)
      else removeLoop server_to_days engineer rest a
    else removeLoop server_to_days engineer rest a

/-- The body of the loop over the engineers in one iteration of Phase 2
(lines 166-228); the flag is `improved`. -/
def adjustEngineer (server_to_days : List (Int × List Nat))
    (server_scores : List (Int × Int × Int)) (acc : Assign × Bool) (engineer : Nat) :
    Assign × Bool :=
  let current_days := (acc.1.engineer_work_days.getD engineer []).length
  if current_days < targetDays engineer then
    let r := topUpLoop server_to_days engineer server_scores acc.1
    (r.1, acc.2 || r.2)
  else if current_days > targetDays engineer then
    let r := removeLoop server_to_days engineer (List.range MAX_SERVERS_PER_ENGINEER) acc.1
    (r.1, acc.2 || r.2)
  else acc

/-- The loop `for (iteration = 0; iteration < 100; iteration++)` of Phase 2
(lines 163-231); `fuel` is the number of iterations left. -/
def phase2 (server_to_days : List (Int × List Nat)) (server_scores : List (Int × Int × Int)) :
    Nat → Assign → Assign
  | 0, a => a
  | fuel + 1, a =>
    let r := (List.range NUM_ENGINEERS).foldl
      (adjustEngineer server_to_days server_scores) (a, false)
    if r.2 then phase2 server_to_days server_scores fuel r.1 else r.1

/-- Function `calculateDailyWork` (lines 240-314): it sets `daily_work` and
`total_rest_days` and reports the constraint check on the console only. -/
def calculateDailyWork (daily_alarms : List (List Int)) (solution : Solution) : Solution :=
  let dw := (solution.daily_work.enum).map
    (fun er => if er.1 < NUM_ENGINEERS then
      scanRow daily_alarms NUM_DAYS (rowOf solution.allocation er.1) er.2 else er.2)
  { solution with
    daily_work := dw
    total_rest_days := ((List.range NUM_ENGINEERS).map
      (fun e => NUM_DAYS
        - ((List.range NUM_DAYS).filter (fun day => worksOn dw e day)).length)).sum }

/-- Function `solve` (lines 68-237). -/
def solve (daily_alarms : List (List Int)) : Solution :=
  let server_to_days := serverToDays daily_alarms
  let server_scores := serverScores server_to_days
  let a := phase2 server_to_days server_scores 100 (phase1 server_to_days server_scores)
  calculateDailyWork daily_alarms { Solution.init with allocation := a.allocation, valid := true }

end MathematicalServerAllocationSolver

/-! ## optimal_allocation.cpp: `OptimalServerAllocationSolver` -/

namespace OptimalServerAllocationSolver

def NUM_ENGINEERS : Nat := 336
def NUM_SERVERS : Nat := 1620
def MAX_SERVERS_PER_ENGINEER : Nat := 5
def NUM_DAYS : Nat := 22
def MAX_REST_DAYS : Nat := 410

/-- The struct `Solution` of optimal_allocation.cpp. -/
structure Solution where
  allocation : List (List Int)
  daily_work : List (List Bool)
  total_rest_days : Nat
  valid : Bool
deriving DecidableEq, Repr

/-- The constructor `Solution()`. -/
def Solution.init : Solution :=
  { allocation := List.replicate NUM_ENGINEERS []
    daily_work := List.replicate NUM_ENGINEERS (List.replicate NUM_DAYS false)
    total_rest_days := 0
    valid := false }

/-- Function `loadAlarmData` (lines 33-63) on the day lines of the file. -/
def loadAlarmData (lines : List (List Int)) : List (List Int) :=
  lines.take NUM_DAYS ++ List.replicate (NUM_DAYS - (lines.take NUM_DAYS).length) []

/-- The map `server_days` of `solve` (lines 75-80). -/
def serverDays (daily_alarms : List (List Int)) : List (Int × List Nat) :=
  (List.range NUM_DAYS).foldl
    (fun m day => (daily_alarms.getD day []).foldl (fun m server => mapPush server day m) m) []

/-- The variables of the allocation loop for one engineer. -/
structure Direct where
  allocation : List (List Int)
  server_assigned : List Bool
  assigned_days : List Nat
  servers_assigned : Nat
deriving DecidableEq, Repr

/-- The assignment of `server` in either loop (lines 113-119 and 132-138). -/
def take (server_days : List (Int × List Nat)) (engineer : Nat) (server : Int) (st : Direct) :
    Direct :=
  { allocation := pushSlot st.allocation engineer server
    server_assigned := st.server_assigned.set server.toNat true
    assigned_days := setInsertAll (mapGet server_days server) st.assigned_days
    servers_assigned := st.servers_assigned + 1 }

/-- The two loops over `servers_by_coverage` (lines 98-123 with
`first_14_only`, lines 126-142 without). -/
def directLoop (server_days : List (Int × List Nat)) (engineer target_work_days : Nat)
    (first_14_only : Bool) : List (Int × Int) → Direct → Direct
  | [], st => st
  | cs :: rest, st =>
    if st.server_assigned.getD cs.2.toNat false
        || decide (st.servers_assigned ≥ MAX_SERVERS_PER_ENGINEER) then
      directLoop server_days engineer target_work_days first_14_only rest st
    else if (!first_14_only || (mapGet server_days cs.2).any (fun day => decide (day < 14)))
        && decide (st.assigned_days.length < target_work_days) then
      let st1 := take server_days engineer cs.2 st
      if st1.assigned_days.length ≥ target_work_days then st1
      else directLoop server_days engineer target_work_days first_14_only rest st1
    else directLoop server_days engineer target_work_days first_14_only rest st

/-- The padding loop (lines 145-147). -/
def padRow (row : List Int) : List Int :=
  row ++ List.replicate (MAX_SERVERS_PER_ENGINEER - row.length) (-1)

/-- The allocation loop of `solve` (lines 83-153). -/
def allocate (daily_alarms : List (List Int)) : List (List Int) :=
  let server_days := serverDays daily_alarms
  let servers_by_coverage := sortDesc (server_days.map (fun kv => ((kv.2.length : Int), kv.1)))
  ((List.range NUM_ENGINEERS).foldl
    (fun acc engineer =>
      let target_work_days := if engineer < 74 then 20 else 21
      let st1 := directLoop server_days engineer target_work_days true servers_by_coverage
        { allocation := acc.1, server_assigned := acc.2, assigned_days := [],
          servers_assigned := 0 }
      let st2 := directLoop server_days engineer target_work_days false servers_by_coverage st1
      (st2.allocation.set engineer (padRow (rowOf st2.allocation engineer)), st2.server_assigned))
    (List.replicate NUM_ENGINEERS [], List.replicate NUM_SERVERS false)).1

/-- Function `calculateDailyWork` (lines 162-235): it sets `daily_work` and
`total_rest_days` and reports the constraint check on the console only. -/
def calculateDailyWork (daily_alarms : List (List Int)) (solution : Solution) : Solution :=
  let dw := (solution.daily_work.enum).map
    (fun er => if er.1 < NUM_ENGINEERS then
      scanRow daily_alarms NUM_DAYS (rowOf solution.allocation er.1) er.2 else er.2)
  { solution with
    daily_work := dw
    total_rest_days := ((List.range NUM_ENGINEERS).map
      (fun e => NUM_DAYS
        - ((List.range NUM_DAYS).filter (fun day => worksOn dw e day)).length)).sum }

/-- Function `solve` (lines 65-159). -/
def solve (daily_alarms : List (List Int)) : Solution :=
  calculateDailyWork daily_alarms
    { Solution.init with allocation := allocate daily_alarms, valid := true }

end OptimalServerAllocationSolver

/-! ## ultimate_solver.cpp: the distribution search of `solve`

The search works on `int` values. They are `Int` here: signed overflow is
undefined in C++, and no intermediate value leaves the `int` range as long as
`NUM_ENGINEERS * num_days` fits in it. The division `/` and the remainder `%`
of C++ truncate towards zero: `Int.tdiv` and `Int.tmod`. The constants
`NUM_ENGINEERS` and `MAX_REST_DAYS` are parameters of the loops (`engineers`,
`budget`); `distribution` instantiates them with the constants of the file. -/

namespace UltimateConstraintSolver

/-- The variables `found_distribution`, `min_work_days`, `max_work_days`,
`engineers_with_min_work` and `engineers_with_max_work` of `solve`
(lines 132-138). -/
structure Distribution where
  found_distribution : Bool
  min_work_days : Int
  max_work_days : Int
  engineers_with_min_work : Int
  engineers_with_max_work : Int
deriving DecidableEq, Repr

/-- The body of the inner loop for one pair `min_work`, `max_work`
(lines 145-171): the values it stores when it sets `found_distribution`. -/
def tryPair (engineers total_work_days_needed : Int) (min_work max_work : Nat) :
    Option Distribution :=
  if max_work = min_work then
    if (min_work : Int) * engineers = total_work_days_needed then
      some { found_distribution := true
             min_work_days := min_work
             max_work_days := min_work
             engineers_with_min_work := engineers
             engineers_with_max_work := 0 }
    else none
  else
    let y : Int := (total_work_days_needed - (min_work : Int) * engineers).tdiv
      ((max_work : Int) - (min_work : Int))
    let x : Int := engineers - y
    if x ≥ 0 ∧ y ≥ 0 ∧ (min_work : Int) * x + (max_work : Int) * y = total_work_days_needed then
      some { found_distribution := true
             min_work_days := min_work
             max_work_days := max_work
             engineers_with_min_work := x
             engineers_with_max_work := y }
    else none

/-- The inner loop `for (max_work = ...; max_work <= num_days; max_work++)`
(line 140) from `max_work` on; `fuel` is the number of values left. -/
def maxLoop (engineers total_work_days_needed : Int) (min_work : Nat) :
    Nat → Nat → Option Distribution
  | 0, _ => none
  | fuel + 1, max_work =>
    match tryPair engineers total_work_days_needed min_work max_work with
    | some d => some d
    | none => maxLoop engineers total_work_days_needed min_work fuel (max_work + 1)

/-- The outer loop `for (min_work = ...; min_work <= num_days &&
!found_distribution; min_work++)` (line 139) from `min_work` on; `fuel` is the
number of values left. -/
def minLoop (engineers total_work_days_needed : Int) (num_days : Nat) :
    Nat → Nat → Option Distribution
  | 0, _ => none
  | fuel + 1, min_work =>
    match maxLoop engineers total_work_days_needed min_work (num_days + 1 - min_work) min_work with
    | some d => some d
    | none => minLoop engineers total_work_days_needed num_days fuel (min_work + 1)

/-- The distribution search and the approximation that replaces it when it
fails (lines 124-182), for `engineers` engineers and a budget of `budget`
rest days. -/
def distributionFor (engineers budget : Int) (num_days : Nat) : Distribution :=
  let total_engineer_days := engineers * (num_days : Int)
  let total_work_days_needed := total_engineer_days - budget
  match minLoop engineers total_work_days_needed num_days num_days 1 with
  | some d => d
  | none =>
    { found_distribution := false
      min_work_days := total_work_days_needed.tdiv engineers
      max_work_days := total_work_days_needed.tdiv engineers + 1
      engineers_with_max_work := total_work_days_needed.tmod engineers
      engineers_with_min_work := engineers - total_work_days_needed.tmod engineers }

/-- The distribution that `solve` computes for `num_days` loaded days. -/
def distribution (num_days : Nat) : Distribution :=
  distributionFor (NUM_ENGINEERS : Int) (MAX_REST_DAYS : Int) num_days

/-- The values of `target_work_days` in the loop over the engineers
(lines 193-200), for the engineers that remain: the lower target while the
counter `engineers_with_min_work` is positive, the upper afterwards. -/
def targetLoop (min_work_days max_work_days : Int) : Nat → Int → List Int
  | 0, _ => []
  | n + 1, engineers_with_min_work =>
    if engineers_with_min_work > 0 then
      min_work_days :: targetLoop min_work_days max_work_days n (engineers_with_min_work - 1)
    else max_work_days :: targetLoop min_work_days max_work_days n engineers_with_min_work

/-- The per-engineer targets that Phase 1 of `solve` works with. -/
def targets (num_days : Nat) : List Int :=
  targetLoop (distribution num_days).min_work_days (distribution num_days).max_work_days
    NUM_ENGINEERS (distribution num_days).engineers_with_min_work

end UltimateConstraintSolver

/-! ## final_solver.cpp: `FinalOptimalSolver`

The scores are `double` values built from integers by sums and products with
integer factors, so they are kept as `Int`. -/

namespace FinalOptimalSolver

def NUM_ENGINEERS : Nat := 336
def NUM_SERVERS : Nat := 1620
def MAX_SERVERS_PER_ENGINEER : Nat := 5
def MAX_REST_DAYS : Nat := 410

/-- The members of the solver once `loadAlarmData` has run. -/
structure Solver where
  daily_alarms : List (List Int)
  server_to_days : List (Int × List Nat)
  server_efficiency : List (Int × Int)
  num_days : Nat
deriving DecidableEq, Repr

/-- The score of a server with day set `days` (lines 68-110). -/
def score (days : List Nat) : Int :=
  let first_14_count := (days.filter (fun day => day < 14)).length
  if first_14_count = 0 then 0
  else
    (days.length : Int) + (first_14_count : Int) * 20 + (first_14_count : Int) * 10
      + (if days.length ≥ 24 ∧ days.length ≤ 26 then 50
         else if days.length ≥ 20 ∧ days.length ≤ 26 then 20 else 0)
      + ((1 + consecutiveCount days : Nat) : Int) * 2

/-- Function `loadAlarmData` (lines 40-130) on the day lines of the file
(the lines that start with a digit, each as the integers read from it). -/
def loadAlarmData (lines : List (List Int)) : Solver :=
  let server_to_days := buildServerToDays lines
  { daily_alarms := lines
    server_to_days := server_to_days
    server_efficiency := sortDesc (server_to_days.map (fun kv => (score kv.2, kv.1)))
    num_days := lines.length }

/-- The local constant `engineers_24_days` of `solve` (line 147). -/
def engineers_24_days : Nat := 74

/-- The target `target_work_days` of an engineer (lines 163-168, 231
and 249). -/
def targetWorkDays (engineer : Nat) : Int :=
  if engineer < engineers_24_days then 24 else 25

/-- The variables of the loop of Phase 1 for one engineer. -/
structure AssignState where
  allocation : List (List Int)
  server_used : List Bool
  current_work_days : List Nat
  servers_assigned : Nat
deriving DecidableEq, Repr

/-- The loop over `server_efficiency` in Phase 1 (lines 175-212) on the
entries that remain. -/
def assignLoop (server_to_days : List (Int × List Nat)) (engineer : Nat) (target_work_days : Int) :
    List (Int × Int) → AssignState → AssignState
  | [], st => st
  | ss :: rest, st =>
    if st.server_used.getD ss.2.toNat false
        || decide (st.servers_assigned ≥ MAX_SERVERS_PER_ENGINEER) || decide (ss.1 ≤ 0) then
      assignLoop server_to_days engineer target_work_days rest st
    else
      let new_work_days := setInsertAll (mapGet server_to_days ss.2) st.current_work_days
      let new_work_count : Int := (new_work_days.length : Int)
      if (st.current_work_days.length : Int) < target_work_days then
        if new_work_count ≤ target_work_days + 1 then
          let st1 : AssignState :=
            { allocation := setSlot st.allocation engineer st.servers_assigned ss.2
              server_used := st.server_used.set ss.2.toNat true
              current_work_days := new_work_days
              servers_assigned := st.servers_assigned + 1 }
          if new_work_count = target_work_days then st1
          else assignLoop server_to_days engineer target_work_days rest st1
        else assignLoop server_to_days engineer target_work_days rest st
      else if (st.current_work_days.length : Int) = target_work_days then st
      else assignLoop server_to_days engineer target_work_days rest st

/-- The body of the loop over the engineers in Phase 1 (lines 161-221). -/
def assignEngineer (s : Solver) (acc : List (List Int) × List Bool) (engineer : Nat) :
    List (List Int) × List Bool :=
  let r := assignLoop s.server_to_days engineer (targetWorkDays engineer) s.server_efficiency
    { allocation := acc.1, server_used := acc.2, current_work_days := [], servers_assigned := 0 }
  (r.allocation, r.server_used)

/-- Phase 1 of `solve` (lines 157-221): the allocation and `server_used`. -/
def phase1 (s : Solver) : List (List Int) × List Bool :=
  (List.range NUM_ENGINEERS).foldl (assignEngineer s)
    (List.replicate NUM_ENGINEERS (List.replicate MAX_SERVERS_PER_ENGINEER (-1)),
      List.replicate NUM_SERVERS false)

/-- The three statements that exchange `allocation[e1][i1]` and
`allocation[e2][i2]` through `temp` (lines 269-271 and 302-304). -/
def swapSlots (allocation : List (List Int)) (e1 i1 e2 i2 : Nat) : List (List Int) :=
  let temp := slotOf allocation e1 i1
  let a1 := setSlot allocation e1 i1 (slotOf allocation e2 i2)
  setSlot a1 e2 i2 temp

/-- The pairs `(i1, i2)` in the order of the nested loops (lines 265-266). -/
def slotPairs : List (Nat × Nat) :=
  (List.range MAX_SERVERS_PER_ENGINEER).flatMap
    (fun i1 => (List.range MAX_SERVERS_PER_ENGINEER).map (fun i2 => (i1, i2)))

/-- The error `abs(current1 - target1) + abs(current2 - target2)` (lines
292-293). -/
def errorOf (current1 target1 current2 target2 : Int) : Int :=
  ((current1 - target1).natAbs : Int) + ((current2 - target2).natAbs : Int)

/-- The loops over `i1` and `i2` (lines 265-309) on the pairs that remain:
a swap is kept when it lowers the error, undone otherwise. The flag is
`improved`. -/
def trySlotPairs (server_to_days : List (Int × List Nat)) (e1 e2 : Nat)
    (target1 target2 current1 current2 : Int) :
    List (Nat × Nat) → List (List Int) → List (List Int) × Bool
  | [], allocation => (allocation, false)
  | (i1, i2) :: rest, allocation =>
    if slotOf allocation e1 i1 ≠ -1 ∧ slotOf allocation e2 i2 ≠ -1 then
      let swapped := swapSlots allocation e1 i1 e2 i2
      let new_current1 : Int := ((rowDays server_to_days swapped e1).length : Int)
      let new_current2 : Int := ((rowDays server_to_days swapped e2).length : Int)
      let old_error := errorOf current1 target1 current2 target2
      let new_error := errorOf new_current1 target1 new_current2 target2
      if new_error < old_error then (swapped, true)
      else
        trySlotPairs server_to_days e1 e2 target1 target2 current1 current2 rest
          (swapSlots swapped e1 i1 e2 i2)
    else trySlotPairs server_to_days e1 e2 target1 target2 current1 current2 rest allocation

/-- The loop over `e2` (lines 248-311) on the engineers that remain. -/
def tryPartners (server_to_days : List (Int × List Nat)) (e1 : Nat) (target1 current1 : Int) :
    List Nat → List (List Int) → List (List Int) × Bool
  | [], allocation => (allocation, false)
  | e2 :: rest, allocation =>
    let target2 := targetWorkDays e2
    let current2 : Int := ((rowDays server_to_days allocation e2).length : Int)
    if current2 = target2 then tryPartners server_to_days e1 target1 current1 rest allocation
    else
      let r := trySlotPairs server_to_days e1 e2 target1 target2 current1 current2 slotPairs
        allocation
      if r.2 then r else tryPartners server_to_days e1 target1 current1 rest r.1

/-- The loop over `e1` in one iteration of Phase 2 (lines 230-313) on the
engineers that remain. -/
def tryEngineers (server_to_days : List (Int × List Nat)) :
    List Nat → List (List Int) → List (List Int) × Bool
  | [], allocation => (allocation, false)
  | e1 :: rest, allocation =>
    let target1 := targetWorkDays e1
    let current1 : Int := ((rowDays server_to_days allocation e1).length : Int)
    if current1 = target1 then tryEngineers server_to_days rest allocation
    else
      let r := tryPartners server_to_days e1 target1 current1
        (List.range' (e1 + 1) (NUM_ENGINEERS - (e1 + 1))) allocation
      if r.2 then r else tryEngineers server_to_days rest r.1

/-- One iteration of the loop of Phase 2 (lines 227-313): the allocation it
leaves and the flag `improved`. -/
def iteration (s : Solver) (allocation : List (List Int)) : List (List Int) × Bool :=
  tryEngineers s.server_to_days (List.range NUM_ENGINEERS) allocation

/-- The loop `for (iteration = 0; iteration < 50; iteration++)` of Phase 2
(lines 226-319); `fuel` is the number of iterations left. -/
def phase2 (s : Solver) : Nat → List (List Int) → List (List Int)
  | 0, allocation => allocation
  | fuel + 1, allocation =>
    if (iteration s allocation).2 then phase2 s fuel (iteration s allocation).1
    else (iteration s allocation).1

/-- The allocation of `solve` when Phase 2 ends (line 319), before `calculateFinalResults`. -/
def solveAlloc (s : Solver) : List (List Int) :=
  phase2 s 50 (phase1 s).1

end FinalOptimalSolver
/-! ## ultimate_solver.cpp: Phase 1 of `solve` and the whole of `solve`

The constants `NUM_ENGINEERS`, `MAX_SERVERS_PER_ENGINEER` and `MAX_REST_DAYS`
are parameters (`engineers`, `capacity`, `budget`) of the definitions whose
name ends in `For`; `phase1` and `solve` instantiate them with the constants
of the file. -/

namespace UltimateConstraintSolver

/-- The variables of the two loops over `server_efficiency` in the turn of
one engineer (lines 203-260). -/
structure TurnState where
  allocation : List (List Int)
  server_used : List Bool
  current_work_days : List Nat
  servers_assigned : Nat
deriving DecidableEq, Repr

/-- The first loop over `server_efficiency` (lines 207-233) on the entries
that remain: the first server that passes the test is assigned and the loop
ends. The flag `covers_first_14` is false at every test, as the loop ends
where the flag is set. -/
def prePass (server_to_days : List (Int × List Nat)) (capacity engineer : Nat) :
    List (Int × Int) → TurnState → TurnState
  | [], st => st
  | ss :: rest, st =>
    if st.server_used.getD ss.2.toNat false || decide (st.servers_assigned ≥ capacity) then
      prePass server_to_days capacity engineer rest st
    else if (mapGet server_to_days ss.2).any (fun day => decide (day < 14)) then
      { allocation := setSlot st.allocation engineer st.servers_assigned ss.2
        server_used := st.server_used.set ss.2.toNat true
        current_work_days := setInsertAll (mapGet server_to_days ss.2) st.current_work_days
        servers_assigned := st.servers_assigned + 1 }
    else prePass server_to_days capacity engineer rest st

/-- The second loop over `server_efficiency` (lines 236-260) on the entries
that remain. -/
def fillLoop (server_to_days : List (Int × List Nat)) (capacity engineer : Nat)
    (target_work_days : Int) : List (Int × Int) → TurnState → TurnState
  | [], st => st
  | ss :: rest, st =>
    if st.server_used.getD ss.2.toNat false || decide (st.servers_assigned ≥ capacity) then
      fillLoop server_to_days capacity engineer target_work_days rest st
    else
      let new_work_days := setInsertAll (mapGet server_to_days ss.2) st.current_work_days
      let new_work_count : Int := (new_work_days.length : Int)
      if new_work_count ≤ target_work_days then
        let st1 : TurnState :=
          { allocation := setSlot st.allocation engineer st.servers_assigned ss.2
            server_used := st.server_used.set ss.2.toNat true
            current_work_days := new_work_days
            servers_assigned := st.servers_assigned + 1 }
        if new_work_count = target_work_days then st1
        else fillLoop server_to_days capacity engineer target_work_days rest st1
      else fillLoop server_to_days capacity engineer target_work_days rest st

/-- The body of the loop over the engineers (lines 191-268) for the engineer
`et.1` with the target `et.2`, on the allocation and `server_used`. -/
def engineerTurn (s : Solver) (capacity : Nat) (acc : List (List Int) × List Bool)
    (et : Nat × Int) : List (List Int) × List Bool :=
  let st1 := prePass s.server_to_days capacity et.1 s.server_efficiency
    { allocation := acc.1, server_used := acc.2, current_work_days := [], servers_assigned := 0 }
  let st2 := fillLoop s.server_to_days capacity et.1 et.2 s.server_efficiency st1
  (st2.allocation, st2.server_used)

/-- The targets of the engineers `0 .. engineers-1` (lines 193-200) under the
distribution of `distributionFor`. -/
def targetsFor (engineers : Nat) (budget : Int) (num_days : Nat) : List Int :=
  targetLoop (distributionFor (engineers : Int) budget num_days).min_work_days
    (distributionFor (engineers : Int) budget num_days).max_work_days engineers
    (distributionFor (engineers : Int) budget num_days).engineers_with_min_work

/-- Phase 1 of `solve` (lines 187-268): the allocation and `server_used`. -/
def phase1For (engineers capacity : Nat) (budget : Int) (s : Solver) :
    List (List Int) × List Bool :=
  ((List.range engineers).zip (targetsFor engineers budget s.num_days)).foldl
    (engineerTurn s capacity)
    (List.replicate engineers (List.replicate capacity (-1)), List.replicate NUM_SERVERS false)

/-- Phase 1 of `solve` with the constants of the file. -/
def phase1 (s : Solver) : List (List Int) × List Bool :=
  phase1For NUM_ENGINEERS MAX_SERVERS_PER_ENGINEER (MAX_REST_DAYS : Int) s

/-- The constructor `Solution(days)` for `engineers` engineers of `capacity`
slots. -/
def Solution.newFor (engineers capacity days : Nat) : Solution :=
  { allocation := List.replicate engineers (List.replicate capacity (-1))
    daily_work := List.replicate engineers (List.replicate days false)
    total_rest_days := 0
    num_days := days
    valid := false }

/-- The row `daily_work[engineer]` as `calculateFinalResults` fills it
(lines 281-292), for rows of `capacity` slots. -/
def markRowFor (capacity : Nat) (server_to_days : List (Int × List Nat))
    (allocation : List (List Int)) (num_days : Nat) (engineer : Nat) (row : List Bool) :
    List Bool :=
  (List.range capacity).foldl
    (fun r i =>
      if slotOf allocation engineer i = -1 then r
      else
        (mapGet server_to_days (slotOf allocation engineer i)).foldl
          (fun r day => if day < num_days then r.set day true else r) r)
    (row.map (fun _ => false))

/-- The counter `engineers_with_first_14_work` of `calculateFinalResults`
(lines 306-325) on the rows `daily_work`. -/
def engineersWithFirst14For (engineers : Nat) (num_days : Nat) (daily_work : List (List Bool)) :
    Nat :=
  ((List.range engineers).filter
    (fun e => rowHasFirst14 num_days (daily_work.getD e []))).length

/-- Function `calculateFinalResults` (lines 277-371) for `engineers`
engineers of `capacity` slots and a budget of `budget` rest days. -/
def calculateFinalResultsFor (engineers capacity budget : Nat) (s : Solver)
    (solution : Solution) : Solution :=
  let dw := (solution.daily_work.enum).map
    (fun er => if er.1 < engineers then
      markRowFor capacity s.server_to_days solution.allocation solution.num_days er.1 er.2
      else er.2)
  let total_rest_days := ((List.range engineers).map
      (fun e => solution.num_days - countWork solution.num_days (dw.getD e []))).sum
  let engineers_with_first_14_work := engineersWithFirst14For engineers solution.num_days dw
  { solution with
    daily_work := dw
    total_rest_days := total_rest_days
    valid := decide (total_rest_days ≤ budget)
      && decide (engineers_with_first_14_work = engineers) }

/-- Function `solve` (lines 116-274) for `engineers` engineers of `capacity`
slots and a budget of `budget` rest days: Phase 1, then
`calculateFinalResults`. -/
def solveFor (engineers capacity budget : Nat) (s : Solver) : Solution :=
  calculateFinalResultsFor engineers capacity budget s
    { Solution.newFor engineers capacity s.num_days with
      allocation := (phase1For engineers capacity (budget : Int) s).1 }

/-- Function `solve` with the constants of the file. -/
def solve (s : Solver) : Solution :=
  solveFor NUM_ENGINEERS MAX_SERVERS_PER_ENGINEER MAX_REST_DAYS s

end UltimateConstraintSolver
/-! ## main.cpp: the solver object

The class `ServerAllocationSolver` has three data members (lines 37-39):
`daily_alarms`, `server_to_engineer` and the generator `rng`. The constructor
(line 42) gives `server_to_engineer` `NUM_SERVERS` entries and seeds `rng`
from the clock; no function of the class changes the size of
`server_to_engineer`. The generator is read by `tryServerRedistribution`
(line 1083) and by `tryServerSwap` (lines 1147-1167) only, and no function
that `solve` calls, directly or not, calls one of these two: the functions
below carry the member `rng` along as the source does, untouched. The member
`server_to_engineer` is read and written: `optimalWorkDaysAllocation` starts
from the vector that the object holds and overwrites its entries (line 1188). -/

namespace ServerAllocationSolver

/-- The data members of the class; `rng` is the state of the generator. -/
structure Members where
  daily_alarms : List (List Int)
  server_to_engineer : List Int
  rng : Nat
deriving DecidableEq, Repr

/-- Phase 1 of `optimalWorkDaysAllocation` (lines 1185-1219) on the object:
`fill` (line 1188) overwrites every entry of the member `server_to_engineer`,
whatever its size, then engineer `e` gets the `e`-th server of
`first_14_list`, while both last. -/
def Members.phase1 (m : Members) (first_14_list : List Int) : AllocState :=
  ((List.range NUM_ENGINEERS).zip first_14_list).foldl
    (fun st es => assignServer st es.1 es.2)
    { allocation := List.replicate NUM_ENGINEERS []
      server_to_engineer := m.server_to_engineer.map (fun _ => (-1 : Int))
      engineer_load := List.replicate NUM_ENGINEERS 0 }

/-- Member function `optimalWorkDaysAllocation` (lines 1184-1376) on the
object: the solution it returns and the members it leaves; `sort` is the
sorting function of line 1253. -/
def Members.optimalWorkDaysAllocation (sort : List (Int × Nat) → List (Int × Nat))
    (m : Members) : Solution × Members :=
  let st1 := Members.phase1 m (first14List m.daily_alarms)
  let server_days := buildServerDays m.daily_alarms
  let st := phase2Loop server_days
    (serverCoverage sort server_days st1.server_to_engineer) 1000 st1
  (calculateDailyWork m.daily_alarms st.server_to_engineer
    { Solution.init with allocation := st.allocation.map padRow },
    { m with server_to_engineer := st.server_to_engineer })

/-- Member function `solve` (lines 79-108) on the object: the solution it
returns and the members it leaves. -/
def Members.solve (sort : List (Int × Nat) → List (Int × Nat)) (m : Members) :
    Solution × Members :=
  let r := Members.optimalWorkDaysAllocation sort m
  let initial := r.1
  if !initial.valid then (Solution.init, r.2)
  else if initial.total_rest_days > MAX_REST_DAYS then
    let o := constraintPropagationOptimization r.2.daily_alarms r.2.server_to_engineer initial
    (if o.1.valid then o.1 else initial, { r.2 with server_to_engineer := o.2 })
  else (initial, r.2)

end ServerAllocationSolver
/-! ## constraint_solver.cpp: `ConstraintBasedSolver` -/

namespace ConstraintBasedSolver

def NUM_ENGINEERS : Nat := 336
def NUM_SERVERS : Nat := 1620
def MAX_SERVERS_PER_ENGINEER : Nat := 5
def NUM_DAYS : Nat := 22
def MAX_REST_DAYS : Nat := 410

/-- The struct `Solution` of constraint_solver.cpp. -/
structure Solution where
  allocation : List (List Int)
  daily_work : List (List Bool)
  total_rest_days : Int
  valid : Bool
deriving DecidableEq, Repr

/-- The constructor `Solution()` (lines 26-28). -/
def Solution.init : Solution :=
  { allocation := List.replicate NUM_ENGINEERS (List.replicate MAX_SERVERS_PER_ENGINEER (-1))
    daily_work := List.replicate NUM_ENGINEERS (List.replicate NUM_DAYS false)
    total_rest_days := 0
    valid := false }

/-- The members of the solver once `loadAlarmData` has run; an entry of
`server_efficiency` is `(coverage, first_14_coverage, server_id)`. -/
structure Solver where
  daily_alarms : List (List Int)
  server_to_days : List (Int × List Nat)
  server_efficiency : List (Int × Int × Int)
deriving DecidableEq, Repr

/-- The comparison of the sort of `server_efficiency` (lines 75-78): more
days below 14 first, then more days. -/
def efficiencyBefore (a b : Int × Int × Int) : Bool :=
  if a.2.1 ≠ b.2.1 then decide (a.2.1 > b.2.1) else decide (a.1 > b.1)

/-- The entry of `server_efficiency` of a server with day set `days`
(lines 64-71). -/
def efficiencyEntry (kv : Int × List Nat) : Int × Int × Int :=
  ((kv.2.length : Int), ((kv.2.filter (fun day => decide (day < 14))).length : Int), kv.1)

/-- Function `loadAlarmData` (lines 38-89) on the day lines of the file (the
lines that start with a digit), each as the integers read from it: at most
`NUM_DAYS` of them are read, every integer read is stored, and `daily_alarms`
has `NUM_DAYS` entries. The function returns `true` whenever the file opens.
The entries of `server_efficiency` are built in map order and handed to
`std::sort` with `efficiencyBefore` (lines 74-78); the order that the library
gives to entries that the comparison does not separate is not fixed by the
source: `sort` is the sorting function. -/
def loadAlarmData (sort : List (Int × Int × Int) → List (Int × Int × Int))
    (lines : List (List Int)) : Solver :=
  let read := lines.take NUM_DAYS
  let server_to_days := buildServerToDays read
  { daily_alarms := read ++ List.replicate (NUM_DAYS - read.length) []
    server_to_days := server_to_days
    server_efficiency := sort (server_to_days.map efficiencyEntry) }

/-- The variables that `solve` maintains: the allocation, `server_used`, and
the incremental bookkeeping `engineer_rest_days` and `total_rest_days`. The
vector `engineer_work_days` is only printed and is left out. -/
structure Books where
  allocation : List (List Int)
  server_used : List Bool
  engineer_rest_days : List Int
  total_rest_days : Int
deriving DecidableEq, Repr

/-- The values of the variables before Phase 1 (lines 92, 100-103). -/
def Books.init : Books :=
  { allocation := Solution.init.allocation
    server_used := List.replicate NUM_SERVERS false
    engineer_rest_days := List.replicate NUM_ENGINEERS (NUM_DAYS : Int)
    total_rest_days := (NUM_ENGINEERS : Int) * (NUM_DAYS : Int) }

/-- The target `target_work_days` of an engineer (line 113). -/
def targetWorkDays (engineer : Nat) : Int :=
  if engineer < 74 then 20 else 21

/-- The loop over `server_efficiency` in Phase 1 for one engineer
(lines 117-153), with `work_days_set` and `servers_assigned`. -/
def assignLoop (server_to_days : List (Int × List Nat)) (engineer : Nat) :
    List (Int × Int × Int) → Books × List Nat × Nat → Books × List Nat × Nat
  | [], st => st
  | entry :: rest, st =>
    let server := entry.2.2
    if st.1.server_used.getD server.toNat false
        || decide (st.2.2 ≥ MAX_SERVERS_PER_ENGINEER) then
      assignLoop server_to_days engineer rest st
    else
      let new_work_days := setInsertAll (mapGet server_to_days server) st.2.1
      let new_work_count : Int := (new_work_days.length : Int)
      let new_rest_count : Int := (NUM_DAYS : Int) - new_work_count
      let rest_day_change : Int := st.1.engineer_rest_days.getD engineer 0 - new_rest_count
      if st.1.total_rest_days - rest_day_change ≤ (MAX_REST_DAYS : Int)
          ∧ new_work_count ≤ targetWorkDays engineer then
        let b : Books :=
          { allocation := setSlot st.1.allocation engineer st.2.2 server
            server_used := st.1.server_used.set server.toNat true
            engineer_rest_days := st.1.engineer_rest_days.set engineer new_rest_count
            total_rest_days := st.1.total_rest_days - rest_day_change }
        if new_work_count ≥ targetWorkDays engineer
            ∨ b.total_rest_days ≤ (MAX_REST_DAYS : Int) + 50 then
          (b, new_work_days, st.2.2 + 1)
        else assignLoop server_to_days engineer rest (b, new_work_days, st.2.2 + 1)
      else assignLoop server_to_days engineer rest st

/-- The loop over the engineers of Phase 1 (lines 108-166) on the engineers
that remain; it stops when `total_rest_days <= MAX_REST_DAYS + 20`. -/
def phase1Loop (s : Solver) : List Nat → Books → Books
  | [], b => b
  | engineer :: rest, b =>
    let r := (assignLoop s.server_to_days engineer s.server_efficiency (b, [], 0)).1
    if r.total_rest_days ≤ (MAX_REST_DAYS : Int) + 20 then r
    else phase1Loop s rest r

/-- Phase 1 of `solve` (lines 100-166). -/
def phase1 (s : Solver) : Books :=
  phase1Loop s (List.range NUM_ENGINEERS) Books.init

/-- The first empty slot of row `engineer` (lines 183-189). -/
def emptySlot (allocation : List (List Int)) (engineer : Nat) : Option Nat :=
  (List.range MAX_SERVERS_PER_ENGINEER).find? (fun i => slotOf allocation engineer i == -1)

/-- The loop over `server_efficiency` that tops up one engineer
(lines 179-218); the flag tells whether a server was assigned. -/
def topUpLoop (server_to_days : List (Int × List Nat)) (engineer : Nat) :
    List (Int × Int × Int) → Books → Books × Bool
  | [], b => (b, false)
  | entry :: rest, b =>
    let server := entry.2.2
    if b.server_used.getD server.toNat false then
      topUpLoop server_to_days engineer rest b
    else
      match emptySlot b.allocation engineer with
      | none => topUpLoop server_to_days engineer rest b
      | some empty_slot =>
        let current_work_days := rowDays server_to_days b.allocation engineer
        let new_work_days := setInsertAll (mapGet server_to_days server) current_work_days
        let work_increase : Int :=
          (new_work_days.length : Int) - (current_work_days.length : Int)
        if work_increase > 0 ∧ b.total_rest_days - work_increase ≥ (MAX_REST_DAYS : Int) then
          ({ allocation := setSlot b.allocation engineer empty_slot server
             server_used := b.server_used.set server.toNat true
             engineer_rest_days := b.engineer_rest_days.set engineer
               (b.engineer_rest_days.getD engineer 0 - work_increase)
             total_rest_days := b.total_rest_days - work_increase }, true)
        else topUpLoop server_to_days engineer rest b

/-- The loop over the engineers of one iteration of Phase 2 (lines 176-222)
on the engineers that remain; the flag is `improved`. -/
def topUpEngineers (s : Solver) : List Nat → Books × Bool → Books × Bool
  | [], st => st
  | engineer :: rest, st =>
    if st.1.engineer_rest_days.getD engineer 0 > 1 then
      let r := topUpLoop s.server_to_days engineer s.server_efficiency st.1
      if r.1.total_rest_days ≤ (MAX_REST_DAYS : Int) then (r.1, st.2 || r.2)
      else topUpEngineers s rest (r.1, st.2 || r.2)
    else topUpEngineers s rest st

/-- The loop `for (iteration = 0; iteration < 50; iteration++)` of Phase 2
(lines 171-226); `fuel` is the number of iterations left. -/
def phase2 (s : Solver) : Nat → Books → Books
  | 0, b => b
  | fuel + 1, b =>
    let r := if b.total_rest_days > (MAX_REST_DAYS : Int)
      then topUpEngineers s (List.range NUM_ENGINEERS) (b, false) else (b, false)
    if !r.2 || decide (r.1.total_rest_days ≤ (MAX_REST_DAYS : Int)) then r.1
    else phase2 s fuel r.1

/-- The books of `solve` when Phase 2 ends (line 226). -/
def solveBooks (s : Solver) : Books :=
  phase2 s 50 (phase1 s)

/-- The row `daily_work[engineer]` as `calculateFinalResults` fills it
(lines 239-248). -/
def markRow (server_to_days : List (Int × List Nat)) (allocation : List (List Int))
    (engineer : Nat) (row : List Bool) : List Bool :=
  (List.range MAX_SERVERS_PER_ENGINEER).foldl
    (fun r i =>
      if slotOf allocation engineer i = -1 then r
      else (mapGet server_to_days (slotOf allocation engineer i)).foldl
        (fun r day => r.set day true) r)
    (row.map (fun _ => false))

/-- The counter `work_days` (lines 250-255). -/
def countWork (row : List Bool) : Nat :=
  ((List.range NUM_DAYS).filter (fun day => row.getD day false)).length

/-- The flag `has_first_14_work` (lines 266-275). -/
def rowHasFirst14 (row : List Bool) : Bool :=
  (List.range NUM_DAYS).any (fun day => row.getD day false && decide (day < 14))

/-- Function `calculateFinalResults` (lines 235-316). -/
def calculateFinalResults (s : Solver) (solution : Solution) : Solution :=
  let dw := (solution.daily_work.enum).map
    (fun er => if er.1 < NUM_ENGINEERS then
      markRow s.server_to_days solution.allocation er.1 er.2 else er.2)
  let total_rest_days : Int := ((List.range NUM_ENGINEERS).map
      (fun e => (NUM_DAYS : Int) - (countWork (dw.getD e []) : Int))).sum
  let engineers_with_first_14_work := ((List.range NUM_ENGINEERS).filter
      (fun e => rowHasFirst14 (dw.getD e []))).length
  { allocation := solution.allocation
    daily_work := dw
    total_rest_days := total_rest_days
    valid := decide (total_rest_days ≤ (MAX_REST_DAYS : Int))
      && decide (engineers_with_first_14_work = NUM_ENGINEERS) }

/-- Function `solve` (lines 91-232). -/
def solve (s : Solver) : Solution :=
  calculateFinalResults s { Solution.init with allocation := (solveBooks s).allocation }

end ConstraintBasedSolver

/-! ## main.cpp: `loadAlarmData` and `main` -/

namespace ServerAllocationSolver

/-- Function `loadAlarmData` (lines 44-77) on the lines of the file that are
neither empty nor comments (`#`), each as the integers read from it: the
member `daily_alarms` it leaves and the value it returns. At most `NUM_DAYS`
lines are taken, the ids outside `0 .. NUM_SERVERS-1` are left out, and the
value is `day == NUM_DAYS`. -/
def loadAlarmData (lines : List (List Int)) : List (List Int) × Bool :=
  let read := (lines.take NUM_DAYS).map
    (fun line => line.filter (fun (server_id : Int) => decide (server_id ≥ 0 ∧ server_id < (NUM_SERVERS : Int))))
  (read ++ List.replicate (NUM_DAYS - read.length) [], decide (read.length = NUM_DAYS))

/-- Function `main` (lines 1429-1463) on the lines of `alarm_list.txt`: the
exit code and, when `solve` was called, the solution it returned; `sort` is
the sorting function of `optimalWorkDaysAllocation`. -/
def main (sort : List (Int × Nat) → List (Int × Nat)) (lines : List (List Int)) :
    Nat × Option Solution :=
  if !(loadAlarmData lines).2 then (1, none)
  else if !(solve sort (loadAlarmData lines).1).valid then
    (1, some (solve sort (loadAlarmData lines).1))
  else (0, some (solve sort (loadAlarmData lines).1))

end ServerAllocationSolver

/-! ## Definitions used in the statements -/

/-- The keys of a map are strictly ascending. -/
def KeysAsc (m : List (Int × List Nat)) : Prop :=
  (m.map Prod.fst).Pairwise (fun a b => a < b)

/-- Engineer `e` holds, in one of its 5 slots, a server that is in the alarm
list of day `d` (a held server is active on day `d`). -/
def activeOn (daily_alarms : List (List Int)) (allocation : List (List Int)) (e d : Nat) : Bool :=
  (List.range 5).any
    (fun i => slotOf allocation e i != -1 && (daily_alarms.getD d []).contains (slotOf allocation e i))

/-- A matrix of `rows` rows with `cols` entries each. -/
def Shape {α : Type} (rows cols : Nat) (m : List (List α)) : Prop :=
  m.length = rows ∧ ∀ r ∈ m, r.length = cols

/-- What `std::sort` with the comparison `comp` guarantees of the function
`sort` it computes: the result holds the entries of the input, each as often
as the input, and no entry stands behind one that it has to precede. The
order of entries that `comp` does not separate is left open. -/
def StdSort {α : Type} (comp : α → α → Bool) (sort : List α → List α) : Prop :=
  ∀ l, (sort l).Perm l ∧ (sort l).Pairwise (fun a b => comp b a = false)

namespace ServerAllocationSolver

/-- The solutions that `constraintPropagationOptimization` keeps, in order:
the loop of `optimizationLoop` with every assignment `solution = optimized`
recorded. -/
def keptTrace (daily_alarms : List (List Int)) (server_days : List (Int × List Nat)) :
    Nat → List (Int × Int) → List Int → Solution → List Solution
  | 0, _, _, _ => []
  | fuel + 1, engineer_rest_days, server_to_engineer, solution =>
    let r := iterationMoves daily_alarms server_days engineer_rest_days server_to_engineer solution
    let optimized := r.1
    if optimized.valid && decide (optimized.total_rest_days < solution.total_rest_days) then
      if optimized.total_rest_days ≤ MAX_REST_DAYS then [optimized]
      else if !r.2.2 then [optimized]
      else optimized :: keptTrace daily_alarms server_days fuel
        (engineerRestDays optimized.daily_work) r.2.1 optimized
    else if !r.2.2 then []
    else keptTrace daily_alarms server_days fuel engineer_rest_days r.2.1 solution

/-- The solutions kept by a call of `constraintPropagationOptimization`. -/
def keptSolutions (daily_alarms : List (List Int)) (server_to_engineer : List Int)
    (solution : Solution) : List Solution :=
  if solution.total_rest_days ≤ MAX_REST_DAYS then []
  else
    keptTrace daily_alarms (buildServerDays daily_alarms) 50
      (engineerRestDays solution.daily_work) server_to_engineer solution

/-- What the assignment loops of `optimalWorkDaysAllocation` keep true: 336
rows and 336 loads, the row of engineer `e` has `engineer_load[e]` entries,
at most 5, and every entry has the property `P` of the servers that the
loops assign. -/
def AllocInv (P : Int → Prop) (st : AllocState) : Prop :=
  st.allocation.length = NUM_ENGINEERS ∧ st.engineer_load.length = NUM_ENGINEERS ∧
  ∀ e, (rowOf st.allocation e).length = st.engineer_load.getD e 0 ∧
    st.engineer_load.getD e 0 ≤ MAX_SERVERS_PER_ENGINEER ∧
    ∀ s ∈ rowOf st.allocation e, P s

/-- A complete assignment with its measured rest-day total: 336 rows of
exactly 5 slots, and `total_rest_days` is the number of rest entries of the
stored `daily_work`. -/
def Complete (solution : Solution) : Prop :=
  Shape NUM_ENGINEERS MAX_SERVERS_PER_ENGINEER solution.allocation ∧
  solution.total_rest_days
    = ((List.range NUM_ENGINEERS).map (restCount solution.daily_work)).sum

/-- The alarm table of a file without day lines: `NUM_DAYS` empty lists. -/
def emptyTable : List (List Int) := List.replicate NUM_DAYS []

/-- An alarm table in which the servers `0 .. 335` are active on day 0 and
no server is active later. -/
def dayZeroTable : List (List Int) :=
  (List.range NUM_ENGINEERS).map (fun s => (s : Int)) :: List.replicate (NUM_DAYS - 1) []

/-- The ownership in which server `s` belongs to engineer `s` for
`s < 336` and the other servers are unassigned. -/
def dayZeroOwners : List Int :=
  (List.range NUM_ENGINEERS).map (fun s => (s : Int))
    ++ List.replicate (NUM_SERVERS - NUM_ENGINEERS) (-1)

end ServerAllocationSolver

/-- The alarm table of a file without day lines, for the solvers that read
`NUM_DAYS` = 22 days: 22 empty lists. -/
def emptyAlarms : List (List Int) := List.replicate 22 []

namespace UltimateConstraintSolver

/-- The solution that `calculateFinalResults` leaves when it is called, after
`loadAlarmData` on `lines`, on a fresh `Solution(num_days)` that carries the
allocation `allocation`. -/
def evaluate (lines : List (List Int)) (allocation : List (List Int)) : Solution :=
  calculateFinalResults (loadAlarmData lines)
    { Solution.new (loadAlarmData lines).num_days with allocation := allocation }

end UltimateConstraintSolver

namespace RealisticSolver

/-- Server `s` occupies a slot of `allocation`. -/
def Held (allocation : List (List Int)) (s : Int) : Prop :=
  ∃ e i, e < NUM_ENGINEERS ∧ i < MAX_SERVERS_PER_ENGINEER ∧ slotOf allocation e i = s

/-- No server id other than -1 occupies two slots of `allocation`. -/
def Unique (allocation : List (List Int)) : Prop :=
  ∀ e1 i1 e2 i2, e1 < NUM_ENGINEERS → i1 < MAX_SERVERS_PER_ENGINEER →
    e2 < NUM_ENGINEERS → i2 < MAX_SERVERS_PER_ENGINEER →
    slotOf allocation e1 i1 ≠ -1 → slotOf allocation e1 i1 = slotOf allocation e2 i2 →
    e1 = e2 ∧ i1 = i2

/-- The invariant of the two phases of `solve`: the allocation keeps its
shape, its entries are -1 or server ids in range, no server occupies two
slots, and `server_used` marks exactly the servers that occupy a slot. -/
def Inv (allocation : List (List Int)) (server_used : List Bool) : Prop :=
  Shape NUM_ENGINEERS MAX_SERVERS_PER_ENGINEER allocation ∧
  server_used.length = NUM_SERVERS ∧
  (∀ e i, e < NUM_ENGINEERS → i < MAX_SERVERS_PER_ENGINEER →
    slotOf allocation e i = -1 ∨
      (0 ≤ slotOf allocation e i ∧ slotOf allocation e i < (NUM_SERVERS : Int))) ∧
  Unique allocation ∧
  ∀ s : Nat, s < NUM_SERVERS → (server_used.getD s false = true ↔ Held allocation (s : Int))

/-- The slots of row `e` from `k` on and the rows after `e` are empty. -/
def EmptyFrom (allocation : List (List Int)) (e k : Nat) : Prop :=
  ∀ e1 i, (e1 = e ∧ k ≤ i) ∨ e < e1 → e1 < NUM_ENGINEERS → i < MAX_SERVERS_PER_ENGINEER →
    slotOf allocation e1 i = -1

end RealisticSolver

/-- A day set: an ascending list without duplicates. -/
def DaySet (days : List Nat) : Prop := days.Pairwise (fun a b => a < b)

namespace PreciseILPSolver

/-- The bookkeeping invariant of `solve`: every `engineer_rest_days[e]` is
`NUM_DAYS` minus the number of days covered by the servers of row `e`, and
`total_rest_days` is the sum of `engineer_rest_days`. -/
def BooksInv (server_to_days : List (Int × List Nat)) (b : Books) : Prop :=
  Shape NUM_ENGINEERS MAX_SERVERS_PER_ENGINEER b.allocation ∧
  b.engineer_rest_days.length = NUM_ENGINEERS ∧
  (∀ e, e < NUM_ENGINEERS → b.engineer_rest_days.getD e 0
    = (NUM_DAYS : Int) - ((rowDays server_to_days b.allocation e).length : Int)) ∧
  b.total_rest_days = b.engineer_rest_days.sum

/-- The slots of row `e` from `k` on and the rows after `e` are empty. -/
def EmptyFrom (allocation : List (List Int)) (e k : Nat) : Prop :=
  ∀ e1 i, (e1 = e ∧ k ≤ i) ∨ e < e1 → e1 < NUM_ENGINEERS → i < MAX_SERVERS_PER_ENGINEER →
    slotOf allocation e1 i = -1

end PreciseILPSolver

namespace FinalOptimalSolver

/-- The global rest-day total of an allocation: the sum over the engineers of
`num_days` minus the number of days on which a held server is active. -/
def restTotal (s : Solver) (allocation : List (List Int)) : Int :=
  ((List.range NUM_ENGINEERS).map
    (fun e => (s.num_days : Int) - ((rowDays s.server_to_days allocation e).length : Int))).sum

/-- An alarm table of 28 days with four servers: server 0 on days 0..22,
server 1 on days 3..22 and 25..27, server 2 on days 3, 23 and 25, server 3 on
days 0 and 24. -/
def overshootTable : List (List Int) :=
  [[0, 3], [0], [0], [0, 1, 2]] ++ List.replicate 19 [0, 1] ++ [[2], [3], [1, 2], [1], [1]]

end FinalOptimalSolver

namespace FinalOptimalSolver

/-- Every server held in `allocation` is active on a day below 14. -/
def Covers14 (server_to_days : List (Int × List Nat)) (allocation : List (List Int)) : Prop :=
  ∀ e i, e < NUM_ENGINEERS → i < MAX_SERVERS_PER_ENGINEER → slotOf allocation e i ≠ -1 →
    hasDayBelow14 (mapGet server_to_days (slotOf allocation e i)) = true

end FinalOptimalSolver

namespace ServerAllocationSolver

/-- The ownership map agrees with the allocation: every server held in a
slot of row `e` is recorded as owned by engineer `e`. -/
def Agrees (allocation : List (List Int)) (server_to_engineer : List Int) : Prop :=
  ∀ e i, e < NUM_ENGINEERS → i < MAX_SERVERS_PER_ENGINEER → slotOf allocation e i ≠ -1 →
    ownerOf server_to_engineer (slotOf allocation e i) = (e : Int)

/-- The table `temp_daily_work` before it is marked (line 990). -/
def blankWork : List (List Bool) :=
  List.replicate NUM_ENGINEERS (List.replicate NUM_DAYS false)

/-- A state in which engineer 0 holds server 5 and engineer 1 holds server 7,
with the ownership map in agreement. -/
def twoHolders : MoveState :=
  { allocation :=
      setSlot (setSlot (List.replicate NUM_ENGINEERS
        (List.replicate MAX_SERVERS_PER_ENGINEER (-1))) 0 0 5) 1 0 7
    server_to_engineer := setOwner (setOwner (List.replicate NUM_SERVERS (-1)) 5 0) 7 1
    improved := false }

end ServerAllocationSolver

namespace FinalOptimalSolver

/-- The sum of the per-engineer targets of `solve`. -/
def targetTotal : Int :=
  ((List.range NUM_ENGINEERS).map targetWorkDays).sum

end FinalOptimalSolver

/-- The days `d` of the table whose line lists server `k`, in increasing
order. -/
def activeDays (lines : List (List Int)) (k : Int) : List Nat :=
  (List.range lines.length).filter (fun d => (lines.getD d []).contains k)

namespace UltimateConstraintSolver

/-- A table of 25 day lines: server 1 is listed on day 0 only, server 0 on the
six days 14, 16, 18, 20, 22, 24, and server 2 on the other days. Servers 0 and
1 both have score 12. -/
def tieTable : List (List Int) :=
  [[1]] ++ List.replicate 13 [2] ++
    [[0], [2], [0], [2], [0], [2], [0], [2], [0], [2], [0]]

end UltimateConstraintSolver

namespace ServerAllocationSolver

/-- Server `b` stands in `server_coverage` as the first unassigned entry of
largest gain `g`: it is unassigned, `g` is the number of entries of
`server_days[b]` that are not in `work`, every unassigned entry before it has
a smaller gain and no unassigned entry after it has a larger one. -/
def FirstBest (server_days : List (Int × List Nat)) (server_coverage : List (Int × Nat))
    (server_to_engineer : List Int) (work : List Nat) (b : Int) (g : Nat) : Prop :=
  ∃ (l1 : List (Int × Nat)) (c : Nat) (l2 : List (Int × Nat)),
    server_coverage = l1 ++ (b, c) :: l2 ∧
    ownerOf server_to_engineer b = -1 ∧
    g = newDays work (mapGet server_days b) ∧
    (∀ x ∈ l1, ownerOf server_to_engineer x.1 = -1 → newDays work (mapGet server_days x.1) < g) ∧
    (∀ x ∈ l2, ownerOf server_to_engineer x.1 = -1 → newDays work (mapGet server_days x.1) ≤ g)

end ServerAllocationSolver

namespace FinalOptimalSolver

/-- The sum over all engineers of `|work days - target|`, the work days of an
engineer being the days on which a server of its row is active. -/
def errorTotal (s : Solver) (allocation : List (List Int)) : Nat :=
  ((List.range NUM_ENGINEERS).map
    (fun e => (((rowDays s.server_to_days allocation e).length : Int) - targetWorkDays e).natAbs)).sum

/-- The number of swaps accepted by the loop of Phase 2 when it is allowed
`fuel` iterations from `allocation`: an iteration accepts at most one swap,
and the loop stops at the first iteration that accepts none. -/
def acceptedSwaps (s : Solver) : Nat → List (List Int) → Nat
  | 0, _ => 0
  | fuel + 1, allocation =>
    if (iteration s allocation).2 then 1 + acceptedSwaps s fuel (iteration s allocation).1
    else 0

end FinalOptimalSolver

namespace UltimateConstraintSolver

/-- The allocation and `server_used` of Phase 1 of `solve` when the loop over
the engineers has run its first `n` turns: the start of the turn of engineer
`n`, the end of the turn of engineer `n - 1`. -/
def phase1Upto (s : Solver) (n : Nat) : List (List Int) × List Bool :=
  (((List.range NUM_ENGINEERS).zip
      (targetsFor NUM_ENGINEERS (MAX_REST_DAYS : Int) s.num_days)).take n).foldl
    (engineerTurn s MAX_SERVERS_PER_ENGINEER)
    (List.replicate NUM_ENGINEERS (List.replicate MAX_SERVERS_PER_ENGINEER (-1)),
      List.replicate NUM_SERVERS false)

/-- Server `v` is active on a day below 14. -/
def Window (server_to_days : List (Int × List Nat)) (v : Int) : Prop :=
  ∃ d ∈ mapGet server_to_days v, d < 14

/-- Entry `ss` of the ranking is unassigned under `server_used` and active on
a day below 14. -/
def Candidate (server_to_days : List (Int × List Nat)) (server_used : List Bool)
    (ss : Int × Int) : Prop :=
  server_used.getD ss.2.toNat false = false ∧ Window server_to_days ss.2

end UltimateConstraintSolver

namespace MathematicalServerAllocationSolver

/-- The table read from a file of one day line that lists the 337 servers
0 .. 336: they are all active on day 0 and on no other day. -/
def crowdedDay : List (List Int) :=
  loadAlarmData [(List.range 337).map (fun (k : Nat) => (k : Int))]

end MathematicalServerAllocationSolver

namespace MathematicalServerAllocationSolver

/-- The state of Phase 1 on `crowdedDay` after the turns of the engineers
`0 .. n-1`: engineer `e < n` holds the server `336 - e` and works on day 0,
the later rows are empty, and the servers `337 - n .. 336` are assigned. -/
def CrowdedInv (n : Nat) (a : Assign) : Prop :=
  a.allocation.length = NUM_ENGINEERS ∧
  a.server_assigned.length = NUM_SERVERS ∧
  a.engineer_work_days.length = NUM_ENGINEERS ∧
  (∀ e, e < NUM_ENGINEERS →
    rowOf a.allocation e = if e < n then [((336 - e : Nat) : Int), -1, -1, -1, -1] else []) ∧
  (∀ e, e < NUM_ENGINEERS → a.engineer_work_days.getD e [] = if e < n then [0] else []) ∧
  (∀ k, k < 337 → a.server_assigned.getD k false = decide (337 - n ≤ k))

end MathematicalServerAllocationSolver
namespace ConstraintBasedSolver

/-- The rest-day total of an allocation: the sum over the engineers of
`NUM_DAYS` minus the number of days on which a held server is active. -/
def restSum (server_to_days : List (Int × List Nat)) (allocation : List (List Int)) : Int :=
  ((List.range NUM_ENGINEERS).map
    (fun e => (NUM_DAYS : Int) - ((rowDays server_to_days allocation e).length : Int))).sum

/-- The invariant of Phase 2: the allocation has `NUM_ENGINEERS` rows of
`MAX_SERVERS_PER_ENGINEER` slots, and the running `total_rest_days` lies
between `MAX_REST_DAYS` and the rest-day total of the allocation. -/
def RestInv (server_to_days : List (Int × List Nat)) (b : Books) : Prop :=
  Shape NUM_ENGINEERS MAX_SERVERS_PER_ENGINEER b.allocation ∧
  (MAX_REST_DAYS : Int) ≤ b.total_rest_days ∧
  b.total_rest_days ≤ restSum server_to_days b.allocation

end ConstraintBasedSolver

namespace PreciseILPSolver

/-- The invariant of Phase 1 that bounds the running total: the allocation
has its shape, `total_rest_days` is the sum of `engineer_rest_days`, and no
engineer rests less than its target. -/
def TargetInv (b : Books) : Prop :=
  Shape NUM_ENGINEERS MAX_SERVERS_PER_ENGINEER b.allocation ∧
  b.engineer_rest_days.length = NUM_ENGINEERS ∧
  b.total_rest_days = b.engineer_rest_days.sum ∧
  ∀ e, e < NUM_ENGINEERS → targetRestDays e ≤ b.engineer_rest_days.getD e 0

/-- Every server held in `a` is still held, in the same slot, in `a1`. -/
def Keeps (a a1 : List (List Int)) : Prop :=
  ∀ e i, slotOf a e i ≠ -1 → slotOf a1 e i = slotOf a e i

/-- The books of Phase 1 after the turns of the engineers `0 .. n-1`. -/
def phase1Upto (s : Solver) (n : Nat) : Books :=
  (List.range n).foldl
    (fun b engineer => (assignLoop s.server_to_days engineer s.server_efficiency (b, [], 0)).1)
    { allocation := Solution.init.allocation
      server_used := List.replicate NUM_SERVERS false
      engineer_rest_days := List.replicate NUM_ENGINEERS (NUM_DAYS : Int)
      total_rest_days := (NUM_ENGINEERS : Int) * (NUM_DAYS : Int) }

end PreciseILPSolver

/-- The distinct servers that are listed on a day below 14. -/
def windowServers (daily_alarms : List (List Int)) : List Int :=
  ((daily_alarms.take 14).flatten).dedup

namespace ServerAllocationSolver

/-- Every server that has an owner in `ste` has the same owner in `ste1`. -/
def OwnerKept (ste ste1 : List Int) : Prop :=
  ∀ s : Int, ownerOf ste s ≠ -1 → ownerOf ste1 s = ownerOf ste s

end ServerAllocationSolver

namespace MathematicalServerAllocationSolver

/-- Entry `sc` of `server_scores` is of no use to engineer `e` that holds
`k` servers: it is assigned, or the engineer has no slot left, or with it the
engineer would pass its target, or every day of it is a work day of the
engineer already. -/
def Tested (server_to_days : List (Int × List Nat)) (a : Assign) (k e : Nat)
    (sc : Int × Int × Int) : Prop :=
  a.server_assigned.getD sc.2.2.toNat false = false →
    MAX_SERVERS_PER_ENGINEER ≤ k ∨
    targetDays e
      < (setInsertAll (mapGet server_to_days sc.2.2) (a.engineer_work_days.getD e [])).length ∨
    ∀ d ∈ mapGet server_to_days sc.2.2, d ∈ a.engineer_work_days.getD e []

/-- From `a` to `a1` the work-day set of engineer `e` and the set of assigned
servers do not shrink. -/
def Grows (e : Nat) (a a1 : Assign) : Prop :=
  (∀ d ∈ a.engineer_work_days.getD e [], d ∈ a1.engineer_work_days.getD e []) ∧
  ∀ j, a.server_assigned.getD j false = true → a1.server_assigned.getD j false = true

/-- From `a` to `a1` the rows and the work-day sets of the engineers other
than `e` stay as they are. -/
def Frame (e : Nat) (a a1 : Assign) : Prop :=
  ∀ e1, e1 ≠ e → rowOf a1.allocation e1 = rowOf a.allocation e1 ∧
    a1.engineer_work_days.getD e1 [] = a.engineer_work_days.getD e1 []

/-- The state in the turn of engineer `e` in Phase 1, with `k` servers
assigned in the turn: the row of `e` holds `k` servers, and
`engineer_work_days[e]` is the union of their day sets, at most the target. -/
def Basic (server_to_days : List (Int × List Nat)) (a : Assign) (k e : Nat) : Prop :=
  a.allocation.length = NUM_ENGINEERS ∧
  a.engineer_work_days.length = NUM_ENGINEERS ∧
  a.server_assigned.length = NUM_SERVERS ∧
  DaySet (a.engineer_work_days.getD e []) ∧
  (a.engineer_work_days.getD e []).length ≤ targetDays e ∧
  (rowOf a.allocation e).length = k ∧ k ≤ MAX_SERVERS_PER_ENGINEER ∧
  (∀ x ∈ rowOf a.allocation e, x ≠ -1) ∧
  ∀ d, d ∈ a.engineer_work_days.getD e [] ↔ d ∈ rowDays server_to_days a.allocation e

/-- Every slot of engineer `e` holds a server. -/
def Full (a : Assign) (e : Nat) : Prop :=
  ∀ i, i < MAX_SERVERS_PER_ENGINEER → slotOf a.allocation e i ≠ -1

/-- No unassigned server of `server_scores` can give engineer `e` a new day
without passing the target. -/
def Quiet (server_to_days : List (Int × List Nat)) (server_scores : List (Int × Int × Int))
    (a : Assign) (e : Nat) : Prop :=
  ∀ sc ∈ server_scores, a.server_assigned.getD sc.2.2.toNat false = false →
    targetDays e
      < (setInsertAll (mapGet server_to_days sc.2.2) (a.engineer_work_days.getD e [])).length ∨
    ∀ d ∈ mapGet server_to_days sc.2.2, d ∈ a.engineer_work_days.getD e []

/-- Engineer `e` after its turn of Phase 1: its work-day set is the union of
the day sets of its row, at most the target, and it is at the target, or the
row is full, or no unassigned server can help. -/
def Settled (server_to_days : List (Int × List Nat)) (server_scores : List (Int × Int × Int))
    (a : Assign) (e : Nat) : Prop :=
  DaySet (a.engineer_work_days.getD e []) ∧
  (a.engineer_work_days.getD e []).length ≤ targetDays e ∧
  (∀ d, d ∈ a.engineer_work_days.getD e [] ↔ d ∈ rowDays server_to_days a.allocation e) ∧
  ((a.engineer_work_days.getD e []).length = targetDays e ∨ Full a e ∨
    Quiet server_to_days server_scores a e)

/-- The state of Phase 1 after the turns of the engineers `0 .. n-1`: they
are settled and their rows are padded, the later rows and work-day sets are
empty. -/
def Phase1Inv (server_to_days : List (Int × List Nat)) (server_scores : List (Int × Int × Int))
    (n : Nat) (a : Assign) : Prop :=
  a.allocation.length = NUM_ENGINEERS ∧
  a.engineer_work_days.length = NUM_ENGINEERS ∧
  a.server_assigned.length = NUM_SERVERS ∧
  (∀ e, e < n → Settled server_to_days server_scores a e ∧
    (rowOf a.allocation e).length = MAX_SERVERS_PER_ENGINEER) ∧
  (∀ e, n ≤ e → rowOf a.allocation e = [] ∧ a.engineer_work_days.getD e [] = [])

/-- The state of Phase 2: the allocation has its shape and every engineer is
settled. -/
def Phase2Inv (server_to_days : List (Int × List Nat)) (server_scores : List (Int × Int × Int))
    (a : Assign) : Prop :=
  Shape NUM_ENGINEERS MAX_SERVERS_PER_ENGINEER a.allocation ∧
  a.engineer_work_days.length = NUM_ENGINEERS ∧
  ∀ e, e < NUM_ENGINEERS → Settled server_to_days server_scores a e

/-- The books of Phase 1 after the turns of the engineers `0 .. n-1`. -/
def phase1Upto (server_to_days : List (Int × List Nat)) (server_scores : List (Int × Int × Int))
    (n : Nat) : Assign :=
  (List.range n).foldl
    (fun a engineer =>
      let r := (assignLoop server_to_days engineer server_scores (a, 0)).1
      { r with allocation := r.allocation.set engineer (padRow (rowOf r.allocation engineer)) })
    { allocation := List.replicate NUM_ENGINEERS []
      server_assigned := List.replicate NUM_SERVERS false
      engineer_work_days := List.replicate NUM_ENGINEERS [] }

end MathematicalServerAllocationSolver


/-! ## Properties -/

theorem getLastD_cons_eq {α : Type} (x s : α) (l : List α) :
    (x :: l).getLastD s = l.getLastD x := by
  induction l generalizing x s with
  | nil => rfl
  | cons y ys ih => simp [List.getLastD, List.getLast_cons]

theorem getD_set_eq {α : Type} (l : List α) (i j : Nat) (v d : α) :
    (l.set i v).getD j d = if j = i ∧ i < l.length then v else l.getD j d := by
  simp only [List.getD_eq_getElem?_getD, List.getElem?_set]
  by_cases h : i = j
  · subst h
    by_cases h2 : i < l.length
    · simp [h2]
    · have h3 : l[i]? = none := List.getElem?_eq_none (by omega)
      simp [h2, h3]
  · have h' : ¬ j = i := fun h3 => h h3.symm
    simp [h, h']

theorem getD_set2 {α : Type} (m : List (List α)) (e i e' i' : Nat) (v d : α) :
    ((m.set e ((m.getD e []).set i v)).getD e' []).getD i' d
      = if e' = e ∧ i' = i ∧ e < m.length ∧ i < (m.getD e []).length then v
        else (m.getD e' []).getD i' d := by
  rw [getD_set_eq]
  by_cases h : e' = e ∧ e < m.length
  · rw [if_pos h, getD_set_eq]
    obtain ⟨h1, h2⟩ := h
    subst h1
    by_cases h3 : i' = i ∧ i < (m.getD e' []).length
    · rw [if_pos h3, if_pos ⟨rfl, h3.1, h2, h3.2⟩]
    · rw [if_neg h3, if_neg]
      intro h4; exact h3 ⟨h4.2.1, h4.2.2.2⟩
  · rw [if_neg h, if_neg]
    intro h4; exact h ⟨h4.1, h4.2.2.1⟩

theorem getD_mem_or_default {α : Type} (l : List α) (i : Nat) (d : α) :
    l.getD i d ∈ l ∨ l.getD i d = d := by
  rw [List.getD_eq_getElem?_getD]
  by_cases h : i < l.length
  · left
    rw [List.getElem?_eq_getElem h]
    exact List.getElem_mem h
  · right
    rw [List.getElem?_eq_none (by omega)]
    rfl

theorem shape_row_length {α : Type} {rows cols : Nat} {m : List (List α)}
    (h : Shape rows cols m) {e : Nat} (he : e < rows) : (m.getD e []).length = cols := by
  rw [List.getD_eq_getElem?_getD, List.getElem?_eq_getElem (by rw [h.1]; exact he)]
  exact h.2 _ (List.getElem_mem _)

theorem shape_set {α : Type} {rows cols : Nat} {m : List (List α)}
    (h : Shape rows cols m) (e : Nat) (r : List α) (hr : r.length = cols) :
    Shape rows cols (m.set e r) := by
  refine ⟨by rw [List.length_set]; exact h.1, ?_⟩
  intro x hx
  rcases List.mem_or_eq_of_mem_set hx with h1 | h1
  · exact h.2 x h1
  · rw [h1]; exact hr

theorem shape_set_row {α : Type} {rows cols : Nat} {m : List (List α)}
    (h : Shape rows cols m) (e i : Nat) (v : α) :
    Shape rows cols (m.set e ((m.getD e []).set i v)) := by
  by_cases he : e < rows
  · exact shape_set h e _ (by rw [List.length_set]; exact shape_row_length h he)
  · have : m.set e ((m.getD e []).set i v) = m := by
      apply List.set_eq_of_length_le
      rw [h.1]; omega
    rw [this]; exact h

theorem shape_replicate {α : Type} (rows cols : Nat) (v : α) :
    Shape rows cols (List.replicate rows (List.replicate cols v)) := by
  refine ⟨List.length_replicate _ _, ?_⟩
  intro r hr
  rw [List.eq_of_mem_replicate hr, List.length_replicate]

namespace ServerAllocationSolver

theorem worksOn_markWork (dw : List (List Bool)) (e d e' d' : Nat) :
    worksOn (markWork dw e d) e' d'
      = if e' = e ∧ d' = d ∧ e < dw.length ∧ d < (dw.getD e []).length then true
        else worksOn dw e' d' := by
  unfold worksOn markWork
  exact getD_set2 dw e d e' d' true false

theorem markStep_spec {rows cols : Nat} (ste : List Int) (day : Nat) (srv : List Int) :
    ∀ (dw : List (List Bool)), Shape rows cols dw →
      Shape rows cols (srv.foldl
        (fun dw server =>
          let engineer := ownerOf ste server
          if engineer ≠ -1 then markWork dw engineer.toNat day else dw) dw) ∧
      ∀ e d, (worksOn (srv.foldl
        (fun dw server =>
          let engineer := ownerOf ste server
          if engineer ≠ -1 then markWork dw engineer.toNat day else dw) dw) e d = true ↔
        (worksOn dw e d = true ∨ (d = day ∧ e < rows ∧ d < cols ∧
          ∃ s ∈ srv, ownerOf ste s ≠ -1 ∧ (ownerOf ste s).toNat = e))) := by
  induction srv with
  | nil => intro dw h; exact ⟨h, fun e d => by simp⟩
  | cons x xs ih =>
    intro dw h
    simp only [List.foldl_cons]
    by_cases hx : ownerOf ste x ≠ -1
    · simp only [hx, ne_eq, not_false_eq_true, if_true]
      have hs : Shape rows cols (markWork dw (ownerOf ste x).toNat day) :=
        shape_set_row h _ _ _
      obtain ⟨h1, h2⟩ := ih _ hs
      refine ⟨h1, fun e d => ?_⟩
      rw [h2 e d, worksOn_markWork]
      constructor
      · rintro (h3 | ⟨h3, h4, h5, s, hs1, hs2, hs3⟩)
        · split_ifs at h3 with h6
          · right
            obtain ⟨h7, h8, h9, h10⟩ := h6
            rw [h.1] at h9
            rw [shape_row_length h h9] at h10
            exact ⟨h8, by omega, by omega, x, List.mem_cons_self _ _, hx, h7.symm⟩
          · left; exact h3
        · right; exact ⟨h3, h4, h5, s, List.mem_cons_of_mem _ hs1, hs2, hs3⟩
      · rintro (h3 | ⟨h3, h4, h5, s, hs1, hs2, hs3⟩)
        · left
          split_ifs
          · rfl
          · exact h3
        · rcases List.mem_cons.mp hs1 with h6 | h6
          · left
            subst h6
            rw [if_pos]
            refine ⟨hs3.symm, h3, ?_, ?_⟩
            · rw [h.1, hs3]; exact h4
            · rw [hs3, shape_row_length h h4, ← h3]; exact h5
          · right; exact ⟨h3, h4, h5, s, h6, hs2, hs3⟩
    · have hx' : ownerOf ste x = -1 := by
        by_contra h9; exact hx h9
      simp only [hx', ne_eq, not_true_eq_false, if_false]
      obtain ⟨h1, h2⟩ := ih _ h
      refine ⟨h1, fun e d => ?_⟩
      rw [h2 e d]
      constructor
      · rintro (h3 | ⟨h3, h4, h5, s, hs1, hs2, hs3⟩)
        · left; exact h3
        · right; exact ⟨h3, h4, h5, s, List.mem_cons_of_mem _ hs1, hs2, hs3⟩
      · rintro (h3 | ⟨h3, h4, h5, s, hs1, hs2, hs3⟩)
        · left; exact h3
        · rcases List.mem_cons.mp hs1 with h6 | h6
          · subst h6; exact absurd hx' hs2
          · right; exact ⟨h3, h4, h5, s, h6, hs2, hs3⟩

theorem markDays_spec {rows cols : Nat} (daily_alarms : List (List Int)) (ste : List Int)
    (days : List Nat) :
    ∀ (dw : List (List Bool)), Shape rows cols dw →
      Shape rows cols (days.foldl
        (fun dw day =>
          (daily_alarms.getD day []).foldl
            (fun dw server =>
              let engineer := ownerOf ste server
              if engineer ≠ -1 then markWork dw engineer.toNat day else dw) dw) dw) ∧
      ∀ e d, (worksOn (days.foldl
        (fun dw day =>
          (daily_alarms.getD day []).foldl
            (fun dw server =>
              let engineer := ownerOf ste server
              if engineer ≠ -1 then markWork dw engineer.toNat day else dw) dw) dw) e d = true ↔
        (worksOn dw e d = true ∨ (d ∈ days ∧ e < rows ∧ d < cols ∧
          ∃ s ∈ daily_alarms.getD d [], ownerOf ste s ≠ -1 ∧ (ownerOf ste s).toNat = e))) := by
  induction days with
  | nil => intro dw h; exact ⟨h, fun e d => by simp⟩
  | cons x xs ih =>
    intro dw h
    simp only [List.foldl_cons]
    obtain ⟨hs, hw⟩ := markStep_spec ste x (daily_alarms.getD x []) dw h
    obtain ⟨h1, h2⟩ := ih _ hs
    refine ⟨h1, fun e d => ?_⟩
    rw [h2 e d, hw e d]
    constructor
    · rintro ((h3 | ⟨h3, h4, h5, h6⟩) | ⟨h3, h4, h5, h6⟩)
      · left; exact h3
      · right; subst h3; exact ⟨List.mem_cons_self _ _, h4, h5, h6⟩
      · right; exact ⟨List.mem_cons_of_mem _ h3, h4, h5, h6⟩
    · rintro (h3 | ⟨h3, h4, h5, h6⟩)
      · left; left; exact h3
      · rcases List.mem_cons.mp h3 with h7 | h7
        · left; right; subst h7; exact ⟨rfl, h4, h5, h6⟩
        · right; exact ⟨h7, h4, h5, h6⟩

theorem markAlarms_spec {rows cols : Nat} (daily_alarms : List (List Int)) (ste : List Int)
    (dw : List (List Bool)) (h : Shape rows cols dw) :
    Shape rows cols (markAlarms daily_alarms ste dw) ∧
    ∀ e d, (worksOn (markAlarms daily_alarms ste dw) e d = true ↔
      (worksOn dw e d = true ∨ (d < NUM_DAYS ∧ e < rows ∧ d < cols ∧
        ∃ s ∈ daily_alarms.getD d [], ownerOf ste s ≠ -1 ∧ (ownerOf ste s).toNat = e))) := by
  obtain ⟨h1, h2⟩ := markDays_spec daily_alarms ste (List.range NUM_DAYS) dw h
  refine ⟨h1, fun e d => ?_⟩
  unfold markAlarms
  rw [h2 e d, List.mem_range]

theorem optimizationLoop_eq_last (daily_alarms : List (List Int))
    (server_days : List (Int × List Nat)) (fuel : Nat) :
    ∀ (ers : List (Int × Int)) (ste : List Int) (solution : Solution),
      (optimizationLoop daily_alarms server_days fuel ers ste solution).1
        = (keptTrace daily_alarms server_days fuel ers ste solution).getLastD solution := by
  induction fuel with
  | zero => intro ers ste solution; rfl
  | succ n ih =>
    intro ers ste solution
    simp only [optimizationLoop, keptTrace]
    split_ifs <;> simp only [ih, getLastD_cons_eq] <;> rfl

theorem keptTrace_chain (daily_alarms : List (List Int))
    (server_days : List (Int × List Nat)) (fuel : Nat) :
    ∀ (ers : List (Int × Int)) (ste : List Int) (solution : Solution),
      List.Chain (fun a b => b.total_rest_days < a.total_rest_days ∧ b.valid = true) solution
        (keptTrace daily_alarms server_days fuel ers ste solution) := by
  induction fuel with
  | zero => intro ers ste solution; exact List.Chain.nil
  | succ n ih =>
    intro ers ste solution
    simp only [keptTrace]
    split_ifs with h1 h2 h3 h4
    · simp only [Bool.and_eq_true, decide_eq_true_eq] at h1
      exact List.Chain.cons ⟨h1.2, h1.1⟩ List.Chain.nil
    · simp only [Bool.and_eq_true, decide_eq_true_eq] at h1
      exact List.Chain.cons ⟨h1.2, h1.1⟩ List.Chain.nil
    · simp only [Bool.and_eq_true, decide_eq_true_eq] at h1
      exact List.Chain.cons ⟨h1.2, h1.1⟩ (ih _ _ _)
    · exact List.Chain.nil
    · exact ih _ _ _

theorem chain_last_le (l : List Solution) :
    ∀ (s : Solution),
      List.Chain (fun a b => b.total_rest_days < a.total_rest_days ∧ b.valid = true) s l →
      (l.getLastD s).total_rest_days ≤ s.total_rest_days := by
  induction l with
  | nil => intro s _; simp
  | cons x xs ih =>
    intro s h
    rw [List.chain_cons] at h
    have := ih x h.2
    rw [getLastD_cons_eq]
    omega

/-- C10. `constraintPropagationOptimization` returns the last solution it
kept (the one it was given when it kept none); every kept solution has a
strictly smaller `total_rest_days` than the solution it replaced and has
`valid` true; so the result never has a larger `total_rest_days` than the
argument. -/
theorem constraintPropagationOptimization_monotone (daily_alarms : List (List Int))
    (server_to_engineer : List Int) (solution : Solution) :
    (constraintPropagationOptimization daily_alarms server_to_engineer solution).1.total_rest_days
        ≤ solution.total_rest_days ∧
    List.Chain (fun a b => b.total_rest_days < a.total_rest_days ∧ b.valid = true) solution
        (keptSolutions daily_alarms server_to_engineer solution) ∧
    (constraintPropagationOptimization daily_alarms server_to_engineer solution).1
        = (keptSolutions daily_alarms server_to_engineer solution).getLastD solution := by
  have hlast : (constraintPropagationOptimization daily_alarms server_to_engineer solution).1
      = (keptSolutions daily_alarms server_to_engineer solution).getLastD solution := by
    unfold constraintPropagationOptimization keptSolutions
    split_ifs
    · rfl
    · exact optimizationLoop_eq_last _ _ _ _ _ _
  have hchain : List.Chain
      (fun a b => b.total_rest_days < a.total_rest_days ∧ b.valid = true) solution
      (keptSolutions daily_alarms server_to_engineer solution) := by
    unfold keptSolutions
    split_ifs
    · exact List.Chain.nil
    · exact keptTrace_chain _ _ _ _ _ _
  exact ⟨hlast ▸ chain_last_le _ _ hchain, hchain, hlast⟩

end ServerAllocationSolver

namespace ServerAllocationSolver

theorem worksOn_cleared (dw : List (List Bool)) (e d : Nat) :
    worksOn (dw.map (fun r => r.map (fun _ => false))) e d = false := by
  unfold worksOn
  rcases getD_mem_or_default (dw.map (fun r => r.map (fun _ => false))) e [] with h | h
  · obtain ⟨r, _, hr⟩ := List.mem_map.mp h
    rw [← hr]
    rcases getD_mem_or_default (r.map (fun _ => false)) d false with h2 | h2
    · obtain ⟨_, _, hb⟩ := List.mem_map.mp h2
      exact hb.symm
    · exact h2
  · rw [h]; rfl

theorem shape_cleared {rows cols : Nat} (dw : List (List Bool)) (h : Shape rows cols dw) :
    Shape rows cols (dw.map (fun r => r.map (fun _ => false))) := by
  refine ⟨by rw [List.length_map]; exact h.1, ?_⟩
  intro r hr
  obtain ⟨r', hr', rfl⟩ := List.mem_map.mp hr
  rw [List.length_map]
  exact h.2 r' hr'

/-- What `calculateDailyWork` stores: engineer `e` works on day `d` exactly
when `server_to_engineer` gives `e` one of the servers of `daily_alarms[d]`.
The rows of `solution.allocation` are not read. -/
theorem calculateDailyWork_daily_work (daily_alarms : List (List Int)) (ste : List Int)
    (solution : Solution) (h : Shape NUM_ENGINEERS NUM_DAYS solution.daily_work) (e d : Nat) :
    worksOn (calculateDailyWork daily_alarms ste solution).daily_work e d = true ↔
      (d < NUM_DAYS ∧ e < NUM_ENGINEERS ∧
        ∃ s ∈ daily_alarms.getD d [], ownerOf ste s ≠ -1 ∧ (ownerOf ste s).toNat = e) := by
  have h2 := (markAlarms_spec daily_alarms ste _ (shape_cleared _ h)).2 e d
  simp only [calculateDailyWork]
  rw [h2, worksOn_cleared]
  constructor
  · rintro (h3 | ⟨h3, h4, _, h6⟩)
    · exact absurd h3 (by simp)
    · exact ⟨h3, h4, h6⟩
  · rintro ⟨h3, h4, h6⟩
    exact Or.inr ⟨h3, h4, h3, h6⟩

theorem calculateDailyWork_shape (daily_alarms : List (List Int)) (ste : List Int)
    (solution : Solution) (h : Shape NUM_ENGINEERS NUM_DAYS solution.daily_work) :
    Shape NUM_ENGINEERS NUM_DAYS (calculateDailyWork daily_alarms ste solution).daily_work :=
  (markAlarms_spec daily_alarms ste _ (shape_cleared _ h)).1

/-- The flag `valid` of `calculateDailyWork` and the work days below 14. -/
theorem calculateDailyWork_valid_spec (daily_alarms : List (List Int)) (ste : List Int)
    (solution : Solution) :
    (calculateDailyWork daily_alarms ste solution).valid = true ↔
      ∀ e, e < NUM_ENGINEERS → ∃ d, d < FIRST_14_DAYS ∧
        worksOn (calculateDailyWork daily_alarms ste solution).daily_work e d = true := by
  simp only [calculateDailyWork, List.all_eq_true, List.mem_range, worksInFirst14,
    List.any_eq_true, Bool.and_eq_true, decide_eq_true_eq]
  constructor
  · intro h e he
    obtain ⟨d, _, h2, h3⟩ := h e he
    exact ⟨d, h3, h2⟩
  · intro h e he
    obtain ⟨d, h2, h3⟩ := h e he
    exact ⟨d, by unfold FIRST_14_DAYS at h2; unfold NUM_DAYS; omega, h3, h2⟩

/-- C7, as amended. The flag `valid` that `calculateDailyWork` computes is
true exactly when every engineer has a work day among days 0..13 in the
`daily_work` it stores; `total_rest_days` does not enter the flag. -/
theorem calculateDailyWork_valid_iff (daily_alarms : List (List Int)) (ste : List Int)
    (solution : Solution) :
    (calculateDailyWork daily_alarms ste solution).valid = true ↔
      ∀ e, e < NUM_ENGINEERS → ∃ d, d < FIRST_14_DAYS ∧
        worksOn (calculateDailyWork daily_alarms ste solution).daily_work e d = true :=
  calculateDailyWork_valid_spec daily_alarms ste solution

end ServerAllocationSolver

/-! ### Containers -/

theorem mem_insertBy {α : Type} (comp : α → α → Bool) (x y : α) (l : List α) :
    y ∈ insertBy comp x l ↔ y = x ∨ y ∈ l := by
  induction l with
  | nil => simp [insertBy]
  | cons z zs ih =>
    simp only [insertBy]
    split_ifs
    · simp only [List.mem_cons, ih]
      tauto
    · simp only [List.mem_cons]

theorem mem_sortBy {α : Type} (comp : α → α → Bool) (y : α) (l : List α) :
    y ∈ sortBy comp l ↔ y ∈ l := by
  induction l with
  | nil => simp [sortBy]
  | cons z zs ih =>
    have h : sortBy comp (z :: zs) = insertBy comp z (sortBy comp zs) := rfl
    rw [h, mem_insertBy, ih, List.mem_cons]

theorem mem_setInsert {α : Type} [LT α] [DecidableRel (fun (a b : α) => a < b)] [DecidableEq α]
    (x y : α) (l : List α) : y ∈ setInsert x l ↔ y = x ∨ y ∈ l := by
  induction l with
  | nil => simp [setInsert]
  | cons z zs ih =>
    simp only [setInsert]
    split_ifs with h1 h2
    · simp only [List.mem_cons]
    · subst h2
      simp only [List.mem_cons]
      tauto
    · simp only [List.mem_cons, ih]
      tauto

theorem mem_setInsertAll {α : Type} [LT α] [DecidableRel (fun (a b : α) => a < b)]
    [DecidableEq α] (xs : List α) (y : α) :
    ∀ s : List α, y ∈ setInsertAll xs s ↔ y ∈ xs ∨ y ∈ s := by
  induction xs with
  | nil => intro s; simp [setInsertAll]
  | cons z zs ih =>
    intro s
    have h : setInsertAll (z :: zs) s = setInsertAll zs (setInsert z s) := rfl
    rw [h, ih, mem_setInsert, List.mem_cons]
    tauto

theorem mem_keys_mapPush (k : Int) (d : Nat) (x : Int) (m : List (Int × List Nat)) :
    x ∈ (mapPush k d m).map Prod.fst ↔ x = k ∨ x ∈ m.map Prod.fst := by
  induction m with
  | nil => simp [mapPush]
  | cons kv rest ih =>
    obtain ⟨k', ds⟩ := kv
    simp only [mapPush]
    split_ifs with h1 h2
    · simp only [List.map_cons, List.mem_cons]
    · subst h2
      simp only [List.map_cons, List.mem_cons]
      tauto
    · simp only [List.map_cons, List.mem_cons, ih]
      tauto

/-- Server `s` occurs in the alarm table. -/
theorem occurs_of_mem_getD {daily_alarms : List (List Int)} {day : Nat} {s : Int}
    (h : s ∈ daily_alarms.getD day []) : ∃ l ∈ daily_alarms, s ∈ l := by
  rcases getD_mem_or_default daily_alarms day [] with h1 | h1
  · exact ⟨_, h1, h⟩
  · rw [h1] at h; exact absurd h (List.not_mem_nil _)

theorem zip_fst_sublist {α β : Type} (l1 : List α) :
    ∀ l2 : List β, ((l1.zip l2).map Prod.fst).Sublist l1 := by
  induction l1 with
  | nil => intro l2; simp
  | cons a as ih =>
    intro l2
    cases l2 with
    | nil => simp
    | cons b bs =>
      simp only [List.zip_cons_cons, List.map_cons]
      exact List.Sublist.cons₂ a (ih bs)

theorem mem_zip_snd {α β : Type} {l1 : List α} {l2 : List β} {p : α × β}
    (h : p ∈ l1.zip l2) : p.2 ∈ l2 :=
  (List.of_mem_zip h).2

theorem getD_replicate_eq {α : Type} (n i : Nat) (v : α) : (List.replicate n v).getD i v = v := by
  rcases getD_mem_or_default (List.replicate n v) i v with h | h
  · exact List.eq_of_mem_replicate h
  · exact h

namespace ServerAllocationSolver

theorem keys_foldl_mapPush (day : Nat) (srv : List Int) (x : Int) :
    ∀ m : List (Int × List Nat),
      x ∈ (srv.foldl (fun m server => mapPush server day m) m).map Prod.fst →
        x ∈ srv ∨ x ∈ m.map Prod.fst := by
  induction srv with
  | nil => intro m h; exact Or.inr h
  | cons s ss ih =>
    intro m h
    simp only [List.foldl_cons] at h
    rcases ih _ h with h1 | h1
    · exact Or.inl (List.mem_cons_of_mem _ h1)
    · rcases (mem_keys_mapPush s day x m).mp h1 with h2 | h2
      · exact Or.inl (h2 ▸ List.mem_cons_self _ _)
      · exact Or.inr h2

theorem keys_foldl_days (daily_alarms : List (List Int)) (days : List Nat) (x : Int) :
    ∀ m : List (Int × List Nat),
      x ∈ (days.foldl
        (fun m day => (daily_alarms.getD day []).foldl (fun m server => mapPush server day m) m)
        m).map Prod.fst →
        (∃ l ∈ daily_alarms, x ∈ l) ∨ x ∈ m.map Prod.fst := by
  induction days with
  | nil => intro m h; exact Or.inr h
  | cons d ds ih =>
    intro m h
    simp only [List.foldl_cons] at h
    rcases ih _ h with h1 | h1
    · exact Or.inl h1
    · rcases keys_foldl_mapPush d _ x m h1 with h2 | h2
      · exact Or.inl (occurs_of_mem_getD h2)
      · exact Or.inr h2

theorem keys_buildServerDays {daily_alarms : List (List Int)} {x : Int}
    (h : x ∈ (buildServerDays daily_alarms).map Prod.fst) : ∃ l ∈ daily_alarms, x ∈ l := by
  rcases keys_foldl_days daily_alarms (List.range NUM_DAYS) x [] h with h1 | h1
  · exact h1
  · simp at h1

theorem mem_first14_foldl (daily_alarms : List (List Int)) (days : List Nat) (x : Int) :
    ∀ acc : List Int,
      x ∈ days.foldl (fun acc day => setInsertAll (daily_alarms.getD day []) acc) acc →
        (∃ l ∈ daily_alarms, x ∈ l) ∨ x ∈ acc := by
  induction days with
  | nil => intro acc h; exact Or.inr h
  | cons d ds ih =>
    intro acc h
    simp only [List.foldl_cons] at h
    rcases ih _ h with h1 | h1
    · exact Or.inl h1
    · rcases (mem_setInsertAll _ x acc).mp h1 with h2 | h2
      · exact Or.inl (occurs_of_mem_getD h2)
      · exact Or.inr h2

theorem mem_first14List {daily_alarms : List (List Int)} {x : Int}
    (h : x ∈ first14List daily_alarms) : ∃ l ∈ daily_alarms, x ∈ l := by
  rcases mem_first14_foldl daily_alarms (List.range 14) x [] h with h1 | h1
  · exact h1
  · simp at h1

end ServerAllocationSolver

namespace ServerAllocationSolver

theorem rowOf_pushSlot (a : List (List Int)) (e e' : Nat) (v : Int) :
    rowOf (pushSlot a e v) e' = if e' = e ∧ e < a.length then rowOf a e ++ [v] else rowOf a e' := by
  unfold rowOf pushSlot
  exact getD_set_eq a e e' _ []

theorem allocInv_assign {P : Int → Prop} {st : AllocState}
    (h : AllocInv P st) (engineer : Nat) (server : Int)
    (hload : st.engineer_load.getD engineer 0 < MAX_SERVERS_PER_ENGINEER)
    (hs : P server) :
    AllocInv P (assignServer st engineer server) := by
  obtain ⟨h1, h2, h3⟩ := h
  refine ⟨?_, ?_, ?_⟩
  · simp only [assignServer, pushSlot, List.length_set]; exact h1
  · simp only [assignServer, List.length_set]; exact h2
  · intro e
    simp only [assignServer]
    rw [rowOf_pushSlot, getD_set_eq]
    by_cases he : e = engineer ∧ engineer < NUM_ENGINEERS
    · have he1 : e = engineer ∧ engineer < st.allocation.length := by rw [h1]; exact he
      have he2 : e = engineer ∧ engineer < st.engineer_load.length := by rw [h2]; exact he
      rw [if_pos he1, if_pos he2]
      obtain ⟨h4, h5, h6⟩ := h3 engineer
      refine ⟨by rw [List.length_append, h4]; rfl, by omega, ?_⟩
      intro s hs'
      rcases List.mem_append.mp hs' with h7 | h7
      · exact h6 s h7
      · rw [List.mem_singleton] at h7; rw [h7]; exact hs
    · have he1 : ¬ (e = engineer ∧ engineer < st.allocation.length) := by rw [h1]; exact he
      have he2 : ¬ (e = engineer ∧ engineer < st.engineer_load.length) := by rw [h2]; exact he
      rw [if_neg he1, if_neg he2]
      exact h3 e

theorem load_assign_ne (st : AllocState) (engineer e : Nat) (server : Int) (h : e ≠ engineer) :
    (assignServer st engineer server).engineer_load.getD e 0 = st.engineer_load.getD e 0 := by
  simp only [assignServer]
  rw [getD_set_eq, if_neg]
  intro h2; exact h h2.1

theorem allocInv_foldl_assign {P : Int → Prop} (ps : List (Nat × Int)) :
    ∀ st : AllocState, AllocInv P st →
      (ps.map Prod.fst).Nodup →
      (∀ p ∈ ps, st.engineer_load.getD p.1 0 = 0) →
      (∀ p ∈ ps, P p.2) →
      AllocInv P (ps.foldl (fun st es => assignServer st es.1 es.2) st) := by
  induction ps with
  | nil => intro st h _ _ _; exact h
  | cons p ps ih =>
    intro st h hnd hz ho
    simp only [List.foldl_cons]
    rw [List.map_cons, List.nodup_cons] at hnd
    apply ih
    · apply allocInv_assign h
      · rw [hz p (List.mem_cons_self _ _)]; decide
      · exact ho p (List.mem_cons_self _ _)
    · exact hnd.2
    · intro q hq
      rw [load_assign_ne, hz q (List.mem_cons_of_mem _ hq)]
      intro h2
      exact hnd.1 (h2 ▸ List.mem_map_of_mem Prod.fst hq)
    · intro q hq; exact ho q (List.mem_cons_of_mem _ hq)

theorem allocInv_phase1 {P : Int → Prop} (first_14_list : List Int)
    (hP : ∀ s ∈ first_14_list, P s) :
    AllocInv P (phase1 first_14_list) := by
  unfold phase1
  apply allocInv_foldl_assign
  · refine ⟨List.length_replicate _ _, List.length_replicate _ _, ?_⟩
    intro e
    have h1 : rowOf (List.replicate NUM_ENGINEERS ([] : List Int)) e = [] := by
      unfold rowOf; exact getD_replicate_eq _ _ _
    have h2 : (List.replicate NUM_ENGINEERS 0).getD e 0 = 0 := getD_replicate_eq _ _ _
    rw [h1, h2]
    exact ⟨rfl, Nat.zero_le _, fun s hs => absurd hs (List.not_mem_nil _)⟩
  · exact (List.nodup_range _).sublist (zip_fst_sublist _ _)
  · intro p _; exact getD_replicate_eq _ _ _
  · intro p hp; exact hP _ (mem_zip_snd hp)

theorem foldl_fst_cases {β : Type} (f : Int × Nat → β → Int × Nat) (key : β → Int)
    (hf : ∀ b x, (f b x).1 = b.1 ∨ (f b x).1 = key x) (l : List β) :
    ∀ init : Int × Nat,
      (l.foldl f init).1 = init.1 ∨ ∃ x ∈ l, key x = (l.foldl f init).1 := by
  induction l with
  | nil => intro init; exact Or.inl rfl
  | cons x xs ih =>
    intro init
    simp only [List.foldl_cons]
    rcases ih (f init x) with h | ⟨y, hy, h⟩
    · rcases hf init x with h2 | h2
      · exact Or.inl (h.trans h2)
      · exact Or.inr ⟨x, List.mem_cons_self _ _, (h.trans h2).symm⟩
    · exact Or.inr ⟨y, List.mem_cons_of_mem _ hy, h⟩

theorem bestServer_fst (server_days : List (Int × List Nat)) (ste : List Int) (work : List Nat)
    (sc : List (Int × Nat)) :
    (bestServer server_days sc ste work).1 = -1 ∨
      ∃ x ∈ sc, x.1 = (bestServer server_days sc ste work).1 := by
  unfold bestServer
  apply foldl_fst_cases _ (fun x : Int × Nat => x.1)
  intro b x
  simp only
  split_ifs
  · exact Or.inl rfl
  · exact Or.inr rfl
  · exact Or.inl rfl

theorem bestServer_occurs {P : Int → Prop} {server_days : List (Int × List Nat)}
    {sc : List (Int × Nat)} {ste : List Int} {work : List Nat}
    (hsc : ∀ x ∈ sc, P x.1)
    (h : (bestServer server_days sc ste work).1 ≠ -1) :
    P (bestServer server_days sc ste work).1 := by
  rcases bestServer_fst server_days ste work sc with h1 | ⟨x, hx, h1⟩
  · exact absurd h1 h
  · rw [← h1]
    exact hsc x hx

theorem allocInv_passStep {P : Int → Prop} {server_days : List (Int × List Nat)}
    {sc : List (Int × Nat)} (hsc : ∀ x ∈ sc, P x.1)
    (work_days : List (List Nat)) (acc : AllocState × Bool) (de : Int × Int)
    (h : AllocInv P acc.1) :
    AllocInv P (passStep server_days sc work_days acc de).1 := by
  unfold passStep
  simp only
  split_ifs with h1 h2
  · exact h
  · simp only [Bool.and_eq_true, decide_eq_true_eq, bne_iff_ne, ne_eq,
      Bool.not_eq_true', decide_eq_false_iff_not] at h2
    apply allocInv_assign h
    · omega
    · exact bestServer_occurs hsc (by simpa using h2.1)
  · exact h

theorem allocInv_phase2Pass {P : Int → Prop} {server_days : List (Int × List Nat)}
    {sc : List (Int × Nat)} (hsc : ∀ x ∈ sc, P x.1)
    (st : AllocState) (h : AllocInv P st) :
    AllocInv P (phase2Pass server_days sc st).1 := by
  unfold phase2Pass
  simp only
  generalize engineerDeficit _ st.engineer_load = des
  have key : ∀ (des : List (Int × Int)) (acc : AllocState × Bool),
      AllocInv P acc.1 →
      AllocInv P (des.foldl (passStep server_days sc
        ((List.range NUM_ENGINEERS).map
          (engineerWorkDays server_days st.allocation))) acc).1 := by
    intro des
    induction des with
    | nil => intro acc hacc; exact hacc
    | cons d ds ih =>
      intro acc hacc
      simp only [List.foldl_cons]
      exact ih _ (allocInv_passStep hsc _ acc d hacc)
  exact key des (st, false) h

theorem allocInv_phase2Loop {P : Int → Prop} {server_days : List (Int × List Nat)}
    {sc : List (Int × Nat)} (hsc : ∀ x ∈ sc, P x.1) (fuel : Nat) :
    ∀ st : AllocState, AllocInv P st →
      AllocInv P (phase2Loop server_days sc fuel st) := by
  induction fuel with
  | zero => intro st h; exact h
  | succ n ih =>
    intro st h
    simp only [phase2Loop]
    split_ifs
    · exact ih _ (allocInv_phase2Pass hsc st h)
    · exact allocInv_phase2Pass hsc st h

/-- The rows of the assignment loops, whatever order the sort gives to
`server_coverage`. -/
theorem allocInv_optimalAssign_rows (sort : List (Int × Nat) → List (Int × Nat))
    (daily_alarms : List (List Int)) :
    AllocInv (fun _ => True) (optimalAssign sort daily_alarms) := by
  unfold optimalAssign
  exact allocInv_phase2Loop (fun _ _ => trivial) 1000 _
    (allocInv_phase1 _ (fun _ _ => trivial))

/-- The rows of the assignment loops hold servers of the alarm table when
the sort returns the entries it is given. -/
theorem allocInv_optimalAssign (sort : List (Int × Nat) → List (Int × Nat))
    (hsort : StdSort coverageBefore sort) (daily_alarms : List (List Int)) :
    AllocInv (fun s => ∃ l ∈ daily_alarms, s ∈ l) (optimalAssign sort daily_alarms) := by
  unfold optimalAssign
  refine allocInv_phase2Loop ?_ 1000 _ (allocInv_phase1 _ (fun s hs => mem_first14List hs))
  intro x hx
  apply keys_buildServerDays
  unfold serverCoverage at hx
  have hx2 := (hsort _).1.subset hx
  obtain ⟨kv, hkv, rfl⟩ := List.mem_map.mp hx2
  exact List.mem_map_of_mem Prod.fst (List.mem_of_mem_filter hkv)

theorem mem_rowOf {a : List (List Int)} {row : List Int} (h : row ∈ a) :
    ∃ e, e < a.length ∧ rowOf a e = row := by
  obtain ⟨e, he, h2⟩ := List.mem_iff_getElem.mp h
  refine ⟨e, he, ?_⟩
  unfold rowOf
  rw [List.getD_eq_getElem?_getD, List.getElem?_eq_getElem he, ← h2]
  rfl

theorem saveSolution_eq (solution : Solution)
    (h : Shape NUM_ENGINEERS MAX_SERVERS_PER_ENGINEER solution.allocation) :
    saveSolution solution = solution.allocation := by
  unfold saveSolution
  apply List.ext_getElem
  · rw [List.length_map, List.length_range, h.1]
  · intro e h1 h2
    rw [List.getElem_map, List.getElem_range]
    have hrow : solution.allocation[e].length = MAX_SERVERS_PER_ENGINEER :=
      h.2 _ (List.getElem_mem _)
    apply List.ext_getElem
    · rw [List.length_map, List.length_range, hrow]
    · intro i h3 h4
      rw [List.getElem_map, List.getElem_range]
      simp [slotOf, rowOf, List.getD_eq_getElem?_getD, List.getElem?_eq_getElem h2,
        List.getElem?_eq_getElem h4]

/-- The allocation that `optimalWorkDaysAllocation` returns has 336 rows of
5 entries, whatever order the sort gives to `server_coverage`. -/
theorem optimalWorkDaysAllocation_shape (sort : List (Int × Nat) → List (Int × Nat))
    (daily_alarms : List (List Int)) :
    Shape NUM_ENGINEERS MAX_SERVERS_PER_ENGINEER
      (optimalWorkDaysAllocation sort daily_alarms).1.allocation := by
  obtain ⟨h1, _, h3⟩ := allocInv_optimalAssign_rows sort daily_alarms
  have halloc : (optimalWorkDaysAllocation sort daily_alarms).1.allocation
      = (optimalAssign sort daily_alarms).allocation.map padRow := rfl
  rw [halloc]
  refine ⟨by rw [List.length_map]; exact h1, ?_⟩
  intro r hr
  obtain ⟨r', hr', rfl⟩ := List.mem_map.mp hr
  obtain ⟨e, _, he⟩ := mem_rowOf hr'
  obtain ⟨h4, h5, _⟩ := h3 e
  unfold padRow
  rw [List.length_append, List.length_replicate, ← he, h4]
  omega

/-- C2. For every sorting function with the guarantee of `std::sort`: in the
solution that `optimalWorkDaysAllocation` returns there are 336 rows of
exactly `MAX_SERVERS_PER_ENGINEER` entries, every entry is -1 or a server of
the alarm table, no row holds more than 5 servers, and `saveSolution` writes
the rows as they are, 5 integers for each engineer. -/
theorem optimalWorkDaysAllocation_rows (sort : List (Int × Nat) → List (Int × Nat))
    (daily_alarms : List (List Int)) (hsort : StdSort coverageBefore sort) :
    Shape NUM_ENGINEERS MAX_SERVERS_PER_ENGINEER
        (optimalWorkDaysAllocation sort daily_alarms).1.allocation ∧
      (∀ row ∈ (optimalWorkDaysAllocation sort daily_alarms).1.allocation,
        ∀ s ∈ row, s = -1 ∨ ∃ l ∈ daily_alarms, s ∈ l) ∧
      (∀ row ∈ (optimalWorkDaysAllocation sort daily_alarms).1.allocation,
        (row.filter (fun s => s ≠ -1)).length ≤ 5) ∧
      saveSolution (optimalWorkDaysAllocation sort daily_alarms).1
        = (optimalWorkDaysAllocation sort daily_alarms).1.allocation ∧
      ∀ line ∈ saveSolution (optimalWorkDaysAllocation sort daily_alarms).1,
        line.length = 5 := by
  obtain ⟨h1, h2, h3⟩ := allocInv_optimalAssign sort hsort daily_alarms
  have halloc : (optimalWorkDaysAllocation sort daily_alarms).1.allocation
      = (optimalAssign sort daily_alarms).allocation.map padRow := rfl
  have hshape := optimalWorkDaysAllocation_shape sort daily_alarms
  have hsave := saveSolution_eq _ hshape
  refine ⟨hshape, ?_, ?_, hsave, ?_⟩
  · intro row hrow s hs
    rw [halloc] at hrow
    obtain ⟨r', hr', rfl⟩ := List.mem_map.mp hrow
    obtain ⟨e, _, he⟩ := mem_rowOf hr'
    unfold padRow at hs
    rcases List.mem_append.mp hs with h4 | h4
    · right; exact (h3 e).2.2 s (he ▸ h4)
    · left; exact List.eq_of_mem_replicate h4
  · intro row hrow
    have := hshape.2 row hrow
    have h4 := List.length_filter_le (fun s => decide (s ≠ -1)) row
    unfold MAX_SERVERS_PER_ENGINEER at this
    omega
  · intro line hline
    rw [hsave] at hline
    exact hshape.2 line hline

end ServerAllocationSolver

theorem shape_set_same_length {α : Type} {rows cols : Nat} {m : List (List α)}
    (h : Shape rows cols m) (e : Nat) (r : List α) (hr : r.length = (m.getD e []).length) :
    Shape rows cols (m.set e r) := by
  by_cases he : e < rows
  · exact shape_set h e _ (by rw [hr]; exact shape_row_length h he)
  · have : m.set e r = m := by
      apply List.set_eq_of_length_le
      rw [h.1]; omega
    rw [this]; exact h

namespace ServerAllocationSolver

theorem length_replaceFirst (a b : Int) (l : List Int) :
    (replaceFirst a b l).length = l.length := by
  induction l with
  | nil => rfl
  | cons x xs ih =>
    simp only [replaceFirst]
    split_ifs
    · rfl
    · simp only [List.length_cons, ih]

theorem shape_reassign {rows cols : Nat} (st : MoveState) (current_owner engineer : Nat)
    (server : Int) (h : Shape rows cols st.allocation) :
    Shape rows cols (reassign st current_owner engineer server).allocation := by
  have h1 : Shape rows cols (st.allocation.set current_owner
      (replaceFirst server (-1) (rowOf st.allocation current_owner))) :=
    shape_set_same_length h _ _ (length_replaceFirst _ _ _)
  unfold reassign
  simp only
  split_ifs
  · exact shape_set_same_length h1 _ _ (length_replaceFirst _ _ _)
  · exact h1

theorem shape_reallocLoop {rows cols : Nat} (server_days : List (Int × List Nat))
    (daily_work : List (List Bool)) (engineer : Nat) (gains : List (Int × Int)) :
    ∀ st : MoveState, Shape rows cols st.allocation →
      Shape rows cols (reallocLoop server_days daily_work engineer gains st).allocation := by
  induction gains with
  | nil => intro st h; exact h
  | cons g gs ih =>
    intro st h
    obtain ⟨gain, server⟩ := g
    simp only [reallocLoop]
    split_ifs
    · exact h
    · exact ih st h
    · exact ih st h
    · exact ih _ (shape_reassign st _ _ _ h)
    · exact ih st h

theorem shape_swapLoop {rows cols : Nat} (daily_alarms : List (List Int))
    (daily_work : List (List Bool)) (engineer1 engineer2 : Nat) (pairs : List (Nat × Nat)) :
    ∀ st : MoveState, Shape rows cols st.allocation →
      Shape rows cols
        (swapLoop daily_alarms daily_work engineer1 engineer2 pairs st).allocation := by
  induction pairs with
  | nil => intro st h; exact h
  | cons p ps ih =>
    intro st h
    obtain ⟨i, j⟩ := p
    have h2 : Shape rows cols (setSlot (setSlot st.allocation engineer1 i
        (slotOf st.allocation engineer2 j)) engineer2 j (slotOf st.allocation engineer1 i)) :=
      shape_set_row (shape_set_row h _ _ _) _ _ _
    simp only [swapLoop]
    split_ifs
    all_goals first
      | exact ih st h
      | exact h2
      | exact ih _ (shape_set_row (shape_set_row h2 _ _ _) _ _ _)

theorem shape_swapWithOthers {rows cols : Nat} (daily_alarms : List (List Int))
    (daily_work : List (List Bool)) (engineer : Nat) (others : List (Int × Int)) :
    ∀ st : MoveState, Shape rows cols st.allocation →
      Shape rows cols
        (swapWithOthers daily_alarms daily_work engineer others st).allocation := by
  unfold swapWithOthers
  induction others with
  | nil => intro st h; exact h
  | cons o os ih =>
    intro st h
    simp only [List.foldl_cons]
    apply ih
    exact shape_swapLoop daily_alarms daily_work engineer o.2.toNat slotPairs st h

theorem shape_processEngineers {rows cols : Nat} (daily_alarms : List (List Int))
    (server_days : List (Int × List Nat)) (daily_work : List (List Bool))
    (ers : List (Int × Int)) (todo : List (Nat × (Int × Int))) :
    ∀ st : MoveState, Shape rows cols st.allocation →
      Shape rows cols
        (processEngineers daily_alarms server_days daily_work ers todo st).allocation := by
  induction todo with
  | nil => intro st h; exact h
  | cons t ts ih =>
    intro st h
    obtain ⟨i, current_rest, engineer⟩ := t
    simp only [processEngineers]
    split_ifs
    · exact h
    · apply ih
      apply shape_swapWithOthers
      exact shape_reallocLoop server_days daily_work engineer.toNat _ _ h

theorem complete_iterationMoves (daily_alarms : List (List Int))
    (server_days : List (Int × List Nat)) (ers : List (Int × Int)) (ste : List Int)
    (solution : Solution) (h : Complete solution) :
    Complete (iterationMoves daily_alarms server_days ers ste solution).1 := by
  refine ⟨?_, rfl⟩
  exact shape_processEngineers daily_alarms server_days solution.daily_work ers _ _ h.1

theorem complete_optimizationLoop (daily_alarms : List (List Int))
    (server_days : List (Int × List Nat)) (fuel : Nat) :
    ∀ (ers : List (Int × Int)) (ste : List Int) (solution : Solution), Complete solution →
      Complete (optimizationLoop daily_alarms server_days fuel ers ste solution).1 := by
  induction fuel with
  | zero => intro ers ste solution h; exact h
  | succ n ih =>
    intro ers ste solution h
    have h1 := complete_iterationMoves daily_alarms server_days ers ste solution h
    simp only [optimizationLoop]
    split_ifs
    · exact h1
    · exact h1
    · exact ih _ _ _ h1
    · exact h
    · exact ih _ _ _ h

theorem complete_initial (sort : List (Int × Nat) → List (Int × Nat))
    (daily_alarms : List (List Int)) :
    Complete (optimalWorkDaysAllocation sort daily_alarms).1 :=
  ⟨optimalWorkDaysAllocation_shape sort daily_alarms, rfl⟩

/-- When the allocation of `optimalWorkDaysAllocation` is flagged invalid,
`solve` returns the default `Solution`. -/
theorem solve_default_of_initial (sort : List (Int × Nat) → List (Int × Nat))
    (daily_alarms : List (List Int))
    (h : (optimalWorkDaysAllocation sort daily_alarms).1.valid = false) :
    solve sort daily_alarms = Solution.init := by
  unfold solve
  simp only [h, Bool.not_false, if_true]

/-- C8, as amended, for every sorting function that `optimalWorkDaysAllocation`
may be run with, whatever order it gives to `server_coverage`. When the
allocation of `optimalWorkDaysAllocation` is flagged valid, `solve` returns a
solution flagged valid with one row for each engineer, exactly
`MAX_SERVERS_PER_ENGINEER` slots in each row, and `total_rest_days` equal to
the number of rest entries of its `daily_work`; when it is flagged invalid,
`solve` returns the default `Solution`: 336 rows without a slot,
`total_rest_days` 0, `valid` false. -/
theorem solve_complete_or_default (sort : List (Int × Nat) → List (Int × Nat))
    (daily_alarms : List (List Int)) :
    ((optimalWorkDaysAllocation sort daily_alarms).1.valid = true →
      Complete (solve sort daily_alarms) ∧ (solve sort daily_alarms).valid = true) ∧
    ((optimalWorkDaysAllocation sort daily_alarms).1.valid = false →
      solve sort daily_alarms = Solution.init ∧
      Solution.init.allocation = List.replicate NUM_ENGINEERS [] ∧
      Solution.init.total_rest_days = 0 ∧ Solution.init.valid = false) := by
  constructor
  · intro h
    unfold solve
    simp only [h, Bool.not_true, Bool.false_eq_true, if_false]
    split_ifs with h1 h2
    · refine ⟨?_, h2⟩
      unfold constraintPropagationOptimization
      split_ifs
      · exact complete_initial sort daily_alarms
      · exact complete_optimizationLoop _ _ _ _ _ _ (complete_initial sort daily_alarms)
    · exact ⟨complete_initial sort daily_alarms, h⟩
    · exact ⟨complete_initial sort daily_alarms, h⟩
  · intro h
    refine ⟨?_, rfl, rfl, rfl⟩
    unfold solve
    simp only [h, Bool.not_false, if_true]

end ServerAllocationSolver

theorem getD_emptyAlarms (day : Nat) : emptyAlarms.getD day [] = [] := by
  unfold emptyAlarms
  exact getD_replicate_eq _ _ _

theorem scanRow_emptyAlarms (num_days : Nat) (servers : List Int) (row : List Bool) :
    scanRow emptyAlarms num_days servers row = row.map (fun _ => false) := by
  unfold scanRow
  generalize row.map (fun _ => false) = r
  induction servers generalizing r with
  | nil => rfl
  | cons s ss ih =>
    simp only [List.foldl_cons]
    split_ifs
    · exact ih r
    · have h : ∀ (days : List Nat) (r : List Bool),
          days.foldl (fun r day =>
            if (emptyAlarms.getD day []).contains s then r.set day true else r) r = r := by
        intro days
        induction days with
        | nil => intro r; rfl
        | cons d ds ihd =>
          intro r
          simp only [List.foldl_cons, getD_emptyAlarms, List.contains_nil, Bool.false_eq_true,
            if_false]
          simpa only [getD_emptyAlarms, List.contains_nil, Bool.false_eq_true, if_false]
            using ihd r
      rw [h]
      exact ih r

theorem worksOn_scan_emptyAlarms (n m : Nat) (dw0 : List (List Bool)) (a : List (List Int))
    (h0 : ∀ r ∈ dw0, ∀ b ∈ r, b = false) (e d : Nat) :
    worksOn ((dw0.enum).map
      (fun er => if er.1 < n then scanRow emptyAlarms m (rowOf a er.1) er.2 else er.2)) e d
      = false := by
  unfold worksOn
  rcases getD_mem_or_default ((dw0.enum).map
      (fun er => if er.1 < n then scanRow emptyAlarms m (rowOf a er.1) er.2 else er.2)) e []
    with h | h
  · obtain ⟨er, her, hr⟩ := List.mem_map.mp h
    rw [← hr]
    have hmem : er.2 ∈ dw0 := by
      obtain ⟨i, x⟩ := er
      obtain ⟨hi, hx⟩ := List.mem_enum her
      exact hx ▸ List.getElem_mem hi
    split_ifs
    · rw [scanRow_emptyAlarms]
      rcases getD_mem_or_default (er.2.map (fun _ => false)) d false with h2 | h2
      · obtain ⟨_, _, hb⟩ := List.mem_map.mp h2
        exact hb.symm
      · exact h2
    · rcases getD_mem_or_default er.2 d false with h2 | h2
      · exact h0 _ hmem _ h2
      · exact h2
  · rw [h]; rfl

theorem total_scan_emptyAlarms (n m : Nat) (dw0 : List (List Bool)) (a : List (List Int))
    (h0 : ∀ r ∈ dw0, ∀ b ∈ r, b = false) :
    ((List.range n).map
      (fun e => m - ((List.range m).filter
        (fun day => worksOn ((dw0.enum).map
          (fun er => if er.1 < n then scanRow emptyAlarms m (rowOf a er.1) er.2 else er.2))
          e day)).length)).sum = n * m := by
  simp only [worksOn_scan_emptyAlarms n m dw0 a h0, List.filter_false, List.length_nil,
    Nat.sub_zero, List.map_const', List.length_range, List.sum_replicate, smul_eq_mul]

theorem all_false_replicate (rows cols : Nat) :
    ∀ r ∈ List.replicate rows (List.replicate cols false), ∀ b ∈ r, b = false := by
  intro r hr b hb
  rw [List.eq_of_mem_replicate hr] at hb
  exact List.eq_of_mem_replicate hb

theorem mathematical_total_emptyAlarms
    (solution : MathematicalServerAllocationSolver.Solution)
    (h0 : ∀ r ∈ solution.daily_work, ∀ b ∈ r, b = false) :
    (MathematicalServerAllocationSolver.calculateDailyWork emptyAlarms solution).total_rest_days
      = MathematicalServerAllocationSolver.NUM_ENGINEERS
        * MathematicalServerAllocationSolver.NUM_DAYS :=
  total_scan_emptyAlarms _ _ solution.daily_work solution.allocation h0

theorem optimal_total_emptyAlarms
    (solution : OptimalServerAllocationSolver.Solution)
    (h0 : ∀ r ∈ solution.daily_work, ∀ b ∈ r, b = false) :
    (OptimalServerAllocationSolver.calculateDailyWork emptyAlarms solution).total_rest_days
      = OptimalServerAllocationSolver.NUM_ENGINEERS * OptimalServerAllocationSolver.NUM_DAYS :=
  total_scan_emptyAlarms _ _ solution.daily_work solution.allocation h0

/-- C6. On the alarm table without any server, `solve` of
mathematical_solver.cpp and `solve` of optimal_allocation.cpp return a
solution with `total_rest_days` 7392, above `MAX_REST_DAYS`, and both leave
`valid` true; on every alarm table the two functions return `valid` true. -/
theorem solve_never_flags_invalid :
    (∀ daily_alarms, (MathematicalServerAllocationSolver.solve daily_alarms).valid = true) ∧
    (∀ daily_alarms, (OptimalServerAllocationSolver.solve daily_alarms).valid = true) ∧
    (MathematicalServerAllocationSolver.solve emptyAlarms).total_rest_days = 7392 ∧
    (OptimalServerAllocationSolver.solve emptyAlarms).total_rest_days = 7392 ∧
    MathematicalServerAllocationSolver.MAX_REST_DAYS < 7392 ∧
    OptimalServerAllocationSolver.MAX_REST_DAYS < 7392 := by
  refine ⟨fun _ => rfl, fun _ => rfl, ?_, ?_, by decide, by decide⟩
  · unfold MathematicalServerAllocationSolver.solve
    rw [mathematical_total_emptyAlarms _ (all_false_replicate _ _)]
    rfl
  · unfold OptimalServerAllocationSolver.solve
    rw [optimal_total_emptyAlarms _ (all_false_replicate _ _)]
    rfl

/-! ### The map `server_to_days` -/

theorem mapGet_cons (k0 : Int) (ds : List Nat) (m : List (Int × List Nat)) (k : Int) :
    mapGet ((k0, ds) :: m) k = if k0 = k then ds else mapGet m k := by
  unfold mapGet
  rw [List.find?_cons]
  by_cases h : k0 = k
  · simp [h]
  · have h2 : ((k0, ds).1 == k) = false := by simpa using h
    simp only [h2, h, if_false]

theorem mapGet_of_not_key (m : List (Int × List Nat)) (k : Int)
    (h : k ∉ m.map Prod.fst) : mapGet m k = [] := by
  induction m with
  | nil => rfl
  | cons kv rest ih =>
    obtain ⟨k0, ds⟩ := kv
    rw [mapGet_cons]
    simp only [List.map_cons, List.mem_cons, not_or] at h
    rw [if_neg (fun h2 => h.1 h2.symm)]
    exact ih h.2

theorem mem_keys_mapInsert (k : Int) (d : Nat) (x : Int) (m : List (Int × List Nat)) :
    x ∈ (mapInsert k d m).map Prod.fst ↔ x = k ∨ x ∈ m.map Prod.fst := by
  induction m with
  | nil => simp [mapInsert]
  | cons kv rest ih =>
    obtain ⟨k', ds⟩ := kv
    simp only [mapInsert]
    split_ifs with h1 h2
    · simp only [List.map_cons, List.mem_cons]
    · subst h2
      simp only [List.map_cons, List.mem_cons]
      tauto
    · simp only [List.map_cons, List.mem_cons, ih]
      tauto

theorem keysAsc_mapInsert (k : Int) (d : Nat) (m : List (Int × List Nat)) (h : KeysAsc m) :
    KeysAsc (mapInsert k d m) := by
  unfold KeysAsc at *
  induction m with
  | nil => simp [mapInsert]
  | cons kv rest ih =>
    obtain ⟨k', ds⟩ := kv
    simp only [List.map_cons, List.pairwise_cons] at h
    simp only [mapInsert]
    split_ifs with h1 h2
    · simp only [List.map_cons, List.pairwise_cons, List.mem_cons]
      refine ⟨?_, h.1, h.2⟩
      rintro a (rfl | ha)
      · exact h1
      · exact lt_trans h1 (h.1 a ha)
    · simp only [List.map_cons, List.pairwise_cons]
      exact h
    · simp only [List.map_cons, List.pairwise_cons]
      refine ⟨?_, ih h.2⟩
      intro a ha
      rcases (mem_keys_mapInsert k d a rest).mp ha with h3 | h3
      · rw [h3]; omega
      · exact h.1 a h3

theorem mem_mapGet_mapInsert (k : Int) (d : Nat) (m : List (Int × List Nat)) (h : KeysAsc m)
    (k' : Int) (d' : Nat) :
    d' ∈ mapGet (mapInsert k d m) k' ↔ (k' = k ∧ d' = d) ∨ d' ∈ mapGet m k' := by
  unfold KeysAsc at h
  induction m with
  | nil =>
    simp only [mapInsert, mapGet_cons]
    split_ifs with h1
    · simp [h1, mapGet]
    · have : ¬ k' = k := fun h2 => h1 h2.symm
      simp [this, mapGet]
  | cons kv rest ih =>
    obtain ⟨k0, ds⟩ := kv
    simp only [List.map_cons, List.pairwise_cons] at h
    simp only [mapInsert]
    split_ifs with h1 h2
    · rw [mapGet_cons]
      split_ifs with h3
      · subst h3
        have hnk : k ∉ ((k0, ds) :: rest).map Prod.fst := by
          simp only [List.map_cons, List.mem_cons, not_or]
          refine ⟨by omega, fun h4 => ?_⟩
          have := h.1 k h4
          omega
        rw [mapGet_of_not_key _ _ hnk]
        simp
      · have : ¬ k' = k := fun h4 => h3 h4.symm
        simp [this]
    · subst h2
      rw [mapGet_cons, mapGet_cons]
      split_ifs with h3
      · subst h3
        rw [mem_setInsert]
        simp
      · have : ¬ k' = k := fun h4 => h3 h4.symm
        simp [this]
    · rw [mapGet_cons, mapGet_cons]
      split_ifs with h3
      · subst h3
        have : ¬ k0 = k := fun h4 => h2 h4.symm
        simp [this]
      · exact ih h.2

theorem mapFold_line (day : Nat) (line : List Int) :
    ∀ m : List (Int × List Nat), KeysAsc m →
      KeysAsc (line.foldl (fun m server => mapInsert server day m) m) ∧
      ∀ (k : Int) (d : Nat),
        (d ∈ mapGet (line.foldl (fun m server => mapInsert server day m) m) k ↔
          (d = day ∧ k ∈ line) ∨ d ∈ mapGet m k) := by
  induction line with
  | nil => intro m h; exact ⟨h, fun k d => by simp⟩
  | cons s ss ih =>
    intro m h
    simp only [List.foldl_cons]
    obtain ⟨h1, h2⟩ := ih _ (keysAsc_mapInsert s day m h)
    refine ⟨h1, fun k d => ?_⟩
    rw [h2 k d, mem_mapGet_mapInsert s day m h, List.mem_cons]
    tauto

theorem mapFold_enumFrom (lines : List (List Int)) :
    ∀ (n : Nat) (m : List (Int × List Nat)), KeysAsc m →
      KeysAsc ((lines.enumFrom n).foldl
        (fun m dl => dl.2.foldl (fun m server => mapInsert server dl.1 m) m) m) ∧
      ∀ (k : Int) (d : Nat),
        (d ∈ mapGet ((lines.enumFrom n).foldl
            (fun m dl => dl.2.foldl (fun m server => mapInsert server dl.1 m) m) m) k ↔
          (n ≤ d ∧ k ∈ lines.getD (d - n) []) ∨ d ∈ mapGet m k) := by
  induction lines with
  | nil => intro n m h; exact ⟨h, fun k d => by simp⟩
  | cons l ls ih =>
    intro n m h
    simp only [List.enumFrom_cons, List.foldl_cons]
    obtain ⟨h1, h2⟩ := mapFold_line n l m h
    obtain ⟨h3, h4⟩ := ih (n + 1) _ h1
    refine ⟨h3, fun k d => ?_⟩
    rw [h4 k d, h2 k d]
    constructor
    · rintro (⟨h5, h6⟩ | ⟨h5, h6⟩ | h5)
      · left
        refine ⟨by omega, ?_⟩
        have : d - n = (d - (n + 1)) + 1 := by omega
        rw [this]
        exact h6
      · left
        subst h5
        refine ⟨le_refl _, ?_⟩
        rw [Nat.sub_self]
        exact h6
      · right; exact h5
    · rintro (⟨h5, h6⟩ | h5)
      · by_cases h7 : d = n
        · right; left
          subst h7
          rw [Nat.sub_self] at h6
          exact ⟨rfl, h6⟩
        · left
          refine ⟨by omega, ?_⟩
          have : d - n = (d - (n + 1)) + 1 := by omega
          rw [this] at h6
          exact h6
      · right; right; exact h5

/-- What `server_to_days` holds after the file is read: day `d` is in the
set of server `k` exactly when `k` is in the line of day `d`. -/
theorem mem_buildServerToDays (lines : List (List Int)) (k : Int) (d : Nat) :
    d ∈ mapGet (buildServerToDays lines) k ↔ k ∈ lines.getD d [] := by
  unfold buildServerToDays List.enum
  have h := (mapFold_enumFrom lines 0 [] (by unfold KeysAsc; simp)).2 k d
  rw [h]
  simp [mapGet]

theorem day_lt_of_mem_buildServerToDays {lines : List (List Int)} {k : Int} {d : Nat}
    (h : d ∈ mapGet (buildServerToDays lines) k) : d < lines.length := by
  rw [mem_buildServerToDays] at h
  by_contra h2
  have h3 : lines.getD d [] = [] := by
    rw [List.getD_eq_getElem?_getD, List.getElem?_eq_none (by omega)]
    rfl
  rw [h3] at h
  exact absurd h (List.not_mem_nil _)

/-! ### Marking the days of a row -/

theorem markDays_fold (P : Nat → Prop) [DecidablePred P] (f : List Bool → Nat → List Bool)
    (hf : ∀ r day, f r day = if P day then r.set day true else r) (days : List Nat) :
    ∀ r : List Bool, (days.foldl f r).length = r.length ∧
      ∀ d, ((days.foldl f r).getD d false = true ↔
        (r.getD d false = true ∨ (d ∈ days ∧ P d ∧ d < r.length))) := by
  induction days with
  | nil => intro r; exact ⟨rfl, fun d => by simp⟩
  | cons x xs ih =>
    intro r
    simp only [List.foldl_cons]
    obtain ⟨h1, h2⟩ := ih (f r x)
    have hlen : (f r x).length = r.length := by
      rw [hf]; split_ifs
      · exact List.length_set _ _ _
      · rfl
    refine ⟨h1.trans hlen, fun d => ?_⟩
    rw [h2 d, hlen, hf]
    by_cases hx : P x
    · rw [if_pos hx, getD_set_eq]
      constructor
      · rintro (h3 | ⟨h3, h4, h5⟩)
        · split_ifs at h3 with h6
          · right; exact ⟨h6.1 ▸ List.mem_cons_self _ _, h6.1 ▸ hx, h6.1 ▸ h6.2⟩
          · left; exact h3
        · right; exact ⟨List.mem_cons_of_mem _ h3, h4, h5⟩
      · rintro (h3 | ⟨h3, h4, h5⟩)
        · left
          split_ifs
          · rfl
          · exact h3
        · rcases List.mem_cons.mp h3 with h6 | h6
          · left
            rw [if_pos ⟨h6, h6 ▸ h5⟩]
          · right; exact ⟨h6, h4, h5⟩
    · rw [if_neg hx]
      constructor
      · rintro (h3 | ⟨h3, h4, h5⟩)
        · left; exact h3
        · right; exact ⟨List.mem_cons_of_mem _ h3, h4, h5⟩
      · rintro (h3 | ⟨h3, h4, h5⟩)
        · left; exact h3
        · rcases List.mem_cons.mp h3 with h6 | h6
          · exact absurd (h6 ▸ h4) hx
          · right; exact ⟨h6, h4, h5⟩

theorem markSlots_fold (P : Nat → Prop) [DecidablePred P] (f : List Bool → Nat → List Bool)
    (hf : ∀ r day, f r day = if P day then r.set day true else r)
    (server_to_days : List (Int × List Nat)) (allocation : List (List Int)) (e : Nat)
    (slots : List Nat) :
    ∀ r : List Bool,
      (slots.foldl (fun r i =>
        if slotOf allocation e i = -1 then r
        else (mapGet server_to_days (slotOf allocation e i)).foldl f r) r).length = r.length ∧
      ∀ d, ((slots.foldl (fun r i =>
        if slotOf allocation e i = -1 then r
        else (mapGet server_to_days (slotOf allocation e i)).foldl f r) r).getD d false = true ↔
        (r.getD d false = true ∨ (P d ∧ d < r.length ∧
          ∃ i ∈ slots, slotOf allocation e i ≠ -1 ∧
            d ∈ mapGet server_to_days (slotOf allocation e i)))) := by
  induction slots with
  | nil => intro r; exact ⟨rfl, fun d => by simp⟩
  | cons x xs ih =>
    intro r
    simp only [List.foldl_cons]
    by_cases hx : slotOf allocation e x = -1
    · simp only [hx, if_true]
      obtain ⟨h1, h2⟩ := ih r
      refine ⟨h1, fun d => ?_⟩
      rw [h2 d]
      constructor
      · rintro (h3 | ⟨h3, h4, i, hi, h5, h6⟩)
        · left; exact h3
        · right; exact ⟨h3, h4, i, List.mem_cons_of_mem _ hi, h5, h6⟩
      · rintro (h3 | ⟨h3, h4, i, hi, h5, h6⟩)
        · left; exact h3
        · rcases List.mem_cons.mp hi with h7 | h7
          · exact absurd (h7 ▸ hx) h5
          · right; exact ⟨h3, h4, i, h7, h5, h6⟩
    · simp only [hx, if_false]
      obtain ⟨g1, g2⟩ := markDays_fold P f hf (mapGet server_to_days (slotOf allocation e x)) r
      obtain ⟨h1, h2⟩ := ih ((mapGet server_to_days (slotOf allocation e x)).foldl f r)
      refine ⟨h1.trans g1, fun d => ?_⟩
      rw [h2 d, g2 d, g1]
      constructor
      · rintro ((h3 | ⟨h3, h4, h5⟩) | ⟨h3, h4, i, hi, h5, h6⟩)
        · left; exact h3
        · right; exact ⟨h4, h5, x, List.mem_cons_self _ _, hx, h3⟩
        · right; exact ⟨h3, h4, i, List.mem_cons_of_mem _ hi, h5, h6⟩
      · rintro (h3 | ⟨h3, h4, i, hi, h5, h6⟩)
        · left; left; exact h3
        · rcases List.mem_cons.mp hi with h7 | h7
          · left; right; exact ⟨h7 ▸ h6, h3, h4⟩
          · right; exact ⟨h3, h4, i, h7, h5, h6⟩

theorem getD_map_false (row : List Bool) (d : Nat) :
    (row.map (fun _ => false)).getD d false = false := by
  rcases getD_mem_or_default (row.map (fun _ => false)) d false with h | h
  · obtain ⟨_, _, hb⟩ := List.mem_map.mp h
    exact hb.symm
  · exact h

theorem getD_enum_map {α β : Type} (l : List α) (f : Nat × α → β) (e : Nat) (he : e < l.length)
    (d : β) : ((l.enum).map f).getD e d = f (e, l[e]) := by
  rw [List.getD_eq_getElem?_getD, List.getElem?_map, List.getElem?_enum,
    List.getElem?_eq_getElem he]
  rfl

theorem activeOn_iff (daily_alarms allocation : List (List Int)) (e d : Nat) :
    activeOn daily_alarms allocation e d = true ↔
      ∃ i ∈ List.range 5, slotOf allocation e i ≠ -1 ∧
        slotOf allocation e i ∈ daily_alarms.getD d [] := by
  unfold activeOn
  simp only [List.any_eq_true, Bool.and_eq_true, bne_iff_ne, ne_eq, List.contains_iff_exists_mem_beq,
    beq_iff_eq, exists_eq_right']

theorem activeOn_lt {daily_alarms allocation : List (List Int)} {e d : Nat}
    (h : activeOn daily_alarms allocation e d = true) : d < daily_alarms.length := by
  obtain ⟨i, _, _, h2⟩ := (activeOn_iff _ _ _ _).mp h
  by_contra h3
  have h4 : daily_alarms.getD d [] = [] := by
    rw [List.getD_eq_getElem?_getD, List.getElem?_eq_none (by omega)]
    rfl
  rw [h4] at h2
  exact absurd h2 (List.not_mem_nil _)

namespace UltimateConstraintSolver

theorem markRow_getD (lines allocation : List (List Int)) (e d : Nat) (row : List Bool)
    (hrow : row.length = lines.length) :
    (markRow (buildServerToDays lines) allocation lines.length e row).getD d false
      = activeOn lines allocation e d := by
  rw [Bool.eq_iff_iff]
  unfold markRow
  have h := (markSlots_fold (fun day => day < lines.length)
    (fun r day => if day < lines.length then r.set day true else r) (fun _ _ => rfl)
    (buildServerToDays lines) allocation e (List.range MAX_SERVERS_PER_ENGINEER)
    (row.map (fun _ => false))).2 d
  rw [h, getD_map_false, activeOn_iff]
  constructor
  · rintro (h1 | ⟨_, _, i, hi, h2, h3⟩)
    · exact absurd h1 (by simp)
    · exact ⟨i, hi, h2, (mem_buildServerToDays _ _ _).mp h3⟩
  · rintro ⟨i, hi, h2, h3⟩
    have hd : d < lines.length := by
      by_contra h4
      have h5 : lines.getD d [] = [] := by
        rw [List.getD_eq_getElem?_getD, List.getElem?_eq_none (by omega)]
        rfl
      rw [h5] at h3
      exact absurd h3 (List.not_mem_nil _)
    right
    refine ⟨hd, ?_, i, hi, h2, (mem_buildServerToDays _ _ _).mpr h3⟩
    rw [List.length_map, hrow]
    exact hd

theorem calculateFinalResults_total (s : Solver) (solution : Solution) :
    (calculateFinalResults s solution).total_rest_days
      = ((List.range NUM_ENGINEERS).map
          (fun e => solution.num_days - countWork solution.num_days
            ((calculateFinalResults s solution).daily_work.getD e []))).sum := by
  simp only [calculateFinalResults]

theorem calculateFinalResults_valid (s : Solver) (solution : Solution) :
    (calculateFinalResults s solution).valid
      = (decide ((calculateFinalResults s solution).total_rest_days ≤ MAX_REST_DAYS)
        && decide (((List.range NUM_ENGINEERS).filter
            (fun e => rowHasFirst14 solution.num_days
              ((calculateFinalResults s solution).daily_work.getD e []))).length
              = NUM_ENGINEERS)) := by
  simp only [calculateFinalResults]

theorem evaluate_row (lines allocation : List (List Int)) (e : Nat) (he : e < NUM_ENGINEERS) :
    (evaluate lines allocation).daily_work.getD e []
      = markRow (buildServerToDays lines) allocation lines.length e
          (List.replicate lines.length false) := by
  unfold evaluate calculateFinalResults
  simp only [loadAlarmData, Solution.new]
  rw [getD_enum_map _ _ e (by rw [List.length_replicate]; exact he)]
  simp only [he, if_true, List.getElem_replicate]

theorem evaluate_worksOn (lines allocation : List (List Int)) (e d : Nat)
    (he : e < NUM_ENGINEERS) :
    ((evaluate lines allocation).daily_work.getD e []).getD d false
      = activeOn lines allocation e d := by
  rw [evaluate_row lines allocation e he]
  exact markRow_getD lines allocation e d _ (List.length_replicate _ _)

theorem evaluate_countWork (lines allocation : List (List Int)) (e : Nat)
    (he : e < NUM_ENGINEERS) :
    countWork lines.length ((evaluate lines allocation).daily_work.getD e [])
      = ((List.range lines.length).filter (fun d => activeOn lines allocation e d)).length := by
  unfold countWork
  congr 1
  apply List.filter_congr
  intro d _
  exact evaluate_worksOn lines allocation e d he

theorem evaluate_first14 (lines allocation : List (List Int)) (e : Nat)
    (he : e < NUM_ENGINEERS) :
    rowHasFirst14 lines.length ((evaluate lines allocation).daily_work.getD e []) = true ↔
      ∃ d, d < 14 ∧ activeOn lines allocation e d = true := by
  unfold rowHasFirst14
  simp only [List.any_eq_true, List.mem_range, Bool.and_eq_true, decide_eq_true_eq]
  constructor
  · rintro ⟨d, _, h2, h3⟩
    rw [evaluate_worksOn lines allocation e d he] at h2
    exact ⟨d, h3, h2⟩
  · rintro ⟨d, h1, h2⟩
    refine ⟨d, activeOn_lt h2, ?_, h1⟩
    rw [evaluate_worksOn lines allocation e d he]
    exact h2

theorem evaluate_total (lines allocation : List (List Int)) :
    (evaluate lines allocation).total_rest_days
      = ((List.range NUM_ENGINEERS).map
          (fun e => lines.length
            - ((List.range lines.length).filter
                (fun d => activeOn lines allocation e d)).length)).sum := by
  have h : (evaluate lines allocation).total_rest_days
      = ((List.range NUM_ENGINEERS).map
          (fun e => lines.length
            - countWork lines.length ((evaluate lines allocation).daily_work.getD e []))).sum :=
    calculateFinalResults_total _ _
  rw [h]
  refine congrArg List.sum (List.map_congr_left ?_)
  intro e he
  rw [evaluate_countWork lines allocation e (List.mem_range.mp he)]

/-- C5. After `loadAlarmData`, for every allocation, `calculateFinalResults`
sets `total_rest_days` to the sum over the engineers of `num_days` minus the
number of days on which a held server is active, and sets `valid` to true
exactly when that total is at most `MAX_REST_DAYS` and every engineer holds a
server that is active on a day below 14. -/
theorem calculateFinalResults_spec (lines allocation : List (List Int)) :
    (evaluate lines allocation).total_rest_days
      = ((List.range NUM_ENGINEERS).map
          (fun e => (loadAlarmData lines).num_days
            - ((List.range (loadAlarmData lines).num_days).filter
                (fun d => activeOn lines allocation e d)).length)).sum ∧
    ((evaluate lines allocation).valid = true ↔
      ((evaluate lines allocation).total_rest_days ≤ MAX_REST_DAYS ∧
        ∀ e, e < NUM_ENGINEERS → ∃ d, d < 14 ∧ activeOn lines allocation e d = true)) := by
  refine ⟨evaluate_total lines allocation, ?_⟩
  have h : (evaluate lines allocation).valid
      = (decide ((evaluate lines allocation).total_rest_days ≤ MAX_REST_DAYS)
        && decide (((List.range NUM_ENGINEERS).filter
            (fun e => rowHasFirst14 lines.length
              ((evaluate lines allocation).daily_work.getD e []))).length = NUM_ENGINEERS)) :=
    calculateFinalResults_valid _ _
  rw [h, Bool.and_eq_true, decide_eq_true_eq, decide_eq_true_eq]
  have h2 : (((List.range NUM_ENGINEERS).filter
      (fun e => rowHasFirst14 lines.length
        ((evaluate lines allocation).daily_work.getD e []))).length = NUM_ENGINEERS) ↔
      ∀ e, e < NUM_ENGINEERS → ∃ d, d < 14 ∧ activeOn lines allocation e d = true := by
    have h3 : ∀ (p : Nat → Bool), ((List.range NUM_ENGINEERS).filter p).length = NUM_ENGINEERS ↔
        ∀ e ∈ List.range NUM_ENGINEERS, p e = true := by
      intro p
      conv_lhs => rhs; rw [← List.length_range NUM_ENGINEERS]
      exact List.filter_length_eq_length
    rw [h3]
    constructor
    · intro h4 e he
      exact (evaluate_first14 lines allocation e he).mp (h4 e (List.mem_range.mpr he))
    · intro h4 e he
      exact (evaluate_first14 lines allocation e (List.mem_range.mp he)).mpr
        (h4 e (List.mem_range.mp he))
  rw [h2]

end UltimateConstraintSolver

/-! ### realistic_solver.cpp: one holder per server -/

theorem slotOf_setSlot {rows cols : Nat} {a : List (List Int)} (h : Shape rows cols a)
    {e i : Nat} (he : e < rows) (hi : i < cols) (v : Int) (e1 i1 : Nat) :
    slotOf (setSlot a e i v) e1 i1 = if e1 = e ∧ i1 = i then v else slotOf a e1 i1 := by
  unfold slotOf rowOf setSlot rowOf
  rw [getD_set2]
  have h1 : e < a.length := by rw [h.1]; exact he
  have h2 : i < (a.getD e []).length := by rw [shape_row_length h he]; exact hi
  by_cases c : e1 = e ∧ i1 = i
  · rw [if_pos c, if_pos ⟨c.1, c.2, h1, h2⟩]
  · rw [if_neg c, if_neg (fun h3 => c ⟨h3.1, h3.2.1⟩)]

theorem slotOf_replicate (rows cols e i : Nat) :
    slotOf (List.replicate rows (List.replicate cols (-1))) e i = -1 := by
  unfold slotOf rowOf
  rcases getD_mem_or_default ((List.replicate rows (List.replicate cols (-1 : Int))).getD e []) i
    (-1) with h | h
  · rcases getD_mem_or_default (List.replicate rows (List.replicate cols (-1 : Int))) e []
      with h2 | h2
    · rw [(List.mem_replicate.mp h2).2] at h ⊢
      exact (List.mem_replicate.mp h).2
    · rw [h2] at h
      exact absurd h (List.not_mem_nil _)
  · exact h

theorem keys_mapFold_line (day : Nat) (line : List Int) :
    ∀ (m : List (Int × List Nat)) (k : Int),
      k ∈ (line.foldl (fun m server => mapInsert server day m) m).map Prod.fst →
      k ∈ line ∨ k ∈ m.map Prod.fst := by
  induction line with
  | nil => intro m k h; right; exact h
  | cons s ss ih =>
    intro m k h
    simp only [List.foldl_cons] at h
    rcases ih _ k h with h1 | h1
    · left; exact List.mem_cons_of_mem _ h1
    · rcases (mem_keys_mapInsert s day k m).mp h1 with h2 | h2
      · left; rw [h2]; exact List.mem_cons_self _ _
      · right; exact h2

theorem keys_mapFold_enumFrom (lines : List (List Int)) :
    ∀ (n : Nat) (m : List (Int × List Nat)) (k : Int),
      k ∈ ((lines.enumFrom n).foldl
        (fun m dl => dl.2.foldl (fun m server => mapInsert server dl.1 m) m) m).map Prod.fst →
      (∃ l ∈ lines, k ∈ l) ∨ k ∈ m.map Prod.fst := by
  induction lines with
  | nil => intro n m k h; right; exact h
  | cons l ls ih =>
    intro n m k h
    simp only [List.enumFrom_cons, List.foldl_cons] at h
    rcases ih _ _ k h with ⟨l1, h1, h2⟩ | h1
    · left; exact ⟨l1, List.mem_cons_of_mem _ h1, h2⟩
    · rcases keys_mapFold_line n l m k h1 with h2 | h2
      · left; exact ⟨l, List.mem_cons_self _ _, h2⟩
      · right; exact h2

theorem keys_buildServerToDays {lines : List (List Int)} {k : Int}
    (h : k ∈ (buildServerToDays lines).map Prod.fst) : ∃ l ∈ lines, k ∈ l := by
  unfold buildServerToDays List.enum at h
  rcases keys_mapFold_enumFrom lines 0 [] k h with h1 | h1
  · exact h1
  · exact absurd h1 (List.not_mem_nil _)

namespace RealisticSolver

theorem inv_initial (days : Nat) :
    Inv (Solution.new days).allocation (List.replicate NUM_SERVERS false) ∧
      EmptyFrom (Solution.new days).allocation 0 0 := by
  have h0 : ∀ e i, slotOf (Solution.new days).allocation e i = -1 :=
    fun e i => slotOf_replicate _ _ e i
  refine ⟨⟨shape_replicate _ _ _, List.length_replicate _ _, ?_, ?_, ?_⟩, ?_⟩
  · intro e i _ _
    left; exact h0 e i
  · intro e1 i1 e2 i2 _ _ _ _ h1 _
    exact absurd (h0 e1 i1) h1
  · intro s _
    constructor
    · intro h
      rcases getD_mem_or_default (List.replicate NUM_SERVERS false) s false with h1 | h1
      · rw [(List.mem_replicate.mp h1).2] at h
        exact absurd h (by simp)
      · rw [h1] at h
        exact absurd h (by simp)
    · rintro ⟨e, i, _, _, h⟩
      rw [h0 e i] at h
      omega
  · intro e1 i _ _ _
    exact h0 e1 i

/-- Replacing the content of a slot by a server in range that is not in use
keeps the invariant, when `server_used` is updated accordingly. -/
theorem inv_replace {a : List (List Int)} {u : List Bool} (h : Inv a u) {e i : Nat}
    (he : e < NUM_ENGINEERS) (hi : i < MAX_SERVERS_PER_ENGINEER) {v : Int} (hv0 : 0 ≤ v)
    (hv : v < (NUM_SERVERS : Int)) (hu : u.getD v.toNat false = false) (u1 : List Bool)
    (hl : u1.length = NUM_SERVERS)
    (hu1 : ∀ s : Nat, s < NUM_SERVERS → u1.getD s false =
      if (s : Int) = v then true else if (s : Int) = slotOf a e i then false
      else u.getD s false) :
    Inv (setSlot a e i v) u1 := by
  obtain ⟨hs, _, hr, hq, hx⟩ := h
  have hset := fun e1 i1 => slotOf_setSlot hs he hi v e1 i1
  have hnot : ¬ Held a v := by
    intro hh
    have h1 : Held a ((v.toNat : Nat) : Int) := by rwa [Int.toNat_of_nonneg hv0]
    have h2 := (hx v.toNat (by omega)).mpr h1
    rw [hu] at h2
    exact absurd h2 (by simp)
  refine ⟨shape_set_row hs e i v, hl, ?_, ?_, ?_⟩
  · intro e1 i1 he1 hi1
    rw [hset]
    split_ifs
    · right; exact ⟨hv0, hv⟩
    · exact hr e1 i1 he1 hi1
  · intro e1 i1 e2 i2 h1 h2 h3 h4 hne heq
    rw [hset e1 i1] at hne heq
    rw [hset e2 i2] at heq
    by_cases c1 : e1 = e ∧ i1 = i
    · by_cases c2 : e2 = e ∧ i2 = i
      · exact ⟨c1.1.trans c2.1.symm, c1.2.trans c2.2.symm⟩
      · rw [if_pos c1, if_neg c2] at heq
        exact absurd ⟨e2, i2, h3, h4, heq.symm⟩ hnot
    · by_cases c2 : e2 = e ∧ i2 = i
      · rw [if_neg c1, if_pos c2] at heq
        exact absurd ⟨e1, i1, h1, h2, heq⟩ hnot
      · rw [if_neg c1] at hne
        rw [if_neg c1, if_neg c2] at heq
        exact hq e1 i1 e2 i2 h1 h2 h3 h4 hne heq
  · intro s hs1
    rw [hu1 s hs1]
    by_cases c1 : (s : Int) = v
    · rw [if_pos c1]
      simp only [true_iff]
      exact ⟨e, i, he, hi, by rw [hset, if_pos ⟨rfl, rfl⟩]; exact c1.symm⟩
    · rw [if_neg c1]
      by_cases c2 : (s : Int) = slotOf a e i
      · rw [if_pos c2]
        constructor
        · intro hf
          exact absurd hf (by simp)
        · rintro ⟨e1, i1, he1, hi1, hh⟩
          rw [hset] at hh
          by_cases c3 : e1 = e ∧ i1 = i
          · rw [if_pos c3] at hh
            exact absurd hh.symm c1
          · rw [if_neg c3] at hh
            have h5 := hq e1 i1 e i he1 hi1 he hi (by rw [hh]; omega) (hh.trans c2)
            exact absurd h5 c3
      · rw [if_neg c2, hx s hs1]
        constructor
        · rintro ⟨e1, i1, he1, hi1, hh⟩
          refine ⟨e1, i1, he1, hi1, ?_⟩
          rw [hset, if_neg]
          · exact hh
          · rintro ⟨rfl, rfl⟩
            exact c2 hh.symm
        · rintro ⟨e1, i1, he1, hi1, hh⟩
          rw [hset] at hh
          by_cases c3 : e1 = e ∧ i1 = i
          · rw [if_pos c3] at hh
            exact absurd hh.symm c1
          · rw [if_neg c3] at hh
            exact ⟨e1, i1, he1, hi1, hh⟩

end RealisticSolver

namespace RealisticSolver

theorem inv_greedyStep (server_to_days : List (Int × List Nat)) {e : Nat}
    (he : e < NUM_ENGINEERS) (ss : Int × Int) (hv0 : 0 ≤ ss.2)
    (hv : ss.2 < (NUM_SERVERS : Int)) (st : GreedyState)
    (h : Inv st.allocation st.server_used)
    (ht : EmptyFrom st.allocation e st.servers_assigned) :
    Inv (greedyStep server_to_days e st ss).allocation
        (greedyStep server_to_days e st ss).server_used ∧
      EmptyFrom (greedyStep server_to_days e st ss).allocation e
        (greedyStep server_to_days e st ss).servers_assigned := by
  simp only [greedyStep]
  split_ifs with g1 g2
  · exact ⟨h, ht⟩
  · simp only [Bool.or_eq_true, decide_eq_true_eq, not_or, Bool.not_eq_true] at g1
    obtain ⟨⟨g3, g4⟩, _⟩ := g1
    have hi : st.servers_assigned < MAX_SERVERS_PER_ENGINEER := by omega
    have hslot : slotOf st.allocation e st.servers_assigned = -1 :=
      ht e st.servers_assigned (Or.inl ⟨rfl, le_refl _⟩) he hi
    constructor
    · refine inv_replace h he hi hv0 hv g3 _ ?_ ?_
      · rw [List.length_set]; exact h.2.1
      · intro s hs
        rw [getD_set_eq, hslot]
        have h1 : ss.2.toNat < st.server_used.length := by rw [h.2.1]; omega
        by_cases c : (s : Int) = ss.2
        · rw [if_pos c, if_pos ⟨by omega, h1⟩]
        · rw [if_neg c, if_neg (by omega), if_neg (by omega)]
    · intro e1 i hc he1 hi1
      have hc1 : (e1 = e ∧ st.servers_assigned + 1 ≤ i) ∨ e < e1 := hc
      show slotOf (setSlot st.allocation e st.servers_assigned ss.2) e1 i = -1
      rw [slotOf_setSlot h.1 he hi, if_neg (by omega)]
      exact ht e1 i (by omega) he1 hi1
  · exact ⟨h, ht⟩

theorem inv_greedyFold (server_to_days : List (Int × List Nat)) {e : Nat}
    (he : e < NUM_ENGINEERS) (l : List (Int × Int))
    (hl : ∀ ss ∈ l, 0 ≤ ss.2 ∧ ss.2 < (NUM_SERVERS : Int)) :
    ∀ st : GreedyState, Inv st.allocation st.server_used →
      EmptyFrom st.allocation e st.servers_assigned →
      Inv (l.foldl (greedyStep server_to_days e) st).allocation
          (l.foldl (greedyStep server_to_days e) st).server_used ∧
        EmptyFrom (l.foldl (greedyStep server_to_days e) st).allocation e
          (l.foldl (greedyStep server_to_days e) st).servers_assigned := by
  induction l with
  | nil => intro st h ht; exact ⟨h, ht⟩
  | cons ss rest ih =>
    intro st h ht
    simp only [List.foldl_cons]
    obtain ⟨h1, h2⟩ := inv_greedyStep server_to_days he ss
      (hl ss (List.mem_cons_self _ _)).1 (hl ss (List.mem_cons_self _ _)).2 st h ht
    exact ih (fun x hx => hl x (List.mem_cons_of_mem _ hx)) _ h1 h2

theorem inv_greedyEngineer (s : Solver)
    (hs : ∀ ss ∈ s.server_efficiency, 0 ≤ ss.2 ∧ ss.2 < (NUM_SERVERS : Int)) {e : Nat}
    (he : e < NUM_ENGINEERS) (acc : List (List Int) × List Bool) (h : Inv acc.1 acc.2)
    (ht : EmptyFrom acc.1 e 0) :
    Inv (greedyEngineer s acc e).1 (greedyEngineer s acc e).2 ∧
      EmptyFrom (greedyEngineer s acc e).1 (e + 1) 0 := by
  obtain ⟨h1, h2⟩ := inv_greedyFold s.server_to_days he s.server_efficiency hs
    { allocation := acc.1, server_used := acc.2, current_work_days := [], servers_assigned := 0 }
    h ht
  refine ⟨h1, ?_⟩
  intro e1 i hc he1 hi1
  exact h2 e1 i (by omega) he1 hi1

theorem inv_phase1_upto (s : Solver)
    (hs : ∀ ss ∈ s.server_efficiency, 0 ≤ ss.2 ∧ ss.2 < (NUM_SERVERS : Int)) (n : Nat)
    (hn : n ≤ NUM_ENGINEERS) :
    Inv ((List.range n).foldl (greedyEngineer s)
          ((Solution.new s.num_days).allocation, List.replicate NUM_SERVERS false)).1
        ((List.range n).foldl (greedyEngineer s)
          ((Solution.new s.num_days).allocation, List.replicate NUM_SERVERS false)).2 ∧
      EmptyFrom ((List.range n).foldl (greedyEngineer s)
          ((Solution.new s.num_days).allocation, List.replicate NUM_SERVERS false)).1 n 0 := by
  induction n with
  | zero => exact inv_initial s.num_days
  | succ k ih =>
    rw [List.range_succ, List.foldl_append]
    obtain ⟨h1, h2⟩ := ih (by omega)
    exact inv_greedyEngineer s hs (by omega) _ h1 h2

theorem inv_phase1 (s : Solver)
    (hs : ∀ ss ∈ s.server_efficiency, 0 ≤ ss.2 ∧ ss.2 < (NUM_SERVERS : Int)) :
    Inv (phase1 s).1 (phase1 s).2 :=
  (inv_phase1_upto s hs NUM_ENGINEERS (le_refl _)).1

theorem inv_tryCandidates (server_to_days : List (Int × List Nat)) {e slot : Nat}
    (he : e < NUM_ENGINEERS) (hslot : slot < MAX_SERVERS_PER_ENGINEER) (c : Int)
    (hc : c ≠ -1) (current_days : List Nat) (l : List (Int × Int))
    (hl : ∀ ss ∈ l, 0 ≤ ss.2 ∧ ss.2 < (NUM_SERVERS : Int)) :
    ∀ st : List (List Int) × List Bool, Inv st.1 st.2 → slotOf st.1 e slot = c →
      Inv (tryCandidates server_to_days e slot c current_days l st).1
        (tryCandidates server_to_days e slot c current_days l st).2.1 := by
  induction l with
  | nil => intro st h _; exact h
  | cons ss rest ih =>
    intro st h hcur
    have hrest := fun x hx => hl x (List.mem_cons_of_mem _ hx)
    obtain ⟨hv0, hv⟩ := hl ss (List.mem_cons_self _ _)
    simp only [tryCandidates]
    split_ifs with g1 g2
    · exact ih hrest st h hcur
    · simp only [Bool.or_eq_true, decide_eq_true_eq, not_or, Bool.not_eq_true] at g1
      have hc0 : 0 ≤ c ∧ c < (NUM_SERVERS : Int) := by
        rcases h.2.2.1 e slot he hslot with h1 | h1
        · rw [hcur] at h1; exact absurd h1 hc
        · rw [hcur] at h1; exact h1
      have hlen := h.2.1
      refine inv_replace h he hslot hv0 hv g1.1 _ ?_ ?_
      · rw [List.length_set, List.length_set]; exact hlen
      · intro s hs
        rw [getD_set_eq, getD_set_eq, hcur, List.length_set]
        by_cases c1 : (s : Int) = ss.2
        · rw [if_pos c1, if_pos ⟨by omega, by omega⟩]
        · rw [if_neg c1, if_neg (by omega)]
          by_cases c2 : (s : Int) = c
          · rw [if_pos c2, if_pos ⟨by omega, by omega⟩]
          · rw [if_neg c2, if_neg (by omega)]
    · simp only [Bool.or_eq_true, decide_eq_true_eq, not_or, Bool.not_eq_true] at g1
      have hc0 : 0 ≤ c ∧ c < (NUM_SERVERS : Int) := by
        rcases h.2.2.1 e slot he hslot with h1 | h1
        · rw [hcur] at h1; exact absurd h1 hc
        · rw [hcur] at h1; exact h1
      have hlen := h.2.1
      have hcv : c ≠ ss.2 := by
        intro h3
        have h4 := (h.2.2.2.2 c.toNat (by omega)).mpr
          ⟨e, slot, he, hslot, by rw [hcur, Int.toNat_of_nonneg hc0.1]⟩
        rw [h3, g1.1] at h4
        exact absurd h4 (by simp)
      have h1 : Inv (setSlot st.1 e slot ss.2)
          ((st.2.set c.toNat false).set ss.2.toNat true) := by
        refine inv_replace h he hslot hv0 hv g1.1 _ ?_ ?_
        · rw [List.length_set, List.length_set]; exact hlen
        · intro s hs
          rw [getD_set_eq, getD_set_eq, hcur, List.length_set]
          by_cases c1 : (s : Int) = ss.2
          · rw [if_pos c1, if_pos ⟨by omega, by omega⟩]
          · rw [if_neg c1, if_neg (by omega)]
            by_cases c2 : (s : Int) = c
            · rw [if_pos c2, if_pos ⟨by omega, by omega⟩]
            · rw [if_neg c2, if_neg (by omega)]
      have hnew : slotOf (setSlot st.1 e slot ss.2) e slot = ss.2 := by
        rw [slotOf_setSlot h.1 he hslot, if_pos ⟨rfl, rfl⟩]
      have hfree : ((st.2.set c.toNat false).set ss.2.toNat true).getD c.toNat false = false := by
        rw [getD_set_eq, getD_set_eq, List.length_set]
        rw [if_neg (by omega), if_pos ⟨rfl, by omega⟩]
      refine ih hrest _ ?_ ?_
      · refine inv_replace h1 he hslot hc0.1 hc0.2 hfree _ ?_ ?_
        · rw [List.length_set, List.length_set, List.length_set, List.length_set]; exact hlen
        · intro s hs
          rw [getD_set_eq, getD_set_eq, hnew, List.length_set, List.length_set,
            List.length_set]
          by_cases c1 : (s : Int) = c
          · rw [if_pos c1, if_pos ⟨by omega, by omega⟩]
          · rw [if_neg c1, if_neg (by omega)]
            by_cases c2 : (s : Int) = ss.2
            · rw [if_pos c2, if_pos ⟨by omega, by omega⟩]
            · rw [if_neg c2, if_neg (by omega)]
      · show slotOf (setSlot (setSlot st.1 e slot ss.2) e slot c) e slot = c
        rw [slotOf_setSlot h1.1 he hslot, if_pos ⟨rfl, rfl⟩]

theorem inv_trySlots (s : Solver)
    (hs : ∀ ss ∈ s.server_efficiency, 0 ≤ ss.2 ∧ ss.2 < (NUM_SERVERS : Int)) {e : Nat}
    (he : e < NUM_ENGINEERS) (slots : List Nat)
    (hslots : ∀ i ∈ slots, i < MAX_SERVERS_PER_ENGINEER) :
    ∀ st : List (List Int) × List Bool, Inv st.1 st.2 →
      Inv (trySlots s e slots st).1 (trySlots s e slots st).2.1 := by
  induction slots with
  | nil => intro st h; exact h
  | cons slot rest ih =>
    intro st h
    have hrest := fun x hx => hslots x (List.mem_cons_of_mem _ hx)
    have h1 := fun hc => inv_tryCandidates s.server_to_days he
      (hslots slot (List.mem_cons_self _ _)) (slotOf st.1 e slot) hc
      (rowDays s.server_to_days st.1 e) s.server_efficiency hs st h rfl
    simp only [trySlots]
    split_ifs with g1 g2
    · exact ih hrest st h
    · exact h1 g1
    · exact ih hrest _ (h1 g1)

theorem inv_tryEngineers (s : Solver)
    (hs : ∀ ss ∈ s.server_efficiency, 0 ≤ ss.2 ∧ ss.2 < (NUM_SERVERS : Int))
    (engineers : List Nat) (hes : ∀ e ∈ engineers, e < NUM_ENGINEERS) :
    ∀ st : List (List Int) × List Bool, Inv st.1 st.2 →
      Inv (tryEngineers s engineers st).1 (tryEngineers s engineers st).2.1 := by
  induction engineers with
  | nil => intro st h; exact h
  | cons e rest ih =>
    intro st h
    have hrest := fun x hx => hes x (List.mem_cons_of_mem _ hx)
    have h1 := inv_trySlots s hs (hes e (List.mem_cons_self _ _))
      (List.range MAX_SERVERS_PER_ENGINEER) (fun i hi => List.mem_range.mp hi) st h
    simp only [tryEngineers]
    split_ifs with g1
    · exact h1
    · exact ih hrest _ h1

theorem inv_phase2 (s : Solver)
    (hs : ∀ ss ∈ s.server_efficiency, 0 ≤ ss.2 ∧ ss.2 < (NUM_SERVERS : Int)) (fuel : Nat) :
    ∀ st : List (List Int) × List Bool, Inv st.1 st.2 →
      Inv (phase2 s fuel st).1 (phase2 s fuel st).2 := by
  induction fuel with
  | zero => intro st h; exact h
  | succ k ih =>
    intro st h
    have h1 := inv_tryEngineers s hs (List.range NUM_ENGINEERS)
      (fun e he => List.mem_range.mp he) st h
    simp only [phase2]
    split_ifs with g1
    · exact ih _ h1
    · exact h1

theorem loadAlarmData_ids (lines : List (List Int))
    (h : ∀ l ∈ lines, ∀ s ∈ l, 0 ≤ s ∧ s < (NUM_SERVERS : Int)) :
    ∀ ss ∈ (loadAlarmData lines).server_efficiency, 0 ≤ ss.2 ∧ ss.2 < (NUM_SERVERS : Int) := by
  intro ss hss
  have h1 : ss ∈ (buildServerToDays lines).map (fun kv => (score kv.2, kv.1)) :=
    (mem_sortBy _ _ _).mp hss
  obtain ⟨kv, hkv, rfl⟩ := List.mem_map.mp h1
  obtain ⟨l, hl, hk⟩ := keys_buildServerToDays (List.mem_map_of_mem Prod.fst hkv)
  exact h l hl _ hk

theorem solve_allocation (s : Solver) : (solve s).allocation = (solveAlloc s).1 := by
  simp only [solve, calculateFinalResults]

end RealisticSolver

namespace RealisticSolver

/-- C1. For every input whose server ids all lie in `[0, NUM_SERVERS)`, the
allocation returned by `solve` (Phase 1 and Phase 2) has `NUM_ENGINEERS` rows
of `MAX_SERVERS_PER_ENGINEER` slots, no server id other than -1 occupies two
slots, in two rows or twice in one row, and `server_used[s]` is true exactly
for the servers `s` that occupy a slot. -/
theorem solve_one_holder_per_server (lines : List (List Int))
    (h : ∀ l ∈ lines, ∀ s ∈ l, 0 ≤ s ∧ s < (NUM_SERVERS : Int)) :
    Shape NUM_ENGINEERS MAX_SERVERS_PER_ENGINEER (solve (loadAlarmData lines)).allocation ∧
    (∀ e1 i1 e2 i2, e1 < NUM_ENGINEERS → i1 < MAX_SERVERS_PER_ENGINEER →
      e2 < NUM_ENGINEERS → i2 < MAX_SERVERS_PER_ENGINEER →
      slotOf (solve (loadAlarmData lines)).allocation e1 i1 ≠ -1 →
      slotOf (solve (loadAlarmData lines)).allocation e1 i1
        = slotOf (solve (loadAlarmData lines)).allocation e2 i2 →
      e1 = e2 ∧ i1 = i2) ∧
    (∀ s : Nat, s < NUM_SERVERS →
      ((solveAlloc (loadAlarmData lines)).2.getD s false = true ↔
        ∃ e i, e < NUM_ENGINEERS ∧ i < MAX_SERVERS_PER_ENGINEER ∧
          slotOf (solve (loadAlarmData lines)).allocation e i = (s : Int))) := by
  have hs := loadAlarmData_ids lines h
  have hinv : Inv (solveAlloc (loadAlarmData lines)).1 (solveAlloc (loadAlarmData lines)).2 :=
    inv_phase2 _ hs 20 _ (inv_phase1 _ hs)
  rw [solve_allocation]
  exact ⟨hinv.1, hinv.2.2.2.1, hinv.2.2.2.2⟩

/-- The table of two days with servers 0 and 1 on day 0 and server 1 on
day 1 has its server ids in range, so C1 applies to it. -/
theorem solve_one_holder_per_server_witness :
    (∀ l ∈ ([[0, 1], [1]] : List (List Int)), ∀ s ∈ l, 0 ≤ s ∧ s < (NUM_SERVERS : Int)) ∧
      Unique (solve (loadAlarmData [[0, 1], [1]])).allocation :=
  ⟨by decide, (solve_one_holder_per_server [[0, 1], [1]] (by decide)).2.1⟩

end RealisticSolver

/-! ### precise_solver.cpp: the incremental bookkeeping -/

theorem daySet_setInsert (x : Nat) (l : List Nat) (h : DaySet l) : DaySet (setInsert x l) := by
  unfold DaySet at *
  induction l with
  | nil => simp [setInsert]
  | cons y ys ih =>
    simp only [List.pairwise_cons] at h
    simp only [setInsert]
    split_ifs with h1 h2
    · simp only [List.pairwise_cons, List.mem_cons]
      refine ⟨?_, h.1, h.2⟩
      rintro a (rfl | ha)
      · exact h1
      · exact lt_trans h1 (h.1 a ha)
    · simp only [List.pairwise_cons]
      exact h
    · simp only [List.pairwise_cons]
      refine ⟨?_, ih h.2⟩
      intro a ha
      rcases (mem_setInsert x a ys).mp ha with h3 | h3
      · rw [h3]; omega
      · exact h.1 a h3

theorem daySet_setInsertAll (xs : List Nat) : ∀ s : List Nat, DaySet s →
    DaySet (setInsertAll xs s) := by
  induction xs with
  | nil => intro s h; exact h
  | cons z zs ih =>
    intro s h
    have h1 : setInsertAll (z :: zs) s = setInsertAll zs (setInsert z s) := rfl
    rw [h1]
    exact ih _ (daySet_setInsert z s h)

theorem daySet_length_eq {l1 l2 : List Nat} (h1 : DaySet l1) (h2 : DaySet l2)
    (h : ∀ x, x ∈ l1 ↔ x ∈ l2) : l1.length = l2.length :=
  ((List.perm_ext_iff_of_nodup (List.Pairwise.imp (fun hab => ne_of_lt hab) h1)
    (List.Pairwise.imp (fun hab => ne_of_lt hab) h2)).mpr h).length_eq

/-- The union loop over the slots: the result is a day set whose members are
those of the start and of the day lists of the slots that pass the test. -/
theorem unionFold (C : Nat → Prop) [DecidablePred C] (D : Nat → List Nat) (slots : List Nat) :
    ∀ acc : List Nat, DaySet acc →
      DaySet (slots.foldl (fun acc j => if C j then setInsertAll (D j) acc else acc) acc) ∧
      ∀ d, (d ∈ slots.foldl (fun acc j => if C j then setInsertAll (D j) acc else acc) acc ↔
        (d ∈ acc ∨ ∃ j ∈ slots, C j ∧ d ∈ D j)) := by
  induction slots with
  | nil => intro acc h; exact ⟨h, fun d => by simp⟩
  | cons x xs ih =>
    intro acc h
    simp only [List.foldl_cons]
    by_cases hx : C x
    · simp only [hx, if_true]
      obtain ⟨h1, h2⟩ := ih _ (daySet_setInsertAll (D x) acc h)
      refine ⟨h1, fun d => ?_⟩
      rw [h2 d, mem_setInsertAll]
      constructor
      · rintro ((h3 | h3) | ⟨j, hj, h4, h5⟩)
        · right; exact ⟨x, List.mem_cons_self _ _, hx, h3⟩
        · left; exact h3
        · right; exact ⟨j, List.mem_cons_of_mem _ hj, h4, h5⟩
      · rintro (h3 | ⟨j, hj, h4, h5⟩)
        · left; right; exact h3
        · rcases List.mem_cons.mp hj with h6 | h6
          · left; left; rw [h6] at h5; exact h5
          · right; exact ⟨j, h6, h4, h5⟩
    · simp only [hx, if_false]
      obtain ⟨h1, h2⟩ := ih _ h
      refine ⟨h1, fun d => ?_⟩
      rw [h2 d]
      constructor
      · rintro (h3 | ⟨j, hj, h4, h5⟩)
        · left; exact h3
        · right; exact ⟨j, List.mem_cons_of_mem _ hj, h4, h5⟩
      · rintro (h3 | ⟨j, hj, h4, h5⟩)
        · left; exact h3
        · rcases List.mem_cons.mp hj with h6 | h6
          · rw [h6] at h4; exact absurd h4 hx
          · right; exact ⟨j, h6, h4, h5⟩

theorem daySet_rowDays (std : List (Int × List Nat)) (a : List (List Int)) (e : Nat) :
    DaySet (rowDays std a e) :=
  (unionFold (fun i => slotOf a e i ≠ -1) (fun i => mapGet std (slotOf a e i)) (List.range 5)
    [] List.Pairwise.nil).1

theorem mem_rowDays (std : List (Int × List Nat)) (a : List (List Int)) (e d : Nat) :
    d ∈ rowDays std a e ↔ ∃ i, i < 5 ∧ slotOf a e i ≠ -1 ∧ d ∈ mapGet std (slotOf a e i) := by
  have h := (unionFold (fun i => slotOf a e i ≠ -1) (fun i => mapGet std (slotOf a e i))
    (List.range 5) [] List.Pairwise.nil).2 d
  unfold rowDays
  rw [h]
  simp only [List.not_mem_nil, false_or, List.mem_range]

theorem rowDays_congr (std : List (Int × List Nat)) (a b : List (List Int)) (e : Nat)
    (h : ∀ i, slotOf a e i = slotOf b e i) : rowDays std a e = rowDays std b e := by
  unfold rowDays
  simp only [h]

theorem sum_set_int (l : List Int) : ∀ (e : Nat), e < l.length → ∀ x : Int,
    (l.set e x).sum = l.sum - l.getD e 0 + x := by
  induction l with
  | nil => intro e he; exact absurd he (by simp)
  | cons y ys ih =>
    intro e he x
    cases e with
    | zero =>
      simp only [List.set_cons_zero, List.sum_cons, List.getD_cons_zero]
      omega
    | succ k =>
      simp only [List.set_cons_succ, List.sum_cons, List.getD_cons_succ]
      rw [ih k (by simpa using he) x]
      omega

theorem sum_eq_sum_range_getD (l : List Int) :
    l.sum = ((List.range l.length).map (fun i => l.getD i 0)).sum := by
  have h : (List.range l.length).map (fun i => l.getD i 0) = l := by
    apply List.ext_getElem
    · simp
    · intro n h1 h2
      simp only [List.getElem_map, List.getElem_range, List.getD_eq_getElem?_getD]
      rw [List.getElem?_eq_getElem]
      rfl
  rw [h]

namespace PreciseILPSolver

/-- Writing `v` into slot `i` of row `e` with the matching update of
`engineer_rest_days[e]` and `total_rest_days` keeps the bookkeeping. -/
theorem booksInv_update {std : List (Int × List Nat)} {b : Books} (h : BooksInv std b)
    {e i : Nat} (he : e < NUM_ENGINEERS) (hi : i < MAX_SERVERS_PER_ENGINEER) (v : Int)
    (u : List Bool) (r t : Int)
    (hr : r = (NUM_DAYS : Int) - ((rowDays std (setSlot b.allocation e i v) e).length : Int))
    (ht : t = b.total_rest_days - b.engineer_rest_days.getD e 0 + r) :
    BooksInv std
      { allocation := setSlot b.allocation e i v
        server_used := u
        engineer_rest_days := b.engineer_rest_days.set e r
        total_rest_days := t } := by
  obtain ⟨hs, hl, hrow, hsum⟩ := h
  refine ⟨shape_set_row hs e i v, by simp only [List.length_set]; exact hl, ?_, ?_⟩
  · intro e1 he1
    show (b.engineer_rest_days.set e r).getD e1 0
      = (NUM_DAYS : Int) - ((rowDays std (setSlot b.allocation e i v) e1).length : Int)
    rw [getD_set_eq]
    by_cases c : e1 = e
    · subst c
      rw [if_pos ⟨rfl, by rw [hl]; exact he⟩]
      exact hr
    · rw [if_neg (fun h1 => c h1.1)]
      rw [rowDays_congr std (setSlot b.allocation e i v) b.allocation e1
        (fun j => by rw [slotOf_setSlot hs he hi, if_neg (fun h1 => c h1.1)])]
      exact hrow e1 he1
  · show t = (b.engineer_rest_days.set e r).sum
    rw [sum_set_int _ e (by rw [hl]; exact he), ← hsum]
    exact ht

theorem mem_rowDays_assign {std : List (Int × List Nat)} {a : List (List Int)}
    (hs : Shape NUM_ENGINEERS MAX_SERVERS_PER_ENGINEER a) {e i : Nat} (he : e < NUM_ENGINEERS)
    (hi : i < MAX_SERVERS_PER_ENGINEER) (hempty : slotOf a e i = -1) {v : Int} (hv : v ≠ -1)
    (d : Nat) :
    d ∈ rowDays std (setSlot a e i v) e ↔ d ∈ mapGet std v ∨ d ∈ rowDays std a e := by
  rw [mem_rowDays, mem_rowDays]
  have hi5 : i < 5 := hi
  constructor
  · rintro ⟨j, hj, h1, h2⟩
    rw [slotOf_setSlot hs he hi] at h1 h2
    by_cases c : e = e ∧ j = i
    · rw [if_pos c] at h2
      left; exact h2
    · rw [if_neg c] at h1 h2
      right; exact ⟨j, hj, h1, h2⟩
  · rintro (h1 | ⟨j, hj, h1, h2⟩)
    · refine ⟨i, hi5, ?_, ?_⟩
      · rw [slotOf_setSlot hs he hi, if_pos ⟨rfl, rfl⟩]; exact hv
      · rw [slotOf_setSlot hs he hi, if_pos ⟨rfl, rfl⟩]; exact h1
    · have c : ¬ (e = e ∧ j = i) := by
        rintro ⟨_, rfl⟩
        exact h1 hempty
      refine ⟨j, hj, ?_, ?_⟩
      · rw [slotOf_setSlot hs he hi, if_neg c]; exact h1
      · rw [slotOf_setSlot hs he hi, if_neg c]; exact h2

theorem mem_rowDaysWithout (std : List (Int × List Nat)) (a : List (List Int)) (e i d : Nat) :
    d ∈ rowDaysWithout std a e i ↔
      ∃ j, j < 5 ∧ (j ≠ i ∧ slotOf a e j ≠ -1) ∧ d ∈ mapGet std (slotOf a e j) := by
  have h := (unionFold (fun j => j ≠ i ∧ slotOf a e j ≠ -1)
    (fun j => mapGet std (slotOf a e j)) (List.range MAX_SERVERS_PER_ENGINEER) []
    List.Pairwise.nil).2 d
  unfold rowDaysWithout
  rw [h]
  simp only [List.not_mem_nil, false_or, List.mem_range, MAX_SERVERS_PER_ENGINEER]

theorem daySet_rowDaysWithout (std : List (Int × List Nat)) (a : List (List Int)) (e i : Nat) :
    DaySet (rowDaysWithout std a e i) :=
  (unionFold (fun j => j ≠ i ∧ slotOf a e j ≠ -1) (fun j => mapGet std (slotOf a e j))
    (List.range 5) [] List.Pairwise.nil).1

theorem mem_rowDays_remove {std : List (Int × List Nat)} {a : List (List Int)}
    (hs : Shape NUM_ENGINEERS MAX_SERVERS_PER_ENGINEER a) {e i : Nat} (he : e < NUM_ENGINEERS)
    (hi : i < MAX_SERVERS_PER_ENGINEER) (d : Nat) :
    d ∈ rowDays std (setSlot a e i (-1)) e ↔ d ∈ rowDaysWithout std a e i := by
  rw [mem_rowDays, mem_rowDaysWithout]
  constructor
  · rintro ⟨j, hj, h1, h2⟩
    rw [slotOf_setSlot hs he hi] at h1 h2
    by_cases c : e = e ∧ j = i
    · rw [if_pos c] at h1
      exact absurd rfl h1
    · rw [if_neg c] at h1 h2
      exact ⟨j, hj, ⟨fun h3 => c ⟨rfl, h3⟩, h1⟩, h2⟩
  · rintro ⟨j, hj, ⟨h0, h1⟩, h2⟩
    have c : ¬ (e = e ∧ j = i) := fun h3 => h0 h3.2
    refine ⟨j, hj, ?_, ?_⟩
    · rw [slotOf_setSlot hs he hi, if_neg c]; exact h1
    · rw [slotOf_setSlot hs he hi, if_neg c]; exact h2

end PreciseILPSolver

namespace PreciseILPSolver

/-- The assignment of Phase 1 (lines 171-179) keeps the bookkeeping. -/
theorem assign_step (std : List (Int × List Nat)) {e : Nat} (he : e < NUM_ENGINEERS)
    (b : Books) (cur : List Nat) (k : Nat) (v : Int) (hv : v ≠ -1)
    (hk : k < MAX_SERVERS_PER_ENGINEER) (hb : BooksInv std b)
    (hE : EmptyFrom b.allocation e k) (hD : DaySet cur)
    (hm : ∀ d, d ∈ cur ↔ d ∈ rowDays std b.allocation e) :
    BooksInv std
        { allocation := setSlot b.allocation e k v
          server_used := b.server_used.set v.toNat true
          engineer_rest_days := b.engineer_rest_days.set e
            ((NUM_DAYS : Int) - ((setInsertAll (mapGet std v) cur).length : Int))
          total_rest_days := b.total_rest_days - (b.engineer_rest_days.getD e 0
            - ((NUM_DAYS : Int) - ((setInsertAll (mapGet std v) cur).length : Int))) } ∧
      EmptyFrom (setSlot b.allocation e k v) e (k + 1) ∧
      DaySet (setInsertAll (mapGet std v) cur) ∧
      ∀ d, d ∈ setInsertAll (mapGet std v) cur ↔ d ∈ rowDays std (setSlot b.allocation e k v) e := by
  have hempty : slotOf b.allocation e k = -1 := hE e k (Or.inl ⟨rfl, le_refl _⟩) he hk
  have hmem : ∀ d, d ∈ setInsertAll (mapGet std v) cur ↔
      d ∈ rowDays std (setSlot b.allocation e k v) e := by
    intro d
    rw [mem_setInsertAll, mem_rowDays_assign hb.1 he hk hempty hv, hm d]
  have hD2 := daySet_setInsertAll (mapGet std v) cur hD
  refine ⟨?_, ?_, hD2, hmem⟩
  · refine booksInv_update hb he hk v _ _ _ ?_ ?_
    · rw [daySet_length_eq hD2 (daySet_rowDays _ _ _) hmem]
    · omega
  · intro e1 i hc he1 hi1
    rw [slotOf_setSlot hb.1 he hk, if_neg (by omega)]
    exact hE e1 i (by omega) he1 hi1

theorem books_assignLoop (std : List (Int × List Nat)) {e : Nat} (he : e < NUM_ENGINEERS)
    (l : List (Int × Int)) (hl : ∀ ss ∈ l, ss.2 ≠ -1) :
    ∀ (b : Books) (cur : List Nat) (k : Nat), BooksInv std b → EmptyFrom b.allocation e k →
      DaySet cur → (∀ d, d ∈ cur ↔ d ∈ rowDays std b.allocation e) →
      BooksInv std (assignLoop std e l (b, cur, k)).1 ∧
        EmptyFrom (assignLoop std e l (b, cur, k)).1.allocation e
          (assignLoop std e l (b, cur, k)).2.2 := by
  induction l with
  | nil => intro b cur k hb hE _ _; exact ⟨hb, hE⟩
  | cons ss rest ih =>
    intro b cur k hb hE hD hm
    have hrest := fun x hx => hl x (List.mem_cons_of_mem _ hx)
    have hv := hl ss (List.mem_cons_self _ _)
    simp only [assignLoop]
    split_ifs with g1 g2 g3
    · exact ih hrest b cur k hb hE hD hm
    · simp only [Bool.or_eq_true, decide_eq_true_eq, not_or, Bool.not_eq_true] at g1
      obtain ⟨h1, h2, _, _⟩ := assign_step std he b cur k ss.2 hv (by omega) hb hE hD hm
      exact ⟨h1, h2⟩
    · simp only [Bool.or_eq_true, decide_eq_true_eq, not_or, Bool.not_eq_true] at g1
      obtain ⟨h1, h2, h3, h4⟩ := assign_step std he b cur k ss.2 hv (by omega) hb hE hD hm
      exact ih hrest _ _ _ h1 h2 h3 h4
    · exact ih hrest b cur k hb hE hD hm

theorem rowDays_empty (std : List (Int × List Nat)) (a : List (List Int)) (e : Nat)
    (h : ∀ i, i < 5 → slotOf a e i = -1) : ∀ d, d ∈ ([] : List Nat) ↔ d ∈ rowDays std a e := by
  intro d
  rw [mem_rowDays]
  constructor
  · intro h1; exact absurd h1 (List.not_mem_nil _)
  · rintro ⟨i, hi, h1, _⟩
    exact absurd (h i hi) h1

theorem books_initial (std : List (Int × List Nat)) :
    BooksInv std
        { allocation := Solution.init.allocation
          server_used := List.replicate NUM_SERVERS false
          engineer_rest_days := List.replicate NUM_ENGINEERS (NUM_DAYS : Int)
          total_rest_days := (NUM_ENGINEERS : Int) * (NUM_DAYS : Int) } ∧
      EmptyFrom Solution.init.allocation 0 0 := by
  have h0 : ∀ e i, slotOf Solution.init.allocation e i = -1 :=
    fun e i => slotOf_replicate _ _ e i
  refine ⟨⟨shape_replicate _ _ _, List.length_replicate _ _, ?_, ?_⟩, ?_⟩
  · intro e he
    have h1 : rowDays std Solution.init.allocation e = [] := by
      apply List.eq_nil_iff_forall_not_mem.mpr
      intro d hd
      exact absurd ((rowDays_empty std _ e (fun i _ => h0 e i) d).mpr hd) (List.not_mem_nil _)
    show (List.replicate NUM_ENGINEERS (NUM_DAYS : Int)).getD e 0
      = (NUM_DAYS : Int) - ((rowDays std Solution.init.allocation e).length : Int)
    rw [h1, List.getD_eq_getElem?_getD,
      List.getElem?_eq_getElem (by rw [List.length_replicate]; exact he),
      List.getElem_replicate]
    simp
  · show (NUM_ENGINEERS : Int) * (NUM_DAYS : Int)
      = (List.replicate NUM_ENGINEERS (NUM_DAYS : Int)).sum
    rw [List.sum_replicate]
    simp
  · intro e1 i _ _ _
    exact h0 e1 i

theorem books_phase1_upto (s : Solver) (hs : ∀ ss ∈ s.server_efficiency, ss.2 ≠ -1) (n : Nat)
    (hn : n ≤ NUM_ENGINEERS) :
    BooksInv s.server_to_days ((List.range n).foldl
        (fun b engineer =>
          (assignLoop s.server_to_days engineer s.server_efficiency (b, [], 0)).1)
        { allocation := Solution.init.allocation
          server_used := List.replicate NUM_SERVERS false
          engineer_rest_days := List.replicate NUM_ENGINEERS (NUM_DAYS : Int)
          total_rest_days := (NUM_ENGINEERS : Int) * (NUM_DAYS : Int) }) ∧
      EmptyFrom ((List.range n).foldl
        (fun b engineer =>
          (assignLoop s.server_to_days engineer s.server_efficiency (b, [], 0)).1)
        { allocation := Solution.init.allocation
          server_used := List.replicate NUM_SERVERS false
          engineer_rest_days := List.replicate NUM_ENGINEERS (NUM_DAYS : Int)
          total_rest_days := (NUM_ENGINEERS : Int) * (NUM_DAYS : Int) }).allocation n 0 := by
  induction n with
  | zero => exact books_initial _
  | succ k ih =>
    rw [List.range_succ, List.foldl_append]
    obtain ⟨h1, h2⟩ := ih (by omega)
    simp only [List.foldl_cons, List.foldl_nil]
    have hk : k < NUM_ENGINEERS := by omega
    obtain ⟨h3, h4⟩ := books_assignLoop s.server_to_days hk s.server_efficiency hs _ [] 0 h1 h2
      List.Pairwise.nil
      (rowDays_empty _ _ k (fun i hi => h2 k i (Or.inl ⟨rfl, Nat.zero_le _⟩) hk hi))
    refine ⟨h3, ?_⟩
    intro e1 i hc he1 hi1
    exact h4 e1 i (by omega) he1 hi1

theorem books_phase1 (s : Solver) (hs : ∀ ss ∈ s.server_efficiency, ss.2 ≠ -1) :
    BooksInv s.server_to_days (phase1 s) :=
  (books_phase1_upto s hs NUM_ENGINEERS (le_refl _)).1

end PreciseILPSolver

namespace PreciseILPSolver

theorem emptySlot_some {a : List (List Int)} {e k : Nat} (h : emptySlot a e = some k) :
    k < MAX_SERVERS_PER_ENGINEER ∧ slotOf a e k = -1 := by
  unfold emptySlot at h
  refine ⟨List.mem_range.mp (List.mem_of_find?_eq_some h), ?_⟩
  have h1 := List.find?_some h
  simpa using h1

theorem books_topUpLoop (std : List (Int × List Nat)) {e : Nat} (he : e < NUM_ENGINEERS)
    (l : List (Int × Int)) (hl : ∀ ss ∈ l, ss.2 ≠ -1) :
    ∀ (b : Books) (x : Int), BooksInv std b → BooksInv std (topUpLoop std e l (b, x)).1 := by
  induction l with
  | nil => intro b x hb; exact hb
  | cons ss rest ih =>
    intro b x hb
    have hrest := fun y hy => hl y (List.mem_cons_of_mem _ hy)
    have hv := hl ss (List.mem_cons_self _ _)
    simp only [topUpLoop]
    split_ifs with g1 g2
    · exact ih hrest b x hb
    · split
      · exact ih hrest b x hb
      · rename_i k hk
        obtain ⟨hk5, hempty⟩ := emptySlot_some hk
        have hmem : ∀ d, d ∈ setInsertAll (mapGet std ss.2) (rowDays std b.allocation e) ↔
            d ∈ rowDays std (setSlot b.allocation e k ss.2) e := by
          intro d
          rw [mem_setInsertAll, mem_rowDays_assign hb.1 he hk5 hempty hv]
        have hlen := daySet_length_eq
          (daySet_setInsertAll (mapGet std ss.2) _ (daySet_rowDays std b.allocation e))
          (daySet_rowDays _ _ _) hmem
        have hrow := hb.2.2.1 e he
        refine booksInv_update hb he hk5 ss.2 _ _ _ ?_ ?_
        · rw [← hlen, hrow]
          omega
        · omega
    · split
      · exact ih hrest b x hb
      · exact ih hrest b x hb

theorem books_topUpEngineers (s : Solver) (hs : ∀ ss ∈ s.server_efficiency, ss.2 ≠ -1)
    (engineers : List Nat) (hes : ∀ e ∈ engineers, e < NUM_ENGINEERS) :
    ∀ st : Books × Int × Bool, BooksInv s.server_to_days st.1 →
      BooksInv s.server_to_days (topUpEngineers s engineers st).1 := by
  induction engineers with
  | nil => intro st h; exact h
  | cons e rest ih =>
    intro st h
    have hrest := fun x hx => hes x (List.mem_cons_of_mem _ hx)
    simp only [topUpEngineers]
    split_ifs with g1 g2
    · exact ih hrest _ (books_topUpLoop s.server_to_days (hes e (List.mem_cons_self _ _))
        s.server_efficiency hs st.1 st.2.1 h)
    · exact ih hrest st h
    · exact h

theorem books_removeLoop (std : List (Int × List Nat)) {e : Nat} (he : e < NUM_ENGINEERS)
    (slots : List Nat) (hslots : ∀ i ∈ slots, i < MAX_SERVERS_PER_ENGINEER) :
    ∀ (b : Books) (x : Int), BooksInv std b → BooksInv std (removeLoop std e slots (b, x)).1 := by
  induction slots with
  | nil => intro b x hb; exact hb
  | cons i rest ih =>
    intro b x hb
    have hrest := fun y hy => hslots y (List.mem_cons_of_mem _ hy)
    have hi := hslots i (List.mem_cons_self _ _)
    simp only [removeLoop]
    split_ifs with g1 g2 g3
    · have hlen := daySet_length_eq (daySet_rowDays std (setSlot b.allocation e i (-1)) e)
        (daySet_rowDaysWithout std b.allocation e i)
        (fun d => mem_rowDays_remove hb.1 he hi d)
      refine booksInv_update hb he hi (-1) _ _ _ ?_ ?_
      · rw [hlen]
        omega
      · omega
    · exact ih hrest b x hb
    · exact ih hrest b x hb
    · exact ih hrest b x hb

theorem books_removeEngineers (s : Solver) (engineers : List Nat)
    (hes : ∀ e ∈ engineers, e < NUM_ENGINEERS) :
    ∀ st : Books × Int × Bool, BooksInv s.server_to_days st.1 →
      BooksInv s.server_to_days (removeEngineers s engineers st).1 := by
  induction engineers with
  | nil => intro st h; exact h
  | cons e rest ih =>
    intro st h
    have hrest := fun x hx => hes x (List.mem_cons_of_mem _ hx)
    simp only [removeEngineers]
    split_ifs with g1 g2
    · exact ih hrest _ (books_removeLoop s.server_to_days (hes e (List.mem_cons_self _ _))
        _ (fun i hi => List.mem_range.mp (List.mem_reverse.mp hi)) st.1 st.2.1 h)
    · exact ih hrest st h
    · exact h

theorem books_phase2 (s : Solver) (hs : ∀ ss ∈ s.server_efficiency, ss.2 ≠ -1) (fuel : Nat) :
    ∀ b : Books, BooksInv s.server_to_days b → BooksInv s.server_to_days (phase2 s fuel b) := by
  induction fuel with
  | zero => intro b h; exact h
  | succ k ih =>
    intro b h
    have h1 := books_topUpEngineers s hs (List.range NUM_ENGINEERS)
      (fun e he => List.mem_range.mp he) (b, b.total_rest_days - (MAX_REST_DAYS : Int), false) h
    have h2 := books_removeEngineers s (List.range NUM_ENGINEERS)
      (fun e he => List.mem_range.mp he) (b, (MAX_REST_DAYS : Int) - b.total_rest_days, false) h
    simp only [phase2]
    split_ifs with g1 g2 g3 g4
    · exact h
    · exact ih _ h1
    · exact h1
    · exact ih _ h2
    · exact h2

theorem books_solve (s : Solver) (hs : ∀ ss ∈ s.server_efficiency, ss.2 ≠ -1) :
    BooksInv s.server_to_days (solveBooks s) :=
  books_phase2 s hs 100 _ (books_phase1 s hs)

end PreciseILPSolver

namespace PreciseILPSolver

theorem markRow_getD_iff (std : List (Int × List Nat)) (a : List (List Int)) (e d : Nat)
    (row : List Bool) :
    (markRow std a e row).getD d false = true ↔ d < row.length ∧ d ∈ rowDays std a e := by
  unfold markRow
  have h := (markSlots_fold (fun _ => True) (fun r day => r.set day true)
    (fun _ _ => (if_pos trivial).symm) std a e (List.range MAX_SERVERS_PER_ENGINEER)
    (row.map (fun _ => false))).2 d
  rw [h, getD_map_false, mem_rowDays, List.length_map]
  constructor
  · rintro (h1 | ⟨_, h2, i, hi, h3, h4⟩)
    · exact absurd h1 (by simp)
    · exact ⟨h2, i, List.mem_range.mp hi, h3, h4⟩
  · rintro ⟨h2, i, hi, h3, h4⟩
    right
    exact ⟨trivial, h2, i, List.mem_range.mpr hi, h3, h4⟩

theorem countWork_markRow (std : List (Int × List Nat)) (a : List (List Int)) (e : Nat)
    (hd : ∀ d ∈ rowDays std a e, d < NUM_DAYS) (row : List Bool)
    (hrow : row.length = NUM_DAYS) :
    countWork (markRow std a e row) = (rowDays std a e).length := by
  unfold countWork
  apply daySet_length_eq
  · exact List.Pairwise.filter _ (List.pairwise_lt_range _)
  · exact daySet_rowDays std a e
  · intro d
    rw [List.mem_filter, List.mem_range, markRow_getD_iff, hrow]
    constructor
    · rintro ⟨_, _, h3⟩
      exact h3
    · intro h3
      exact ⟨hd d h3, hd d h3, h3⟩

theorem solve_total (s : Solver) :
    (solve s).total_rest_days
      = ((List.range NUM_ENGINEERS).map
          (fun e => (NUM_DAYS : Int) - (countWork ((solve s).daily_work.getD e []) : Int))).sum := by
  simp only [solve, calculateFinalResults]

theorem solve_row (s : Solver) (e : Nat) (he : e < NUM_ENGINEERS) :
    (solve s).daily_work.getD e []
      = markRow s.server_to_days (solveBooks s).allocation e (List.replicate NUM_DAYS false) := by
  simp only [solve, calculateFinalResults, Solution.init]
  rw [getD_enum_map _ _ e (by rw [List.length_replicate]; exact he)]
  simp only [he, if_true, List.getElem_replicate]

theorem loadAlarmData_days (lines : List (List Int)) (a : List (List Int)) (e d : Nat)
    (h : d ∈ rowDays (loadAlarmData lines).server_to_days a e) : d < NUM_DAYS := by
  obtain ⟨i, _, _, h1⟩ := (mem_rowDays _ _ _ _).mp h
  have h2 : d < (lines.take NUM_DAYS).length := day_lt_of_mem_buildServerToDays h1
  rw [List.length_take] at h2
  omega

theorem loadAlarmData_ids_ne (lines : List (List Int))
    (h : ∀ l ∈ lines, ∀ s ∈ l, 0 ≤ s ∧ s < (NUM_SERVERS : Int)) :
    ∀ ss ∈ (loadAlarmData lines).server_efficiency, ss.2 ≠ -1 := by
  intro ss hss
  have h1 : ss ∈ (buildServerToDays (lines.take NUM_DAYS)).map (fun kv => (score2 kv.2, kv.1)) :=
    (mem_sortBy _ _ _).mp hss
  obtain ⟨kv, hkv, rfl⟩ := List.mem_map.mp h1
  obtain ⟨l, hl, hk⟩ := keys_buildServerToDays (List.mem_map_of_mem Prod.fst hkv)
  have h2 := (h l (List.mem_of_mem_take hl) _ hk).1
  show kv.1 ≠ -1
  omega

/-- C9. For every input with server ids in `[0, NUM_SERVERS)`, at the end of
`solve` the incrementally maintained `total_rest_days` equals the sum of the
incrementally maintained `engineer_rest_days` and equals
`solution.total_rest_days` as `calculateFinalResults` recomputes it from the
allocation. -/
theorem solve_bookkeeping_matches (lines : List (List Int))
    (h : ∀ l ∈ lines, ∀ s ∈ l, 0 ≤ s ∧ s < (NUM_SERVERS : Int)) :
    (solveBooks (loadAlarmData lines)).total_rest_days
        = (solveBooks (loadAlarmData lines)).engineer_rest_days.sum ∧
      (solveBooks (loadAlarmData lines)).total_rest_days
        = (solve (loadAlarmData lines)).total_rest_days := by
  obtain ⟨_, hlen, hrow, hsum⟩ := books_solve (loadAlarmData lines) (loadAlarmData_ids_ne lines h)
  refine ⟨hsum, ?_⟩
  rw [hsum, sum_eq_sum_range_getD, hlen, solve_total]
  refine congrArg List.sum (List.map_congr_left ?_)
  intro e he
  have he1 := List.mem_range.mp he
  rw [hrow e he1, solve_row _ e he1,
    countWork_markRow _ _ e (fun d hd => loadAlarmData_days lines _ e d hd) _
      (List.length_replicate _ _)]

/-- The table of two days with servers 0 and 1 on day 0 and server 1 on
day 1 has its server ids in range, so C9 applies to it. -/
theorem solve_bookkeeping_matches_witness :
    (∀ l ∈ ([[0, 1], [1]] : List (List Int)), ∀ s ∈ l, 0 ≤ s ∧ s < (NUM_SERVERS : Int)) ∧
      (solveBooks (loadAlarmData [[0, 1], [1]])).total_rest_days
        = (solve (loadAlarmData [[0, 1], [1]])).total_rest_days :=
  ⟨by decide, (solve_bookkeeping_matches [[0, 1], [1]] (by decide)).2⟩

end PreciseILPSolver

/-! ### ultimate_solver.cpp: the distribution search -/

namespace UltimateConstraintSolver

/-- The test of the loop body accepts a pair exactly with an exact split. -/
theorem tryPair_some {engineers total : Int} {min_work max_work : Nat} {d : Distribution}
    (h : tryPair engineers total min_work max_work = some d) :
    d.found_distribution = true ∧ d.min_work_days = min_work ∧ d.max_work_days = max_work ∧
      (0 ≤ engineers → 0 ≤ d.engineers_with_min_work) ∧ 0 ≤ d.engineers_with_max_work ∧
      d.engineers_with_min_work + d.engineers_with_max_work = engineers ∧
      d.min_work_days * d.engineers_with_min_work + d.max_work_days * d.engineers_with_max_work
        = total := by
  simp only [tryPair] at h
  split_ifs at h with h1 h2 h3
  · cases h
    refine ⟨rfl, rfl, by rw [h1], fun he => he, le_refl _, ?_, ?_⟩
    · dsimp only
      omega
    · dsimp only
      omega
  · cases h
    refine ⟨rfl, rfl, rfl, fun _ => h3.1, h3.2.1, ?_, h3.2.2⟩
    dsimp only
    omega

theorem tryPair_complete {engineers total : Int} {min_work max_work : Nat} {x y : Int} (hx : 0 ≤ x) (hy : 0 ≤ y) (hxy : x + y = engineers)
    (heq : (min_work : Int) * x + (max_work : Int) * y = total) :
    tryPair engineers total min_work max_work ≠ none := by
  simp only [tryPair]
  split_ifs with h1 h2 h3
  · simp
  · exfalso
    apply h2
    rw [h1] at heq
    rw [← heq, ← hxy]
    ring
  · simp
  · exfalso
    apply h3
    have hpos : ((max_work : Int) - (min_work : Int)) ≠ 0 := by omega
    have hnum : total - (min_work : Int) * engineers
        = y * ((max_work : Int) - (min_work : Int)) := by
      rw [← heq, ← hxy]
      ring
    rw [hnum, Int.mul_tdiv_cancel y hpos]
    have hx2 : engineers - y = x := by omega
    rw [hx2]
    exact ⟨hx, hy, heq⟩

theorem maxLoop_some (engineers total : Int) (min_work : Nat) :
    ∀ (fuel max0 : Nat) (d : Distribution),
      maxLoop engineers total min_work fuel max0 = some d →
      ∃ m, max0 ≤ m ∧ m < max0 + fuel ∧ tryPair engineers total min_work m = some d ∧
        ∀ m1, max0 ≤ m1 → m1 < m → tryPair engineers total min_work m1 = none := by
  intro fuel
  induction fuel with
  | zero => intro max0 d h; simp [maxLoop] at h
  | succ k ih =>
    intro max0 d h
    simp only [maxLoop] at h
    cases ht : tryPair engineers total min_work max0 with
    | some d1 =>
      rw [ht] at h
      simp only [Option.some.injEq] at h
      subst h
      exact ⟨max0, le_refl _, by omega, ht, fun m1 h1 h2 => by omega⟩
    | none =>
      rw [ht] at h
      obtain ⟨m, h1, h2, h3, h4⟩ := ih (max0 + 1) d h
      refine ⟨m, by omega, by omega, h3, ?_⟩
      intro m1 h5 h6
      by_cases h7 : m1 = max0
      · rw [h7]; exact ht
      · exact h4 m1 (by omega) h6

theorem maxLoop_none (engineers total : Int) (min_work : Nat) :
    ∀ (fuel max0 : Nat), maxLoop engineers total min_work fuel max0 = none →
      ∀ m1, max0 ≤ m1 → m1 < max0 + fuel → tryPair engineers total min_work m1 = none := by
  intro fuel
  induction fuel with
  | zero => intro max0 _ m1 h1 h2; omega
  | succ k ih =>
    intro max0 h m1 h1 h2
    simp only [maxLoop] at h
    cases ht : tryPair engineers total min_work max0 with
    | some d1 => rw [ht] at h; simp at h
    | none =>
      rw [ht] at h
      by_cases h7 : m1 = max0
      · rw [h7]; exact ht
      · exact ih (max0 + 1) h m1 (by omega) (by omega)

theorem minLoop_some (engineers total : Int) (num_days : Nat) :
    ∀ (fuel min0 : Nat) (d : Distribution),
      minLoop engineers total num_days fuel min0 = some d →
      ∃ lo hi, min0 ≤ lo ∧ lo < min0 + fuel ∧ lo ≤ hi ∧ hi < lo + (num_days + 1 - lo) ∧
        tryPair engineers total lo hi = some d ∧
        ∀ lo1 hi1, min0 ≤ lo1 → lo1 ≤ hi1 → hi1 ≤ num_days →
          (lo1 < lo ∨ (lo1 = lo ∧ hi1 < hi)) → tryPair engineers total lo1 hi1 = none := by
  intro fuel
  induction fuel with
  | zero => intro min0 d h; simp [minLoop] at h
  | succ k ih =>
    intro min0 d h
    simp only [minLoop] at h
    cases hm : maxLoop engineers total min0 (num_days + 1 - min0) min0 with
    | some d1 =>
      rw [hm] at h
      simp only [Option.some.injEq] at h
      subst h
      obtain ⟨m, h1, h2, h3, h4⟩ := maxLoop_some engineers total min0 _ _ _ hm
      refine ⟨min0, m, le_refl _, by omega, h1, h2, h3, ?_⟩
      intro lo1 hi1 h5 h6 h7 h8
      rcases h8 with h8 | ⟨h8, h9⟩
      · omega
      · rw [h8]
        exact h4 hi1 (by omega) h9
    | none =>
      rw [hm] at h
      obtain ⟨lo, hi, h1, h2, h3, h4, h5, h6⟩ := ih (min0 + 1) d h
      refine ⟨lo, hi, by omega, by omega, h3, h4, h5, ?_⟩
      intro lo1 hi1 h7 h8 h9 h10
      by_cases h11 : lo1 = min0
      · rw [h11]
        exact maxLoop_none engineers total min0 _ _ hm hi1 (by omega) (by omega)
      · exact h6 lo1 hi1 (by omega) h8 h9 h10

theorem minLoop_none (engineers total : Int) (num_days : Nat) :
    ∀ (fuel min0 : Nat), minLoop engineers total num_days fuel min0 = none →
      ∀ lo1 hi1, min0 ≤ lo1 → lo1 < min0 + fuel → lo1 ≤ hi1 → hi1 ≤ num_days →
        tryPair engineers total lo1 hi1 = none := by
  intro fuel
  induction fuel with
  | zero => intro min0 _ lo1 hi1 h1 h2; omega
  | succ k ih =>
    intro min0 h lo1 hi1 h1 h2 h3 h4
    simp only [minLoop] at h
    cases hm : maxLoop engineers total min0 (num_days + 1 - min0) min0 with
    | some d1 => rw [hm] at h; simp at h
    | none =>
      rw [hm] at h
      by_cases h11 : lo1 = min0
      · rw [h11]
        exact maxLoop_none engineers total min0 _ _ hm hi1 (by omega) (by omega)
      · exact ih (min0 + 1) h lo1 hi1 (by omega) (by omega) h3 h4

/-- When the search fails, `found_distribution` stays false; when it
succeeds, the result is what the loops stored. -/
theorem distributionFor_found {engineers budget : Int} {num_days : Nat}
    (h : (distributionFor engineers budget num_days).found_distribution = true) :
    minLoop engineers (engineers * (num_days : Int) - budget) num_days num_days 1
      = some (distributionFor engineers budget num_days) := by
  simp only [distributionFor] at h ⊢
  cases hm : minLoop engineers (engineers * (num_days : Int) - budget) num_days num_days 1 with
  | some d => rfl
  | none =>
    rw [hm] at h
    simp at h

end UltimateConstraintSolver

namespace UltimateConstraintSolver

/-- C15. Whenever the distribution search of `solve` succeeds
(`found_distribution` is true), the values it fixes satisfy
`1 <= min_work_days <= max_work_days <= num_days`, both counts are
non-negative, they add up to `NUM_ENGINEERS`, and
`min_work_days * engineers_with_min_work + max_work_days * engineers_with_max_work`
is `NUM_ENGINEERS * num_days - MAX_REST_DAYS`. -/
theorem distribution_found_exact (num_days : Nat)
    (h : (distribution num_days).found_distribution = true) :
    1 ≤ (distribution num_days).min_work_days ∧
    (distribution num_days).min_work_days ≤ (distribution num_days).max_work_days ∧
    (distribution num_days).max_work_days ≤ (num_days : Int) ∧
    0 ≤ (distribution num_days).engineers_with_min_work ∧
    0 ≤ (distribution num_days).engineers_with_max_work ∧
    (distribution num_days).engineers_with_min_work
      + (distribution num_days).engineers_with_max_work = (NUM_ENGINEERS : Int) ∧
    (distribution num_days).min_work_days * (distribution num_days).engineers_with_min_work
      + (distribution num_days).max_work_days * (distribution num_days).engineers_with_max_work
      = (NUM_ENGINEERS : Int) * (num_days : Int) - (MAX_REST_DAYS : Int) := by
  obtain ⟨lo, hi, h1, _, h3, h4, h5, _⟩ := minLoop_some _ _ _ _ _ _ (distributionFor_found h)
  obtain ⟨_, g2, g3, g4, g5, g6, g7⟩ := tryPair_some h5
  have hE : (0 : Int) ≤ (NUM_ENGINEERS : Int) := Int.ofNat_nonneg _
  unfold distribution
  rw [g2, g3] at g7 ⊢
  refine ⟨by omega, by omega, by omega, g4 hE, g5, g6, g7⟩

/-- For 22 loaded days the search succeeds, so C15 applies. -/
theorem distribution_found_exact_witness :
    (distribution 22).found_distribution = true ∧
      (distribution 22).engineers_with_min_work + (distribution 22).engineers_with_max_work
        = (NUM_ENGINEERS : Int) :=
  ⟨by decide, (distribution_found_exact 22 (by decide)).2.2.2.2.2.1⟩

/-- C16, as the code has it. Whenever an exact split of
`NUM_ENGINEERS * num_days - MAX_REST_DAYS` into the tiers `lo <= hi` with
`1 <= lo` and `hi <= num_days` exists (two adjacent tiers included), the
search succeeds and returns the exact split with the smallest
`min_work_days` and, for it, the smallest `max_work_days`. -/
theorem distribution_first_exact (num_days lo hi : Nat) (x y : Int) (h1 : 1 ≤ lo)
    (h2 : lo ≤ hi) (h3 : hi ≤ num_days) (hx : 0 ≤ x) (hy : 0 ≤ y)
    (hxy : x + y = (NUM_ENGINEERS : Int))
    (heq : (lo : Int) * x + (hi : Int) * y
      = (NUM_ENGINEERS : Int) * (num_days : Int) - (MAX_REST_DAYS : Int)) :
    (distribution num_days).found_distribution = true ∧
      (distribution num_days).min_work_days ≤ (lo : Int) ∧
      ((distribution num_days).min_work_days = (lo : Int) →
        (distribution num_days).max_work_days ≤ (hi : Int)) := by
  have hpair := tryPair_complete hx hy hxy heq
  unfold distribution
  simp only [distributionFor]
  cases hm : minLoop (NUM_ENGINEERS : Int)
      ((NUM_ENGINEERS : Int) * (num_days : Int) - (MAX_REST_DAYS : Int)) num_days num_days 1 with
  | none =>
    exact absurd (minLoop_none _ _ _ _ _ hm lo hi h1 (by omega) h2 h3) hpair
  | some d =>
    obtain ⟨lo1, hi1, g1, _, g3, _, g5, g6⟩ := minLoop_some _ _ _ _ _ _ hm
    obtain ⟨f1, f2, f3, _⟩ := tryPair_some g5
    refine ⟨f1, ?_, ?_⟩
    · show d.min_work_days ≤ (lo : Int)
      rw [f2]
      by_contra hc
      exact hpair (g6 lo hi h1 h2 h3 (Or.inl (by omega)))
    · show d.min_work_days = (lo : Int) → d.max_work_days ≤ (hi : Int)
      rw [f2, f3]
      intro he
      by_contra hc
      exact hpair (g6 lo hi h1 h2 h3 (Or.inr ⟨by omega, by omega⟩))

/-- For 22 loaded days the adjacent tiers 20 and 21 with 74 and 262 engineers
are an exact split, so the search succeeds with `min_work_days <= 20`. -/
theorem distribution_first_exact_witness :
    ((20 : Int) * 74 + (21 : Int) * 262
        = (NUM_ENGINEERS : Int) * ((22 : Nat) : Int) - (MAX_REST_DAYS : Int)) ∧
      (distribution 22).found_distribution = true ∧
      (distribution 22).min_work_days ≤ ((20 : Nat) : Int) :=
  ⟨by decide,
    (distribution_first_exact 22 20 21 74 262 (by decide) (by decide) (by decide) (by decide)
      (by decide) (by decide) (by decide)).1,
    (distribution_first_exact 22 20 21 74 262 (by decide) (by decide) (by decide) (by decide)
      (by decide) (by decide) (by decide)).2.1⟩

/-- C16 fails as stated: for 22 loaded days the adjacent tiers 20 and 21 are
an exact split (74 and 262 engineers), and the search returns the tiers 12
and 22 (41 and 295 engineers). -/
theorem distribution_spread_22_days :
    ((20 : Int) * 74 + (20 + 1) * 262
        = (NUM_ENGINEERS : Int) * ((22 : Nat) : Int) - (MAX_REST_DAYS : Int)) ∧
      (74 : Int) + 262 = (NUM_ENGINEERS : Int) ∧
      distribution 22 =
        { found_distribution := true, min_work_days := 12, max_work_days := 22,
          engineers_with_min_work := 41, engineers_with_max_work := 295 } ∧
      ¬ ((distribution 22).max_work_days - (distribution 22).min_work_days ≤ 1) := by
  decide

/-- C17 fails as stated: with 10 engineers, 5 days and budget 10 the search
does not return the tiers 4 and 5. -/
theorem distributionFor_scenario_not_4_5 :
    ¬ ((distributionFor 10 10 5).min_work_days = 4 ∧
        (distributionFor 10 10 5).max_work_days = 5) := by
  decide

/-- C17, as the code has it. With 10 engineers, 5 days and budget 10
(required 40) the search succeeds with `min_work_days = 1`,
`max_work_days = 4`, no engineer on the lower tier and 10 on the upper one:
the counts add up to 10, `1 * 0 + 4 * 10 = 40`, and every engineer gets the
target 4. -/
theorem distributionFor_scenario :
    distributionFor 10 10 5 =
        { found_distribution := true, min_work_days := 1, max_work_days := 4,
          engineers_with_min_work := 0, engineers_with_max_work := 10 } ∧
      (distributionFor 10 10 5).engineers_with_min_work
        + (distributionFor 10 10 5).engineers_with_max_work = 10 ∧
      (distributionFor 10 10 5).min_work_days * (distributionFor 10 10 5).engineers_with_min_work
        + (distributionFor 10 10 5).max_work_days
          * (distributionFor 10 10 5).engineers_with_max_work = 40 ∧
      targetLoop (distributionFor 10 10 5).min_work_days (distributionFor 10 10 5).max_work_days
        10 (distributionFor 10 10 5).engineers_with_min_work = List.replicate 10 4 := by
  decide

theorem targetLoop_all_min (lo hi : Int) :
    ∀ (n : Nat) (x : Int), (n : Int) ≤ x → targetLoop lo hi n x = List.replicate n lo := by
  intro n
  induction n with
  | zero => intro x _; rfl
  | succ k ih =>
    intro x hx
    have hpos : x > 0 := by omega
    simp only [targetLoop, hpos, if_true, List.replicate_succ]
    rw [ih (x - 1) (by omega)]

theorem targets_one_day : targets 1 = List.replicate NUM_ENGINEERS 0 := by
  unfold targets
  have hd : distribution 1 =
      { found_distribution := false, min_work_days := 0, max_work_days := 1,
        engineers_with_min_work := 410, engineers_with_max_work := -74 } := by decide
  rw [hd]
  exact targetLoop_all_min 0 1 NUM_ENGINEERS 410 (by decide)

/-- C18, as the code has it. When `NUM_ENGINEERS * num_days - MAX_REST_DAYS`
is negative, the search fails and the approximation branch sets
`min_work_days` to that number divided by `NUM_ENGINEERS` (truncated),
`max_work_days` one higher, `engineers_with_max_work` to the remainder -74
and `engineers_with_min_work` to 410; Phase 1 then gets the target
`min_work_days` for every engineer. -/
theorem distribution_negative_required (num_days : Nat)
    (h : (NUM_ENGINEERS : Int) * (num_days : Int) - (MAX_REST_DAYS : Int) < 0) :
    distribution num_days =
        { found_distribution := false
          min_work_days :=
            ((NUM_ENGINEERS : Int) * (num_days : Int) - (MAX_REST_DAYS : Int)).tdiv NUM_ENGINEERS
          max_work_days :=
            ((NUM_ENGINEERS : Int) * (num_days : Int) - (MAX_REST_DAYS : Int)).tdiv NUM_ENGINEERS
              + 1
          engineers_with_min_work := 410
          engineers_with_max_work := -74 } ∧
      targets num_days = List.replicate NUM_ENGINEERS (distribution num_days).min_work_days := by
  have hn : num_days = 0 ∨ num_days = 1 := by
    simp only [NUM_ENGINEERS, MAX_REST_DAYS] at h
    omega
  have hd : distribution num_days =
        { found_distribution := false
          min_work_days :=
            ((NUM_ENGINEERS : Int) * (num_days : Int) - (MAX_REST_DAYS : Int)).tdiv NUM_ENGINEERS
          max_work_days :=
            ((NUM_ENGINEERS : Int) * (num_days : Int) - (MAX_REST_DAYS : Int)).tdiv NUM_ENGINEERS
              + 1
          engineers_with_min_work := 410
          engineers_with_max_work := -74 } := by
    rcases hn with rfl | rfl <;> decide
  refine ⟨hd, ?_⟩
  unfold targets
  apply targetLoop_all_min
  rw [hd]
  show ((NUM_ENGINEERS : Nat) : Int) ≤ 410
  decide

/-- With one loaded day the required total is negative, so C18 applies:
every engineer gets the target 0. -/
theorem distribution_negative_required_witness :
    ((NUM_ENGINEERS : Int) * ((1 : Nat) : Int) - (MAX_REST_DAYS : Int) < 0) ∧
      targets 1 = List.replicate NUM_ENGINEERS (distribution 1).min_work_days :=
  ⟨by decide, (distribution_negative_required 1 (by decide)).2⟩

/-- C18 fails as stated: with one loaded day the required total is -74, and
the quota computation hands Phase 1 the target 0 for every engineer, with
`found_distribution` false as in every run in which the search fails. -/
theorem distribution_one_day_targets :
    (NUM_ENGINEERS : Int) * ((1 : Nat) : Int) - (MAX_REST_DAYS : Int) = -74 ∧
      distribution 1 =
        { found_distribution := false, min_work_days := 0, max_work_days := 1,
          engineers_with_min_work := 410, engineers_with_max_work := -74 } ∧
      (targets 1).length = NUM_ENGINEERS ∧ ∀ t ∈ targets 1, t = 0 := by
  refine ⟨by decide, by decide, ?_, ?_⟩
  · rw [targets_one_day]
    exact List.length_replicate _ _
  · rw [targets_one_day]
    intro t ht
    exact (List.mem_replicate.mp ht).2

end UltimateConstraintSolver

/-! ### final_solver.cpp: the swaps of Phase 2 -/

theorem hasDayBelow14_iff (days : List Nat) :
    hasDayBelow14 days = true ↔ ∃ d, d < 14 ∧ d ∈ days := by
  unfold hasDayBelow14
  simp only [List.any_eq_true, List.mem_range, List.contains_iff_exists_mem_beq, beq_iff_eq,
    exists_eq_right']

theorem mapGet_of_mem {m : List (Int × List Nat)} (h : KeysAsc m) {k : Int} {ds : List Nat}
    (hm : (k, ds) ∈ m) : mapGet m k = ds := by
  unfold KeysAsc at h
  induction m with
  | nil => exact absurd hm (List.not_mem_nil _)
  | cons kv rest ih =>
    obtain ⟨k0, ds0⟩ := kv
    simp only [List.map_cons, List.pairwise_cons] at h
    rw [mapGet_cons]
    rcases List.mem_cons.mp hm with h1 | h1
    · cases h1
      rw [if_pos rfl]
    · have h2 : k0 < k := h.1 k (List.mem_map_of_mem Prod.fst h1)
      rw [if_neg (by omega)]
      exact ih h.2 h1

theorem keysAsc_buildServerToDays (lines : List (List Int)) : KeysAsc (buildServerToDays lines) := by
  unfold buildServerToDays List.enum
  exact (mapFold_enumFrom lines 0 [] (by unfold KeysAsc; simp)).1

theorem shape_ext {rows cols : Nat} {a b : List (List Int)} (ha : Shape rows cols a)
    (hb : Shape rows cols b)
    (h : ∀ e i, e < rows → i < cols → slotOf a e i = slotOf b e i) : a = b := by
  apply List.ext_getElem
  · rw [ha.1, hb.1]
  · intro e h1 h2
    have he : e < rows := by rw [← ha.1]; exact h1
    have hra : (a[e]).length = cols := ha.2 _ (List.getElem_mem _)
    have hrb : (b[e]).length = cols := hb.2 _ (List.getElem_mem _)
    apply List.ext_getElem
    · rw [hra, hrb]
    · intro i h3 h4
      have hi : i < cols := by rw [← hra]; exact h3
      have h5 := h e i he hi
      simp only [slotOf, rowOf, List.getD_eq_getElem?_getD, List.getElem?_eq_getElem h1,
        List.getElem?_eq_getElem h2, Option.getD_some, List.getElem?_eq_getElem h3,
        List.getElem?_eq_getElem h4] at h5
      exact h5

namespace FinalOptimalSolver

theorem shape_swapSlots {a : List (List Int)}
    (hs : Shape NUM_ENGINEERS MAX_SERVERS_PER_ENGINEER a) (e1 i1 e2 i2 : Nat) :
    Shape NUM_ENGINEERS MAX_SERVERS_PER_ENGINEER (swapSlots a e1 i1 e2 i2) :=
  shape_set_row (shape_set_row hs e1 i1 _) e2 i2 _

theorem slotOf_swapSlots {a : List (List Int)}
    (hs : Shape NUM_ENGINEERS MAX_SERVERS_PER_ENGINEER a) {e1 i1 e2 i2 : Nat}
    (he1 : e1 < NUM_ENGINEERS) (hi1 : i1 < MAX_SERVERS_PER_ENGINEER) (he2 : e2 < NUM_ENGINEERS)
    (hi2 : i2 < MAX_SERVERS_PER_ENGINEER) (e i : Nat) :
    slotOf (swapSlots a e1 i1 e2 i2) e i =
      if e = e2 ∧ i = i2 then slotOf a e1 i1
      else if e = e1 ∧ i = i1 then slotOf a e2 i2 else slotOf a e i := by
  have hs1 : Shape NUM_ENGINEERS MAX_SERVERS_PER_ENGINEER (setSlot a e1 i1 (slotOf a e2 i2)) :=
    shape_set_row hs e1 i1 _
  unfold swapSlots
  simp only []
  rw [slotOf_setSlot hs1 he2 hi2, slotOf_setSlot hs he1 hi1]

theorem swapSlots_swapSlots {a : List (List Int)}
    (hs : Shape NUM_ENGINEERS MAX_SERVERS_PER_ENGINEER a) {e1 i1 e2 i2 : Nat}
    (he1 : e1 < NUM_ENGINEERS) (hi1 : i1 < MAX_SERVERS_PER_ENGINEER) (he2 : e2 < NUM_ENGINEERS)
    (hi2 : i2 < MAX_SERVERS_PER_ENGINEER) :
    swapSlots (swapSlots a e1 i1 e2 i2) e1 i1 e2 i2 = a := by
  apply shape_ext (shape_swapSlots (shape_swapSlots hs _ _ _ _) _ _ _ _) hs
  intro e i _ _
  have key := fun e i => slotOf_swapSlots hs he1 hi1 he2 hi2 e i
  rw [slotOf_swapSlots (shape_swapSlots hs _ _ _ _) he1 hi1 he2 hi2, key e1 i1, key e2 i2,
    key e i]
  by_cases c2 : e = e2 ∧ i = i2
  · rw [if_pos c2, c2.1, c2.2]
    by_cases c3 : e1 = e2 ∧ i1 = i2
    · rw [if_pos c3, c3.1, c3.2]
    · rw [if_neg c3, if_pos ⟨rfl, rfl⟩]
  · rw [if_neg c2, if_neg c2]
    by_cases c1 : e = e1 ∧ i = i1
    · rw [if_pos c1, if_pos ⟨rfl, rfl⟩, c1.1, c1.2]
    · rw [if_neg c1, if_neg c1]

theorem mem_slotPairs {p : Nat × Nat} (h : p ∈ slotPairs) :
    p.1 < MAX_SERVERS_PER_ENGINEER ∧ p.2 < MAX_SERVERS_PER_ENGINEER := by
  unfold slotPairs at h
  simp only [List.mem_flatMap, List.mem_range, List.mem_map] at h
  obtain ⟨i1, h1, i2, h2, rfl⟩ := h
  exact ⟨h1, h2⟩

/-- The loops over the slot pairs leave the allocation as it was, or keep one
swap of two occupied slots that lowers the error. -/
theorem trySlotPairs_spec (std : List (Int × List Nat)) {e1 e2 : Nat}
    (he1 : e1 < NUM_ENGINEERS) (he2 : e2 < NUM_ENGINEERS) (t1 t2 c1 c2 : Int)
    (pairs : List (Nat × Nat))
    (hp : ∀ p ∈ pairs, p.1 < MAX_SERVERS_PER_ENGINEER ∧ p.2 < MAX_SERVERS_PER_ENGINEER)
    (a : List (List Int)) (hs : Shape NUM_ENGINEERS MAX_SERVERS_PER_ENGINEER a) :
    ((trySlotPairs std e1 e2 t1 t2 c1 c2 pairs a).2 = false ∧
        (trySlotPairs std e1 e2 t1 t2 c1 c2 pairs a).1 = a) ∨
      ((trySlotPairs std e1 e2 t1 t2 c1 c2 pairs a).2 = true ∧
        ∃ i1 i2, i1 < MAX_SERVERS_PER_ENGINEER ∧ i2 < MAX_SERVERS_PER_ENGINEER ∧
          slotOf a e1 i1 ≠ -1 ∧ slotOf a e2 i2 ≠ -1 ∧
          (trySlotPairs std e1 e2 t1 t2 c1 c2 pairs a).1 = swapSlots a e1 i1 e2 i2 ∧
          errorOf ((rowDays std (swapSlots a e1 i1 e2 i2) e1).length : Int) t1
              ((rowDays std (swapSlots a e1 i1 e2 i2) e2).length : Int) t2
            < errorOf c1 t1 c2 t2) := by
  induction pairs with
  | nil => left; exact ⟨rfl, rfl⟩
  | cons p rest ih =>
    obtain ⟨i1, i2⟩ := p
    have hrest := fun q hq => hp q (List.mem_cons_of_mem _ hq)
    obtain ⟨hi1, hi2⟩ := hp (i1, i2) (List.mem_cons_self _ _)
    simp only [trySlotPairs]
    split_ifs with g1 g2
    · right
      exact ⟨rfl, i1, i2, hi1, hi2, g1.1, g1.2, rfl, g2⟩
    · rw [swapSlots_swapSlots hs he1 hi1 he2 hi2]
      exact ih hrest
    · exact ih hrest

end FinalOptimalSolver

namespace FinalOptimalSolver

theorem tryPartners_spec (std : List (Int × List Nat)) {e1 : Nat} (he1 : e1 < NUM_ENGINEERS)
    (t1 c1 : Int) (partners : List Nat)
    (hpart : ∀ e2 ∈ partners, e1 < e2 ∧ e2 < NUM_ENGINEERS) (a : List (List Int))
    (hs : Shape NUM_ENGINEERS MAX_SERVERS_PER_ENGINEER a) :
    ((tryPartners std e1 t1 c1 partners a).2 = false ∧
        (tryPartners std e1 t1 c1 partners a).1 = a) ∨
      ((tryPartners std e1 t1 c1 partners a).2 = true ∧
        ∃ e2 i1 i2, e1 < e2 ∧ e2 < NUM_ENGINEERS ∧
          i1 < MAX_SERVERS_PER_ENGINEER ∧ i2 < MAX_SERVERS_PER_ENGINEER ∧
          slotOf a e1 i1 ≠ -1 ∧ slotOf a e2 i2 ≠ -1 ∧
          (tryPartners std e1 t1 c1 partners a).1 = swapSlots a e1 i1 e2 i2 ∧
          errorOf ((rowDays std (swapSlots a e1 i1 e2 i2) e1).length : Int) t1
              ((rowDays std (swapSlots a e1 i1 e2 i2) e2).length : Int) (targetWorkDays e2)
            < errorOf c1 t1 ((rowDays std a e2).length : Int) (targetWorkDays e2)) := by
  induction partners with
  | nil => left; exact ⟨rfl, rfl⟩
  | cons e2 rest ih =>
    have hrest := fun q hq => hpart q (List.mem_cons_of_mem _ hq)
    obtain ⟨h12, he2⟩ := hpart e2 (List.mem_cons_self _ _)
    have hsp := trySlotPairs_spec std he1 he2 t1 (targetWorkDays e2) c1
      ((rowDays std a e2).length : Int) slotPairs (fun p hp => mem_slotPairs hp) a hs
    simp only [tryPartners]
    split_ifs with g1 g2
    · exact ih hrest
    · right
      rcases hsp with ⟨h1, _⟩ | ⟨_, i1, i2, h3, h4, h5, h6, h7, h8⟩
      · rw [h1] at g2
        exact absurd g2 (by simp)
      · exact ⟨g2, e2, i1, i2, h12, he2, h3, h4, h5, h6, h7, h8⟩
    · rcases hsp with ⟨_, h2⟩ | ⟨h1, _⟩
      · rw [h2]
        exact ih hrest
      · exact absurd h1 g2

theorem tryEngineers_spec (std : List (Int × List Nat)) (engineers : List Nat)
    (hes : ∀ e ∈ engineers, e < NUM_ENGINEERS) (a : List (List Int))
    (hs : Shape NUM_ENGINEERS MAX_SERVERS_PER_ENGINEER a) :
    ((tryEngineers std engineers a).2 = false ∧ (tryEngineers std engineers a).1 = a) ∨
      ((tryEngineers std engineers a).2 = true ∧
        ∃ e1 e2 i1 i2, e1 < e2 ∧ e2 < NUM_ENGINEERS ∧
          i1 < MAX_SERVERS_PER_ENGINEER ∧ i2 < MAX_SERVERS_PER_ENGINEER ∧
          slotOf a e1 i1 ≠ -1 ∧ slotOf a e2 i2 ≠ -1 ∧
          (tryEngineers std engineers a).1 = swapSlots a e1 i1 e2 i2 ∧
          errorOf ((rowDays std (swapSlots a e1 i1 e2 i2) e1).length : Int) (targetWorkDays e1)
              ((rowDays std (swapSlots a e1 i1 e2 i2) e2).length : Int) (targetWorkDays e2)
            < errorOf ((rowDays std a e1).length : Int) (targetWorkDays e1)
                ((rowDays std a e2).length : Int) (targetWorkDays e2)) := by
  induction engineers with
  | nil => left; exact ⟨rfl, rfl⟩
  | cons e1 rest ih =>
    have hrest := fun q hq => hes q (List.mem_cons_of_mem _ hq)
    have he1 := hes e1 (List.mem_cons_self _ _)
    have hsp := tryPartners_spec std he1 (targetWorkDays e1) ((rowDays std a e1).length : Int)
      (List.range' (e1 + 1) (NUM_ENGINEERS - (e1 + 1)))
      (fun e2 h2 => by
        have h3 := List.mem_range'_1.mp h2
        omega) a hs
    simp only [tryEngineers]
    split_ifs with g1 g2
    · exact ih hrest
    · right
      rcases hsp with ⟨h1, _⟩ | ⟨_, e2, i1, i2, h2, h3, h4, h5, h6, h7, h8, h9⟩
      · rw [h1] at g2
        exact absurd g2 (by simp)
      · exact ⟨g2, e1, e2, i1, i2, h2, h3, h4, h5, h6, h7, h8, h9⟩
    · rcases hsp with ⟨_, h2⟩ | ⟨h1, _⟩
      · rw [h2]
        exact ih hrest
      · exact absurd h1 g2

/-- One iteration of Phase 2 leaves the allocation as it was, or keeps one
swap of two occupied slots of two engineers that lowers their error. -/
theorem iteration_spec (s : Solver) (a : List (List Int))
    (hs : Shape NUM_ENGINEERS MAX_SERVERS_PER_ENGINEER a) :
    ((iteration s a).2 = false ∧ (iteration s a).1 = a) ∨
      ((iteration s a).2 = true ∧
        ∃ e1 e2 i1 i2, e1 < e2 ∧ e2 < NUM_ENGINEERS ∧
          i1 < MAX_SERVERS_PER_ENGINEER ∧ i2 < MAX_SERVERS_PER_ENGINEER ∧
          slotOf a e1 i1 ≠ -1 ∧ slotOf a e2 i2 ≠ -1 ∧
          (iteration s a).1 = swapSlots a e1 i1 e2 i2 ∧
          errorOf ((rowDays s.server_to_days (swapSlots a e1 i1 e2 i2) e1).length : Int)
              (targetWorkDays e1)
              ((rowDays s.server_to_days (swapSlots a e1 i1 e2 i2) e2).length : Int)
              (targetWorkDays e2)
            < errorOf ((rowDays s.server_to_days a e1).length : Int) (targetWorkDays e1)
                ((rowDays s.server_to_days a e2).length : Int) (targetWorkDays e2)) :=
  tryEngineers_spec s.server_to_days (List.range NUM_ENGINEERS)
    (fun _ he => List.mem_range.mp he) a hs

theorem covers14_swapSlots {std : List (Int × List Nat)} {a : List (List Int)}
    (hs : Shape NUM_ENGINEERS MAX_SERVERS_PER_ENGINEER a) (hc : Covers14 std a)
    {e1 i1 e2 i2 : Nat} (he1 : e1 < NUM_ENGINEERS) (hi1 : i1 < MAX_SERVERS_PER_ENGINEER)
    (he2 : e2 < NUM_ENGINEERS) (hi2 : i2 < MAX_SERVERS_PER_ENGINEER) :
    Covers14 std (swapSlots a e1 i1 e2 i2) := by
  intro e i he hi hne
  rw [slotOf_swapSlots hs he1 hi1 he2 hi2] at hne ⊢
  split_ifs at hne ⊢ with c2 c1
  · exact hc e1 i1 he1 hi1 hne
  · exact hc e2 i2 he2 hi2 hne
  · exact hc e i he hi hne

/-- A swap of two occupied slots keeps the first-14-days coverage of every
engineer when every held server is active on a day below 14. -/
theorem first14_swapSlots {std : List (Int × List Nat)} {a : List (List Int)}
    (hs : Shape NUM_ENGINEERS MAX_SERVERS_PER_ENGINEER a) (hc : Covers14 std a)
    {e1 i1 e2 i2 : Nat} (he1 : e1 < NUM_ENGINEERS) (hi1 : i1 < MAX_SERVERS_PER_ENGINEER)
    (he2 : e2 < NUM_ENGINEERS) (hi2 : i2 < MAX_SERVERS_PER_ENGINEER)
    (h1 : slotOf a e1 i1 ≠ -1) (h2 : slotOf a e2 i2 ≠ -1) {e : Nat} (he : e < NUM_ENGINEERS)
    (h : hasDayBelow14 (rowDays std a e) = true) :
    hasDayBelow14 (rowDays std (swapSlots a e1 i1 e2 i2) e) = true := by
  obtain ⟨d, _, hd⟩ := (hasDayBelow14_iff _).mp h
  obtain ⟨i, hi, hne, _⟩ := (mem_rowDays _ _ _ _).mp hd
  have hne2 : slotOf (swapSlots a e1 i1 e2 i2) e i ≠ -1 := by
    rw [slotOf_swapSlots hs he1 hi1 he2 hi2]
    split_ifs
    · exact h1
    · exact h2
    · exact hne
  have hcov := covers14_swapSlots hs hc he1 hi1 he2 hi2 e i he hi hne2
  obtain ⟨d2, hd2, hm2⟩ := (hasDayBelow14_iff _).mp hcov
  exact (hasDayBelow14_iff _).mpr ⟨d2, hd2, (mem_rowDays _ _ _ _).mpr ⟨i, hi, hne2, hm2⟩⟩

end FinalOptimalSolver

namespace FinalOptimalSolver

theorem score_pos_covers {days : List Nat} (h : ¬ score days ≤ 0) :
    hasDayBelow14 days = true := by
  rw [hasDayBelow14_iff]
  by_cases h1 : (days.filter (fun day => decide (day < 14))).length = 0
  · exfalso
    apply h
    unfold score
    simp only [h1, if_true]
    exact le_refl _
  · have h2 : 0 < (days.filter (fun day => decide (day < 14))).length := by omega
    obtain ⟨d, hd⟩ := List.exists_mem_of_length_pos h2
    obtain ⟨h3, h4⟩ := List.mem_filter.mp hd
    exact ⟨d, by simpa using h4, h3⟩

theorem loadAlarmData_eff (lines : List (List Int)) :
    ∀ ss ∈ (loadAlarmData lines).server_efficiency, ¬ ss.1 ≤ 0 →
      hasDayBelow14 (mapGet (loadAlarmData lines).server_to_days ss.2) = true := by
  intro ss hss hpos
  have h1 : ss ∈ (buildServerToDays lines).map (fun kv => (score kv.2, kv.1)) :=
    (mem_sortBy _ _ _).mp hss
  obtain ⟨kv, hkv, rfl⟩ := List.mem_map.mp h1
  obtain ⟨k, ds⟩ := kv
  show hasDayBelow14 (mapGet (buildServerToDays lines) k) = true
  rw [mapGet_of_mem (keysAsc_buildServerToDays lines) hkv]
  exact score_pos_covers hpos

theorem inv_assignLoop (std : List (Int × List Nat)) {e : Nat} (he : e < NUM_ENGINEERS)
    (target : Int) (l : List (Int × Int))
    (hl : ∀ ss ∈ l, ¬ ss.1 ≤ 0 → hasDayBelow14 (mapGet std ss.2) = true) :
    ∀ st : AssignState, Shape NUM_ENGINEERS MAX_SERVERS_PER_ENGINEER st.allocation →
      Covers14 std st.allocation →
      Shape NUM_ENGINEERS MAX_SERVERS_PER_ENGINEER (assignLoop std e target l st).allocation ∧
        Covers14 std (assignLoop std e target l st).allocation := by
  induction l with
  | nil => intro st hs hc; exact ⟨hs, hc⟩
  | cons ss rest ih =>
    intro st hs hc
    have hrest := fun x hx => hl x (List.mem_cons_of_mem _ hx)
    have hnew : ¬ (st.server_used.getD ss.2.toNat false
          || decide (st.servers_assigned ≥ MAX_SERVERS_PER_ENGINEER) || decide (ss.1 ≤ 0)) = true →
        Shape NUM_ENGINEERS MAX_SERVERS_PER_ENGINEER
            (setSlot st.allocation e st.servers_assigned ss.2) ∧
          Covers14 std (setSlot st.allocation e st.servers_assigned ss.2) := by
      intro g1
      simp only [Bool.or_eq_true, decide_eq_true_eq, not_or, Bool.not_eq_true] at g1
      obtain ⟨⟨_, g2⟩, g3⟩ := g1
      have hk : st.servers_assigned < MAX_SERVERS_PER_ENGINEER := by omega
      refine ⟨shape_set_row hs e _ _, ?_⟩
      intro e1 i he1 hi hne
      rw [slotOf_setSlot hs he hk] at hne ⊢
      split_ifs at hne ⊢ with c
      · exact hl ss (List.mem_cons_self _ _) g3
      · exact hc e1 i he1 hi hne
    simp only [assignLoop]
    split_ifs with g1 g2 g3 g4 g5
    · exact ih hrest st hs hc
    · exact hnew g1
    · exact ih hrest _ (hnew g1).1 (hnew g1).2
    · exact ih hrest st hs hc
    · exact ⟨hs, hc⟩
    · exact ih hrest st hs hc

theorem inv_phase1_final (s : Solver)
    (hs : ∀ ss ∈ s.server_efficiency, ¬ ss.1 ≤ 0 →
      hasDayBelow14 (mapGet s.server_to_days ss.2) = true) :
    Shape NUM_ENGINEERS MAX_SERVERS_PER_ENGINEER (phase1 s).1 ∧
      Covers14 s.server_to_days (phase1 s).1 := by
  have hgen : ∀ (l : List Nat), (∀ e ∈ l, e < NUM_ENGINEERS) →
      ∀ acc : List (List Int) × List Bool,
        Shape NUM_ENGINEERS MAX_SERVERS_PER_ENGINEER acc.1 → Covers14 s.server_to_days acc.1 →
        Shape NUM_ENGINEERS MAX_SERVERS_PER_ENGINEER (l.foldl (assignEngineer s) acc).1 ∧
          Covers14 s.server_to_days (l.foldl (assignEngineer s) acc).1 := by
    intro l
    induction l with
    | nil => intro _ acc h1 h2; exact ⟨h1, h2⟩
    | cons e rest ih =>
      intro hl acc h1 h2
      simp only [List.foldl_cons]
      obtain ⟨h3, h4⟩ := inv_assignLoop s.server_to_days (hl e (List.mem_cons_self _ _))
        (targetWorkDays e) s.server_efficiency hs
        { allocation := acc.1, server_used := acc.2, current_work_days := [],
          servers_assigned := 0 } h1 h2
      exact ih (fun x hx => hl x (List.mem_cons_of_mem _ hx)) _ h3 h4
  refine hgen _ (fun e he => List.mem_range.mp he) _ (shape_replicate _ _ _) ?_
  intro e i _ _ hne
  exact absurd (slotOf_replicate _ _ e i) hne

theorem inv_iteration (s : Solver) (a : List (List Int))
    (hs : Shape NUM_ENGINEERS MAX_SERVERS_PER_ENGINEER a) (hc : Covers14 s.server_to_days a) :
    Shape NUM_ENGINEERS MAX_SERVERS_PER_ENGINEER (iteration s a).1 ∧
      Covers14 s.server_to_days (iteration s a).1 := by
  rcases iteration_spec s a hs with ⟨_, h2⟩ | ⟨_, e1, e2, i1, i2, h12, he2, hi1, hi2, _, _, h7, _⟩
  · rw [h2]; exact ⟨hs, hc⟩
  · rw [h7]
    exact ⟨shape_swapSlots hs _ _ _ _,
      covers14_swapSlots hs hc (by omega) hi1 he2 hi2⟩

theorem inv_phase2_final (s : Solver) (fuel : Nat) :
    ∀ a : List (List Int), Shape NUM_ENGINEERS MAX_SERVERS_PER_ENGINEER a →
      Covers14 s.server_to_days a →
      Shape NUM_ENGINEERS MAX_SERVERS_PER_ENGINEER (phase2 s fuel a) ∧
        Covers14 s.server_to_days (phase2 s fuel a) := by
  induction fuel with
  | zero => intro a hs hc; exact ⟨hs, hc⟩
  | succ k ih =>
    intro a hs hc
    obtain ⟨h1, h2⟩ := inv_iteration s a hs hc
    simp only [phase2]
    split_ifs
    · exact ih _ h1 h2
    · exact ⟨h1, h2⟩

/-- C11, as the code has it. In Phase 2 of `solve`, from the allocation
reached after any number of iterations, an iteration that accepts a swap
(`improved` is true) exchanges two occupied slots of two engineers
`e1 < e2` and nothing else, and the error
`|work1 - target1| + |work2 - target2|` of these two engineers is strictly
smaller after the swap than before it. -/
theorem phase2_accepted_swap_lowers_error (lines : List (List Int)) (k : Nat)
    (h : (iteration (loadAlarmData lines)
      (phase2 (loadAlarmData lines) k (phase1 (loadAlarmData lines)).1)).2 = true) :
    ∃ e1 e2 i1 i2, e1 < e2 ∧ e2 < NUM_ENGINEERS ∧
      i1 < MAX_SERVERS_PER_ENGINEER ∧ i2 < MAX_SERVERS_PER_ENGINEER ∧
      slotOf (phase2 (loadAlarmData lines) k (phase1 (loadAlarmData lines)).1) e1 i1 ≠ -1 ∧
      slotOf (phase2 (loadAlarmData lines) k (phase1 (loadAlarmData lines)).1) e2 i2 ≠ -1 ∧
      (iteration (loadAlarmData lines)
          (phase2 (loadAlarmData lines) k (phase1 (loadAlarmData lines)).1)).1
        = swapSlots (phase2 (loadAlarmData lines) k (phase1 (loadAlarmData lines)).1)
            e1 i1 e2 i2 ∧
      errorOf
          ((rowDays (loadAlarmData lines).server_to_days
            (iteration (loadAlarmData lines)
              (phase2 (loadAlarmData lines) k (phase1 (loadAlarmData lines)).1)).1 e1).length : Int)
          (targetWorkDays e1)
          ((rowDays (loadAlarmData lines).server_to_days
            (iteration (loadAlarmData lines)
              (phase2 (loadAlarmData lines) k (phase1 (loadAlarmData lines)).1)).1 e2).length : Int)
          (targetWorkDays e2)
        < errorOf
          ((rowDays (loadAlarmData lines).server_to_days
            (phase2 (loadAlarmData lines) k (phase1 (loadAlarmData lines)).1) e1).length : Int)
          (targetWorkDays e1)
          ((rowDays (loadAlarmData lines).server_to_days
            (phase2 (loadAlarmData lines) k (phase1 (loadAlarmData lines)).1) e2).length : Int)
          (targetWorkDays e2) := by
  obtain ⟨hs1, hc1⟩ := inv_phase1_final _ (loadAlarmData_eff lines)
  obtain ⟨hs, _⟩ := inv_phase2_final (loadAlarmData lines) k _ hs1 hc1
  rcases iteration_spec (loadAlarmData lines) _ hs with ⟨h1, _⟩ |
    ⟨_, e1, e2, i1, i2, h12, he2, hi1, hi2, h5, h6, h7, h8⟩
  · rw [h1] at h
    exact absurd h (by simp)
  · refine ⟨e1, e2, i1, i2, h12, he2, hi1, hi2, h5, h6, h7, ?_⟩
    rw [h7]
    exact h8

/-- C12. In Phase 2 of `solve`, for every input and from the allocation
reached after any number of iterations, the next iteration (with the swap it
accepts, if any) leaves every engineer that had a work day among days 0..13
with a work day among days 0..13. -/
theorem phase2_swap_keeps_first14 (lines : List (List Int)) (k e : Nat)
    (he : e < NUM_ENGINEERS)
    (h : hasDayBelow14 (rowDays (loadAlarmData lines).server_to_days
      (phase2 (loadAlarmData lines) k (phase1 (loadAlarmData lines)).1) e) = true) :
    hasDayBelow14 (rowDays (loadAlarmData lines).server_to_days
      (iteration (loadAlarmData lines)
        (phase2 (loadAlarmData lines) k (phase1 (loadAlarmData lines)).1)).1 e) = true := by
  obtain ⟨hs1, hc1⟩ := inv_phase1_final _ (loadAlarmData_eff lines)
  obtain ⟨hs, hc⟩ := inv_phase2_final (loadAlarmData lines) k _ hs1 hc1
  rcases iteration_spec (loadAlarmData lines) _ hs with ⟨_, h2⟩ |
    ⟨_, e1, e2, i1, i2, h12, he2, hi1, hi2, h5, h6, h7, _⟩
  · rw [h2]
    exact h
  · rw [h7]
    exact first14_swapSlots hs hc (by omega) hi1 he2 hi2 h5 h6 he h

end FinalOptimalSolver

/-! ### main.cpp: `tryAggressiveServerSwap` -/

theorem list_ext_getD {α : Type} {l1 l2 : List α} (d : α) (hl : l1.length = l2.length)
    (h : ∀ j, l1.getD j d = l2.getD j d) : l1 = l2 := by
  apply List.ext_getElem hl
  intro j h1 h2
  have h3 := h j
  simp only [List.getD_eq_getElem?_getD, List.getElem?_eq_getElem h1,
    List.getElem?_eq_getElem h2, Option.getD_some] at h3
  exact h3

namespace ServerAllocationSolver

theorem worksOn_blankWork (e d : Nat) : worksOn blankWork e d = false := by
  unfold worksOn blankWork
  rcases getD_mem_or_default ((List.replicate NUM_ENGINEERS
    (List.replicate NUM_DAYS false)).getD e []) d false with h | h
  · rcases getD_mem_or_default (List.replicate NUM_ENGINEERS (List.replicate NUM_DAYS false)) e []
      with h2 | h2
    · rw [(List.mem_replicate.mp h2).2] at h ⊢
      exact (List.mem_replicate.mp h).2
    · rw [h2] at h
      exact absurd h (List.not_mem_nil _)
  · exact h

/-- What `has_first_14` reads off the freshly marked `temp_daily_work`. -/
theorem hasFirst14_markAlarms {daily_alarms : List (List Int)} {ste : List Int} {e : Nat}
    (h : hasFirst14 (markAlarms daily_alarms ste blankWork) e = true) :
    ∃ d, d < FIRST_14_DAYS ∧ ∃ s ∈ daily_alarms.getD d [],
      ownerOf ste s ≠ -1 ∧ (ownerOf ste s).toNat = e := by
  unfold hasFirst14 at h
  simp only [List.any_eq_true, List.mem_range] at h
  obtain ⟨d, hd, hw⟩ := h
  have hspec := (markAlarms_spec daily_alarms ste blankWork
    (shape_replicate NUM_ENGINEERS NUM_DAYS false)).2 e d
  rcases hspec.mp hw with h1 | ⟨_, _, _, h4⟩
  · rw [worksOn_blankWork] at h1
    exact absurd h1 (by simp)
  · exact ⟨d, hd, h4⟩

theorem swapLoop_kept (daily_alarms : List (List Int)) (daily_work : List (List Bool))
    (engineer1 engineer2 : Nat) (pairs : List (Nat × Nat)) :
    ∀ st : MoveState,
      (swapLoop daily_alarms daily_work engineer1 engineer2 pairs st).improved = true →
      hasFirst14 (markAlarms daily_alarms
        (swapLoop daily_alarms daily_work engineer1 engineer2 pairs st).server_to_engineer
        blankWork) engineer1 = true ∧
      hasFirst14 (markAlarms daily_alarms
        (swapLoop daily_alarms daily_work engineer1 engineer2 pairs st).server_to_engineer
        blankWork) engineer2 = true := by
  induction pairs with
  | nil => intro st h; simp [swapLoop] at h
  | cons p rest ih =>
    obtain ⟨i, j⟩ := p
    intro st
    simp only [swapLoop]
    split_ifs with g1 g2 g3 g4
    · exact ih st
    · intro _
      simp only [Bool.and_eq_true, decide_eq_true_eq] at g3
      exact ⟨g2, g3.2⟩
    · exact ih _
    · intro _
      simp at g4
    · exact ih _

/-- C13. Whenever `tryAggressiveServerSwap` keeps a swap (returns true), each
of the two engineers has a work day among days 0..13 under the post-swap
ownership map: some server listed on such a day is recorded in
`server_to_engineer` as owned by that engineer. -/
theorem tryAggressiveServerSwap_kept_first14 (daily_alarms : List (List Int))
    (daily_work : List (List Bool)) (engineer1 engineer2 : Nat) (st : MoveState)
    (h : (tryAggressiveServerSwap daily_alarms daily_work engineer1 engineer2 st).improved
      = true) :
    (∃ d, d < FIRST_14_DAYS ∧ ∃ s ∈ daily_alarms.getD d [],
      ownerOf (tryAggressiveServerSwap daily_alarms daily_work engineer1 engineer2
        st).server_to_engineer s ≠ -1 ∧
      (ownerOf (tryAggressiveServerSwap daily_alarms daily_work engineer1 engineer2
        st).server_to_engineer s).toNat = engineer1) ∧
    (∃ d, d < FIRST_14_DAYS ∧ ∃ s ∈ daily_alarms.getD d [],
      ownerOf (tryAggressiveServerSwap daily_alarms daily_work engineer1 engineer2
        st).server_to_engineer s ≠ -1 ∧
      (ownerOf (tryAggressiveServerSwap daily_alarms daily_work engineer1 engineer2
        st).server_to_engineer s).toNat = engineer2) := by
  obtain ⟨h1, h2⟩ := swapLoop_kept daily_alarms daily_work engineer1 engineer2 slotPairs st h
  exact ⟨hasFirst14_markAlarms h1, hasFirst14_markAlarms h2⟩

end ServerAllocationSolver

theorem slotOf_bounds {rows cols : Nat} {a : List (List Int)} (hs : Shape rows cols a)
    {e i : Nat} (h : slotOf a e i ≠ -1) : e < rows ∧ i < cols := by
  by_contra hc
  apply h
  unfold slotOf rowOf
  by_cases he : e < rows
  · have hi : ¬ i < cols := fun hi => hc ⟨he, hi⟩
    rw [List.getD_eq_getElem?_getD (a.getD e []),
      List.getElem?_eq_none (by rw [shape_row_length hs he]; omega)]
    rfl
  · have h1 : a.getD e [] = [] := by
      rw [List.getD_eq_getElem?_getD, List.getElem?_eq_none (by rw [hs.1]; omega)]
      rfl
    rw [h1]
    rfl

namespace ServerAllocationSolver

/-- Undoing a tried swap puts the two slots back. -/
theorem allocation_restored {a : List (List Int)}
    (hs : Shape NUM_ENGINEERS MAX_SERVERS_PER_ENGINEER a) {e1 i e2 j : Nat}
    (he1 : e1 < NUM_ENGINEERS) (hi : i < MAX_SERVERS_PER_ENGINEER) (he2 : e2 < NUM_ENGINEERS)
    (hj : j < MAX_SERVERS_PER_ENGINEER) :
    setSlot (setSlot (setSlot (setSlot a e1 i (slotOf a e2 j)) e2 j (slotOf a e1 i)) e1 i
      (slotOf a e1 i)) e2 j (slotOf a e2 j) = a := by
  have s1 : Shape NUM_ENGINEERS MAX_SERVERS_PER_ENGINEER (setSlot a e1 i (slotOf a e2 j)) :=
    shape_set_row hs e1 i _
  have s2 : Shape NUM_ENGINEERS MAX_SERVERS_PER_ENGINEER
      (setSlot (setSlot a e1 i (slotOf a e2 j)) e2 j (slotOf a e1 i)) := shape_set_row s1 e2 j _
  have s3 : Shape NUM_ENGINEERS MAX_SERVERS_PER_ENGINEER
      (setSlot (setSlot (setSlot a e1 i (slotOf a e2 j)) e2 j (slotOf a e1 i)) e1 i
        (slotOf a e1 i)) := shape_set_row s2 e1 i _
  have s4 : Shape NUM_ENGINEERS MAX_SERVERS_PER_ENGINEER
      (setSlot (setSlot (setSlot (setSlot a e1 i (slotOf a e2 j)) e2 j (slotOf a e1 i)) e1 i
        (slotOf a e1 i)) e2 j (slotOf a e2 j)) := shape_set_row s3 e2 j _
  apply shape_ext s4 hs
  intro e k _ _
  rw [slotOf_setSlot s3 he2 hj, slotOf_setSlot s2 he1 hi, slotOf_setSlot s1 he2 hj,
    slotOf_setSlot hs he1 hi]
  by_cases c2 : e = e2 ∧ k = j
  · rw [if_pos c2, c2.1, c2.2]
  · rw [if_neg c2, if_neg c2]
    by_cases c1 : e = e1 ∧ k = i
    · rw [if_pos c1, c1.1, c1.2]
    · rw [if_neg c1, if_neg c1]

/-- Undoing a tried swap puts the two owners back when they agreed with the
allocation before. -/
theorem owners_restored (m : List Int) (s1 s2 : Int) (e1 e2 : Int)
    (h1 : ownerOf m s1 = e1) (h2 : ownerOf m s2 = e2) :
    setOwner (setOwner (setOwner (setOwner m s1 e2) s2 e1) s1 e1) s2 e2 = m := by
  unfold setOwner
  unfold ownerOf at h1 h2
  apply list_ext_getD (-1)
  · simp only [List.length_set]
  · intro k
    simp only [getD_set_eq, List.length_set]
    by_cases c2 : k = s2.toNat ∧ s2.toNat < m.length
    · rw [if_pos c2, c2.1, h2]
    · rw [if_neg c2, if_neg c2]
      by_cases c1 : k = s1.toNat ∧ s1.toNat < m.length
      · rw [if_pos c1, c1.1, h1]
      · rw [if_neg c1, if_neg c1]

theorem swapLoop_false (daily_alarms : List (List Int)) (daily_work : List (List Bool))
    (engineer1 engineer2 : Nat) (st : MoveState)
    (hs : Shape NUM_ENGINEERS MAX_SERVERS_PER_ENGINEER st.allocation)
    (ha : Agrees st.allocation st.server_to_engineer) (pairs : List (Nat × Nat)) :
    (swapLoop daily_alarms daily_work engineer1 engineer2 pairs st).improved = false →
      (swapLoop daily_alarms daily_work engineer1 engineer2 pairs st).allocation = st.allocation ∧
      (swapLoop daily_alarms daily_work engineer1 engineer2 pairs st).server_to_engineer
        = st.server_to_engineer := by
  induction pairs with
  | nil => intro _; exact ⟨rfl, rfl⟩
  | cons p rest ih =>
    obtain ⟨i, j⟩ := p
    by_cases g1 : slotOf st.allocation engineer1 i = -1 ∨ slotOf st.allocation engineer2 j = -1
    · simp only [swapLoop, g1, if_true]
      exact ih
    · have g1a : slotOf st.allocation engineer1 i ≠ -1 := fun hc => g1 (Or.inl hc)
      have g1b : slotOf st.allocation engineer2 j ≠ -1 := fun hc => g1 (Or.inr hc)
      obtain ⟨he1, hi⟩ := slotOf_bounds hs g1a
      obtain ⟨he2, hj⟩ := slotOf_bounds hs g1b
      have hback : ({ st with
          allocation := setSlot (setSlot (setSlot (setSlot st.allocation engineer1 i
            (slotOf st.allocation engineer2 j)) engineer2 j (slotOf st.allocation engineer1 i))
            engineer1 i (slotOf st.allocation engineer1 i)) engineer2 j
            (slotOf st.allocation engineer2 j)
          server_to_engineer := setOwner (setOwner (setOwner (setOwner st.server_to_engineer
            (slotOf st.allocation engineer1 i) engineer2) (slotOf st.allocation engineer2 j)
            engineer1) (slotOf st.allocation engineer1 i) engineer1)
            (slotOf st.allocation engineer2 j) engineer2 } : MoveState) = st := by
        rw [allocation_restored hs he1 hi he2 hj,
          owners_restored _ _ _ _ _ (ha engineer1 i he1 hi g1a) (ha engineer2 j he2 hj g1b)]
      simp only [swapLoop, g1, if_false]
      split_ifs
      all_goals first
        | (rw [hback]; exact ih)
        | (intro hc; exact hc.elim)

/-- C14. When `tryAggressiveServerSwap` is called in a state where
`server_to_engineer` agrees with `solution.allocation` (a table of
`NUM_ENGINEERS` rows of `MAX_SERVERS_PER_ENGINEER` slots) and returns false,
`solution.allocation` and `server_to_engineer` are exactly as they were before
the call. The two engineers need not even be distinct. -/
theorem tryAggressiveServerSwap_false_restores (daily_alarms : List (List Int))
    (daily_work : List (List Bool)) (engineer1 engineer2 : Nat) (st : MoveState)
    (hs : Shape NUM_ENGINEERS MAX_SERVERS_PER_ENGINEER st.allocation)
    (ha : Agrees st.allocation st.server_to_engineer)
    (h : (tryAggressiveServerSwap daily_alarms daily_work engineer1 engineer2 st).improved
      = false) :
    (tryAggressiveServerSwap daily_alarms daily_work engineer1 engineer2 st).allocation
        = st.allocation ∧
      (tryAggressiveServerSwap daily_alarms daily_work engineer1 engineer2 st).server_to_engineer
        = st.server_to_engineer :=
  swapLoop_false daily_alarms daily_work engineer1 engineer2 st hs ha slotPairs h

end ServerAllocationSolver

/-! ### The per-engineer targets of precise_solver.cpp and final_solver.cpp -/

namespace PreciseILPSolver

/-- C19 fails as stated: engineer 261 has the target of 21 work days and
engineer 262 the target of 20. -/
theorem target_work_days_drop_at_262 :
    ¬ ((NUM_DAYS : Int) - targetRestDays 261 ≤ (NUM_DAYS : Int) - targetRestDays 262) := by
  decide

/-- C19, as the code has it. The targets are ordered with the upper tier
first: the target work-day count `NUM_DAYS - target_rest_days` is
non-increasing in the engineer index, 21 for the engineers 0..261 and 20 from
engineer 262 on. -/
theorem target_work_days_upper_tier_first (e1 e2 : Nat) (h : e1 ≤ e2) :
    (NUM_DAYS : Int) - targetRestDays e2 ≤ (NUM_DAYS : Int) - targetRestDays e1 ∧
      (e1 < 262 → (NUM_DAYS : Int) - targetRestDays e1 = 21) ∧
      (262 ≤ e1 → (NUM_DAYS : Int) - targetRestDays e1 = 20) := by
  have key : ∀ e : Nat, targetRestDays e = if e < 262 then 1 else 2 := by
    intro e
    unfold targetRestDays
    simp only [NUM_ENGINEERS, MAX_REST_DAYS]
    by_cases c : e < 262
    · rw [if_pos c, if_pos (by omega)]
    · rw [if_neg c, if_neg (by omega)]
  rw [key e1, key e2]
  simp only [NUM_DAYS]
  refine ⟨?_, ?_, ?_⟩
  · split_ifs <;> omega
  · intro c
    rw [if_pos c]
    rfl
  · intro c
    rw [if_neg (by omega)]
    rfl

/-- Engineers 261 and 262 are in index order, so the amended C19 applies:
the later one has the lower target. -/
theorem target_work_days_upper_tier_first_witness :
    261 ≤ 262 ∧
      (NUM_DAYS : Int) - targetRestDays 262 ≤ (NUM_DAYS : Int) - targetRestDays 261 :=
  ⟨by decide, (target_work_days_upper_tier_first 261 262 (by decide)).1⟩

end PreciseILPSolver

namespace FinalOptimalSolver

theorem sum_map_range_split (f : Nat → Int) (c1 c2 : Int) (k : Nat)
    (h1 : ∀ e, e < k → f e = c1) (h2 : ∀ e, k ≤ e → f e = c2) :
    ∀ n : Nat, k ≤ n →
      ((List.range n).map f).sum = (k : Int) * c1 + ((n : Int) - (k : Int)) * c2 := by
  have hlow : ∀ n : Nat, n ≤ k → ((List.range n).map f).sum = (n : Int) * c1 := by
    intro n
    induction n with
    | zero => intro _; simp
    | succ m ih =>
      intro hm
      rw [List.range_succ, List.map_append, List.sum_append, ih (by omega)]
      simp only [List.map_cons, List.map_nil, List.sum_cons, List.sum_nil, add_zero]
      rw [h1 m (by omega)]
      push_cast
      ring
  intro n
  induction n with
  | zero =>
    intro hk
    have hk0 : k = 0 := by omega
    subst hk0
    simp
  | succ m ih =>
    intro hk
    by_cases hc : k = m + 1
    · rw [hlow (m + 1) (by omega), hc]
      push_cast
      ring
    · rw [List.range_succ, List.map_append, List.sum_append, ih (by omega)]
      simp only [List.map_cons, List.map_nil, List.sum_cons, List.sum_nil, add_zero]
      rw [h2 m (by omega)]
      push_cast
      ring

theorem targetTotal_eq : targetTotal = 8326 := by
  unfold targetTotal
  rw [sum_map_range_split targetWorkDays 24 25 engineers_24_days
    (fun e he => by unfold targetWorkDays; rw [if_pos he])
    (fun e he => by unfold targetWorkDays; rw [if_neg (by omega)])
    NUM_ENGINEERS (by decide)]
  decide

/-- C20, against the code. The per-engineer targets of `solve` (24 for the
engineers 0..73 and 25 for the other 262) sum to 8326 whatever the number of
loaded days, so they sum to the required total
`NUM_ENGINEERS * num_days - MAX_REST_DAYS` exactly when `num_days` is 26; for
22 loaded days the required total is 6982. -/
theorem targets_sum_required_iff (num_days : Nat) :
    targetTotal = 8326 ∧
      (targetTotal = (NUM_ENGINEERS : Int) * (num_days : Int) - (MAX_REST_DAYS : Int)
        ↔ num_days = 26) ∧
      targetTotal ≠ (NUM_ENGINEERS : Int) * ((22 : Nat) : Int) - (MAX_REST_DAYS : Int) := by
  refine ⟨targetTotal_eq, ?_, ?_⟩
  · rw [targetTotal_eq]
    simp only [NUM_ENGINEERS, MAX_REST_DAYS]
    constructor
    · intro h
      push_cast at h
      omega
    · intro h
      subst h
      decide
  · rw [targetTotal_eq]
    decide

end FinalOptimalSolver

/-! ### Sorted rankings and day maps -/

theorem pairLt_iff (a b : Int × Int) :
    pairLt a b = true ↔ a.1 < b.1 ∨ (a.1 = b.1 ∧ a.2 < b.2) := by
  unfold pairLt
  simp only [Bool.or_eq_true, Bool.and_eq_true, Bool.not_eq_true', decide_eq_true_eq,
    decide_eq_false_iff_not]
  omega

theorem pairLt_false_iff (a b : Int × Int) :
    pairLt a b = false ↔ b.1 < a.1 ∨ (a.1 = b.1 ∧ b.2 ≤ a.2) := by
  rw [← Bool.not_eq_true, pairLt_iff]
  omega

theorem perm_insertBy {α : Type} (comp : α → α → Bool) (x : α) (l : List α) :
    (insertBy comp x l).Perm (x :: l) := by
  induction l with
  | nil => exact List.Perm.refl _
  | cons y ys ih =>
    simp only [insertBy]
    split_ifs
    · exact (List.Perm.cons y ih).trans (List.Perm.swap x y ys)
    · exact List.Perm.refl _

theorem perm_sortBy {α : Type} (comp : α → α → Bool) (l : List α) : (sortBy comp l).Perm l := by
  induction l with
  | nil => exact List.Perm.refl _
  | cons z zs ih =>
    have h : sortBy comp (z :: zs) = insertBy comp z (sortBy comp zs) := rfl
    rw [h]
    exact (perm_insertBy comp z _).trans (List.Perm.cons z ih)

theorem pairwise_insertBy {α : Type} (comp : α → α → Bool)
    (hasym : ∀ a b, comp a b = true → comp b a = false)
    (hneg : ∀ a b c, comp a b = false → comp b c = false → comp a c = false)
    (x : α) (l : List α) (h : l.Pairwise (fun a b => comp b a = false)) :
    (insertBy comp x l).Pairwise (fun a b => comp b a = false) := by
  induction l with
  | nil => simp [insertBy]
  | cons y ys ih =>
    rw [List.pairwise_cons] at h
    simp only [insertBy]
    split_ifs with hc
    · rw [List.pairwise_cons]
      refine ⟨fun z hz => ?_, ih h.2⟩
      rcases (mem_insertBy comp x z ys).mp hz with h1 | h1
      · rw [h1]
        exact hasym y x hc
      · exact h.1 z h1
    · have hc1 : comp y x = false := by simpa using hc
      rw [List.pairwise_cons]
      refine ⟨fun z hz => ?_, List.pairwise_cons.mpr h⟩
      rcases List.mem_cons.mp hz with h1 | h1
      · rw [h1]
        exact hc1
      · exact hneg z y x (h.1 z h1) hc1

theorem pairwise_sortBy {α : Type} (comp : α → α → Bool)
    (hasym : ∀ a b, comp a b = true → comp b a = false)
    (hneg : ∀ a b c, comp a b = false → comp b c = false → comp a c = false)
    (l : List α) : (sortBy comp l).Pairwise (fun a b => comp b a = false) := by
  induction l with
  | nil => simp [sortBy]
  | cons z zs ih =>
    have h : sortBy comp (z :: zs) = insertBy comp z (sortBy comp zs) := rfl
    rw [h]
    exact pairwise_insertBy comp hasym hneg z _ ih

/-- The result of `sort(v.rbegin(), v.rend())` lists no entry before one that
is larger in the order of `pair`. -/
theorem pairwise_sortDesc (l : List (Int × Int)) :
    (sortDesc l).Pairwise (fun a b => pairLt a b = false) := by
  unfold sortDesc
  refine pairwise_sortBy (fun a b => pairLt b a) ?_ ?_ l
  · intro a b h
    rw [pairLt_iff] at h
    rw [pairLt_false_iff]
    omega
  · intro a b c h1 h2
    simp only [pairLt_false_iff] at h1 h2 ⊢
    omega

theorem perm_sortDesc (l : List (Int × Int)) : (sortDesc l).Perm l :=
  perm_sortBy _ l

/-- The insertion sort `sortBy` is one of the sorting functions with the
guarantee of `std::sort`, for a comparison that is a strict weak order. -/
theorem stdSort_sortBy {α : Type} (comp : α → α → Bool)
    (hasym : ∀ a b, comp a b = true → comp b a = false)
    (hneg : ∀ a b c, comp a b = false → comp b c = false → comp a c = false) :
    StdSort comp (sortBy comp) :=
  fun l => ⟨perm_sortBy comp l, pairwise_sortBy comp hasym hneg l⟩

/-- The insertion sort of the reversed input is another one; it leaves
entries that the comparison does not separate in the opposite order. -/
theorem stdSort_sortBy_reverse {α : Type} (comp : α → α → Bool)
    (hasym : ∀ a b, comp a b = true → comp b a = false)
    (hneg : ∀ a b c, comp a b = false → comp b c = false → comp a c = false) :
    StdSort comp (fun l => sortBy comp l.reverse) :=
  fun l => ⟨(perm_sortBy comp l.reverse).trans (List.reverse_perm l),
    pairwise_sortBy comp hasym hneg l.reverse⟩

theorem ServerAllocationSolver.stdSort_coverage :
    StdSort ServerAllocationSolver.coverageBefore
      (sortBy ServerAllocationSolver.coverageBefore) := by
  apply stdSort_sortBy
  · intro a b h
    simp only [ServerAllocationSolver.coverageBefore, decide_eq_true_eq,
      decide_eq_false_iff_not] at h ⊢
    omega
  · intro a b c h1 h2
    simp only [ServerAllocationSolver.coverageBefore, decide_eq_false_iff_not] at h1 h2 ⊢
    omega

theorem ServerAllocationSolver.stdSort_coverage_reverse :
    StdSort ServerAllocationSolver.coverageBefore
      (fun l => sortBy ServerAllocationSolver.coverageBefore l.reverse) := by
  apply stdSort_sortBy_reverse
  · intro a b h
    simp only [ServerAllocationSolver.coverageBefore, decide_eq_true_eq,
      decide_eq_false_iff_not] at h ⊢
    omega
  · intro a b c h1 h2
    simp only [ServerAllocationSolver.coverageBefore, decide_eq_false_iff_not] at h1 h2 ⊢
    omega

theorem ConstraintBasedSolver.stdSort_efficiency :
    StdSort ConstraintBasedSolver.efficiencyBefore
      (sortBy ConstraintBasedSolver.efficiencyBefore) := by
  apply stdSort_sortBy
  · intro a b h
    simp only [ConstraintBasedSolver.efficiencyBefore] at h ⊢
    split_ifs at h ⊢ with c1 c2 c2 <;>
      simp only [decide_eq_true_eq, decide_eq_false_iff_not] at h ⊢ <;> omega
  · intro a b c h1 h2
    simp only [ConstraintBasedSolver.efficiencyBefore] at h1 h2 ⊢
    split_ifs at h1 h2 ⊢ <;>
      simp only [decide_eq_false_iff_not] at h1 h2 ⊢ <;> omega

/-! Day sets stored in a map. -/

theorem daySet_mapInsert (k : Int) (d : Nat) (m : List (Int × List Nat))
    (h : ∀ kv ∈ m, DaySet kv.2) : ∀ kv ∈ mapInsert k d m, DaySet kv.2 := by
  induction m with
  | nil =>
    intro kv hkv
    simp only [mapInsert, List.mem_singleton] at hkv
    rw [hkv]
    simp [DaySet]
  | cons x xs ih =>
    intro kv hkv
    simp only [mapInsert] at hkv
    split_ifs at hkv with h1 h2
    · rcases List.mem_cons.mp hkv with h3 | h3
      · rw [h3]
        simp [DaySet]
      · exact h kv h3
    · rcases List.mem_cons.mp hkv with h3 | h3
      · rw [h3]
        exact daySet_setInsert d x.2 (h x (List.mem_cons_self _ _))
      · exact h kv (List.mem_cons_of_mem _ h3)
    · rcases List.mem_cons.mp hkv with h3 | h3
      · rw [h3]
        exact h x (List.mem_cons_self _ _)
      · exact ih (fun kv1 h4 => h kv1 (List.mem_cons_of_mem _ h4)) kv h3

theorem daySet_mapFold_line (day : Nat) (line : List Int) :
    ∀ m : List (Int × List Nat), (∀ kv ∈ m, DaySet kv.2) →
      ∀ kv ∈ line.foldl (fun m server => mapInsert server day m) m, DaySet kv.2 := by
  induction line with
  | nil => intro m h; exact h
  | cons s ss ih =>
    intro m h
    simp only [List.foldl_cons]
    exact ih _ (daySet_mapInsert s day m h)

theorem daySet_mapGet {m : List (Int × List Nat)} (h : ∀ kv ∈ m, DaySet kv.2) (k : Int) :
    DaySet (mapGet m k) := by
  unfold mapGet
  split
  · next kv hkv => exact h kv (List.mem_of_find?_eq_some hkv)
  · simp [DaySet]

theorem daySet_ext {l1 l2 : List Nat} (h1 : DaySet l1) (h2 : DaySet l2)
    (h : ∀ d, d ∈ l1 ↔ d ∈ l2) : l1 = l2 := by
  have n1 : l1.Nodup := List.Pairwise.imp (fun hab => Nat.ne_of_lt hab) h1
  have n2 : l2.Nodup := List.Pairwise.imp (fun hab => Nat.ne_of_lt hab) h2
  exact List.eq_of_perm_of_sorted ((List.perm_ext_iff_of_nodup n1 n2).mpr h) h1 h2

theorem mem_keys_of_mem_mapGet {m : List (Int × List Nat)} {k : Int} {d : Nat}
    (h : d ∈ mapGet m k) : k ∈ m.map Prod.fst := by
  by_contra h1
  rw [mapGet_of_not_key m k h1] at h
  exact absurd h (List.not_mem_nil _)

theorem daySet_mapFold_enumFrom (lines : List (List Int)) :
    ∀ (n : Nat) (m : List (Int × List Nat)), (∀ kv ∈ m, DaySet kv.2) →
      ∀ kv ∈ (lines.enumFrom n).foldl
        (fun m dl => dl.2.foldl (fun m server => mapInsert server dl.1 m) m) m, DaySet kv.2 := by
  induction lines with
  | nil => intro n m h; exact h
  | cons l ls ih =>
    intro n m h
    simp only [List.enumFrom_cons, List.foldl_cons]
    exact ih (n + 1) _ (daySet_mapFold_line n l m h)

theorem daySet_buildServerToDays (lines : List (List Int)) (k : Int) :
    DaySet (mapGet (buildServerToDays lines) k) := by
  refine daySet_mapGet ?_ k
  unfold buildServerToDays List.enum
  exact daySet_mapFold_enumFrom lines 0 [] (fun kv h => absurd h (List.not_mem_nil _))

/-- A server is a key of `server_to_days` exactly when some day line lists it. -/
theorem mem_keys_buildServerToDays (lines : List (List Int)) (k : Int) :
    k ∈ (buildServerToDays lines).map Prod.fst ↔ ∃ l ∈ lines, k ∈ l := by
  constructor
  · exact keys_buildServerToDays
  · rintro ⟨l, hl, hk⟩
    obtain ⟨d, hd, he⟩ := List.getElem_of_mem hl
    have h1 : d ∈ mapGet (buildServerToDays lines) k := by
      rw [mem_buildServerToDays, List.getD_eq_getElem?_getD, List.getElem?_eq_getElem hd, he]
      exact hk
    exact mem_keys_of_mem_mapGet h1

theorem mapGet_buildServerToDays (lines : List (List Int)) (k : Int) :
    mapGet (buildServerToDays lines) k = activeDays lines k := by
  refine daySet_ext (daySet_buildServerToDays lines k) ?_ (fun d => ?_)
  · unfold activeDays DaySet
    exact List.Pairwise.filter _ (List.pairwise_lt_range _)
  · unfold activeDays
    rw [List.mem_filter, List.mem_range, mem_buildServerToDays]
    simp only [List.contains_iff_exists_mem_beq, beq_iff_eq, exists_eq_right']
    constructor
    · intro h
      refine ⟨?_, h⟩
      exact day_lt_of_mem_buildServerToDays ((mem_buildServerToDays lines k d).mpr h)
    · exact fun h => h.2

namespace UltimateConstraintSolver

theorem server_efficiency_perm (lines : List (List Int)) :
    ((loadAlarmData lines).server_efficiency).Perm
      ((buildServerToDays lines).map (fun kv => (score kv.2, kv.1))) := by
  simp only [loadAlarmData]
  exact perm_sortDesc _

theorem server_efficiency_ids (lines : List (List Int)) :
    (((loadAlarmData lines).server_efficiency).map Prod.snd).Perm
      ((buildServerToDays lines).map Prod.fst) := by
  have h := (server_efficiency_perm lines).map Prod.snd
  rw [List.map_map] at h
  exact h

theorem server_efficiency_score (lines : List (List Int)) (p : Int × Int)
    (hp : p ∈ (loadAlarmData lines).server_efficiency) :
    p.1 = score (activeDays lines p.2) := by
  have h := (server_efficiency_perm lines).mem_iff.mp hp
  obtain ⟨kv, hkv, he⟩ := List.mem_map.mp h
  rw [← he, ← mapGet_buildServerToDays]
  show score kv.2 = score (mapGet (buildServerToDays lines) kv.1)
  rw [mapGet_of_mem (keysAsc_buildServerToDays lines) hkv]

/-- C26: after `loadAlarmData` of ultimate_solver.cpp, `server_efficiency`
has no server twice, has an entry for a server exactly when some day line
lists the server, every entry carries the score of the server's day set, and
the scores do not increase along the vector. -/
theorem server_efficiency_ranks_listed_servers (lines : List (List Int)) :
    (((loadAlarmData lines).server_efficiency).map Prod.snd).Nodup ∧
      (∀ k : Int, k ∈ ((loadAlarmData lines).server_efficiency).map Prod.snd ↔
        ∃ l ∈ lines, k ∈ l) ∧
      (∀ p ∈ (loadAlarmData lines).server_efficiency, p.1 = score (activeDays lines p.2)) ∧
      ((loadAlarmData lines).server_efficiency).Pairwise (fun a b => b.1 ≤ a.1) := by
  refine ⟨?_, fun k => ?_, server_efficiency_score lines, ?_⟩
  · rw [(server_efficiency_ids lines).nodup_iff]
    exact List.Pairwise.imp (fun hab => ne_of_lt hab) (keysAsc_buildServerToDays lines)
  · rw [(server_efficiency_ids lines).mem_iff]
    exact mem_keys_buildServerToDays lines k
  · simp only [loadAlarmData]
    refine List.Pairwise.imp ?_ (pairwise_sortDesc _)
    intro a b h
    rw [pairLt_false_iff] at h
    omega

/-- C27, as the code has it: `server_efficiency` is strictly descending in
the order of `pair<double, int>`: a higher score comes first and, among
servers of equal score, the larger server id comes first. -/
theorem server_efficiency_ties_by_id (lines : List (List Int)) :
    ((loadAlarmData lines).server_efficiency).Pairwise
      (fun a b => b.1 < a.1 ∨ (b.1 = a.1 ∧ b.2 < a.2)) := by
  have h1 : ((loadAlarmData lines).server_efficiency).Pairwise (fun a b => pairLt a b = false) := by
    simp only [loadAlarmData]
    exact pairwise_sortDesc _
  have h2 : ((loadAlarmData lines).server_efficiency).Pairwise (fun a b => a.2 ≠ b.2) := by
    have h3 : (((loadAlarmData lines).server_efficiency).map Prod.snd).Nodup := by
      rw [(server_efficiency_ids lines).nodup_iff]
      exact List.Pairwise.imp (fun hab => ne_of_lt hab) (keysAsc_buildServerToDays lines)
    exact (List.pairwise_map.mp h3)
  refine List.Pairwise.imp₂ ?_ h1 h2
  intro a b h3 h4
  rw [pairLt_false_iff] at h3
  omega

end UltimateConstraintSolver

theorem mapFold_days (g : Nat → List Int) (days : List Nat) :
    ∀ m : List (Int × List Nat), KeysAsc m → (∀ kv ∈ m, DaySet kv.2) →
      KeysAsc (days.foldl (fun m day => (g day).foldl (fun m server => mapInsert server day m) m) m) ∧
      (∀ kv ∈ days.foldl (fun m day => (g day).foldl (fun m server => mapInsert server day m) m) m,
        DaySet kv.2) ∧
      ∀ (k : Int) (d : Nat),
        (d ∈ mapGet (days.foldl
            (fun m day => (g day).foldl (fun m server => mapInsert server day m) m) m) k ↔
          (d ∈ days ∧ k ∈ g d) ∨ d ∈ mapGet m k) := by
  induction days with
  | nil => intro m h1 h2; exact ⟨h1, h2, fun k d => by simp⟩
  | cons x xs ih =>
    intro m h1 h2
    simp only [List.foldl_cons]
    obtain ⟨h3, h4⟩ := mapFold_line x (g x) m h1
    obtain ⟨h5, h6, h7⟩ := ih _ h3 (daySet_mapFold_line x (g x) m h2)
    refine ⟨h5, h6, fun k d => ?_⟩
    rw [h7 k d, h4 k d, List.mem_cons]
    constructor
    · rintro (⟨h8, h9⟩ | ⟨h8, h9⟩ | h8)
      · exact Or.inl ⟨Or.inr h8, h9⟩
      · subst h8
        exact Or.inl ⟨Or.inl rfl, h9⟩
      · exact Or.inr h8
    · rintro (⟨h8 | h8, h9⟩ | h8)
      · subst h8
        exact Or.inr (Or.inl ⟨rfl, h9⟩)
      · exact Or.inl ⟨h8, h9⟩
      · exact Or.inr (Or.inr h8)

theorem keys_mapFold_days (g : Nat → List Int) (days : List Nat) :
    ∀ (m : List (Int × List Nat)) (k : Int),
      k ∈ (days.foldl (fun m day => (g day).foldl (fun m server => mapInsert server day m) m)
        m).map Prod.fst →
      (∃ d ∈ days, k ∈ g d) ∨ k ∈ m.map Prod.fst := by
  induction days with
  | nil => intro m k h; right; exact h
  | cons x xs ih =>
    intro m k h
    simp only [List.foldl_cons] at h
    rcases ih _ k h with ⟨d, h1, h2⟩ | h1
    · left; exact ⟨d, List.mem_cons_of_mem _ h1, h2⟩
    · rcases keys_mapFold_line x (g x) m k h1 with h2 | h2
      · left; exact ⟨x, List.mem_cons_self _ _, h2⟩
      · right; exact h2

namespace MathematicalServerAllocationSolver

theorem serverToDays_inv (daily_alarms : List (List Int)) :
    KeysAsc (serverToDays daily_alarms) ∧
      (∀ kv ∈ serverToDays daily_alarms, DaySet kv.2) ∧
      ∀ (k : Int) (d : Nat),
        (d ∈ mapGet (serverToDays daily_alarms) k ↔ d < NUM_DAYS ∧ k ∈ daily_alarms.getD d []) := by
  have h := mapFold_days (fun day => daily_alarms.getD day []) (List.range NUM_DAYS) []
    (by unfold KeysAsc; simp) (fun kv h => absurd h (List.not_mem_nil _))
  refine ⟨h.1, h.2.1, fun k d => ?_⟩
  unfold serverToDays
  rw [h.2.2 k d, List.mem_range]
  simp [mapGet]

theorem mapGet_serverToDays (daily_alarms : List (List Int)) (k : Int) :
    mapGet (serverToDays daily_alarms) k
      = (List.range NUM_DAYS).filter (fun d => (daily_alarms.getD d []).contains k) := by
  obtain ⟨_, h2, h3⟩ := serverToDays_inv daily_alarms
  refine daySet_ext (daySet_mapGet h2 k) ?_ (fun d => ?_)
  · unfold DaySet
    exact List.Pairwise.filter _ (List.pairwise_lt_range _)
  · rw [h3 k d, List.mem_filter, List.mem_range]
    simp only [List.contains_iff_exists_mem_beq, beq_iff_eq, exists_eq_right']

/-- The keys and the day lists of the map `server_to_days`. -/
theorem serverToDays_spec (daily_alarms : List (List Int)) :
    ((serverToDays daily_alarms).map Prod.fst).Nodup ∧
      (∀ k : Int, k ∈ (serverToDays daily_alarms).map Prod.fst ↔
        ∃ d, d < NUM_DAYS ∧ k ∈ daily_alarms.getD d []) ∧
      (∀ kv ∈ serverToDays daily_alarms,
        kv.2 = (List.range NUM_DAYS).filter (fun d => (daily_alarms.getD d []).contains kv.1)) ∧
      (∀ kv ∈ serverToDays daily_alarms, kv.2.Pairwise (fun a b => a < b)) := by
  obtain ⟨h1, h2, h3⟩ := serverToDays_inv daily_alarms
  refine ⟨List.Pairwise.imp (fun hab => ne_of_lt hab) h1, fun k => ?_, fun kv hkv => ?_, h2⟩
  · constructor
    · intro h
      unfold serverToDays at h
      rcases keys_mapFold_days (fun day => daily_alarms.getD day []) (List.range NUM_DAYS) [] k h
        with ⟨d, h4, h5⟩ | h4
      · exact ⟨d, List.mem_range.mp h4, h5⟩
      · exact absurd h4 (List.not_mem_nil _)
    · rintro ⟨d, h4, h5⟩
      exact mem_keys_of_mem_mapGet ((h3 k d).mpr ⟨h4, h5⟩)
  · rw [← mapGet_serverToDays, mapGet_of_mem h1 hkv]

/-- C28: the map `server_to_days` built in `solve` of mathematical_solver.cpp
has each key once, its keys are exactly the servers listed in some
`daily_alarms[d]` with `d < NUM_DAYS`, and every entry maps its server to the
days `d` with the server in `daily_alarms[d]`, in increasing order. -/
theorem serverToDays_keys_and_days (daily_alarms : List (List Int)) :
    ((serverToDays daily_alarms).map Prod.fst).Nodup ∧
      (∀ k : Int, k ∈ (serverToDays daily_alarms).map Prod.fst ↔
        ∃ d, d < NUM_DAYS ∧ k ∈ daily_alarms.getD d []) ∧
      (∀ kv ∈ serverToDays daily_alarms,
        kv.2 = (List.range NUM_DAYS).filter (fun d => (daily_alarms.getD d []).contains kv.1)) ∧
      (∀ kv ∈ serverToDays daily_alarms, kv.2.Pairwise (fun a b => a < b)) :=
  serverToDays_spec daily_alarms

end MathematicalServerAllocationSolver

namespace ServerAllocationSolver

theorem bestServer_fold (server_days : List (Int × List Nat)) (ste : List Int) (work : List Nat)
    (l : List (Int × Nat)) :
    ∀ init : Int × Nat,
      (l.foldl (fun best sc =>
          if ownerOf ste sc.1 ≠ -1 then best
          else if newDays work (mapGet server_days sc.1) > best.2 then
            (sc.1, newDays work (mapGet server_days sc.1)) else best) init = init ∧
        ∀ x ∈ l, ownerOf ste x.1 = -1 → newDays work (mapGet server_days x.1) ≤ init.2) ∨
      (init.2 < (l.foldl (fun best sc =>
          if ownerOf ste sc.1 ≠ -1 then best
          else if newDays work (mapGet server_days sc.1) > best.2 then
            (sc.1, newDays work (mapGet server_days sc.1)) else best) init).2 ∧
        ∃ (l1 : List (Int × Nat)) (c : Nat) (l2 : List (Int × Nat)),
          l = l1 ++ ((l.foldl (fun best sc =>
              if ownerOf ste sc.1 ≠ -1 then best
              else if newDays work (mapGet server_days sc.1) > best.2 then
                (sc.1, newDays work (mapGet server_days sc.1)) else best) init).1, c) :: l2 ∧
          FirstBest server_days l ste work
            (l.foldl (fun best sc =>
              if ownerOf ste sc.1 ≠ -1 then best
              else if newDays work (mapGet server_days sc.1) > best.2 then
                (sc.1, newDays work (mapGet server_days sc.1)) else best) init).1
            (l.foldl (fun best sc =>
              if ownerOf ste sc.1 ≠ -1 then best
              else if newDays work (mapGet server_days sc.1) > best.2 then
                (sc.1, newDays work (mapGet server_days sc.1)) else best) init).2) := by
  induction l with
  | nil => intro init; exact Or.inl ⟨rfl, fun x hx => absurd hx (List.not_mem_nil _)⟩
  | cons x xs ih =>
    intro init
    simp only [List.foldl_cons]
    by_cases hx : ownerOf ste x.1 ≠ -1 ∨ newDays work (mapGet server_days x.1) ≤ init.2
    · have hstep : (if ownerOf ste x.1 ≠ -1 then init
          else if newDays work (mapGet server_days x.1) > init.2 then
            (x.1, newDays work (mapGet server_days x.1)) else init) = init := by
        split_ifs with h1 h2
        · rfl
        · omega
        · rfl
      rw [hstep]
      rcases ih init with ⟨h1, h2⟩ | ⟨h1, l1, c, l2, h2, l1b, cb, l2b, h3, h4, h5, h6, h7⟩
      · left
        refine ⟨h1, fun y hy hy2 => ?_⟩
        rcases List.mem_cons.mp hy with h3 | h3
        · subst h3
          rcases hx with h4 | h4
          · exact absurd hy2 h4
          · exact h4
        · exact h2 y h3 hy2
      · right
        refine ⟨h1, x :: l1, c, l2, by rw [List.cons_append, ← h2], x :: l1b, cb, l2b,
          by rw [List.cons_append, ← h3], h4, h5, fun y hy hy2 => ?_, h7⟩
        rcases List.mem_cons.mp hy with h8 | h8
        · subst h8
          rcases hx with h9 | h9
          · exact absurd hy2 h9
          · omega
        · exact h6 y h8 hy2
    · have hx1 : ownerOf ste x.1 = -1 := by
        by_contra h
        exact hx (Or.inl h)
      have hx2 : init.2 < newDays work (mapGet server_days x.1) := by
        by_contra h
        exact hx (Or.inr (by omega))
      have hstep : (if ownerOf ste x.1 ≠ -1 then init
          else if newDays work (mapGet server_days x.1) > init.2 then
            (x.1, newDays work (mapGet server_days x.1)) else init)
            = (x.1, newDays work (mapGet server_days x.1)) := by
        split_ifs with h1
        · exact absurd hx1 h1
        · rfl
      rw [hstep]
      rcases ih (x.1, newDays work (mapGet server_days x.1)) with
        ⟨h1, h2⟩ | ⟨h1, l1, c, l2, h2, l1b, cb, l2b, h3, h4, h5, h6, h7⟩
      · right
        rw [h1]
        refine ⟨hx2, [], x.2, xs, rfl, [], x.2, xs, rfl, hx1, rfl,
          fun y hy => absurd hy (List.not_mem_nil _), h2⟩
      · right
        have h1b : newDays work (mapGet server_days x.1) < (xs.foldl (fun best sc =>
            if ownerOf ste sc.1 ≠ -1 then best
            else if newDays work (mapGet server_days sc.1) > best.2 then
              (sc.1, newDays work (mapGet server_days sc.1)) else best)
            (x.1, newDays work (mapGet server_days x.1))).2 := h1
        refine ⟨by omega, x :: l1, c, l2, by rw [List.cons_append, ← h2], x :: l1b, cb, l2b,
          by rw [List.cons_append, ← h3], h4, h5, fun y hy hy2 => ?_, h7⟩
        rcases List.mem_cons.mp hy with h8 | h8
        · subst h8
          exact h1b
        · exact h6 y h8 hy2

theorem bestServer_firstBest (server_days : List (Int × List Nat))
    (server_coverage : List (Int × Nat)) (ste : List Int) (work : List Nat)
    (h : 0 < (bestServer server_days server_coverage ste work).2) :
    FirstBest server_days server_coverage ste work
      (bestServer server_days server_coverage ste work).1
      (bestServer server_days server_coverage ste work).2 := by
  simp only [bestServer] at h ⊢
  rcases bestServer_fold server_days ste work server_coverage (-1, 0) with
    ⟨h1, _⟩ | ⟨_, _, _, _, _, h2⟩
  · rw [h1] at h
    exact absurd h (lt_irrefl _)
  · exact h2

end ServerAllocationSolver

theorem sum_map_range_eq_finset (f : Nat → Nat) (n : Nat) :
    ((List.range n).map f).sum = ∑ i in Finset.range n, f i := by
  induction n with
  | zero => simp
  | succ m ih =>
    rw [List.range_succ, List.map_append, List.sum_append, ih, Finset.sum_range_succ]
    simp

/-- A sum over `0 .. n-1` gets smaller when the terms at two places get
smaller in sum and the other terms stay. -/
theorem sum_lt_of_two (f g : Nat → Nat) (n e1 e2 : Nat) (h12 : e1 < e2) (h2 : e2 < n)
    (hrest : ∀ e, e < n → e ≠ e1 → e ≠ e2 → g e = f e)
    (hlt : g e1 + g e2 < f e1 + f e2) :
    ((List.range n).map g).sum < ((List.range n).map f).sum := by
  rw [sum_map_range_eq_finset, sum_map_range_eq_finset]
  have m1 : e1 ∈ Finset.range n := Finset.mem_range.mpr (by omega)
  have m2 : e2 ∈ (Finset.range n).erase e1 :=
    Finset.mem_erase.mpr ⟨by omega, Finset.mem_range.mpr h2⟩
  rw [← Finset.add_sum_erase _ f m1, ← Finset.add_sum_erase _ g m1,
    ← Finset.add_sum_erase _ f m2, ← Finset.add_sum_erase _ g m2]
  have h3 : ∑ x in ((Finset.range n).erase e1).erase e2, g x
      = ∑ x in ((Finset.range n).erase e1).erase e2, f x := by
    refine Finset.sum_congr rfl (fun x hx => ?_)
    obtain ⟨hx2, hx3⟩ := Finset.mem_erase.mp hx
    obtain ⟨hx1, hx4⟩ := Finset.mem_erase.mp hx3
    exact hrest x (Finset.mem_range.mp hx4) hx1 hx2
  rw [h3]
  omega

namespace FinalOptimalSolver

/-- An iteration of Phase 2 that accepts a swap lowers the error sum. -/
theorem errorTotal_iteration (s : Solver) (a : List (List Int))
    (hs : Shape NUM_ENGINEERS MAX_SERVERS_PER_ENGINEER a) (h : (iteration s a).2 = true) :
    errorTotal s (iteration s a).1 < errorTotal s a := by
  rcases iteration_spec s a hs with ⟨h1, _⟩ |
    ⟨_, e1, e2, i1, i2, h12, he2, hi1, hi2, _, _, h7, h8⟩
  · rw [h1] at h
    exact absurd h (by simp)
  · rw [h7]
    unfold errorTotal
    refine sum_lt_of_two _ _ NUM_ENGINEERS e1 e2 h12 he2 (fun e _ hne1 hne2 => ?_) ?_
    · have hrow : rowDays s.server_to_days (swapSlots a e1 i1 e2 i2) e
          = rowDays s.server_to_days a e := by
        refine rowDays_congr _ _ _ _ (fun i => ?_)
        rw [slotOf_swapSlots hs (by omega) hi1 he2 hi2]
        rw [if_neg (fun hc => hne2 hc.1), if_neg (fun hc => hne1 hc.1)]
      simp only [hrow]
    · unfold errorOf at h8
      dsimp only
      omega

theorem acceptedSwaps_le (s : Solver) (fuel : Nat) :
    ∀ a : List (List Int), Shape NUM_ENGINEERS MAX_SERVERS_PER_ENGINEER a →
      Covers14 s.server_to_days a → acceptedSwaps s fuel a ≤ errorTotal s a := by
  induction fuel with
  | zero => intro a _ _; exact Nat.zero_le _
  | succ k ih =>
    intro a hs hc
    simp only [acceptedSwaps]
    split_ifs with h
    · have h1 := errorTotal_iteration s a hs h
      have h2 := ih _ (inv_iteration s a hs hc).1 (inv_iteration s a hs hc).2
      omega
    · exact Nat.zero_le _

/-- C24: in Phase 2 of `solve` of final_solver.cpp, from the allocation
reached after any number `k` of iterations, an iteration that accepts a swap
leaves the sum over all engineers of `|work days - target|` strictly smaller
than it was; and whatever number `fuel` of iterations the loop is allowed, it
accepts at most as many swaps as that sum is worth after Phase 1. -/
theorem phase2_accepted_swaps_bounded (lines : List (List Int)) :
    (∀ k : Nat,
      (iteration (loadAlarmData lines)
        (phase2 (loadAlarmData lines) k (phase1 (loadAlarmData lines)).1)).2 = true →
      errorTotal (loadAlarmData lines)
          (iteration (loadAlarmData lines)
            (phase2 (loadAlarmData lines) k (phase1 (loadAlarmData lines)).1)).1
        < errorTotal (loadAlarmData lines)
            (phase2 (loadAlarmData lines) k (phase1 (loadAlarmData lines)).1)) ∧
      ∀ fuel : Nat,
        acceptedSwaps (loadAlarmData lines) fuel (phase1 (loadAlarmData lines)).1
          ≤ errorTotal (loadAlarmData lines) (phase1 (loadAlarmData lines)).1 := by
  obtain ⟨hs1, hc1⟩ := inv_phase1_final _ (loadAlarmData_eff lines)
  refine ⟨fun k h => ?_, fun fuel => acceptedSwaps_le _ fuel _ hs1 hc1⟩
  exact errorTotal_iteration _ _ (inv_phase2_final (loadAlarmData lines) k _ hs1 hc1).1 h

end FinalOptimalSolver

namespace FinalOptimalSolver

theorem assignLoop_count_le (std : List (Int × List Nat)) (e : Nat) (target : Int)
    (l : List (Int × Int)) :
    ∀ st : AssignState, (st.current_work_days.length : Int) ≤ target + 1 →
      ((assignLoop std e target l st).current_work_days.length : Int) ≤ target + 1 := by
  induction l with
  | nil => intro st h; exact h
  | cons ss rest ih =>
    intro st h
    simp only [assignLoop]
    split_ifs with g1 g2 g3 g4 g5
    · exact ih st h
    · exact g3
    · exact ih _ g3
    · exact ih st h
    · exact h
    · exact ih st h

/-- One entry of the loop changes the variables only by an assignment of the
server of the entry, made at a count below the target, which brings the count
to at most `target + 1`. -/
theorem assignLoop_entry (std : List (Int × List Nat)) (e : Nat) (target : Int)
    (ss : Int × Int) (st : AssignState) (h : assignLoop std e target [ss] st ≠ st) :
    (st.current_work_days.length : Int) < target ∧
      ((setInsertAll (mapGet std ss.2) st.current_work_days).length : Int) ≤ target + 1 ∧
      assignLoop std e target [ss] st
        = { allocation := setSlot st.allocation e st.servers_assigned ss.2
            server_used := st.server_used.set ss.2.toNat true
            current_work_days := setInsertAll (mapGet std ss.2) st.current_work_days
            servers_assigned := st.servers_assigned + 1 } := by
  simp only [assignLoop] at h ⊢
  split_ifs at h ⊢ with g1 g2 g3 g4 g5
  · exact absurd rfl h
  · exact ⟨g2, g3, rfl⟩
  · exact ⟨g2, g3, rfl⟩
  · exact absurd rfl h
  · exact absurd rfl h
  · exact absurd rfl h

/-- An entry whose server is unused and has a positive score is accepted when
the engineer has a free slot, fewer days than the target, and at most
`target + 1` days with the server. -/
theorem assignLoop_accepts (std : List (Int × List Nat)) (e : Nat) (target : Int)
    (ss : Int × Int) (st : AssignState)
    (h1 : st.server_used.getD ss.2.toNat false = false)
    (h2 : st.servers_assigned < MAX_SERVERS_PER_ENGINEER) (h3 : 0 < ss.1)
    (h4 : (st.current_work_days.length : Int) < target)
    (h5 : ((setInsertAll (mapGet std ss.2) st.current_work_days).length : Int) ≤ target + 1) :
    assignLoop std e target [ss] st
      = { allocation := setSlot st.allocation e st.servers_assigned ss.2
          server_used := st.server_used.set ss.2.toNat true
          current_work_days := setInsertAll (mapGet std ss.2) st.current_work_days
          servers_assigned := st.servers_assigned + 1 } := by
  have g : ¬ ((st.server_used.getD ss.2.toNat false
      || decide (st.servers_assigned ≥ MAX_SERVERS_PER_ENGINEER) || decide (ss.1 ≤ 0)) = true) := by
    simp only [h1, Bool.false_or, Bool.or_eq_true, decide_eq_true_eq, not_or]
    exact ⟨by omega, by omega⟩
  simp only [assignLoop]
  rw [if_neg g, if_pos h4, if_pos h5]
  split_ifs <;> rfl

/-- The loop on a list of entries is the loop on the first entry, followed,
unless the loop ends there, by the loop on the entries that remain. -/
theorem assignLoop_cons (std : List (Int × List Nat)) (e : Nat) (target : Int)
    (ss : Int × Int) (rest : List (Int × Int)) (st : AssignState) :
    assignLoop std e target (ss :: rest) st = assignLoop std e target [ss] st ∨
      assignLoop std e target (ss :: rest) st
        = assignLoop std e target rest (assignLoop std e target [ss] st) := by
  simp only [assignLoop]
  split_ifs with g1 g2 g3 g4 g5
  · exact Or.inr rfl
  · exact Or.inl rfl
  · exact Or.inr rfl
  · exact Or.inr rfl
  · exact Or.inl rfl
  · exact Or.inr rfl

/-- C22, as the code has it: in Phase 1 of `solve` of final_solver.cpp, in
the loop over `server_efficiency` for an engineer, whose target is 24 for the
engineers 0..73 and 25 for the others: an entry of the loop changes the
variables only by assigning its server, and it does so only when the
engineer has fewer days than the target in `current_work_days` and has at
most `target + 1` days with the server; it does assign the server under
these two conditions when the server is unused with a positive score and the
engineer has a free slot; the loop on a list of entries is the
loop on its first entry followed, unless it ends there, by the loop on the
other entries; and the loop over `server_efficiency`, started as `solve`
starts it (no work day, no server), ends with at most `target + 1` days in
`current_work_days`. -/
theorem phase1_count_at_most_target_plus_one (s : Solver) (engineer : Nat) :
    (∀ (ss : Int × Int) (st : AssignState),
      assignLoop s.server_to_days engineer (targetWorkDays engineer) [ss] st ≠ st →
        (st.current_work_days.length : Int) < targetWorkDays engineer ∧
        ((setInsertAll (mapGet s.server_to_days ss.2) st.current_work_days).length : Int)
          ≤ targetWorkDays engineer + 1 ∧
        assignLoop s.server_to_days engineer (targetWorkDays engineer) [ss] st
          = { allocation := setSlot st.allocation engineer st.servers_assigned ss.2
              server_used := st.server_used.set ss.2.toNat true
              current_work_days :=
                setInsertAll (mapGet s.server_to_days ss.2) st.current_work_days
              servers_assigned := st.servers_assigned + 1 }) ∧
    (∀ (ss : Int × Int) (st : AssignState),
      st.server_used.getD ss.2.toNat false = false →
      st.servers_assigned < MAX_SERVERS_PER_ENGINEER → 0 < ss.1 →
      (st.current_work_days.length : Int) < targetWorkDays engineer →
      ((setInsertAll (mapGet s.server_to_days ss.2) st.current_work_days).length : Int)
        ≤ targetWorkDays engineer + 1 →
        assignLoop s.server_to_days engineer (targetWorkDays engineer) [ss] st
          = { allocation := setSlot st.allocation engineer st.servers_assigned ss.2
              server_used := st.server_used.set ss.2.toNat true
              current_work_days :=
                setInsertAll (mapGet s.server_to_days ss.2) st.current_work_days
              servers_assigned := st.servers_assigned + 1 }) ∧
    (∀ (ss : Int × Int) (rest : List (Int × Int)) (st : AssignState),
      assignLoop s.server_to_days engineer (targetWorkDays engineer) (ss :: rest) st
          = assignLoop s.server_to_days engineer (targetWorkDays engineer) [ss] st ∨
        assignLoop s.server_to_days engineer (targetWorkDays engineer) (ss :: rest) st
          = assignLoop s.server_to_days engineer (targetWorkDays engineer) rest
              (assignLoop s.server_to_days engineer (targetWorkDays engineer) [ss] st)) ∧
    (∀ acc : List (List Int) × List Bool,
      ((assignLoop s.server_to_days engineer (targetWorkDays engineer) s.server_efficiency
          { allocation := acc.1, server_used := acc.2, current_work_days := [],
            servers_assigned := 0 }).current_work_days.length : Int)
        ≤ targetWorkDays engineer + 1) := by
  refine ⟨fun ss st h => assignLoop_entry _ _ _ ss st h,
    fun ss st h1 h2 h3 h4 h5 => assignLoop_accepts _ _ _ ss st h1 h2 h3 h4 h5,
    fun ss rest st => assignLoop_cons _ _ _ ss rest st, fun acc => ?_⟩
  apply assignLoop_count_le
  unfold targetWorkDays
  split_ifs <;> simp

end FinalOptimalSolver

namespace UltimateConstraintSolver

theorem window_iff (std : List (Int × List Nat)) (v : Int) :
    (mapGet std v).any (fun day => decide (day < 14)) = true ↔ Window std v := by
  unfold Window
  rw [List.any_eq_true]
  simp only [decide_eq_true_eq]

/-- The first loop of a turn either finds no unassigned server with a day
below 14 and changes nothing, or assigns the first such entry of the ranking
to the next free slot. -/
theorem prePass_spec (std : List (Int × List Nat)) (cap e : Nat) (l : List (Int × Int)) :
    ∀ st : TurnState, st.servers_assigned < cap →
      (prePass std cap e l st = st ∧ ∀ ss ∈ l, ¬ Candidate std st.server_used ss) ∨
      ∃ (l1 : List (Int × Int)) (ss : Int × Int) (l2 : List (Int × Int)),
        l = l1 ++ ss :: l2 ∧ Candidate std st.server_used ss ∧
        (∀ x ∈ l1, ¬ Candidate std st.server_used x) ∧
        prePass std cap e l st =
          { allocation := setSlot st.allocation e st.servers_assigned ss.2
            server_used := st.server_used.set ss.2.toNat true
            current_work_days := setInsertAll (mapGet std ss.2) st.current_work_days
            servers_assigned := st.servers_assigned + 1 } := by
  induction l with
  | nil =>
    intro st _
    exact Or.inl ⟨rfl, fun ss hss => absurd hss (List.not_mem_nil _)⟩
  | cons x xs ih =>
    intro st hcap
    simp only [prePass]
    have hskip : ¬ Candidate std st.server_used x →
        ((prePass std cap e xs st = st ∧ ∀ ss ∈ x :: xs, ¬ Candidate std st.server_used ss) ∨
        ∃ (l1 : List (Int × Int)) (ss : Int × Int) (l2 : List (Int × Int)),
          x :: xs = l1 ++ ss :: l2 ∧ Candidate std st.server_used ss ∧
          (∀ y ∈ l1, ¬ Candidate std st.server_used y) ∧
          prePass std cap e xs st =
            { allocation := setSlot st.allocation e st.servers_assigned ss.2
              server_used := st.server_used.set ss.2.toNat true
              current_work_days := setInsertAll (mapGet std ss.2) st.current_work_days
              servers_assigned := st.servers_assigned + 1 }) := by
      intro hx
      rcases ih st hcap with ⟨h1, h2⟩ | ⟨l1, ss, l2, h1, h2, h3, h4⟩
      · left
        refine ⟨h1, fun ss hss => ?_⟩
        rcases List.mem_cons.mp hss with h5 | h5
        · rw [h5]; exact hx
        · exact h2 ss h5
      · right
        refine ⟨x :: l1, ss, l2, by rw [h1, List.cons_append], h2, fun y hy => ?_, h4⟩
        rcases List.mem_cons.mp hy with h5 | h5
        · rw [h5]; exact hx
        · exact h3 y h5
    split_ifs with g1 g2
    · apply hskip
      rintro ⟨h1, _⟩
      simp only [Bool.or_eq_true, decide_eq_true_eq] at g1
      rcases g1 with g1 | g1
      · rw [h1] at g1
        exact absurd g1 (by simp)
      · omega
    · right
      simp only [Bool.or_eq_true, decide_eq_true_eq, not_or, Bool.not_eq_true] at g1
      exact ⟨[], x, xs, rfl, ⟨g1.1, (window_iff std x.2).mp g2⟩,
        fun y hy => absurd hy (List.not_mem_nil _), rfl⟩
    · apply hskip
      rintro ⟨_, h2⟩
      exact g2 ((window_iff std x.2).mpr h2)

/-- What the second loop of a turn keeps: the shape, the rows of the other
engineers, the slots of the engineer that were filled before it; a slot it
fills holds a server of the ranking that was unassigned, and it frees no
server. -/
theorem fillLoop_inv (std : List (Int × List Nat)) {rows cap e : Nat} (he : e < rows)
    (target : Int) (l : List (Int × Int)) :
    ∀ st : TurnState, Shape rows cap st.allocation →
      Shape rows cap (fillLoop std cap e target l st).allocation ∧
      (∀ e1 i, e1 ≠ e ∨ i < st.servers_assigned →
        slotOf (fillLoop std cap e target l st).allocation e1 i = slotOf st.allocation e1 i) ∧
      (∀ i, slotOf (fillLoop std cap e target l st).allocation e i = slotOf st.allocation e i ∨
        ∃ ss ∈ l, st.server_used.getD ss.2.toNat false = false ∧
          slotOf (fillLoop std cap e target l st).allocation e i = ss.2) ∧
      (∀ j, (fillLoop std cap e target l st).server_used.getD j false = false →
        st.server_used.getD j false = false) := by
  induction l with
  | nil =>
    intro st hs
    exact ⟨hs, fun _ _ _ => rfl, fun _ => Or.inl rfl, fun _ h => h⟩
  | cons x xs ih =>
    intro st hs
    have hkeep : Shape rows cap (fillLoop std cap e target xs st).allocation ∧
      (∀ e1 i, e1 ≠ e ∨ i < st.servers_assigned →
        slotOf (fillLoop std cap e target xs st).allocation e1 i = slotOf st.allocation e1 i) ∧
      (∀ i, slotOf (fillLoop std cap e target xs st).allocation e i = slotOf st.allocation e i ∨
        ∃ ss ∈ x :: xs, st.server_used.getD ss.2.toNat false = false ∧
          slotOf (fillLoop std cap e target xs st).allocation e i = ss.2) ∧
      (∀ j, (fillLoop std cap e target xs st).server_used.getD j false = false →
        st.server_used.getD j false = false) := by
      obtain ⟨h1, h2, h3, h4⟩ := ih st hs
      refine ⟨h1, h2, fun i => ?_, h4⟩
      rcases h3 i with h5 | ⟨ss, h5, h6, h7⟩
      · exact Or.inl h5
      · exact Or.inr ⟨ss, List.mem_cons_of_mem _ h5, h6, h7⟩
    simp only [fillLoop]
    split_ifs with g1 g2 g3
    · exact hkeep
    · simp only [Bool.or_eq_true, decide_eq_true_eq, not_or, Bool.not_eq_true] at g1
      have hk : st.servers_assigned < cap := by omega
      have hs1 : Shape rows cap (setSlot st.allocation e st.servers_assigned x.2) :=
        shape_set_row hs e _ _
      refine ⟨hs1, fun e1 i hc => ?_, fun i => ?_, fun j hj => ?_⟩
      · show slotOf (setSlot st.allocation e st.servers_assigned x.2) e1 i = _
        rw [slotOf_setSlot hs he hk, if_neg (by omega)]
      · show slotOf (setSlot st.allocation e st.servers_assigned x.2) e i = _ ∨ _
        rw [slotOf_setSlot hs he hk]
        by_cases c : e = e ∧ i = st.servers_assigned
        · rw [if_pos c]
          exact Or.inr ⟨x, List.mem_cons_self _ _, g1.1, rfl⟩
        · rw [if_neg c]
          exact Or.inl rfl
      · have hj1 : (st.server_used.set x.2.toNat true).getD j false = false := hj
        rw [getD_set_eq] at hj1
        split_ifs at hj1 with c
        exact hj1
    · simp only [Bool.or_eq_true, decide_eq_true_eq, not_or, Bool.not_eq_true] at g1
      have hk : st.servers_assigned < cap := by omega
      have hs1 : Shape rows cap (setSlot st.allocation e st.servers_assigned x.2) :=
        shape_set_row hs e _ _
      obtain ⟨h1, h2, h3, h4⟩ := ih
        { allocation := setSlot st.allocation e st.servers_assigned x.2
          server_used := st.server_used.set x.2.toNat true
          current_work_days := setInsertAll (mapGet std x.2) st.current_work_days
          servers_assigned := st.servers_assigned + 1 } hs1
      have hmono : ∀ j, (st.server_used.set x.2.toNat true).getD j false = false →
          st.server_used.getD j false = false := by
        intro j hj
        rw [getD_set_eq] at hj
        split_ifs at hj with c
        exact hj
      refine ⟨h1, fun e1 i hc => ?_, fun i => ?_, fun j hj => hmono j (h4 j hj)⟩
      · rw [h2 e1 i (by
          rcases hc with hc | hc
          · exact Or.inl hc
          · exact Or.inr (Nat.lt_succ_of_lt hc))]
        show slotOf (setSlot st.allocation e st.servers_assigned x.2) e1 i = _
        rw [slotOf_setSlot hs he hk, if_neg (by omega)]
      · rcases h3 i with h5 | ⟨ss, h5, h6, h7⟩
        · rw [h5]
          show slotOf (setSlot st.allocation e st.servers_assigned x.2) e i = _ ∨ _
          rw [slotOf_setSlot hs he hk]
          by_cases c : e = e ∧ i = st.servers_assigned
          · rw [if_pos c]
            exact Or.inr ⟨x, List.mem_cons_self _ _, g1.1, rfl⟩
          · rw [if_neg c]
            exact Or.inl rfl
        · exact Or.inr ⟨ss, List.mem_cons_of_mem _ h5, hmono _ h6, h7⟩
    · exact hkeep

end UltimateConstraintSolver

namespace UltimateConstraintSolver

theorem targetLoop_length (lo hi : Int) :
    ∀ (n : Nat) (x : Int), (targetLoop lo hi n x).length = n := by
  intro n
  induction n with
  | zero => intro x; rfl
  | succ k ih =>
    intro x
    simp only [targetLoop]
    split_ifs
    · rw [List.length_cons, ih]
    · rw [List.length_cons, ih]

/-- A turn of the loop over the engineers keeps the shape of the allocation
and the rows of the other engineers. -/
theorem engineerTurn_frame (s : Solver) {rows cap : Nat} (acc : List (List Int) × List Bool)
    (hs : Shape rows cap acc.1) {e : Nat} (he : e < rows) (target : Int) :
    Shape rows cap (engineerTurn s cap acc (e, target)).1 ∧
      ∀ e1 i, e1 ≠ e → slotOf (engineerTurn s cap acc (e, target)).1 e1 i = slotOf acc.1 e1 i := by
  show Shape rows cap (fillLoop s.server_to_days cap e target s.server_efficiency
      (prePass s.server_to_days cap e s.server_efficiency
        { allocation := acc.1, server_used := acc.2, current_work_days := [],
          servers_assigned := 0 })).allocation ∧
    ∀ e1 i, e1 ≠ e → slotOf (fillLoop s.server_to_days cap e target s.server_efficiency
      (prePass s.server_to_days cap e s.server_efficiency
        { allocation := acc.1, server_used := acc.2, current_work_days := [],
          servers_assigned := 0 })).allocation e1 i = slotOf acc.1 e1 i
  by_cases hcap : 0 < cap
  · rcases prePass_spec s.server_to_days cap e s.server_efficiency
      { allocation := acc.1, server_used := acc.2, current_work_days := [],
        servers_assigned := 0 } hcap with ⟨h1, _⟩ | ⟨l1, ss, l2, _, _, _, h4⟩
    · rw [h1]
      obtain ⟨h5, h6, _, _⟩ := fillLoop_inv s.server_to_days he target s.server_efficiency
        { allocation := acc.1, server_used := acc.2, current_work_days := [],
          servers_assigned := 0 } hs
      exact ⟨h5, fun e1 i hne => h6 e1 i (Or.inl hne)⟩
    · rw [h4]
      have hs1 : Shape rows cap (setSlot acc.1 e 0 ss.2) := shape_set_row hs e _ _
      obtain ⟨h5, h6, _, _⟩ := fillLoop_inv s.server_to_days he target s.server_efficiency
        { allocation := setSlot acc.1 e 0 ss.2
          server_used := acc.2.set ss.2.toNat true
          current_work_days := setInsertAll (mapGet s.server_to_days ss.2) []
          servers_assigned := 0 + 1 } hs1
      refine ⟨h5, fun e1 i hne => ?_⟩
      rw [h6 e1 i (Or.inl hne)]
      show slotOf (setSlot acc.1 e 0 ss.2) e1 i = _
      rw [slotOf_setSlot hs he hcap, if_neg (fun hc => hne hc.1)]
  · have hcap0 : cap = 0 := by omega
    have hpre : ∀ (l : List (Int × Int)) (st : TurnState), st.servers_assigned ≥ cap →
        prePass s.server_to_days cap e l st = st := by
      intro l
      induction l with
      | nil => intro st _; rfl
      | cons x xs ih =>
        intro st h
        simp only [prePass]
        rw [if_pos (by simp [h])]
        exact ih st h
    rw [hpre _ _ (by simp [hcap0])]
    obtain ⟨h5, h6, _, _⟩ := fillLoop_inv s.server_to_days he target s.server_efficiency
      { allocation := acc.1, server_used := acc.2, current_work_days := [],
        servers_assigned := 0 } hs
    exact ⟨h5, fun e1 i hne => h6 e1 i (Or.inl hne)⟩

/-- The turn of an engineer whose row is empty: the engineer ends it with a
server that is active on a day below 14 exactly when the ranking has an
unassigned server with such a day at the start, and then slot 0 holds the
first such entry of the ranking. -/
theorem engineerTurn_window (s : Solver) {rows cap : Nat} (hcap : 0 < cap)
    (acc : List (List Int) × List Bool)
    (hs : Shape rows cap acc.1) {e : Nat} (he : e < rows) (target : Int)
    (hempty : ∀ i, slotOf acc.1 e i = -1)
    (hid : ∀ ss ∈ s.server_efficiency, ss.2 ≠ -1) :
    ((∃ i, i < cap ∧ slotOf (engineerTurn s cap acc (e, target)).1 e i ≠ -1 ∧
        Window s.server_to_days (slotOf (engineerTurn s cap acc (e, target)).1 e i)) ↔
      ∃ ss ∈ s.server_efficiency, Candidate s.server_to_days acc.2 ss) ∧
    ((∃ ss ∈ s.server_efficiency, Candidate s.server_to_days acc.2 ss) →
      ∃ (l1 : List (Int × Int)) (ss : Int × Int) (l2 : List (Int × Int)),
        s.server_efficiency = l1 ++ ss :: l2 ∧ Candidate s.server_to_days acc.2 ss ∧
        (∀ x ∈ l1, ¬ Candidate s.server_to_days acc.2 x) ∧
        slotOf (engineerTurn s cap acc (e, target)).1 e 0 = ss.2) := by
  show ((∃ i, i < cap ∧ slotOf (fillLoop s.server_to_days cap e target s.server_efficiency
        (prePass s.server_to_days cap e s.server_efficiency
          { allocation := acc.1, server_used := acc.2, current_work_days := [],
            servers_assigned := 0 })).allocation e i ≠ -1 ∧
        Window s.server_to_days (slotOf (fillLoop s.server_to_days cap e target
          s.server_efficiency
          (prePass s.server_to_days cap e s.server_efficiency
            { allocation := acc.1, server_used := acc.2, current_work_days := [],
              servers_assigned := 0 })).allocation e i)) ↔
      ∃ ss ∈ s.server_efficiency, Candidate s.server_to_days acc.2 ss) ∧
    ((∃ ss ∈ s.server_efficiency, Candidate s.server_to_days acc.2 ss) →
      ∃ (l1 : List (Int × Int)) (ss : Int × Int) (l2 : List (Int × Int)),
        s.server_efficiency = l1 ++ ss :: l2 ∧ Candidate s.server_to_days acc.2 ss ∧
        (∀ x ∈ l1, ¬ Candidate s.server_to_days acc.2 x) ∧
        slotOf (fillLoop s.server_to_days cap e target s.server_efficiency
          (prePass s.server_to_days cap e s.server_efficiency
            { allocation := acc.1, server_used := acc.2, current_work_days := [],
              servers_assigned := 0 })).allocation e 0 = ss.2)
  rcases prePass_spec s.server_to_days cap e s.server_efficiency
    { allocation := acc.1, server_used := acc.2, current_work_days := [],
      servers_assigned := 0 } hcap with ⟨h1, h2⟩ | ⟨l1, ss, l2, h1, h2, h3, h4⟩
  · rw [h1]
    obtain ⟨_, _, h7, _⟩ := fillLoop_inv s.server_to_days he target s.server_efficiency
      { allocation := acc.1, server_used := acc.2, current_work_days := [],
        servers_assigned := 0 } hs
    constructor
    · constructor
      · rintro ⟨i, _, hne, hw⟩
        rcases h7 i with h8 | ⟨x, hx, hu, h8⟩
        · rw [h8] at hne
          exact absurd (hempty i) hne
        · rw [h8] at hw
          exact ⟨x, hx, hu, hw⟩
      · rintro ⟨x, hx, hc⟩
        exact absurd hc (h2 x hx)
    · rintro ⟨x, hx, hc⟩
      exact absurd hc (h2 x hx)
  · rw [h4]
    have hs1 : Shape rows cap (setSlot acc.1 e 0 ss.2) := shape_set_row hs e _ _
    obtain ⟨_, h6, _, _⟩ := fillLoop_inv s.server_to_days he target s.server_efficiency
      { allocation := setSlot acc.1 e 0 ss.2
        server_used := acc.2.set ss.2.toNat true
        current_work_days := setInsertAll (mapGet s.server_to_days ss.2) []
        servers_assigned := 0 + 1 } hs1
    have hmem : ss ∈ s.server_efficiency := by
      rw [h1]
      exact List.mem_append_right _ (List.mem_cons_self _ _)
    have hslot : slotOf (fillLoop s.server_to_days cap e target s.server_efficiency
        { allocation := setSlot acc.1 e 0 ss.2
          server_used := acc.2.set ss.2.toNat true
          current_work_days := setInsertAll (mapGet s.server_to_days ss.2) []
          servers_assigned := 0 + 1 }).allocation e 0 = ss.2 := by
      rw [h6 e 0 (Or.inr (by show 0 < 0 + 1; omega))]
      show slotOf (setSlot acc.1 e 0 ss.2) e 0 = ss.2
      rw [slotOf_setSlot hs he hcap, if_pos ⟨rfl, rfl⟩]
    constructor
    · constructor
      · intro _
        exact ⟨ss, hmem, h2⟩
      · intro _
        refine ⟨0, hcap, ?_, ?_⟩
        · rw [hslot]
          exact hid ss hmem
        · rw [hslot]
          exact h2.2
    · intro _
      exact ⟨l1, ss, l2, h1, h2, h3, hslot⟩

theorem phase1Upto_succ (s : Solver) {e : Nat} (he : e < NUM_ENGINEERS) :
    ∃ t : Int, phase1Upto s (e + 1)
      = engineerTurn s MAX_SERVERS_PER_ENGINEER (phase1Upto s e) (e, t) := by
  have hlen : ((List.range NUM_ENGINEERS).zip
      (targetsFor NUM_ENGINEERS (MAX_REST_DAYS : Int) s.num_days)).length = NUM_ENGINEERS := by
    rw [List.length_zip, List.length_range]
    unfold targetsFor
    rw [targetLoop_length, Nat.min_self]
  have he2 : e < ((List.range NUM_ENGINEERS).zip
      (targetsFor NUM_ENGINEERS (MAX_REST_DAYS : Int) s.num_days)).length := by
    rw [hlen]; exact he
  refine ⟨(((List.range NUM_ENGINEERS).zip
      (targetsFor NUM_ENGINEERS (MAX_REST_DAYS : Int) s.num_days))[e]).2, ?_⟩
  have hfst : (((List.range NUM_ENGINEERS).zip
      (targetsFor NUM_ENGINEERS (MAX_REST_DAYS : Int) s.num_days))[e]).1 = e := by
    rw [List.getElem_zip]
    exact List.getElem_range _ _
  unfold phase1Upto
  rw [List.take_succ, List.foldl_append, List.getElem?_eq_getElem he2]
  simp only [Option.toList, List.foldl_cons, List.foldl_nil]
  congr 1
  exact Prod.ext hfst rfl

theorem phase1Upto_inv (s : Solver) (n : Nat) (hn : n ≤ NUM_ENGINEERS) :
    Shape NUM_ENGINEERS MAX_SERVERS_PER_ENGINEER (phase1Upto s n).1 ∧
      ∀ e1 i, n ≤ e1 → slotOf (phase1Upto s n).1 e1 i = -1 := by
  induction n with
  | zero =>
    refine ⟨shape_replicate _ _ _, fun e1 i _ => ?_⟩
    exact slotOf_replicate _ _ e1 i
  | succ k ih =>
    obtain ⟨h1, h2⟩ := ih (by omega)
    obtain ⟨t, ht⟩ := phase1Upto_succ s (show k < NUM_ENGINEERS by omega)
    rw [ht]
    obtain ⟨h3, h4⟩ := engineerTurn_frame s (phase1Upto s k) h1
      (show k < NUM_ENGINEERS by omega) t
    refine ⟨h3, fun e1 i hle => ?_⟩
    rw [h4 e1 i (by omega)]
    exact h2 e1 i (by omega)

theorem phase1Upto_all (s : Solver) : phase1Upto s NUM_ENGINEERS = phase1 s := by
  unfold phase1Upto phase1 phase1For
  rw [List.take_of_length_le]
  rw [List.length_zip, List.length_range]
  exact Nat.min_le_left _ _

/-- C21: in Phase 1 of `solve` of ultimate_solver.cpp, on a table whose
server ids are in `0 .. NUM_SERVERS-1`, for every engineer `e`: at the end of
its turn the engineer holds a server that is active on a day below 14 exactly
when, at the start of its turn, the ranking has a server that is unassigned
(`server_used` false) and active on a day below 14; and in that case slot 0
of the engineer holds the first entry of the ranking that is unassigned at
the start of the turn and active on a day below 14. -/
theorem phase1_window_server_iff (lines : List (List Int))
    (hid : ∀ l ∈ lines, ∀ k ∈ l, 0 ≤ k ∧ k < (NUM_SERVERS : Int))
    (e : Nat) (he : e < NUM_ENGINEERS) :
    ((∃ i, i < MAX_SERVERS_PER_ENGINEER ∧
        slotOf (phase1Upto (loadAlarmData lines) (e + 1)).1 e i ≠ -1 ∧
        Window (loadAlarmData lines).server_to_days
          (slotOf (phase1Upto (loadAlarmData lines) (e + 1)).1 e i)) ↔
      ∃ ss ∈ (loadAlarmData lines).server_efficiency,
        Candidate (loadAlarmData lines).server_to_days
          (phase1Upto (loadAlarmData lines) e).2 ss) ∧
    ((∃ ss ∈ (loadAlarmData lines).server_efficiency,
        Candidate (loadAlarmData lines).server_to_days
          (phase1Upto (loadAlarmData lines) e).2 ss) →
      ∃ (l1 : List (Int × Int)) (ss : Int × Int) (l2 : List (Int × Int)),
        (loadAlarmData lines).server_efficiency = l1 ++ ss :: l2 ∧
        Candidate (loadAlarmData lines).server_to_days
          (phase1Upto (loadAlarmData lines) e).2 ss ∧
        (∀ x ∈ l1, ¬ Candidate (loadAlarmData lines).server_to_days
          (phase1Upto (loadAlarmData lines) e).2 x) ∧
        slotOf (phase1Upto (loadAlarmData lines) (e + 1)).1 e 0 = ss.2) := by
  obtain ⟨h1, h2⟩ := phase1Upto_inv (loadAlarmData lines) e (by omega)
  obtain ⟨t, ht⟩ := phase1Upto_succ (loadAlarmData lines) he
  rw [ht]
  refine engineerTurn_window (loadAlarmData lines) (by decide) _ h1 he t
    (fun i => h2 e i (le_refl _)) ?_
  intro ss hss hneg
  have h3 : ss.2 ∈ ((loadAlarmData lines).server_efficiency).map Prod.snd :=
    List.mem_map_of_mem _ hss
  rw [(server_efficiency_ids lines).mem_iff] at h3
  obtain ⟨l, hl, hk⟩ := (mem_keys_buildServerToDays lines ss.2).mp h3
  have h4 := (hid l hl ss.2 hk).1
  omega

end UltimateConstraintSolver

namespace UltimateConstraintSolver

theorem loadAlarmData_single (k : Int) :
    loadAlarmData [[k]] =
      { daily_alarms := [[k]], server_to_days := [(k, [0])], server_efficiency := [(12, k)],
        num_days := 1 } := rfl

theorem getD_replicate_false (n j : Nat) : (List.replicate n false).getD j false = false := by
  rcases getD_mem_or_default (List.replicate n false) j false with h | h
  · exact (List.mem_replicate.mp h).2
  · exact h

/-- A turn in which every server of the ranking is already assigned changes
nothing. -/
theorem engineerTurn_all_used (s : Solver) (cap : Nat) (acc : List (List Int) × List Bool)
    (et : Nat × Int)
    (h : ∀ ss ∈ s.server_efficiency, acc.2.getD ss.2.toNat false = true) :
    engineerTurn s cap acc et = acc := by
  have hpre : ∀ (l : List (Int × Int)) (st : TurnState),
      (∀ ss ∈ l, st.server_used.getD ss.2.toNat false = true) →
      prePass s.server_to_days cap et.1 l st = st := by
    intro l
    induction l with
    | nil => intro st _; rfl
    | cons x xs ih =>
      intro st hl
      simp only [prePass]
      rw [if_pos (by rw [hl x (List.mem_cons_self _ _)]; rfl)]
      exact ih st (fun ss hss => hl ss (List.mem_cons_of_mem _ hss))
  have hfill : ∀ (l : List (Int × Int)) (st : TurnState),
      (∀ ss ∈ l, st.server_used.getD ss.2.toNat false = true) →
      fillLoop s.server_to_days cap et.1 et.2 l st = st := by
    intro l
    induction l with
    | nil => intro st _; rfl
    | cons x xs ih =>
      intro st hl
      simp only [fillLoop]
      rw [if_pos (by rw [hl x (List.mem_cons_self _ _)]; rfl)]
      exact ih st (fun ss hss => hl ss (List.mem_cons_of_mem _ hss))
  unfold engineerTurn
  simp only
  rw [hpre _ _ h, hfill _ _ h]

theorem phase1For_single (k : Int) (budget : Int) (h0 : 0 ≤ k) (h1 : k < (NUM_SERVERS : Int)) :
    phase1For 3 1 budget (loadAlarmData [[k]])
      = ([[k], [-1], [-1]], (List.replicate NUM_SERVERS false).set k.toNat true) := by
  have hk : k.toNat < NUM_SERVERS := by omega
  have hlen : (targetsFor 3 budget (loadAlarmData [[k]]).num_days).length = 3 := by
    unfold targetsFor
    exact targetLoop_length _ _ _ _
  obtain ⟨t0, t1, t2, ht⟩ : ∃ t0 t1 t2,
      targetsFor 3 budget (loadAlarmData [[k]]).num_days = [t0, t1, t2] := by
    match hm : targetsFor 3 budget (loadAlarmData [[k]]).num_days, hlen with
    | [a, b, c], _ => exact ⟨a, b, c, rfl⟩
  have hused : ∀ ss ∈ (loadAlarmData [[k]]).server_efficiency,
      ((List.replicate NUM_SERVERS false).set k.toNat true).getD ss.2.toNat false = true := by
    intro ss hss
    rw [loadAlarmData_single] at hss
    simp only [List.mem_singleton] at hss
    rw [hss, getD_set_eq, if_pos ⟨rfl, by rw [List.length_replicate]; exact hk⟩]
  have hturn0 : engineerTurn (loadAlarmData [[k]]) 1
      (List.replicate 3 (List.replicate 1 (-1)), List.replicate NUM_SERVERS false) (0, t0)
      = ([[k], [-1], [-1]], (List.replicate NUM_SERVERS false).set k.toNat true) := by
    rw [loadAlarmData_single]
    simp only [engineerTurn, prePass, fillLoop, getD_replicate_false, getD_set_eq,
      List.length_replicate, hk, and_self, if_true, Bool.false_or, Bool.true_or,
      ge_iff_le, nonpos_iff_eq_zero, one_ne_zero, decide_False, Bool.false_eq_true, if_false,
      mapGet, List.find?, beq_self_eq_true, List.any_cons, List.any_nil, Bool.or_false,
      Nat.ofNat_pos, decide_True]
    rfl
  unfold phase1For
  rw [ht]
  show List.foldl (engineerTurn (loadAlarmData [[k]]) 1)
    (List.replicate 3 (List.replicate 1 (-1)), List.replicate NUM_SERVERS false)
    [(0, t0), (1, t1), (2, t2)] = _
  simp only [List.foldl_cons, List.foldl_nil]
  rw [hturn0, engineerTurn_all_used _ _ ([[k], [-1], [-1]], _) (1, t1) hused,
    engineerTurn_all_used _ _ ([[k], [-1], [-1]], _) (2, t2) hused]

/-- C29: with 3 engineers of one slot each in the place of `NUM_ENGINEERS`
and `MAX_SERVERS_PER_ENGINEER`, whatever the budget, and a table of one day
line that lists one server `k`, `solve` returns three rows of one slot; row 0
holds `k` and engineer 0 works on day 0, the rows 1 and 2 are empty and their
engineers have no work day; the counter `engineers_with_first_14_work` of
`calculateFinalResults` is 1, which leaves 2 of the 3 engineers without work
in the window; `total_rest_days` is 2 and `valid` is false. -/
theorem solveFor_single_server (k : Int) (budget : Nat) (h0 : 0 ≤ k)
    (h1 : k < (NUM_SERVERS : Int)) :
    solveFor 3 1 budget (loadAlarmData [[k]])
        = { allocation := [[k], [-1], [-1]]
            daily_work := [[true], [false], [false]]
            total_rest_days := 2
            num_days := 1
            valid := false } ∧
      engineersWithFirst14For 3 1 (solveFor 3 1 budget (loadAlarmData [[k]])).daily_work = 1 ∧
      3 - engineersWithFirst14For 3 1 (solveFor 3 1 budget (loadAlarmData [[k]])).daily_work
        = 2 := by
  have hne : ¬ k = -1 := by omega
  have hsol : solveFor 3 1 budget (loadAlarmData [[k]])
      = { allocation := [[k], [-1], [-1]]
          daily_work := [[true], [false], [false]]
          total_rest_days := 2
          num_days := 1
          valid := false } := by
    unfold solveFor
    rw [phase1For_single k budget h0 h1, loadAlarmData_single]
    simp [calculateFinalResultsFor, Solution.newFor, markRowFor, engineersWithFirst14For,
      countWork, rowHasFirst14, slotOf, rowOf, mapGet, hne, List.enum, List.range,
      List.range.loop]
  rw [hsol]
  exact ⟨rfl, rfl, rfl⟩

end UltimateConstraintSolver

theorem setInsert_of_mem (x : Nat) (l : List Nat) (h : DaySet l) (hx : x ∈ l) :
    setInsert x l = l := by
  induction l with
  | nil => exact absurd hx (List.not_mem_nil _)
  | cons y ys ih =>
    unfold DaySet at h
    rw [List.pairwise_cons] at h
    simp only [setInsert]
    rcases List.mem_cons.mp hx with h1 | h1
    · subst h1
      rw [if_neg (lt_irrefl _), if_pos rfl]
    · have h2 := h.1 x h1
      rw [if_neg (by omega), if_neg (by omega), ih h.2 h1]

theorem setInsertAll_of_subset (xs : List Nat) (l : List Nat) (h : DaySet l)
    (hx : ∀ d ∈ xs, d ∈ l) : setInsertAll xs l = l := by
  unfold setInsertAll
  induction xs with
  | nil => rfl
  | cons x rest ih =>
    simp only [List.foldl_cons]
    rw [setInsert_of_mem x l h (hx x (List.mem_cons_self _ _))]
    exact ih (fun d hd => hx d (List.mem_cons_of_mem _ hd))

namespace MathematicalServerAllocationSolver

/-- The top-up loop of Phase 2 takes the first unassigned server of
`server_scores` whenever the engineer has an empty slot and fewer work days
than its target, also when every day of the server is a work day of the
engineer already: the server is assigned, the flag `improved` is set, and the
engineer's work-day set stays as it was. -/
theorem topUpLoop_accepts_zero_gain (server_to_days : List (Int × List Nat)) (engineer : Nat)
    (sc : Int × Int × Int) (rest : List (Int × Int × Int)) (a : Assign) (empty_slot : Nat)
    (hfree : a.server_assigned.getD sc.2.2.toNat false = false)
    (hslot : (List.range MAX_SERVERS_PER_ENGINEER).find?
      (fun i => slotOf a.allocation engineer i == -1) = some empty_slot)
    (hset : DaySet (a.engineer_work_days.getD engineer []))
    (hsub : ∀ d ∈ mapGet server_to_days sc.2.2, d ∈ a.engineer_work_days.getD engineer [])
    (hlt : (a.engineer_work_days.getD engineer []).length < targetDays engineer) :
    topUpLoop server_to_days engineer (sc :: rest) a
      = ({ allocation := setSlot a.allocation engineer empty_slot sc.2.2
           server_assigned := a.server_assigned.set sc.2.2.toNat true
           engineer_work_days :=
             a.engineer_work_days.set engineer (a.engineer_work_days.getD engineer []) },
          true) := by
  simp only [topUpLoop]
  rw [hfree, hslot, setInsertAll_of_subset _ _ hset hsub]
  simp only [Bool.not_false, if_true]
  rw [if_pos (by omega)]

end MathematicalServerAllocationSolver

namespace ServerAllocationSolver

end ServerAllocationSolver

/-! Distinct days in `server_days` of main.cpp. -/

theorem mapPush_inv (d : Nat) (k : Int) (pre : List Int) (hk : k ∉ pre) :
    ∀ m : List (Int × List Nat),
      (∀ kv ∈ m, kv.2.Pairwise (fun a b => a < b) ∧ (∀ x ∈ kv.2, x ≤ d) ∧
        (d ∈ kv.2 → kv.1 ∈ pre)) →
      ∀ kv ∈ mapPush k d m, kv.2.Pairwise (fun a b => a < b) ∧ (∀ x ∈ kv.2, x ≤ d) ∧
        (d ∈ kv.2 → kv.1 ∈ pre ++ [k]) := by
  intro m
  induction m with
  | nil =>
    intro _ kv hkv
    simp only [mapPush, List.mem_singleton] at hkv
    rw [hkv]
    refine ⟨List.pairwise_singleton _ _, fun x hx => ?_, fun _ => ?_⟩
    · rw [List.mem_singleton.mp hx]
    · exact List.mem_append_right _ (List.mem_singleton.mpr rfl)
  | cons x xs ih =>
    intro h kv hkv
    have hold : ∀ kv1 ∈ x :: xs, kv1.2.Pairwise (fun a b => a < b) ∧ (∀ y ∈ kv1.2, y ≤ d) ∧
        (d ∈ kv1.2 → kv1.1 ∈ pre ++ [k]) := by
      intro kv1 h1
      obtain ⟨h2, h3, h4⟩ := h kv1 h1
      exact ⟨h2, h3, fun h5 => List.mem_append_left _ (h4 h5)⟩
    have hnew : ∀ kv1 : Int × List Nat, kv1 = (k, [d]) →
        kv1.2.Pairwise (fun a b => a < b) ∧ (∀ y ∈ kv1.2, y ≤ d) ∧
        (d ∈ kv1.2 → kv1.1 ∈ pre ++ [k]) := by
      intro kv1 h1
      rw [h1]
      refine ⟨List.pairwise_singleton _ _, fun y hy => ?_, fun _ => ?_⟩
      · rw [List.mem_singleton.mp hy]
      · exact List.mem_append_right _ (List.mem_singleton.mpr rfl)
    simp only [mapPush] at hkv
    split_ifs at hkv with h1 h2
    · rcases List.mem_cons.mp hkv with h3 | h3
      · exact hnew kv h3
      · exact hold kv h3
    · rcases List.mem_cons.mp hkv with h3 | h3
      · obtain ⟨h4, h5, h6⟩ := h x (List.mem_cons_self _ _)
        have hd : d ∉ x.2 := fun hc => hk (by rw [h2]; exact h6 hc)
        rw [h3]
        refine ⟨?_, fun y hy => ?_, fun _ => ?_⟩
        · rw [List.pairwise_append]
          refine ⟨h4, List.pairwise_singleton _ _, fun a ha b hb => ?_⟩
          rw [List.mem_singleton.mp hb]
          have h7 := h5 a ha
          have h8 : a ≠ d := fun hc => hd (hc ▸ ha)
          omega
        · rcases List.mem_append.mp hy with h7 | h7
          · exact h5 y h7
          · rw [List.mem_singleton.mp h7]
        · show x.1 ∈ pre ++ [k]
          rw [← h2]
          exact List.mem_append_right _ (List.mem_singleton.mpr rfl)
      · exact hold kv (List.mem_cons_of_mem _ h3)
    · rcases List.mem_cons.mp hkv with h3 | h3
      · rw [h3]
        exact hold x (List.mem_cons_self _ _)
      · exact ih (fun kv1 h4 => h kv1 (List.mem_cons_of_mem _ h4)) kv h3

theorem mapPush_line_inv (d : Nat) (line : List Int) :
    ∀ (pre : List Int) (m : List (Int × List Nat)), (pre ++ line).Nodup →
      (∀ kv ∈ m, kv.2.Pairwise (fun a b => a < b) ∧ (∀ x ∈ kv.2, x ≤ d) ∧
        (d ∈ kv.2 → kv.1 ∈ pre)) →
      ∀ kv ∈ line.foldl (fun m server => mapPush server d m) m,
        kv.2.Pairwise (fun a b => a < b) ∧ ∀ x ∈ kv.2, x ≤ d := by
  induction line with
  | nil =>
    intro pre m _ h kv hkv
    exact ⟨(h kv hkv).1, (h kv hkv).2.1⟩
  | cons s ss ih =>
    intro pre m hn h
    simp only [List.foldl_cons]
    have hs : s ∉ pre := by
      intro hc
      have h1 := List.nodup_append.mp hn
      exact h1.2.2 hc (List.mem_cons_self _ _)
    refine ih (pre ++ [s]) _ ?_ (mapPush_inv d s pre hs m h)
    rw [List.append_assoc]
    exact hn

namespace ServerAllocationSolver

/-- When no day lists a server twice, the vector `server_days[k]` of main.cpp
holds distinct days, in increasing order: the count of its entries outside a
set of days is the number of its days outside the set. -/
theorem buildServerDays_days_distinct (daily_alarms : List (List Int))
    (h : ∀ d, (daily_alarms.getD d []).Nodup) (k : Int) :
    (mapGet (buildServerDays daily_alarms) k).Pairwise (fun a b => a < b) := by
  have hgen : ∀ (n : Nat) (kv : Int × List Nat),
      kv ∈ (List.range n).foldl
        (fun m day => (daily_alarms.getD day []).foldl (fun m server => mapPush server day m) m)
        [] →
      kv.2.Pairwise (fun a b => a < b) ∧ ∀ x ∈ kv.2, x < n := by
    intro n
    induction n with
    | zero => intro kv hkv; exact absurd hkv (List.not_mem_nil _)
    | succ j ih =>
      intro kv hkv
      rw [List.range_succ, List.foldl_append] at hkv
      simp only [List.foldl_cons, List.foldl_nil] at hkv
      have h1 := mapPush_line_inv j (daily_alarms.getD j []) [] _ (by simpa using h j)
        (fun kv1 h2 => ⟨(ih kv1 h2).1, fun x hx => Nat.le_of_lt ((ih kv1 h2).2 x hx),
          fun hc => absurd ((ih kv1 h2).2 j hc) (lt_irrefl _)⟩) kv hkv
      exact ⟨h1.1, fun x hx => Nat.lt_succ_of_le (h1.2 x hx)⟩
  unfold mapGet
  split
  · next kv hkv =>
    exact (hgen NUM_DAYS kv (List.mem_of_find?_eq_some hkv)).1
  · exact List.Pairwise.nil

end ServerAllocationSolver

/-! ### mathematical_solver.cpp: a run with a top-up that adds no day -/

theorem tripleLt_iff (a b : Int × Int × Int) :
    tripleLt a b = true ↔
      a.1 < b.1 ∨ (a.1 = b.1 ∧ (a.2.1 < b.2.1 ∨ (a.2.1 = b.2.1 ∧ a.2.2 < b.2.2))) := by
  unfold tripleLt
  simp only [Bool.or_eq_true, Bool.and_eq_true, Bool.not_eq_true', decide_eq_true_eq,
    decide_eq_false_iff_not]
  omega

theorem tripleLt_false_iff (a b : Int × Int × Int) :
    tripleLt a b = false ↔
      b.1 < a.1 ∨ (a.1 = b.1 ∧ (b.2.1 < a.2.1 ∨ (a.2.1 = b.2.1 ∧ b.2.2 ≤ a.2.2))) := by
  rw [← Bool.not_eq_true, tripleLt_iff]
  omega

/-- The result of `sort(v.rbegin(), v.rend())` on a vector of tuples lists no
entry before one that is larger in the order of `tuple`. -/
theorem pairwise_sortTriples (l : List (Int × Int × Int)) :
    (sortBy (fun a b => tripleLt b a) l).Pairwise (fun a b => tripleLt a b = false) := by
  refine pairwise_sortBy (fun a b => tripleLt b a) ?_ ?_ l
  · intro a b h
    rw [tripleLt_iff] at h
    rw [tripleLt_false_iff]
    omega
  · intro a b c h1 h2
    simp only [tripleLt_false_iff] at h1 h2 ⊢
    omega

/-- Two lists of tuples with the same entries that are both in descending
order are equal. -/
theorem eq_of_perm_of_descending {l1 l2 : List (Int × Int × Int)} (hp : l1.Perm l2)
    (h1 : l1.Pairwise (fun a b => tripleLt a b = false))
    (h2 : l2.Pairwise (fun a b => tripleLt a b = false)) : l1 = l2 := by
  haveI : IsAntisymm (Int × Int × Int) (fun a b => tripleLt a b = false) :=
    ⟨fun a b hab hba => by
      rw [tripleLt_false_iff] at hab hba
      apply Prod.ext
      · omega
      · apply Prod.ext
        · omega
        · omega⟩
  exact List.eq_of_perm_of_sorted hp h1 h2

namespace MathematicalServerAllocationSolver

theorem crowdedDay_eq :
    crowdedDay = (List.range 337).map (fun (k : Nat) => (k : Int)) :: List.replicate 21 [] := rfl

theorem mem_crowdedLine (k : Int) :
    k ∈ (List.range 337).map (fun (k : Nat) => (k : Int)) ↔ 0 ≤ k ∧ k ≤ 336 := by
  rw [List.mem_map]
  constructor
  · rintro ⟨j, hj, rfl⟩
    have := List.mem_range.mp hj
    omega
  · rintro ⟨h0, h1⟩
    exact ⟨k.toNat, List.mem_range.mpr (by omega), by omega⟩

theorem mem_crowdedDay (k : Int) (d : Nat) :
    k ∈ crowdedDay.getD d [] ↔ d = 0 ∧ 0 ≤ k ∧ k ≤ 336 := by
  rw [crowdedDay_eq]
  cases d with
  | zero =>
    show k ∈ (List.range 337).map (fun (k : Nat) => (k : Int)) ↔ _
    rw [mem_crowdedLine]
    simp
  | succ j =>
    show k ∈ (List.replicate 21 ([] : List Int)).getD j [] ↔ _
    rw [getD_replicate_eq]
    simp

theorem mapGet_crowded (k : Int) (h0 : 0 ≤ k) (h1 : k ≤ 336) :
    mapGet (serverToDays crowdedDay) k = [0] := by
  obtain ⟨_, h2, h3⟩ := serverToDays_inv crowdedDay
  refine daySet_ext (daySet_mapGet h2 k) (List.pairwise_singleton _ _) (fun d => ?_)
  rw [h3 k d, mem_crowdedDay, List.mem_singleton]
  constructor
  · exact fun h => h.2.1
  · intro h
    subst h
    exact ⟨by decide, rfl, h0, h1⟩

theorem serverToDays_crowded :
    serverToDays crowdedDay = (List.range 337).map (fun (k : Nat) => ((k : Int), [0])) := by
  obtain ⟨h1, _, _⟩ := serverToDays_inv crowdedDay
  obtain ⟨h4, h5, _, _⟩ := serverToDays_spec crowdedDay
  have hkeys : (serverToDays crowdedDay).map Prod.fst = (List.range 337).map (fun (k : Nat) => (k : Int)) := by
    have hs2 : ((List.range 337).map (fun (k : Nat) => (k : Int))).Pairwise (fun a b => a < b) := by
      rw [List.pairwise_map]
      exact List.Pairwise.imp (fun hab => by omega) (List.pairwise_lt_range 337)
    refine List.eq_of_perm_of_sorted ?_ h1 hs2
    refine (List.perm_ext_iff_of_nodup h4 (List.Pairwise.imp (fun hab => ne_of_lt hab) hs2)).mpr ?_
    intro k
    rw [h5 k, mem_crowdedLine]
    constructor
    · rintro ⟨d, _, hd⟩
      exact ((mem_crowdedDay k d).mp hd).2
    · intro h
      exact ⟨0, by decide, (mem_crowdedDay k 0).mpr ⟨rfl, h⟩⟩
  have hval : ∀ kv ∈ serverToDays crowdedDay, kv = (kv.1, [0]) := by
    intro kv hkv
    have h6 : kv.1 ∈ (serverToDays crowdedDay).map Prod.fst := List.mem_map_of_mem _ hkv
    rw [hkeys, mem_crowdedLine] at h6
    have h7 := mapGet_crowded kv.1 h6.1 h6.2
    rw [mapGet_of_mem h1 hkv] at h7
    exact Prod.ext rfl h7
  have h8 : serverToDays crowdedDay
      = ((serverToDays crowdedDay).map Prod.fst).map (fun k => (k, [0])) := by
    rw [List.map_map]
    conv_lhs => rw [← List.map_id (serverToDays crowdedDay)]
    exact List.map_congr_left (fun kv hkv => hval kv hkv)
  rw [h8, hkeys, List.map_map]
  rfl

theorem serverScores_crowded :
    serverScores (serverToDays crowdedDay)
      = (List.range 337).reverse.map (fun (k : Nat) => ((11 : Int), (1 : Int), (k : Int))) := by
  have hmap : (serverToDays crowdedDay).map
      (fun kv =>
        ((kv.2.length : Int) + (if kv.2.any (fun day => decide (day < 14)) then 10 else 0),
          (kv.2.length : Int), kv.1))
      = (List.range 337).map (fun (k : Nat) => ((11 : Int), (1 : Int), (k : Int))) := by
    rw [serverToDays_crowded, List.map_map]
    rfl
  unfold serverScores
  rw [hmap]
  refine eq_of_perm_of_descending ?_ (pairwise_sortTriples _) ?_
  · exact (perm_sortBy _ _).trans ((List.reverse_perm _).symm.map _)
  · rw [List.pairwise_map, List.pairwise_reverse]
    refine List.Pairwise.imp ?_ (List.pairwise_lt_range 337)
    intro a b hab
    rw [tripleLt_false_iff]
    exact Or.inr ⟨rfl, Or.inr ⟨rfl, by show (a : Int) ≤ (b : Int); omega⟩⟩

end MathematicalServerAllocationSolver

namespace MathematicalServerAllocationSolver

/-- The ranking of `crowdedDay` around the server `336 - n`: the servers
before it are `337 - n .. 336`, the servers after it are below `336 - n`. -/
theorem serverScores_split (n : Nat) (hn : n ≤ 336) :
    ∃ (A B : List (Int × Int × Int)),
      serverScores (serverToDays crowdedDay)
        = A ++ ((11 : Int), (1 : Int), ((336 - n : Nat) : Int)) :: B ∧
      (∀ x ∈ A, ∃ j : Nat, x.2.2 = (j : Int) ∧ 337 - n ≤ j ∧ j ≤ 336) ∧
      (∀ x ∈ B, ∃ j : Nat, x.2.2 = (j : Int) ∧ j < 336 - n) := by
  have hr : List.range 337
      = List.range (336 - n) ++ (336 - n) :: (List.range n).map (fun x => 336 - n + (x + 1)) := by
    have h1 : 337 = (336 - n) + (n + 1) := by omega
    conv_lhs => rw [h1, List.range_add, List.range_succ_eq_map]
    simp only [List.map_cons, List.map_map, Nat.add_zero]
    rfl
  refine ⟨((List.range n).map (fun x => 336 - n + (x + 1))).reverse.map
      (fun (k : Nat) => ((11 : Int), (1 : Int), (k : Int))),
    (List.range (336 - n)).reverse.map (fun (k : Nat) => ((11 : Int), (1 : Int), (k : Int))),
    ?_, ?_, ?_⟩
  · rw [serverScores_crowded, hr]
    simp only [List.reverse_append, List.reverse_cons, List.map_append, List.map_cons,
      List.map_nil, List.append_assoc, List.singleton_append]
  · intro x hx
    simp only [List.mem_map, List.mem_reverse, List.mem_range] at hx
    obtain ⟨k, ⟨j, hj, rfl⟩, rfl⟩ := hx
    exact ⟨336 - n + (j + 1), rfl, by omega, by omega⟩
  · intro x hx
    simp only [List.mem_map, List.mem_reverse, List.mem_range] at hx
    obtain ⟨k, hk, rfl⟩ := hx
    exact ⟨k, rfl, hk⟩

/-- Entries of `server_scores` that are assigned, or that add no day within
the target, are passed over by the loop of Phase 1. -/
theorem assignLoop_append_skip (std : List (Int × List Nat)) (e : Nat)
    (A l : List (Int × Int × Int)) (st : Assign × Nat)
    (h : ∀ x ∈ A, st.1.server_assigned.getD x.2.2.toNat false = true ∨
      ¬ ((setInsertAll (mapGet std x.2.2) (st.1.engineer_work_days.getD e [])).length
          ≤ targetDays e ∧
        (setInsertAll (mapGet std x.2.2) (st.1.engineer_work_days.getD e [])).length
          > (st.1.engineer_work_days.getD e []).length)) :
    assignLoop std e (A ++ l) st = assignLoop std e l st := by
  induction A with
  | nil => rfl
  | cons x xs ih =>
    have hrest := fun y hy => h y (List.mem_cons_of_mem _ hy)
    rw [List.cons_append]
    simp only [assignLoop]
    split_ifs with g1 g2 g3
    · exact ih hrest
    · exfalso
      rcases h x (List.mem_cons_self _ _) with h1 | h1
      · rw [h1] at g1
        simp at g1
      · exact h1 g2
    · exfalso
      rcases h x (List.mem_cons_self _ _) with h1 | h1
      · rw [h1] at g1
        simp at g1
      · exact h1 g2
    · exact ih hrest

end MathematicalServerAllocationSolver

namespace MathematicalServerAllocationSolver

theorem targetDays_ge (e : Nat) : 20 ≤ targetDays e := by
  unfold targetDays TARGET_WORK_DAYS_74 TARGET_WORK_DAYS_262
  split_ifs <;> omega

/-- The loop of Phase 1 for engineer `n` on `crowdedDay`, from the state
after the turns of the engineers before `n`: it assigns the server `336 - n`
and nothing else. -/
theorem assignLoop_crowded (n : Nat) (hn : n < 336) (a : Assign) (h : CrowdedInv n a) :
    assignLoop (serverToDays crowdedDay) n (serverScores (serverToDays crowdedDay)) (a, 0)
      = ({ allocation := pushSlot a.allocation n ((336 - n : Nat) : Int)
           server_assigned := a.server_assigned.set (336 - n) true
           engineer_work_days := a.engineer_work_days.set n [0] }, 1) := by
  obtain ⟨h1, h2, h3, h4, h5, h6⟩ := h
  obtain ⟨A, B, hsc, hA, hB⟩ := serverScores_split n (by omega)
  have hn2 : n < NUM_ENGINEERS := by unfold NUM_ENGINEERS; omega
  have hcur : a.engineer_work_days.getD n [] = [] := by
    rw [h5 n hn2, if_neg (lt_irrefl _)]
  have hfree : a.server_assigned.getD (336 - n) false = false := by
    rw [h6 (336 - n) (by omega)]
    simp only [decide_eq_false_iff_not]
    omega
  have hdays : mapGet (serverToDays crowdedDay) ((336 - n : Nat) : Int) = [0] :=
    mapGet_crowded _ (by omega) (by omega)
  have ht := targetDays_ge n
  rw [hsc, assignLoop_append_skip _ _ _ _ _ (fun x hx => by
    obtain ⟨j, hj, hj1, hj2⟩ := hA x hx
    left
    rw [hj, Int.toNat_ofNat, h6 j (by omega)]
    simp only [decide_eq_true_eq]
    exact hj1)]
  simp only [assignLoop, Int.toNat_ofNat, hfree, hcur, hdays]
  have hnew : setInsertAll [0] ([] : List Nat) = [0] := rfl
  rw [hnew]
  have hc1 : ¬ (false || decide (0 ≥ MAX_SERVERS_PER_ENGINEER)) = true := by decide
  have hc2 : ([0] : List Nat).length ≤ targetDays n ∧ ([0] : List Nat).length > ([] : List Nat).length := by
    constructor
    · show 1 ≤ targetDays n
      omega
    · decide
  have hc3 : ¬ ([0] : List Nat).length = targetDays n := by
    show ¬ 1 = targetDays n
    omega
  rw [if_neg hc1, if_pos hc2, if_neg hc3]
  have hskip := assignLoop_append_skip (serverToDays crowdedDay) n B []
    ({ allocation := pushSlot a.allocation n ((336 - n : Nat) : Int)
       server_assigned := a.server_assigned.set (336 - n) true
       engineer_work_days := a.engineer_work_days.set n [0] }, 0 + 1)
    (fun x hx => by
      obtain ⟨j, hj, hj1⟩ := hB x hx
      right
      show ¬ ((setInsertAll (mapGet (serverToDays crowdedDay) x.2.2)
          ((a.engineer_work_days.set n [0]).getD n [])).length ≤ targetDays n ∧
        (setInsertAll (mapGet (serverToDays crowdedDay) x.2.2)
          ((a.engineer_work_days.set n [0]).getD n [])).length
          > ((a.engineer_work_days.set n [0]).getD n []).length)
      rw [getD_set_eq, if_pos ⟨rfl, by rw [h3]; exact hn2⟩, hj,
        mapGet_crowded _ (by omega) (by omega)]
      have hsame : setInsertAll [0] ([0] : List Nat) = [0] := rfl
      rw [hsame]
      intro hc
      exact absurd hc.2 (lt_irrefl _))
  rw [List.append_nil] at hskip
  rw [hskip]
  rfl

end MathematicalServerAllocationSolver

namespace MathematicalServerAllocationSolver

theorem crowdedInv_turn (n : Nat) (hn : n < 336) (a : Assign) (h : CrowdedInv n a) :
    CrowdedInv (n + 1)
      { allocation := (pushSlot a.allocation n ((336 - n : Nat) : Int)).set n
          (padRow (rowOf (pushSlot a.allocation n ((336 - n : Nat) : Int)) n))
        server_assigned := a.server_assigned.set (336 - n) true
        engineer_work_days := a.engineer_work_days.set n [0] } := by
  obtain ⟨h1, h2, h3, h4, h5, h6⟩ := h
  have hn2 : n < NUM_ENGINEERS := by unfold NUM_ENGINEERS; omega
  have hrow : rowOf (pushSlot a.allocation n ((336 - n : Nat) : Int)) n
      = [((336 - n : Nat) : Int)] := by
    rw [ServerAllocationSolver.rowOf_pushSlot, if_pos ⟨rfl, by rw [h1]; exact hn2⟩, h4 n hn2, if_neg (lt_irrefl _)]
    rfl
  refine ⟨?_, ?_, ?_, ?_, ?_, ?_⟩
  · show ((pushSlot a.allocation n _).set n _).length = NUM_ENGINEERS
    rw [List.length_set]
    unfold pushSlot
    rw [List.length_set]
    exact h1
  · show (a.server_assigned.set (336 - n) true).length = NUM_SERVERS
    rw [List.length_set]
    exact h2
  · show (a.engineer_work_days.set n [0]).length = NUM_ENGINEERS
    rw [List.length_set]
    exact h3
  · intro e he
    show rowOf ((pushSlot a.allocation n ((336 - n : Nat) : Int)).set n
      (padRow (rowOf (pushSlot a.allocation n ((336 - n : Nat) : Int)) n))) e = _
    unfold rowOf
    rw [getD_set_eq]
    by_cases c : e = n
    · subst c
      have hlen : e < (pushSlot a.allocation e ((336 - e : Nat) : Int)).length := by
        unfold pushSlot
        rw [List.length_set, h1]
        exact he
      rw [if_pos ⟨rfl, hlen⟩, if_pos (Nat.lt_succ_self e)]
      have hrow2 : (pushSlot a.allocation e ((336 - e : Nat) : Int)).getD e []
          = [((336 - e : Nat) : Int)] := hrow
      rw [hrow2]
      rfl
    · rw [if_neg (fun hc => c hc.1)]
      have h7 := ServerAllocationSolver.rowOf_pushSlot a.allocation n e ((336 - n : Nat) : Int)
      unfold rowOf at h7
      rw [h7, if_neg (fun hc => c hc.1)]
      have h8 := h4 e he
      unfold rowOf at h8
      rw [h8]
      by_cases c2 : e < n
      · rw [if_pos c2, if_pos (by omega)]
      · rw [if_neg c2, if_neg (by omega)]
  · intro e he
    show (a.engineer_work_days.set n [0]).getD e [] = _
    rw [getD_set_eq]
    by_cases c : e = n
    · subst c
      rw [if_pos ⟨rfl, by rw [h3]; exact he⟩, if_pos (Nat.lt_succ_self e)]
    · rw [if_neg (fun hc => c hc.1), h5 e he]
      by_cases c2 : e < n
      · rw [if_pos c2, if_pos (by omega)]
      · rw [if_neg c2, if_neg (by omega)]
  · intro k hk
    show (a.server_assigned.set (336 - n) true).getD k false = _
    rw [getD_set_eq]
    by_cases c : k = 336 - n
    · rw [if_pos ⟨c, by rw [h2]; unfold NUM_SERVERS; omega⟩]
      symm
      simp only [decide_eq_true_eq]
      omega
    · rw [if_neg (fun hc => c hc.1), h6 k hk]
      by_cases c2 : 337 - n ≤ k
      · simp only [c2, decide_True, true_eq_decide_iff]
        omega
      · simp only [c2, decide_False, false_eq_decide_iff]
        omega

/-- Phase 1 on `crowdedDay`, after the turns of the first `n` engineers. -/
theorem crowdedInv_upto (n : Nat) (hn : n ≤ 336) :
    CrowdedInv n ((List.range n).foldl
      (fun a engineer =>
        { (assignLoop (serverToDays crowdedDay) engineer
            (serverScores (serverToDays crowdedDay)) (a, 0)).1 with
          allocation :=
            ((assignLoop (serverToDays crowdedDay) engineer
              (serverScores (serverToDays crowdedDay)) (a, 0)).1.allocation).set engineer
              (padRow (rowOf (assignLoop (serverToDays crowdedDay) engineer
                (serverScores (serverToDays crowdedDay)) (a, 0)).1.allocation engineer)) })
      { allocation := List.replicate NUM_ENGINEERS []
        server_assigned := List.replicate NUM_SERVERS false
        engineer_work_days := List.replicate NUM_ENGINEERS [] }) := by
  induction n with
  | zero =>
    refine ⟨List.length_replicate _ _, List.length_replicate _ _, List.length_replicate _ _,
      fun e _ => ?_, fun e _ => ?_, fun k hk => ?_⟩
    · show (List.replicate NUM_ENGINEERS ([] : List Int)).getD e [] = _
      rw [getD_replicate_eq, if_neg (Nat.not_lt_zero _)]
    · show (List.replicate NUM_ENGINEERS ([] : List Nat)).getD e [] = _
      rw [getD_replicate_eq, if_neg (Nat.not_lt_zero _)]
    · show (List.replicate NUM_SERVERS false).getD k false = _
      rw [getD_replicate_eq]
      symm
      simp only [decide_eq_false_iff_not]
      omega
  | succ j ih =>
    have h := ih (by omega)
    rw [List.range_succ, List.foldl_append]
    simp only [List.foldl_cons, List.foldl_nil]
    rw [assignLoop_crowded j (by omega) _ h]
    exact crowdedInv_turn j (by omega) _ h

theorem crowdedInv_phase1 :
    CrowdedInv 336 (phase1 (serverToDays crowdedDay) (serverScores (serverToDays crowdedDay))) :=
  crowdedInv_upto 336 (le_refl _)

end MathematicalServerAllocationSolver

namespace MathematicalServerAllocationSolver

/-- Entries of `server_scores` that are assigned are passed over by the
top-up loop of Phase 2. -/
theorem topUpLoop_append_assigned (std : List (Int × List Nat)) (e : Nat)
    (A l : List (Int × Int × Int)) (a : Assign)
    (h : ∀ x ∈ A, a.server_assigned.getD x.2.2.toNat false = true) :
    topUpLoop std e (A ++ l) a = topUpLoop std e l a := by
  induction A with
  | nil => rfl
  | cons x xs ih =>
    rw [List.cons_append]
    simp only [topUpLoop]
    rw [h x (List.mem_cons_self _ _)]
    simp only [Bool.not_true, Bool.false_eq_true, if_false]
    exact ih (fun y hy => h y (List.mem_cons_of_mem _ hy))

/-- The first turn of Phase 2 on a state that Phase 1 leaves on
`crowdedDay`: engineer 0 gets server 0 in slot 1 and keeps its work days. -/
theorem adjustEngineer_crowded (a : Assign) (h : CrowdedInv 336 a) :
    adjustEngineer (serverToDays crowdedDay) (serverScores (serverToDays crowdedDay))
        (a, false) 0
      = ({ allocation := setSlot a.allocation 0 1 0
           server_assigned := a.server_assigned.set 0 true
           engineer_work_days := a.engineer_work_days.set 0 (a.engineer_work_days.getD 0 []) },
          true) := by
  obtain ⟨h1, h2, h3, h4, h5, h6⟩ := h
  have he : (0 : Nat) < NUM_ENGINEERS := by decide
  have hwork : a.engineer_work_days.getD 0 [] = [0] := by
    rw [h5 0 he, if_pos (by omega)]
  have hrow : rowOf a.allocation 0 = [336, -1, -1, -1, -1] := by
    rw [h4 0 he, if_pos (by omega)]
    rfl
  have ht := targetDays_ge 0
  obtain ⟨A, B, hsc, hA, _⟩ := serverScores_split 336 (le_refl _)
  have htop : topUpLoop (serverToDays crowdedDay) 0 (serverScores (serverToDays crowdedDay)) a
      = ({ allocation := setSlot a.allocation 0 1 0
           server_assigned := a.server_assigned.set 0 true
           engineer_work_days :=
             a.engineer_work_days.set 0 (a.engineer_work_days.getD 0 []) }, true) := by
    rw [hsc, topUpLoop_append_assigned _ _ _ _ _ (fun x hx => by
      obtain ⟨j, hj, hj1, hj2⟩ := hA x hx
      rw [hj, Int.toNat_ofNat, h6 j (by omega)]
      simp only [decide_eq_true_eq]
      omega)]
    refine topUpLoop_accepts_zero_gain (serverToDays crowdedDay) 0
      ((11 : Int), (1 : Int), ((336 - 336 : Nat) : Int)) B a 1 ?_ ?_ ?_ ?_ ?_
    · show a.server_assigned.getD 0 false = false
      rw [h6 0 (by omega)]
      simp
    · unfold slotOf
      rw [hrow]
      decide
    · rw [hwork]
      exact List.pairwise_singleton _ _
    · intro d hd
      rw [hwork]
      have h7 : mapGet (serverToDays crowdedDay) 0 = [0] := mapGet_crowded 0 (by omega) (by omega)
      have hd2 : d ∈ mapGet (serverToDays crowdedDay) 0 := hd
      rw [h7] at hd2
      exact hd2
    · rw [hwork]
      show 1 < targetDays 0
      omega
  simp only [adjustEngineer]
  rw [if_pos (by
    rw [hwork]
    show 1 < targetDays 0
    omega), htop]
  rfl

/-- With every server of the ranking assigned and every engineer below its
target, a pass over engineers of Phase 2 changes nothing. -/
theorem adjust_fold_all_assigned (a : Assign)
    (hwork : ∀ e, e < 336 → a.engineer_work_days.getD e [] = [0])
    (hused : ∀ k, k < 337 → a.server_assigned.getD k false = true) (l : List Nat)
    (hl : ∀ e ∈ l, e < 336) :
    ∀ b : Bool, l.foldl
      (adjustEngineer (serverToDays crowdedDay) (serverScores (serverToDays crowdedDay))) (a, b)
      = (a, b) := by
  have htop : ∀ e, topUpLoop (serverToDays crowdedDay) e
      (serverScores (serverToDays crowdedDay)) a = (a, false) := by
    intro e
    have h1 := topUpLoop_append_assigned (serverToDays crowdedDay) e
      (serverScores (serverToDays crowdedDay)) [] a (fun x hx => by
        rw [serverScores_crowded] at hx
        simp only [List.mem_map, List.mem_reverse, List.mem_range] at hx
        obtain ⟨j, hj, rfl⟩ := hx
        rw [Int.toNat_ofNat]
        exact hused j hj)
    rw [List.append_nil] at h1
    rw [h1]
    rfl
  induction l with
  | nil => intro b; rfl
  | cons e rest ih =>
    intro b
    have he := hl e (List.mem_cons_self _ _)
    have ht := targetDays_ge e
    have hstep : adjustEngineer (serverToDays crowdedDay)
        (serverScores (serverToDays crowdedDay)) (a, b) e = (a, b) := by
      simp only [adjustEngineer]
      rw [if_pos (by
        rw [hwork e he]
        show 1 < targetDays e
        omega), htop e]
      simp only [Bool.or_false]
    rw [List.foldl_cons, hstep]
    exact ih (fun x hx => hl x (List.mem_cons_of_mem _ hx)) b

/-- Phase 2 on a state that Phase 1 leaves on `crowdedDay`: the top-up of
engineer 0 is its only change. -/
theorem phase2_crowded (a : Assign) (h : CrowdedInv 336 a) (fuel : Nat) :
    phase2 (serverToDays crowdedDay) (serverScores (serverToDays crowdedDay)) (fuel + 2) a
      = { allocation := setSlot a.allocation 0 1 0
          server_assigned := a.server_assigned.set 0 true
          engineer_work_days := a.engineer_work_days.set 0 (a.engineer_work_days.getD 0 []) } := by
  have hadj := adjustEngineer_crowded a h
  obtain ⟨h1, h2, h3, h4, h5, h6⟩ := h
  have hwork : ∀ e, e < 336 →
      (a.engineer_work_days.set 0 (a.engineer_work_days.getD 0 [])).getD e [] = [0] := by
    intro e he
    have he2 : e < NUM_ENGINEERS := he
    rw [getD_set_eq]
    split_ifs with c
    · rw [h5 0 (by decide), if_pos (by omega)]
    · rw [h5 e he2, if_pos he]
  have hused : ∀ k, k < 337 → (a.server_assigned.set 0 true).getD k false = true := by
    intro k hk
    rw [getD_set_eq]
    split_ifs with c
    · rfl
    · rw [h6 k hk]
      simp only [decide_eq_true_eq]
      have hlen : 0 < a.server_assigned.length := by rw [h2]; decide
      have : ¬ k = 0 := fun hc => c ⟨hc, hlen⟩
      omega
  have hrange : List.range NUM_ENGINEERS = 0 :: (List.range 335).map Nat.succ :=
    List.range_succ_eq_map 335
  have hrest : ∀ e ∈ (List.range 335).map Nat.succ, e < 336 := by
    intro e he
    obtain ⟨j, hj, rfl⟩ := List.mem_map.mp he
    have := List.mem_range.mp hj
    omega
  have hall : ∀ e ∈ List.range NUM_ENGINEERS, e < 336 := fun e he => List.mem_range.mp he
  have hpass1 : (List.range NUM_ENGINEERS).foldl
      (adjustEngineer (serverToDays crowdedDay) (serverScores (serverToDays crowdedDay)))
      (a, false)
      = ({ allocation := setSlot a.allocation 0 1 0
           server_assigned := a.server_assigned.set 0 true
           engineer_work_days :=
             a.engineer_work_days.set 0 (a.engineer_work_days.getD 0 []) }, true) := by
    rw [hrange, List.foldl_cons, hadj]
    exact adjust_fold_all_assigned _ hwork hused _ hrest true
  have hpass2 : (List.range NUM_ENGINEERS).foldl
      (adjustEngineer (serverToDays crowdedDay) (serverScores (serverToDays crowdedDay)))
      ({ allocation := setSlot a.allocation 0 1 0
         server_assigned := a.server_assigned.set 0 true
         engineer_work_days :=
           a.engineer_work_days.set 0 (a.engineer_work_days.getD 0 []) }, false)
      = ({ allocation := setSlot a.allocation 0 1 0
           server_assigned := a.server_assigned.set 0 true
           engineer_work_days :=
             a.engineer_work_days.set 0 (a.engineer_work_days.getD 0 []) }, false) :=
    adjust_fold_all_assigned _ hwork hused _ hall false
  simp only [phase2]
  rw [hpass1]
  simp only [if_true]
  rw [hpass2]
  simp only [Bool.false_eq_true, if_false]

theorem solve_allocation_eq (daily_alarms : List (List Int)) :
    (solve daily_alarms).allocation
      = (phase2 (serverToDays daily_alarms) (serverScores (serverToDays daily_alarms)) 100
          (phase1 (serverToDays daily_alarms)
            (serverScores (serverToDays daily_alarms)))).allocation := by
  unfold solve calculateDailyWork
  dsimp only

/-- C25, the run that shows the defect: on `crowdedDay` Phase 1 of `solve`
leaves engineer 0 with the server 336 and the work-day set `[0]`; the first
turn of Phase 2, the one of engineer 0, tops the engineer up with the
unassigned server 0 and sets `improved`, and the work-day set of the engineer
is `[0]` as before: the top-up adds no day. The solution that `solve` returns
has the two servers in row 0. -/
theorem phase2_top_up_adds_no_day :
    (phase1 (serverToDays crowdedDay)
        (serverScores (serverToDays crowdedDay))).engineer_work_days.getD 0 [] = [0] ∧
      rowOf (phase1 (serverToDays crowdedDay)
        (serverScores (serverToDays crowdedDay))).allocation 0 = [336, -1, -1, -1, -1] ∧
      (adjustEngineer (serverToDays crowdedDay) (serverScores (serverToDays crowdedDay))
        (phase1 (serverToDays crowdedDay) (serverScores (serverToDays crowdedDay)), false) 0).2
        = true ∧
      rowOf (adjustEngineer (serverToDays crowdedDay) (serverScores (serverToDays crowdedDay))
        (phase1 (serverToDays crowdedDay) (serverScores (serverToDays crowdedDay)), false)
          0).1.allocation 0 = [336, 0, -1, -1, -1] ∧
      (adjustEngineer (serverToDays crowdedDay) (serverScores (serverToDays crowdedDay))
        (phase1 (serverToDays crowdedDay) (serverScores (serverToDays crowdedDay)), false)
          0).1.engineer_work_days.getD 0 [] = [0] ∧
      rowOf (solve crowdedDay).allocation 0 = [336, 0, -1, -1, -1] := by
  have hinv := crowdedInv_phase1
  have hsolve : (solve crowdedDay).allocation
      = setSlot (phase1 (serverToDays crowdedDay)
          (serverScores (serverToDays crowdedDay))).allocation 0 1 0 := by
    rw [solve_allocation_eq, phase2_crowded _ hinv 98]
  rw [hsolve, adjustEngineer_crowded _ hinv]
  obtain ⟨h1, h2, h3, h4, h5, h6⟩ := hinv
  have he : (0 : Nat) < NUM_ENGINEERS := by decide
  have hwork : (phase1 (serverToDays crowdedDay)
      (serverScores (serverToDays crowdedDay))).engineer_work_days.getD 0 [] = [0] := by
    rw [h5 0 he, if_pos (by omega)]
  have hrow : rowOf (phase1 (serverToDays crowdedDay)
      (serverScores (serverToDays crowdedDay))).allocation 0 = [336, -1, -1, -1, -1] := by
    rw [h4 0 he, if_pos (by omega)]
    rfl
  have hrow2 : rowOf (setSlot (phase1 (serverToDays crowdedDay)
      (serverScores (serverToDays crowdedDay))).allocation 0 1 0) 0 = [336, 0, -1, -1, -1] := by
    unfold setSlot
    rw [hrow]
    unfold rowOf
    rw [getD_set_eq, if_pos ⟨rfl, by rw [h1]; exact he⟩]
    rfl
  dsimp only
  refine ⟨hwork, hrow, rfl, hrow2, ?_, hrow2⟩
  rw [getD_set_eq, if_pos ⟨rfl, by rw [h3]; exact he⟩]
  exact hwork

end MathematicalServerAllocationSolver

namespace UltimateConstraintSolver

/-- A pair that the search stores has day counts of at least `lo`, so the
total it splits is at least `lo` per engineer. -/
theorem tryPair_total_ge {engineers total : Int} {lo hi : Nat} {d : Distribution}
    (he : 0 ≤ engineers) (h1 : 1 ≤ lo) (h2 : lo ≤ hi)
    (h : tryPair engineers total lo hi = some d) : engineers ≤ total := by
  obtain ⟨_, hmin, hmax, hx, hy, hsum, htot⟩ := tryPair_some h
  have hx1 := hx he
  rw [hmin, hmax] at htot
  have ha : d.engineers_with_min_work ≤ (lo : Int) * d.engineers_with_min_work := by
    have : 0 ≤ ((lo : Int) - 1) * d.engineers_with_min_work :=
      mul_nonneg (by omega) hx1
    linarith
  have hb : d.engineers_with_max_work ≤ (hi : Int) * d.engineers_with_max_work := by
    have : 0 ≤ ((hi : Int) - 1) * d.engineers_with_max_work :=
      mul_nonneg (by omega) hy
    linarith
  linarith

/-- The distribution search succeeds exactly when the work days needed are
at least one per engineer (for a positive number of engineers and a budget
that is not negative). -/
theorem distributionFor_found_iff (engineers budget : Int) (num_days : Nat)
    (he : 0 < engineers) (hb : 0 ≤ budget) :
    (distributionFor engineers budget num_days).found_distribution = true ↔
      engineers ≤ engineers * (num_days : Int) - budget := by
  constructor
  · intro h
    have h1 := distributionFor_found h
    obtain ⟨lo, hi, h2, _, h4, _, h6, _⟩ := minLoop_some _ _ _ _ _ _ h1
    exact tryPair_total_ge (le_of_lt he) h2 h4 h6
  · intro h
    have hW : 0 ≤ engineers * (num_days : Int) - budget := by omega
    have hdiv := Int.emod_add_ediv (engineers * (num_days : Int) - budget) engineers
    have hr0 := Int.emod_nonneg (engineers * (num_days : Int) - budget) (ne_of_gt he)
    have hr1 := Int.emod_lt_of_pos (engineers * (num_days : Int) - budget) he
    have hm1 : 1 ≤ (engineers * (num_days : Int) - budget) / engineers :=
      (Int.le_ediv_iff_mul_le he).mpr (by omega)
    have hmn : (engineers * (num_days : Int) - budget) / engineers ≤ (num_days : Int) := by
      apply Int.ediv_le_of_le_mul he
      rw [mul_comm]
      omega
    obtain ⟨m, hm⟩ : ∃ m : Nat,
        (m : Int) = (engineers * (num_days : Int) - budget) / engineers :=
      ⟨((engineers * (num_days : Int) - budget) / engineers).toNat, by omega⟩
    rw [← hm] at hdiv hm1 hmn
    have hfind : ∃ lo hi : Nat, 1 ≤ lo ∧ lo ≤ hi ∧ hi ≤ num_days ∧
        tryPair engineers (engineers * (num_days : Int) - budget) lo hi ≠ none := by
      by_cases hr : (engineers * (num_days : Int) - budget) % engineers = 0
      · refine ⟨m, m, by omega, le_refl _, by omega, ?_⟩
        refine tryPair_complete (le_of_lt he) (le_refl 0) (add_zero _) ?_
        rw [hr] at hdiv
        linarith
      · have hlt : (m : Int) < (num_days : Int) := by
          by_contra hc
          have hmeq : (m : Int) = (num_days : Int) := by omega
          rw [hmeq] at hdiv
          omega
        refine ⟨m, m + 1, by omega, by omega, by omega, ?_⟩
        refine tryPair_complete (x := engineers
            - (engineers * (num_days : Int) - budget) % engineers)
          (y := (engineers * (num_days : Int) - budget) % engineers)
          (by omega) hr0 (by omega) ?_
        push_cast
        linarith
    obtain ⟨lo, hi, h1, h2, h3, h4⟩ := hfind
    cases hs : minLoop engineers (engineers * (num_days : Int) - budget) num_days num_days 1 with
    | none =>
      exact absurd (minLoop_none _ _ _ _ _ hs lo hi h1 (by omega) h2 h3) h4
    | some d =>
      obtain ⟨lo2, hi2, _, _, _, _, h5, _⟩ := minLoop_some _ _ _ _ _ _ hs
      simp only [distributionFor, hs]
      exact (tryPair_some h5).1

/-- C37: for every number of loaded days, the distribution search of `solve`
of ultimate_solver.cpp sets `found_distribution` (and the approximation is
not used) exactly when `NUM_ENGINEERS * num_days - MAX_REST_DAYS` is at least
`NUM_ENGINEERS`, that is, with 336 engineers and the budget 410, exactly when
`num_days` is at least 3. -/
theorem distribution_found_iff_three_days (num_days : Nat) :
    ((distribution num_days).found_distribution = true ↔
        (NUM_ENGINEERS : Int) ≤ (NUM_ENGINEERS : Int) * (num_days : Int) - (MAX_REST_DAYS : Int)) ∧
      ((distribution num_days).found_distribution = true ↔ 3 ≤ num_days) := by
  have h := distributionFor_found_iff (NUM_ENGINEERS : Int) (MAX_REST_DAYS : Int) num_days
    (by decide) (by decide)
  refine ⟨h, ?_⟩
  unfold distribution
  rw [h]
  have h1 : ((NUM_ENGINEERS : Nat) : Int) = 336 := rfl
  have h2 : ((MAX_REST_DAYS : Nat) : Int) = 410 := rfl
  rw [h1, h2]
  omega

end UltimateConstraintSolver

namespace ServerAllocationSolver

theorem loadAlarmData_snd (lines : List (List Int)) :
    (loadAlarmData lines).2 = true ↔ NUM_DAYS ≤ lines.length := by
  simp only [loadAlarmData, List.length_map, List.length_take, decide_eq_true_eq]
  omega

/-- C32, as the code has it: `loadAlarmData` of main.cpp stores the day lines
it reads in order (ids outside `0 .. NUM_SERVERS-1` left out, `NUM_DAYS`
entries in all), but it returns true only when `NUM_DAYS` day lines were
read; with fewer lines it returns false and `main` exits with code 1 without
calling `solve` (so whatever the sorting function of `solve` is). -/
theorem loadAlarmData_full_load_only (lines : List (List Int)) :
    ((loadAlarmData lines).2 = true ↔ NUM_DAYS ≤ lines.length) ∧
      (lines.length < NUM_DAYS →
        ∀ sort : List (Int × Nat) → List (Int × Nat), main sort lines = (1, none)) ∧
      (loadAlarmData lines).1.length = NUM_DAYS ∧
      (∀ d, d < lines.length → d < NUM_DAYS →
        (loadAlarmData lines).1.getD d []
          = (lines.getD d []).filter
              (fun (server_id : Int) => decide (server_id ≥ 0 ∧ server_id < (NUM_SERVERS : Int)))) ∧
      (∀ d, lines.length ≤ d → (loadAlarmData lines).1.getD d [] = []) := by
  refine ⟨loadAlarmData_snd lines, fun h sort => ?_, ?_, fun d h1 h2 => ?_, fun d h1 => ?_⟩
  · have h2 : (loadAlarmData lines).2 = false := by
      rw [← Bool.not_eq_true, loadAlarmData_snd]
      omega
    simp only [main, h2, Bool.not_false, if_true]
  · simp only [loadAlarmData, List.length_append, List.length_map, List.length_take,
      List.length_replicate]
    omega
  · simp only [loadAlarmData]
    rw [List.getD_eq_getElem?_getD, List.getElem?_append_left (by
      simp only [List.length_map, List.length_take]
      omega)]
    rw [List.getElem?_map, List.getElem?_take_of_lt h2, List.getD_eq_getElem?_getD,
      List.getElem?_eq_getElem h1]
    rfl
  · simp only [loadAlarmData]
    rw [List.getD_eq_getElem?_getD]
    by_cases h2 : d < NUM_DAYS
    · rw [List.getElem?_append_right (by
        simp only [List.length_map, List.length_take]
        omega)]
      rw [List.getElem?_replicate]
      split_ifs <;> rfl
    · rw [List.getElem?_eq_none (by
        simp only [List.length_append, List.length_map, List.length_take,
          List.length_replicate]
        omega)]
      rfl

end ServerAllocationSolver
/-! ### constraint_solver.cpp: Phase 1 -/

theorem daySet_length_le {l : List Nat} (h : DaySet l) {n : Nat} (hn : ∀ d ∈ l, d < n) :
    l.length ≤ n := by
  have hnd : l.Nodup := List.Pairwise.imp (fun hab => Nat.ne_of_lt hab) h
  have hsub : l ⊆ List.range n := fun d hd => List.mem_range.mpr (hn d hd)
  have h1 := (List.Nodup.subperm hnd hsub).length_le
  rwa [List.length_range] at h1

namespace ConstraintBasedSolver

/-- The day sets of a solver are ascending and hold days below `NUM_DAYS`. -/
theorem loadedDays_bound {sort : List (Int × Int × Int) → List (Int × Int × Int)}
    (lines : List (List Int)) (k : Int) :
    DaySet (mapGet (loadAlarmData sort lines).server_to_days k) ∧
      ∀ d ∈ mapGet (loadAlarmData sort lines).server_to_days k, d < NUM_DAYS := by
  refine ⟨daySet_buildServerToDays _ k, fun d hd => ?_⟩
  have h1 := day_lt_of_mem_buildServerToDays hd
  have h2 : (lines.take NUM_DAYS).length ≤ NUM_DAYS := by
    rw [List.length_take]; exact Nat.min_le_left _ _
  omega

theorem union_length_le (std : List (Int × List Nat))
    (hstd : ∀ k, ∀ d ∈ mapGet std k, d < NUM_DAYS) (k : Int) (work : List Nat)
    (hw : DaySet work) (hwd : ∀ d ∈ work, d < NUM_DAYS) :
    (setInsertAll (mapGet std k) work).length ≤ NUM_DAYS := by
  refine daySet_length_le (daySet_setInsertAll _ _ hw) (fun d hd => ?_)
  rcases (mem_setInsertAll _ _ _).mp hd with h | h
  · exact hstd k d h
  · exact hwd d h

/-- The acceptance test of Phase 1 (line 133) fails while the running total
is `NUM_ENGINEERS * NUM_DAYS` and the engineer has `NUM_DAYS` rest days. -/
theorem assignLoop_rejects (std : List (Int × List Nat))
    (hstd : ∀ k, ∀ d ∈ mapGet std k, d < NUM_DAYS) (engineer : Nat) :
    ∀ (l : List (Int × Int × Int)) (st : Books × List Nat × Nat),
      st.1.total_rest_days = (NUM_ENGINEERS : Int) * (NUM_DAYS : Int) →
      st.1.engineer_rest_days.getD engineer 0 = (NUM_DAYS : Int) →
      DaySet st.2.1 → (∀ d ∈ st.2.1, d < NUM_DAYS) →
      assignLoop std engineer l st = st := by
  intro l
  induction l with
  | nil => intro st _ _ _ _; rfl
  | cons entry rest ih =>
    intro st h1 h2 h3 h4
    have h5 := union_length_le std hstd entry.2.2 st.2.1 h3 h4
    simp only [assignLoop]
    split_ifs with c1 c2 c3
    · exact ih st h1 h2 h3 h4
    · exfalso
      rw [h1, h2] at c2
      simp only [NUM_ENGINEERS, NUM_DAYS, MAX_REST_DAYS] at c2 h5
      omega
    · exfalso
      rw [h1, h2] at c2
      simp only [NUM_ENGINEERS, NUM_DAYS, MAX_REST_DAYS] at c2 h5
      omega
    · exact ih st h1 h2 h3 h4

theorem phase1Loop_init (s : Solver) (hstd : ∀ k, ∀ d ∈ mapGet s.server_to_days k, d < NUM_DAYS) :
    ∀ engineers : List Nat, (∀ e ∈ engineers, e < NUM_ENGINEERS) →
      phase1Loop s engineers Books.init = Books.init := by
  intro engineers
  induction engineers with
  | nil => intro _; rfl
  | cons e rest ih =>
    intro he
    have h1 : assignLoop s.server_to_days e s.server_efficiency (Books.init, [], 0)
        = (Books.init, [], 0) := by
      refine assignLoop_rejects _ hstd e _ _ rfl ?_ List.Pairwise.nil
        (fun d hd => absurd hd (List.not_mem_nil _))
      show (List.replicate NUM_ENGINEERS (NUM_DAYS : Int)).getD e 0 = _
      rw [List.getD_eq_getElem?_getD,
        List.getElem?_eq_getElem (by rw [List.length_replicate]; exact he e (List.mem_cons_self _ _)),
        List.getElem_replicate]
      rfl
    simp only [phase1Loop, h1]
    have h7 : ¬ (Books.init.total_rest_days ≤ (MAX_REST_DAYS : Int) + 20) := by
      have h6 : Books.init.total_rest_days = 7392 := rfl
      rw [h6]
      simp only [MAX_REST_DAYS]
      omega
    rw [if_neg h7]
    exact ih (fun x hx => he x (List.mem_cons_of_mem _ hx))

theorem phase1_init (s : Solver) (hstd : ∀ k, ∀ d ∈ mapGet s.server_to_days k, d < NUM_DAYS) :
    phase1 s = Books.init :=
  phase1Loop_init s hstd _ (fun _ he => List.mem_range.mp he)

theorem slotOf_init (e i : Nat) : slotOf Books.init.allocation e i = -1 :=
  slotOf_replicate _ _ e i

/-- C34. For every input and every sorting function that line 74 may stand
for, and for every list put in the place of `server_efficiency`, Phase 1
of `solve` leaves the variables as they were initialised: the acceptance test
`total_rest_days - rest_day_change <= MAX_REST_DAYS` of line 133 is false for
every server (the total is 7392 and the change is at most 22), every slot is
`-1` afterwards and `total_rest_days` is `NUM_ENGINEERS * NUM_DAYS = 7392`. -/
theorem phase1_assigns_nothing (sort : List (Int × Int × Int) → List (Int × Int × Int))
    (lines : List (List Int)) :
    phase1 (loadAlarmData sort lines) = Books.init ∧
      (∀ server_efficiency : List (Int × Int × Int),
        phase1 { loadAlarmData sort lines with server_efficiency := server_efficiency } = Books.init) ∧
      (∀ server : Int,
        ¬ (Books.init.total_rest_days
            - ((NUM_DAYS : Int) - ((NUM_DAYS : Int)
                - ((setInsertAll (mapGet (loadAlarmData sort lines).server_to_days server) []).length
                    : Int)))
          ≤ (MAX_REST_DAYS : Int))) ∧
      (∀ e i, slotOf (phase1 (loadAlarmData sort lines)).allocation e i = -1) ∧
      (phase1 (loadAlarmData sort lines)).total_rest_days = 7392 := by
  have hstd : ∀ k, ∀ d ∈ mapGet (loadAlarmData sort lines).server_to_days k, d < NUM_DAYS :=
    fun k => (loadedDays_bound lines k).2
  have h1 := phase1_init (loadAlarmData sort lines) hstd
  refine ⟨h1, fun eff => phase1_init _ hstd, fun server => ?_, fun e i => ?_, ?_⟩
  · have h5 := union_length_le _ hstd server [] List.Pairwise.nil
      (fun d hd => absurd hd (List.not_mem_nil _))
    have h6 : Books.init.total_rest_days = 7392 := rfl
    rw [h6]
    simp only [NUM_DAYS, MAX_REST_DAYS] at h5 ⊢
    omega
  · rw [h1]; exact slotOf_init e i
  · rw [h1]; rfl

end ConstraintBasedSolver
/-! ### constraint_solver.cpp: Phase 2 and the running total -/

theorem sum_map_range_int (f : Nat → Int) (n : Nat) :
    ((List.range n).map f).sum = ∑ i in Finset.range n, f i := by
  induction n with
  | zero => simp
  | succ m ih =>
    rw [List.range_succ, List.map_append, List.sum_append, ih, Finset.sum_range_succ]
    simp

/-- A sum over `0 .. n-1` in which only the term at `e` changes. -/
theorem sum_one_changed (f g : Nat → Int) (n e : Nat) (he : e < n)
    (hrest : ∀ x, x < n → x ≠ e → g x = f x) :
    ((List.range n).map g).sum = ((List.range n).map f).sum - f e + g e := by
  rw [sum_map_range_int, sum_map_range_int]
  have m1 : e ∈ Finset.range n := Finset.mem_range.mpr he
  rw [← Finset.add_sum_erase _ f m1, ← Finset.add_sum_erase _ g m1]
  have h3 : ∑ x in (Finset.range n).erase e, g x = ∑ x in (Finset.range n).erase e, f x := by
    refine Finset.sum_congr rfl (fun x hx => ?_)
    obtain ⟨h4, h5⟩ := Finset.mem_erase.mp hx
    exact hrest x (Finset.mem_range.mp h5) h4
  rw [h3]
  omega

theorem daySet_length_le_of_subset {l1 l2 : List Nat} (h1 : DaySet l1)
    (h : ∀ d ∈ l1, d ∈ l2) : l1.length ≤ l2.length := by
  have hnd : l1.Nodup := List.Pairwise.imp (fun hab => Nat.ne_of_lt hab) h1
  exact (List.Nodup.subperm hnd h).length_le

namespace ConstraintBasedSolver

theorem emptySlot_spec {a : List (List Int)} {e k : Nat} (h : emptySlot a e = some k) :
    k < MAX_SERVERS_PER_ENGINEER ∧ slotOf a e k = -1 := by
  unfold emptySlot at h
  refine ⟨List.mem_range.mp (List.mem_of_find?_eq_some h), ?_⟩
  have h1 := List.find?_some h
  simpa using h1

/-- Putting a server into an empty slot of row `e` lowers the rest-day total
of the allocation by at most the gain of days that Phase 2 computes. -/
theorem restSum_setSlot (std : List (Int × List Nat)) {a : List (List Int)}
    (hs : Shape NUM_ENGINEERS MAX_SERVERS_PER_ENGINEER a) {e k : Nat} (he : e < NUM_ENGINEERS)
    (hk : k < MAX_SERVERS_PER_ENGINEER) (server : Int) :
    restSum std a
        - (((setInsertAll (mapGet std server) (rowDays std a e)).length : Int)
            - ((rowDays std a e).length : Int))
      ≤ restSum std (setSlot a e k server) := by
  have hsub : ∀ d ∈ rowDays std (setSlot a e k server) e,
      d ∈ setInsertAll (mapGet std server) (rowDays std a e) := by
    intro d hd
    rw [mem_setInsertAll]
    obtain ⟨j, hj, h1, h2⟩ := (mem_rowDays _ _ _ _).mp hd
    rw [slotOf_setSlot hs he hk] at h1 h2
    by_cases c : e = e ∧ j = k
    · rw [if_pos c] at h2
      left; exact h2
    · rw [if_neg c] at h1 h2
      right; exact (mem_rowDays _ _ _ _).mpr ⟨j, hj, h1, h2⟩
  have hlen := daySet_length_le_of_subset (daySet_rowDays std (setSlot a e k server) e) hsub
  have hrest : ∀ x, x < NUM_ENGINEERS → x ≠ e →
      (NUM_DAYS : Int) - ((rowDays std (setSlot a e k server) x).length : Int)
        = (NUM_DAYS : Int) - ((rowDays std a x).length : Int) := by
    intro x _ hx
    rw [rowDays_congr std (setSlot a e k server) a x (fun i => by
      rw [slotOf_setSlot hs he hk, if_neg (fun c => hx c.1)])]
  unfold restSum
  rw [sum_one_changed _ _ NUM_ENGINEERS e he hrest]
  omega

theorem restInv_topUpLoop (std : List (Int × List Nat)) {e : Nat} (he : e < NUM_ENGINEERS)
    (l : List (Int × Int × Int)) :
    ∀ b : Books, RestInv std b → RestInv std (topUpLoop std e l b).1 := by
  induction l with
  | nil => intro b hb; exact hb
  | cons entry rest ih =>
    intro b hb
    simp only [topUpLoop]
    split_ifs with c1 c2
    · exact ih b hb
    · split
      · exact ih b hb
      · next empty_slot hslot =>
        obtain ⟨hk, _⟩ := emptySlot_spec hslot
        obtain ⟨hs, hlo, hhi⟩ := hb
        refine ⟨shape_set_row hs e empty_slot entry.2.2, c2.2, ?_⟩
        have h1 := restSum_setSlot std hs he hk entry.2.2
        show b.total_rest_days - _ ≤ restSum std (setSlot b.allocation e empty_slot entry.2.2)
        omega
    · split
      · exact ih b hb
      · exact ih b hb

theorem restInv_topUpEngineers (s : Solver) :
    ∀ (engineers : List Nat), (∀ e ∈ engineers, e < NUM_ENGINEERS) →
      ∀ st : Books × Bool, RestInv s.server_to_days st.1 →
        RestInv s.server_to_days (topUpEngineers s engineers st).1 := by
  intro engineers
  induction engineers with
  | nil => intro _ st hst; exact hst
  | cons e rest ih =>
    intro he st hst
    have h1 := restInv_topUpLoop s.server_to_days (he e (List.mem_cons_self _ _))
      s.server_efficiency st.1 hst
    simp only [topUpEngineers]
    split_ifs
    · exact h1
    · exact ih (fun x hx => he x (List.mem_cons_of_mem _ hx)) _ h1
    · exact ih (fun x hx => he x (List.mem_cons_of_mem _ hx)) _ hst

theorem restInv_phase2 (s : Solver) :
    ∀ (fuel : Nat) (b : Books), RestInv s.server_to_days b →
      RestInv s.server_to_days (phase2 s fuel b) := by
  intro fuel
  induction fuel with
  | zero => intro b hb; exact hb
  | succ n ih =>
    intro b hb
    have h1 : RestInv s.server_to_days
        (if b.total_rest_days > (MAX_REST_DAYS : Int)
          then topUpEngineers s (List.range NUM_ENGINEERS) (b, false) else (b, false)).1 := by
      split_ifs
      · exact restInv_topUpEngineers s _ (fun _ hx => List.mem_range.mp hx) (b, false) hb
      · exact hb
    unfold phase2
    dsimp only
    generalize (if b.total_rest_days > (MAX_REST_DAYS : Int)
      then topUpEngineers s (List.range NUM_ENGINEERS) (b, false) else (b, false)) = r at h1 ⊢
    split_ifs
    · exact h1
    · exact ih _ h1

theorem restInv_init (std : List (Int × List Nat)) : RestInv std Books.init := by
  refine ⟨shape_replicate _ _ _, ?_, ?_⟩
  · have h6 : Books.init.total_rest_days = 7392 := rfl
    rw [h6]
    simp only [MAX_REST_DAYS]
    omega
  · have h1 : ∀ e, rowDays std Books.init.allocation e = [] := by
      intro e
      refine daySet_ext (daySet_rowDays _ _ _) List.Pairwise.nil (fun d => ?_)
      exact (PreciseILPSolver.rowDays_empty std _ e (fun i _ => slotOf_init e i) d).symm
    unfold restSum
    simp only [h1, List.length_nil]
    rw [List.map_const', List.sum_replicate, List.length_range, nsmul_eq_mul]
    have h6 : Books.init.total_rest_days = 7392 := rfl
    rw [h6]
    norm_num [NUM_ENGINEERS, NUM_DAYS]

theorem markRow_marks_iff (std : List (Int × List Nat)) (a : List (List Int)) (e d : Nat)
    (row : List Bool) :
    (markRow std a e row).getD d false = true ↔ d < row.length ∧ d ∈ rowDays std a e := by
  unfold markRow
  have h := (markSlots_fold (fun _ => True) (fun r day => r.set day true)
    (fun _ _ => (if_pos trivial).symm) std a e (List.range MAX_SERVERS_PER_ENGINEER)
    (row.map (fun _ => false))).2 d
  rw [h, getD_map_false, mem_rowDays, List.length_map]
  constructor
  · rintro (h1 | ⟨_, h2, i, hi, h3, h4⟩)
    · exact absurd h1 (by simp)
    · exact ⟨h2, i, List.mem_range.mp hi, h3, h4⟩
  · rintro ⟨h2, i, hi, h3, h4⟩
    right
    exact ⟨trivial, h2, i, List.mem_range.mpr hi, h3, h4⟩

theorem countWork_marked (std : List (Int × List Nat)) (a : List (List Int)) (e : Nat)
    (hd : ∀ d ∈ rowDays std a e, d < NUM_DAYS) (row : List Bool)
    (hrow : row.length = NUM_DAYS) :
    countWork (markRow std a e row) = (rowDays std a e).length := by
  unfold countWork
  apply daySet_length_eq
  · exact List.Pairwise.filter _ (List.pairwise_lt_range _)
  · exact daySet_rowDays std a e
  · intro d
    rw [List.mem_filter, List.mem_range, markRow_marks_iff, hrow]
    constructor
    · rintro ⟨_, _, h3⟩
      exact h3
    · intro h3
      exact ⟨hd d h3, hd d h3, h3⟩

theorem rowDays_lt {sort : List (Int × Int × Int) → List (Int × Int × Int)}
    (lines : List (List Int)) (a : List (List Int)) (e d : Nat)
    (h : d ∈ rowDays (loadAlarmData sort lines).server_to_days a e) : d < NUM_DAYS := by
  obtain ⟨i, _, _, h2⟩ := (mem_rowDays _ _ _ _).mp h
  exact (loadedDays_bound lines _).2 d h2

/-- The total that `calculateFinalResults` recomputes is the rest-day total
of the allocation. -/
theorem finalResults_total_eq_restSum {sort : List (Int × Int × Int) → List (Int × Int × Int)}
    (lines : List (List Int)) (solution : Solution)
    (hdw : Shape NUM_ENGINEERS NUM_DAYS solution.daily_work) :
    (calculateFinalResults (loadAlarmData sort lines) solution).total_rest_days
      = restSum (loadAlarmData sort lines).server_to_days solution.allocation := by
  unfold calculateFinalResults restSum
  dsimp only
  refine congrArg List.sum (List.map_congr_left ?_)
  intro e he
  have he1 := List.mem_range.mp he
  have hlen : e < solution.daily_work.length := by rw [hdw.1]; exact he1
  have hrow : (solution.daily_work[e]).length = NUM_DAYS := hdw.2 _ (List.getElem_mem _)
  rw [getD_enum_map _ _ e hlen]
  dsimp only
  rw [if_pos he1, countWork_marked _ _ e (fun d hd => rowDays_lt lines _ e d hd) _ hrow]

end ConstraintBasedSolver
namespace ConstraintBasedSolver

theorem topUpLoop_total_ge (std : List (Int × List Nat)) (e : Nat)
    (l : List (Int × Int × Int)) :
    ∀ b : Books, (MAX_REST_DAYS : Int) ≤ b.total_rest_days →
      (MAX_REST_DAYS : Int) ≤ (topUpLoop std e l b).1.total_rest_days := by
  induction l with
  | nil => intro b hb; exact hb
  | cons entry rest ih =>
    intro b hb
    simp only [topUpLoop]
    split_ifs with c1 c2
    · exact ih b hb
    · split
      · exact ih b hb
      · exact c2.2
    · split
      · exact ih b hb
      · exact ih b hb

theorem topUpEngineers_total_ge (s : Solver) (engineers : List Nat) :
    ∀ st : Books × Bool, (MAX_REST_DAYS : Int) ≤ st.1.total_rest_days →
      (MAX_REST_DAYS : Int) ≤ (topUpEngineers s engineers st).1.total_rest_days := by
  induction engineers with
  | nil => intro st hst; exact hst
  | cons e rest ih =>
    intro st hst
    have h1 := topUpLoop_total_ge s.server_to_days e s.server_efficiency st.1 hst
    simp only [topUpEngineers]
    split_ifs
    · exact h1
    · exact ih _ h1
    · exact ih _ hst

theorem solve_total_eq {sort : List (Int × Int × Int) → List (Int × Int × Int)}
    (lines : List (List Int)) :
    (solve (loadAlarmData sort lines)).total_rest_days
      = restSum (loadAlarmData sort lines).server_to_days
          (solveBooks (loadAlarmData sort lines)).allocation := by
  unfold solve
  rw [finalResults_total_eq_restSum lines _ (shape_replicate _ _ _)]

theorem solve_valid_le (s : Solver) (h : (solve s).valid = true) :
    (solve s).total_rest_days ≤ (MAX_REST_DAYS : Int) := by
  unfold solve calculateFinalResults at h ⊢
  dsimp only at h ⊢
  rw [Bool.and_eq_true] at h
  exact of_decide_eq_true h.1

/-- C35. For every input and for every sorting function that line 74 may
stand for, whatever order it gives to `server_efficiency`, the running
`total_rest_days` of `solve` is at least `MAX_REST_DAYS = 410` after Phase 1, after every top-up of Phase 2 (a
step of the server loop or of the engineer loop started at a total of at
least 410 ends at one) and after any number of iterations of Phase 2; and a
returned solution with `valid == true` has `total_rest_days` equal to 410. -/
theorem running_total_never_below_max (sort : List (Int × Int × Int) → List (Int × Int × Int))
    (lines : List (List Int)) :
    (MAX_REST_DAYS : Int) ≤ (phase1 (loadAlarmData sort lines)).total_rest_days ∧
      (∀ (e : Nat) (l : List (Int × Int × Int)) (b : Books),
        (MAX_REST_DAYS : Int) ≤ b.total_rest_days →
          (MAX_REST_DAYS : Int)
            ≤ (topUpLoop (loadAlarmData sort lines).server_to_days e l b).1.total_rest_days) ∧
      (∀ (engineers : List Nat) (st : Books × Bool),
        (MAX_REST_DAYS : Int) ≤ st.1.total_rest_days →
          (MAX_REST_DAYS : Int)
            ≤ (topUpEngineers (loadAlarmData sort lines) engineers st).1.total_rest_days) ∧
      (∀ fuel : Nat, (MAX_REST_DAYS : Int)
        ≤ (phase2 (loadAlarmData sort lines) fuel (phase1 (loadAlarmData sort lines))).total_rest_days) ∧
      ((solve (loadAlarmData sort lines)).valid = true →
        (solve (loadAlarmData sort lines)).total_rest_days = (MAX_REST_DAYS : Int)) := by
  have hstd : ∀ k, ∀ d ∈ mapGet (loadAlarmData sort lines).server_to_days k, d < NUM_DAYS :=
    fun k => (loadedDays_bound lines k).2
  have h1 := phase1_init (loadAlarmData sort lines) hstd
  have hinv : ∀ fuel, RestInv (loadAlarmData sort lines).server_to_days
      (phase2 (loadAlarmData sort lines) fuel (phase1 (loadAlarmData sort lines))) := by
    intro fuel
    rw [h1]
    exact restInv_phase2 _ fuel _ (restInv_init _)
  refine ⟨?_, fun e l b hb => topUpLoop_total_ge _ e l b hb,
    fun engineers st hst => topUpEngineers_total_ge _ engineers st hst,
    fun fuel => (hinv fuel).2.1, fun hv => ?_⟩
  · rw [h1]
    exact (restInv_init (loadAlarmData sort lines).server_to_days).2.1
  · have h2 := solve_valid_le _ hv
    have h3 := @solve_total_eq sort lines
    obtain ⟨_, h4, h5⟩ := hinv 50
    have h6 : (solveBooks (loadAlarmData sort lines)).allocation
        = (phase2 (loadAlarmData sort lines) 50 (phase1 (loadAlarmData sort lines))).allocation := rfl
    rw [h6] at h3
    omega

end ConstraintBasedSolver
namespace ConstraintBasedSolver

theorem getD_take_of_lt (lines : List (List Int)) (n d : Nat) (hd : d < n) :
    (lines.take n).getD d [] = lines.getD d [] := by
  rw [List.getD_eq_getElem?_getD, List.getD_eq_getElem?_getD, List.getElem?_take_of_lt hd]

theorem loadAlarmData_daily_alarms {sort : List (Int × Int × Int) → List (Int × Int × Int)}
    (lines : List (List Int)) (d : Nat) (hd : d < NUM_DAYS) :
    (loadAlarmData sort lines).daily_alarms.getD d [] = lines.getD d [] := by
  show (lines.take NUM_DAYS ++ List.replicate (NUM_DAYS - (lines.take NUM_DAYS).length) []).getD d []
    = _
  rw [← getD_take_of_lt lines NUM_DAYS d hd]
  by_cases h : d < (lines.take NUM_DAYS).length
  · rw [List.getD_append _ _ _ _ h]
  · rw [List.getD_append_right _ _ _ _ (by omega), getD_replicate_eq,
      List.getD_eq_getElem?_getD, List.getElem?_eq_none (by omega)]
    rfl

theorem loadAlarmData_server_to_days {sort : List (Int × Int × Int) → List (Int × Int × Int)}
    (lines : List (List Int)) (d : Nat) (hd : d < NUM_DAYS)
    (server : Int) :
    d ∈ mapGet (loadAlarmData sort lines).server_to_days server ↔ server ∈ lines.getD d [] := by
  show d ∈ mapGet (buildServerToDays (lines.take NUM_DAYS)) server ↔ _
  rw [mem_buildServerToDays, getD_take_of_lt lines NUM_DAYS d hd]

/-- C31, as the code has it: `loadAlarmData` of constraint_solver.cpp keeps
every identifier of the day lines it reads, whatever its value: an
identifier on day line `d < NUM_DAYS` is stored in `daily_alarms[d]`, gets day
`d` in `server_to_days`, and, for every sorting function with the guarantee
of `std::sort`, has an entry in `server_efficiency`, the list whose
identifiers `solve` uses as indices into `server_used`. -/
theorem loadAlarmData_keeps_every_id (sort : List (Int × Int × Int) → List (Int × Int × Int))
    (lines : List (List Int)) (d : Nat) (server : Int)
    (hsort : StdSort efficiencyBefore sort)
    (hd : d < NUM_DAYS) (hs : server ∈ lines.getD d []) :
    server ∈ (loadAlarmData sort lines).daily_alarms.getD d [] ∧
      d ∈ mapGet (loadAlarmData sort lines).server_to_days server ∧
      ∃ entry ∈ (loadAlarmData sort lines).server_efficiency, entry.2.2 = server := by
  have h1 := (@loadAlarmData_server_to_days sort lines d hd server).mpr hs
  refine ⟨by rw [loadAlarmData_daily_alarms lines d hd]; exact hs, h1, ?_⟩
  have h2 := mem_keys_of_mem_mapGet h1
  obtain ⟨kv, hkv, hk⟩ := List.mem_map.mp h2
  refine ⟨efficiencyEntry kv, ?_, hk⟩
  show efficiencyEntry kv ∈ sort _
  rw [(hsort _).1.mem_iff]
  exact List.mem_map_of_mem _ hkv

end ConstraintBasedSolver
/-! ### The scan-based and the map-based evaluator -/

theorem scanRow_fold (daily_alarms : List (List Int)) (num_days : Nat) (servers : List Int)
    (d : Nat) :
    ∀ r : List Bool,
      (servers.foldl
        (fun r server =>
          if server = -1 then r
          else (List.range num_days).foldl
            (fun r day => if (daily_alarms.getD day []).contains server then r.set day true else r)
            r) r).length = r.length ∧
      ((servers.foldl
        (fun r server =>
          if server = -1 then r
          else (List.range num_days).foldl
            (fun r day => if (daily_alarms.getD day []).contains server then r.set day true else r)
            r) r).getD d false = true ↔
        (r.getD d false = true ∨ (d < r.length ∧ d < num_days ∧
          ∃ server ∈ servers, server ≠ -1 ∧ server ∈ daily_alarms.getD d []))) := by
  induction servers with
  | nil => intro r; exact ⟨rfl, by simp⟩
  | cons x xs ih =>
    intro r
    simp only [List.foldl_cons]
    by_cases hx : x = -1
    · rw [if_pos hx]
      obtain ⟨h1, h2⟩ := ih r
      refine ⟨h1, ?_⟩
      rw [h2]
      constructor
      · rintro (h3 | ⟨h3, h4, server, hs, h5, h6⟩)
        · left; exact h3
        · right; exact ⟨h3, h4, server, List.mem_cons_of_mem _ hs, h5, h6⟩
      · rintro (h3 | ⟨h3, h4, server, hs, h5, h6⟩)
        · left; exact h3
        · rcases List.mem_cons.mp hs with h7 | h7
          · exact absurd (h7 ▸ hx) h5
          · right; exact ⟨h3, h4, server, h7, h5, h6⟩
    · rw [if_neg hx]
      obtain ⟨g1, g2⟩ := markDays_fold (fun day => (daily_alarms.getD day []).contains x = true)
        (fun r day => if (daily_alarms.getD day []).contains x then r.set day true else r)
        (fun _ _ => rfl) (List.range num_days) r
      obtain ⟨h1, h2⟩ := ih ((List.range num_days).foldl
        (fun r day => if (daily_alarms.getD day []).contains x then r.set day true else r) r)
      refine ⟨h1.trans g1, ?_⟩
      rw [h2, g2 d, g1]
      constructor
      · rintro ((h3 | ⟨h3, h4, h5⟩) | ⟨h3, h4, server, hs, h5, h6⟩)
        · left; exact h3
        · right
          exact ⟨h5, List.mem_range.mp h3, x, List.mem_cons_self _ _, hx, by simpa using h4⟩
        · right; exact ⟨h3, h4, server, List.mem_cons_of_mem _ hs, h5, h6⟩
      · rintro (h3 | ⟨h3, h4, server, hs, h5, h6⟩)
        · left; left; exact h3
        · rcases List.mem_cons.mp hs with h7 | h7
          · left; right
            have h8 : x ∈ daily_alarms.getD d [] := h7 ▸ h6
            exact ⟨List.mem_range.mpr h4, by simpa using h8, h3⟩
          · right; exact ⟨h3, h4, server, h7, h5, h6⟩

/-- Day `d` is marked by the scan exactly when it is a day of the row, it
is below `num_days`, and a held server is in the alarm list of the day. -/
theorem scanRow_getD_iff (daily_alarms : List (List Int)) (num_days : Nat) (servers : List Int)
    (row : List Bool) (d : Nat) :
    (scanRow daily_alarms num_days servers row).length = row.length ∧
      ((scanRow daily_alarms num_days servers row).getD d false = true ↔
        d < row.length ∧ d < num_days ∧
          ∃ server ∈ servers, server ≠ -1 ∧ server ∈ daily_alarms.getD d []) := by
  unfold scanRow
  obtain ⟨h1, h2⟩ := scanRow_fold daily_alarms num_days servers d (row.map (fun _ => false))
  refine ⟨by rw [h1, List.length_map], ?_⟩
  rw [h2, getD_map_false, List.length_map]
  constructor
  · rintro (h3 | h3)
    · exact absurd h3 (by simp)
    · exact h3
  · intro h3
    exact Or.inr h3

theorem cast_sum_map (f : Nat → Nat) (l : List Nat) :
    (((l.map f).sum : Nat) : Int) = (l.map (fun e => (f e : Int))).sum := by
  induction l with
  | nil => rfl
  | cons x xs ih =>
    simp only [List.map_cons, List.sum_cons]
    rw [← ih]
    push_cast
    rfl

namespace ConstraintBasedSolver

theorem markRow_length (std : List (Int × List Nat)) (a : List (List Int)) (e : Nat)
    (row : List Bool) : (markRow std a e row).length = row.length := by
  unfold markRow
  have h := (markSlots_fold (fun _ => True) (fun r day => r.set day true)
    (fun _ _ => (if_pos trivial).symm) std a e (List.range MAX_SERVERS_PER_ENGINEER)
    (row.map (fun _ => false))).1
  rw [h, List.length_map]

/-- On a row of `MAX_SERVERS_PER_ENGINEER` slots the scan of the alarm lists
and the marking through `server_to_days` give the same row. -/
theorem scanRow_eq_markRow {sort : List (Int × Int × Int) → List (Int × Int × Int)}
    (lines : List (List Int)) (a : List (List Int)) (e : Nat)
    (ha : (rowOf a e).length = MAX_SERVERS_PER_ENGINEER) (row : List Bool) :
    scanRow (loadAlarmData sort lines).daily_alarms NUM_DAYS (rowOf a e) row
      = markRow (loadAlarmData sort lines).server_to_days a e row := by
  refine list_ext_getD false ?_ (fun d => ?_)
  · rw [(scanRow_getD_iff _ _ _ _ 0).1, markRow_length]
  · rw [Bool.eq_iff_iff, (scanRow_getD_iff _ _ _ _ d).2, markRow_marks_iff, mem_rowDays]
    constructor
    · rintro ⟨h1, h2, server, hs, h3, h4⟩
      refine ⟨h1, ?_⟩
      obtain ⟨i, hi, hget⟩ := List.getElem_of_mem hs
      have hslot : slotOf a e i = server := by
        unfold slotOf
        rw [List.getD_eq_getElem?_getD, List.getElem?_eq_getElem hi, Option.getD_some, hget]
      refine ⟨i, by rw [ha] at hi; exact hi, by rw [hslot]; exact h3, ?_⟩
      rw [hslot, loadAlarmData_server_to_days lines d h2, ← loadAlarmData_daily_alarms lines d h2]
      exact h4
    · rintro ⟨h1, i, hi, h3, h4⟩
      have h2 : d < NUM_DAYS := (loadedDays_bound lines _).2 d h4
      have hi2 : i < (rowOf a e).length := by rw [ha]; exact hi
      have hslot : slotOf a e i = (rowOf a e)[i] := by
        unfold slotOf
        rw [List.getD_eq_getElem?_getD, List.getElem?_eq_getElem hi2, Option.getD_some]
      refine ⟨h1, h2, slotOf a e i, by rw [hslot]; exact List.getElem_mem _, h3, ?_⟩
      rw [loadAlarmData_daily_alarms lines d h2, ← loadAlarmData_server_to_days lines d h2]
      exact h4

/-- C40. For every sorting function that line 74 of constraint_solver.cpp
may stand for: the two loaders store the same alarm table, and for every
allocation of `NUM_ENGINEERS` rows of `MAX_SERVERS_PER_ENGINEER` entries (`-1`
or any server id) and every `daily_work` matrix passed in, the scan-based `calculateDailyWork` of
mathematical_solver.cpp and the map-based `calculateFinalResults` of
constraint_solver.cpp produce the same `daily_work` matrix and the same
`total_rest_days`. -/
theorem evaluators_agree (sort : List (Int × Int × Int) → List (Int × Int × Int))
    (lines : List (List Int)) (allocation : List (List Int))
    (daily_work : List (List Bool)) (t1 : Nat) (t2 : Int) (v1 v2 : Bool)
    (ha : Shape NUM_ENGINEERS MAX_SERVERS_PER_ENGINEER allocation) :
    MathematicalServerAllocationSolver.loadAlarmData lines = (loadAlarmData sort lines).daily_alarms ∧
      (MathematicalServerAllocationSolver.calculateDailyWork
          (MathematicalServerAllocationSolver.loadAlarmData lines)
          { allocation := allocation, daily_work := daily_work, total_rest_days := t1,
            valid := v1 }).daily_work
        = (calculateFinalResults (loadAlarmData sort lines)
            { allocation := allocation, daily_work := daily_work, total_rest_days := t2,
              valid := v2 }).daily_work ∧
      (((MathematicalServerAllocationSolver.calculateDailyWork
          (MathematicalServerAllocationSolver.loadAlarmData lines)
          { allocation := allocation, daily_work := daily_work, total_rest_days := t1,
            valid := v1 }).total_rest_days : Nat) : Int)
        = (calculateFinalResults (loadAlarmData sort lines)
            { allocation := allocation, daily_work := daily_work, total_rest_days := t2,
              valid := v2 }).total_rest_days := by
  have hload : MathematicalServerAllocationSolver.loadAlarmData lines
      = (loadAlarmData sort lines).daily_alarms := rfl
  have hdweq : (daily_work.enum).map
      (fun er => if er.1 < MathematicalServerAllocationSolver.NUM_ENGINEERS then
        scanRow (MathematicalServerAllocationSolver.loadAlarmData lines)
          MathematicalServerAllocationSolver.NUM_DAYS (rowOf allocation er.1) er.2 else er.2)
      = (daily_work.enum).map
      (fun er => if er.1 < NUM_ENGINEERS then
        markRow (loadAlarmData sort lines).server_to_days allocation er.1 er.2 else er.2) := by
    refine List.map_congr_left (fun er _ => ?_)
    show (if er.1 < NUM_ENGINEERS then
        scanRow (loadAlarmData sort lines).daily_alarms NUM_DAYS (rowOf allocation er.1) er.2 else er.2)
      = _
    by_cases he : er.1 < NUM_ENGINEERS
    · rw [if_pos he, if_pos he, scanRow_eq_markRow lines allocation er.1 (shape_row_length ha he)]
    · rw [if_neg he, if_neg he]
  refine ⟨hload, hdweq, ?_⟩
  unfold MathematicalServerAllocationSolver.calculateDailyWork calculateFinalResults
  dsimp only
  rw [hdweq, cast_sum_map]
  refine congrArg List.sum (List.map_congr_left (fun e _ => ?_))
  have hle : ((List.range MathematicalServerAllocationSolver.NUM_DAYS).filter
      (fun day => worksOn ((daily_work.enum).map
        (fun er => if er.1 < NUM_ENGINEERS then
          markRow (loadAlarmData sort lines).server_to_days allocation er.1 er.2 else er.2)) e day)).length
      ≤ MathematicalServerAllocationSolver.NUM_DAYS := by
    refine (List.length_filter_le _ _).trans ?_
    rw [List.length_range]
  rw [Nat.cast_sub hle]
  rfl

/-- The allocation in which every engineer holds server 7 in each of the five
slots has the shape that C40 asks for; on the one-line file `7` both
evaluators give the same matrix. -/
theorem evaluators_agree_witness :
    Shape NUM_ENGINEERS MAX_SERVERS_PER_ENGINEER
        (List.replicate NUM_ENGINEERS (List.replicate MAX_SERVERS_PER_ENGINEER (7 : Int))) ∧
      (MathematicalServerAllocationSolver.calculateDailyWork
          (MathematicalServerAllocationSolver.loadAlarmData [[7]])
          { allocation :=
              List.replicate NUM_ENGINEERS (List.replicate MAX_SERVERS_PER_ENGINEER (7 : Int)),
            daily_work := Solution.init.daily_work, total_rest_days := 0,
            valid := false }).daily_work
        = (calculateFinalResults (loadAlarmData (sortBy efficiencyBefore) [[7]])
            { allocation :=
                List.replicate NUM_ENGINEERS (List.replicate MAX_SERVERS_PER_ENGINEER (7 : Int)),
              daily_work := Solution.init.daily_work, total_rest_days := 0,
              valid := false }).daily_work :=
  ⟨shape_replicate _ _ _,
    (evaluators_agree (sortBy efficiencyBefore) [[7]] _ Solution.init.daily_work 0 0 false false
      (shape_replicate _ _ _)).2.1⟩

end ConstraintBasedSolver
/-! ### precise_solver.cpp: the running total stays at `MAX_REST_DAYS` or above -/

namespace PreciseILPSolver

theorem targetInv_assignLoop (std : List (Int × List Nat)) {e : Nat} (he : e < NUM_ENGINEERS)
    (l : List (Int × Int)) :
    ∀ st : Books × List Nat × Nat, TargetInv st.1 → TargetInv (assignLoop std e l st).1 := by
  induction l with
  | nil => intro st hst; exact hst
  | cons ss rest ih =>
    intro st hst
    simp only [assignLoop]
    split_ifs with c1 c2 c3
    · exact ih st hst
    · obtain ⟨hs, hlen, hsum, htar⟩ := hst
      refine ⟨shape_set_row hs e st.2.2 ss.2, by rw [List.length_set]; exact hlen, ?_, ?_⟩
      · show st.1.total_rest_days - _ = (st.1.engineer_rest_days.set e _).sum
        rw [sum_set_int _ e (by rw [hlen]; exact he), hsum]
        omega
      · intro e1 he1
        show _ ≤ (st.1.engineer_rest_days.set e _).getD e1 0
        rw [getD_set_eq]
        split_ifs with c4
        · rw [c4.1, c3]
        · exact htar e1 he1
    · apply ih
      obtain ⟨hs, hlen, hsum, htar⟩ := hst
      refine ⟨shape_set_row hs e st.2.2 ss.2, by rw [List.length_set]; exact hlen, ?_, ?_⟩
      · show st.1.total_rest_days - _ = (st.1.engineer_rest_days.set e _).sum
        rw [sum_set_int _ e (by rw [hlen]; exact he), hsum]
        omega
      · intro e1 he1
        show _ ≤ (st.1.engineer_rest_days.set e _).getD e1 0
        rw [getD_set_eq]
        split_ifs with c4
        · rw [c4.1]
          simp only [Bool.and_eq_true, decide_eq_true_eq] at c2
          have h1 := c2.1
          omega
        · exact htar e1 he1
    · exact ih st hst

theorem targetInv_fold (s : Solver) :
    ∀ (engineers : List Nat), (∀ e ∈ engineers, e < NUM_ENGINEERS) → ∀ b : Books, TargetInv b →
      TargetInv (engineers.foldl
        (fun b engineer =>
          (assignLoop s.server_to_days engineer s.server_efficiency (b, [], 0)).1) b) := by
  intro engineers
  induction engineers with
  | nil => intro _ b hb; exact hb
  | cons e rest ih =>
    intro he b hb
    simp only [List.foldl_cons]
    exact ih (fun x hx => he x (List.mem_cons_of_mem _ hx)) _
      (targetInv_assignLoop s.server_to_days (he e (List.mem_cons_self _ _)) _ _ hb)

theorem targetInv_phase1 (s : Solver) : TargetInv (phase1 s) := by
  unfold phase1
  refine targetInv_fold s _ (fun _ hx => List.mem_range.mp hx) _ ?_
  refine ⟨shape_replicate _ _ _, List.length_replicate _ _, ?_, ?_⟩
  · show (NUM_ENGINEERS : Int) * (NUM_DAYS : Int) = (List.replicate NUM_ENGINEERS (NUM_DAYS : Int)).sum
    rw [List.sum_replicate, nsmul_eq_mul]
  · intro e he
    show targetRestDays e ≤ (List.replicate NUM_ENGINEERS (NUM_DAYS : Int)).getD e 0
    rw [List.getD_eq_getElem?_getD,
      List.getElem?_eq_getElem (by rw [List.length_replicate]; exact he), List.getElem_replicate,
      Option.getD_some]
    unfold targetRestDays
    simp only [NUM_DAYS]
    split_ifs <;> omega

theorem targets_sum (n : Nat) :
    ((List.range n).map targetRestDays).sum
      = if n ≤ 262 then (n : Int) else 2 * (n : Int) - 262 := by
  induction n with
  | zero => rfl
  | succ m ih =>
    rw [List.range_succ, List.map_append, List.sum_append, ih]
    simp only [List.map_cons, List.map_nil, List.sum_cons, List.sum_nil, targetRestDays,
      NUM_ENGINEERS, MAX_REST_DAYS]
    split_ifs <;> push_cast <;> omega

/-- Under the invariant of Phase 1 the running total is at least 410. -/
theorem targetInv_total_ge {b : Books} (h : TargetInv b) :
    (MAX_REST_DAYS : Int) ≤ b.total_rest_days := by
  obtain ⟨_, hlen, hsum, htar⟩ := h
  rw [hsum, sum_eq_sum_range_getD, hlen]
  have h1 : ((List.range NUM_ENGINEERS).map targetRestDays).sum
      ≤ ((List.range NUM_ENGINEERS).map (fun i => b.engineer_rest_days.getD i 0)).sum :=
    List.sum_le_sum (fun i hi => htar i (List.mem_range.mp hi))
  have h2 : ((List.range NUM_ENGINEERS).map targetRestDays).sum = (MAX_REST_DAYS : Int) := by
    rw [targets_sum]
    simp [NUM_ENGINEERS, MAX_REST_DAYS]
  omega

theorem keeps_refl (a : List (List Int)) : Keeps a a := fun _ _ _ => rfl

theorem keeps_trans {a b c : List (List Int)} (h1 : Keeps a b) (h2 : Keeps b c) : Keeps a c := by
  intro e i h
  have h3 := h1 e i h
  rw [h2 e i (by rw [h3]; exact h), h3]

/-- A top-up of one engineer (lines 216-255) keeps the shape, keeps
`excess = total_rest_days - MAX_REST_DAYS ≥ 0`, and keeps every held server. -/
theorem topUpLoop_keeps (std : List (Int × List Nat)) {e : Nat} (he : e < NUM_ENGINEERS)
    (l : List (Int × Int)) :
    ∀ st : Books × Int, Shape NUM_ENGINEERS MAX_SERVERS_PER_ENGINEER st.1.allocation →
      st.2 = st.1.total_rest_days - (MAX_REST_DAYS : Int) → 0 ≤ st.2 →
      Shape NUM_ENGINEERS MAX_SERVERS_PER_ENGINEER (topUpLoop std e l st).1.allocation ∧
        (topUpLoop std e l st).2.1
          = (topUpLoop std e l st).1.total_rest_days - (MAX_REST_DAYS : Int) ∧
        0 ≤ (topUpLoop std e l st).2.1 ∧
        Keeps st.1.allocation (topUpLoop std e l st).1.allocation := by
  induction l with
  | nil => intro st hs hx h0; exact ⟨hs, hx, h0, keeps_refl _⟩
  | cons ss rest ih =>
    intro st hs hx h0
    simp only [topUpLoop]
    split_ifs with g1 g2
    · exact ih st hs hx h0
    · split
      · exact ih st hs hx h0
      · rename_i k hk
        obtain ⟨hk5, hempty⟩ := emptySlot_some hk
        refine ⟨shape_set_row hs e k ss.2, ?_, ?_, ?_⟩
        · show st.2 - _ = st.1.total_rest_days - _ - (MAX_REST_DAYS : Int)
          omega
        · show 0 ≤ st.2 - _
          omega
        · intro e1 i1 h1
          show slotOf (setSlot st.1.allocation e k ss.2) e1 i1 = _
          rw [slotOf_setSlot hs he hk5, if_neg]
          rintro ⟨rfl, rfl⟩
          exact h1 hempty
    · split
      · exact ih st hs hx h0
      · exact ih st hs hx h0

theorem topUpEngineers_keeps (s : Solver) :
    ∀ (engineers : List Nat), (∀ e ∈ engineers, e < NUM_ENGINEERS) →
      ∀ st : Books × Int × Bool, Shape NUM_ENGINEERS MAX_SERVERS_PER_ENGINEER st.1.allocation →
        st.2.1 = st.1.total_rest_days - (MAX_REST_DAYS : Int) → 0 ≤ st.2.1 →
        Shape NUM_ENGINEERS MAX_SERVERS_PER_ENGINEER (topUpEngineers s engineers st).1.allocation ∧
          (MAX_REST_DAYS : Int) ≤ (topUpEngineers s engineers st).1.total_rest_days ∧
          Keeps st.1.allocation (topUpEngineers s engineers st).1.allocation := by
  intro engineers
  induction engineers with
  | nil =>
    intro _ st hs hx h0
    refine ⟨hs, ?_, keeps_refl _⟩
    show _ ≤ st.1.total_rest_days
    omega
  | cons e rest ih =>
    intro he st hs hx h0
    simp only [topUpEngineers]
    split_ifs with c1 c2
    · obtain ⟨k1, k2, k3, k4⟩ := topUpLoop_keeps s.server_to_days (he e (List.mem_cons_self _ _))
        s.server_efficiency (st.1, st.2.1) hs hx h0
      obtain ⟨j1, j2, j3⟩ := ih (fun x hx => he x (List.mem_cons_of_mem _ hx))
        ((topUpLoop s.server_to_days e s.server_efficiency (st.1, st.2.1)).1,
          (topUpLoop s.server_to_days e s.server_efficiency (st.1, st.2.1)).2.1,
          st.2.2 || (topUpLoop s.server_to_days e s.server_efficiency (st.1, st.2.1)).2.2)
        k1 k2 k3
      exact ⟨j1, j2, keeps_trans k4 j3⟩
    · exact ih (fun x hx => he x (List.mem_cons_of_mem _ hx)) st hs hx h0
    · exact ⟨hs, by omega, keeps_refl _⟩

/-- From a state with its shape and a total of at least `MAX_REST_DAYS`,
Phase 2 runs as if it had no removal branch. -/
theorem phase2_keeps (s : Solver) :
    ∀ (fuel : Nat) (b : Books), Shape NUM_ENGINEERS MAX_SERVERS_PER_ENGINEER b.allocation →
      (MAX_REST_DAYS : Int) ≤ b.total_rest_days →
      Shape NUM_ENGINEERS MAX_SERVERS_PER_ENGINEER (phase2 s fuel b).allocation ∧
        (MAX_REST_DAYS : Int) ≤ (phase2 s fuel b).total_rest_days ∧
        Keeps b.allocation (phase2 s fuel b).allocation := by
  intro fuel
  induction fuel with
  | zero => intro b hs hb; exact ⟨hs, hb, keeps_refl _⟩
  | succ n ih =>
    intro b hs hb
    simp only [phase2]
    split_ifs with c1 c2 c3 c4
    · exact ⟨hs, hb, keeps_refl _⟩
    · obtain ⟨k1, k2, k3⟩ := topUpEngineers_keeps s _ (fun _ hx => List.mem_range.mp hx)
        (b, b.total_rest_days - (MAX_REST_DAYS : Int), false) hs rfl (by show 0 ≤ _ - _; omega)
      obtain ⟨j1, j2, j3⟩ := ih _ k1 k2
      exact ⟨j1, j2, keeps_trans k3 j3⟩
    · exact topUpEngineers_keeps s _ (fun _ hx => List.mem_range.mp hx)
        (b, b.total_rest_days - (MAX_REST_DAYS : Int), false) hs rfl (by show 0 ≤ _ - _; omega)
    · exfalso; omega
    · exfalso; omega

/-- A turn of Phase 1 writes only into empty slots of its own row. -/
theorem keeps_assignLoop (std : List (Int × List Nat)) {e : Nat} (he : e < NUM_ENGINEERS)
    (l : List (Int × Int)) :
    ∀ st : Books × List Nat × Nat, Shape NUM_ENGINEERS MAX_SERVERS_PER_ENGINEER st.1.allocation →
      EmptyFrom st.1.allocation e st.2.2 →
      Shape NUM_ENGINEERS MAX_SERVERS_PER_ENGINEER (assignLoop std e l st).1.allocation ∧
        EmptyFrom (assignLoop std e l st).1.allocation e (assignLoop std e l st).2.2 ∧
        Keeps st.1.allocation (assignLoop std e l st).1.allocation := by
  induction l with
  | nil => intro st hs hE; exact ⟨hs, hE, keeps_refl _⟩
  | cons ss rest ih =>
    intro st hs hE
    have step : ¬ (st.1.server_used.getD ss.2.toNat false
          || decide (st.2.2 ≥ MAX_SERVERS_PER_ENGINEER)) = true →
        Shape NUM_ENGINEERS MAX_SERVERS_PER_ENGINEER (setSlot st.1.allocation e st.2.2 ss.2) ∧
          EmptyFrom (setSlot st.1.allocation e st.2.2 ss.2) e (st.2.2 + 1) ∧
          Keeps st.1.allocation (setSlot st.1.allocation e st.2.2 ss.2) := by
      intro g1
      simp only [Bool.or_eq_true, decide_eq_true_eq, not_or, Bool.not_eq_true] at g1
      have hk : st.2.2 < MAX_SERVERS_PER_ENGINEER := by omega
      have hempty : slotOf st.1.allocation e st.2.2 = -1 :=
        hE e st.2.2 (Or.inl ⟨rfl, le_refl _⟩) he hk
      refine ⟨shape_set_row hs e st.2.2 ss.2, ?_, ?_⟩
      · intro e1 i hc he1 hi1
        rw [slotOf_setSlot hs he hk, if_neg (by omega)]
        exact hE e1 i (by omega) he1 hi1
      · intro e1 i1 h1
        rw [slotOf_setSlot hs he hk, if_neg]
        rintro ⟨rfl, rfl⟩
        exact h1 hempty
    simp only [assignLoop]
    split_ifs with g1 g2 g3
    · exact ih st hs hE
    · exact step g1
    · obtain ⟨k1, k2, k3⟩ := step g1
      refine (fun j => ⟨j.1, j.2.1, keeps_trans k3 j.2.2⟩)
        (ih ({ allocation := setSlot st.1.allocation e st.2.2 ss.2
               server_used := _
               engineer_rest_days := _
               total_rest_days := _ }, _, st.2.2 + 1) k1 k2)
    · exact ih st hs hE

theorem phase1Upto_step (s : Solver) (n : Nat) :
    phase1Upto s (n + 1)
      = (assignLoop s.server_to_days n s.server_efficiency (phase1Upto s n, [], 0)).1 := by
  unfold phase1Upto
  rw [List.range_succ, List.foldl_append]
  rfl

theorem phase1Upto_keeps (s : Solver) (n : Nat) (hn : n ≤ NUM_ENGINEERS) :
    Shape NUM_ENGINEERS MAX_SERVERS_PER_ENGINEER (phase1Upto s n).allocation ∧
      EmptyFrom (phase1Upto s n).allocation n 0 ∧
      (n < NUM_ENGINEERS → Keeps (phase1Upto s n).allocation (phase1Upto s (n + 1)).allocation) := by
  induction n with
  | zero =>
    have h0 : Shape NUM_ENGINEERS MAX_SERVERS_PER_ENGINEER (phase1Upto s 0).allocation :=
      shape_replicate _ _ _
    have hE : EmptyFrom (phase1Upto s 0).allocation 0 0 :=
      fun e1 i _ _ _ => slotOf_replicate _ _ e1 i
    refine ⟨h0, hE, fun h => ?_⟩
    rw [phase1Upto_step]
    exact (keeps_assignLoop s.server_to_days h s.server_efficiency (phase1Upto s 0, [], 0) h0 hE).2.2
  | succ k ih =>
    obtain ⟨h1, h2, _⟩ := ih (by omega)
    have hk : k < NUM_ENGINEERS := by omega
    obtain ⟨j1, j2, _⟩ := keeps_assignLoop s.server_to_days hk s.server_efficiency
      (phase1Upto s k, [], 0) h1 h2
    rw [← phase1Upto_step] at j1 j2
    have hE : EmptyFrom (phase1Upto s (k + 1)).allocation (k + 1) 0 :=
      fun e1 i hc he1 hi1 => j2 e1 i (by omega) he1 hi1
    refine ⟨j1, hE, fun h => ?_⟩
    rw [phase1Upto_step s (k + 1)]
    exact (keeps_assignLoop s.server_to_days h s.server_efficiency
      (phase1Upto s (k + 1), [], 0) j1 hE).2.2

theorem phase1Upto_keeps_le (s : Solver) (n : Nat) :
    ∀ m, n ≤ m → m ≤ NUM_ENGINEERS →
      Keeps (phase1Upto s n).allocation (phase1Upto s m).allocation := by
  intro m
  induction m with
  | zero =>
    intro h1 _
    have h2 : n = 0 := by omega
    rw [h2]
    exact keeps_refl _
  | succ k ih =>
    intro h1 h2
    by_cases c : n = k + 1
    · rw [c]
      exact keeps_refl _
    · exact keeps_trans (ih (by omega) (by omega)) ((phase1Upto_keeps s k (by omega)).2.2 (by omega))

/-- C36. For every input the running `total_rest_days` of `solve` is at
least `MAX_REST_DAYS = 410` when Phase 1 ends and after any number of
iterations of Phase 2, so the guard `total_rest_days < MAX_REST_DAYS` of the
removal branch is false at every iteration; and a server that holds a slot at
some point of Phase 1 or when Phase 1 ends holds the same slot at every later
point, through Phase 2. -/
theorem total_at_least_max_no_removal (lines : List (List Int)) :
    (MAX_REST_DAYS : Int) ≤ (phase1 (loadAlarmData lines)).total_rest_days ∧
      (∀ fuel : Nat,
        (MAX_REST_DAYS : Int)
            ≤ (phase2 (loadAlarmData lines) fuel (phase1 (loadAlarmData lines))).total_rest_days ∧
          ¬ ((phase2 (loadAlarmData lines) fuel (phase1 (loadAlarmData lines))).total_rest_days
            < (MAX_REST_DAYS : Int)) ∧
          Keeps (phase1 (loadAlarmData lines)).allocation
            (phase2 (loadAlarmData lines) fuel (phase1 (loadAlarmData lines))).allocation) ∧
      (∀ n m : Nat, n ≤ m → m ≤ NUM_ENGINEERS →
        Keeps (phase1Upto (loadAlarmData lines) n).allocation
          (phase1Upto (loadAlarmData lines) m).allocation) ∧
      phase1Upto (loadAlarmData lines) NUM_ENGINEERS = phase1 (loadAlarmData lines) := by
  have h1 := targetInv_phase1 (loadAlarmData lines)
  have h2 := targetInv_total_ge h1
  refine ⟨h2, fun fuel => ?_, fun n m hnm hm => phase1Upto_keeps_le _ n m hnm hm, rfl⟩
  obtain ⟨_, k2, k3⟩ := phase2_keeps (loadAlarmData lines) fuel _ h1.1 h2
  exact ⟨k2, by omega, k3⟩

end PreciseILPSolver
/-! ### ultimate_solver.cpp: the engineers with work in the first 14 days -/

namespace UltimateConstraintSolver

theorem fillLoop_used_length (std : List (Int × List Nat)) (cap e : Nat) (target : Int)
    (l : List (Int × Int)) :
    ∀ st : TurnState, (fillLoop std cap e target l st).server_used.length
      = st.server_used.length := by
  induction l with
  | nil => intro st; rfl
  | cons x xs ih =>
    intro st
    simp only [fillLoop]
    split_ifs
    · exact ih st
    · exact List.length_set _ _ _
    · rw [ih]
      exact List.length_set _ _ _
    · exact ih st

/-- A turn frees no server and keeps the length of `server_used`; when the
ranking has a candidate at the start of the turn, slot 0 of the engineer
holds a candidate, and the turn marks it as used. -/
theorem engineerTurn_used (s : Solver) {rows cap : Nat} (hcap : 0 < cap)
    (acc : List (List Int) × List Bool) (hs : Shape rows cap acc.1) {e : Nat} (he : e < rows)
    (target : Int) :
    (engineerTurn s cap acc (e, target)).2.length = acc.2.length ∧
      (∀ j, acc.2.getD j false = true →
        (engineerTurn s cap acc (e, target)).2.getD j false = true) ∧
      ((∃ ss ∈ s.server_efficiency, Candidate s.server_to_days acc.2 ss) →
        ∃ ss ∈ s.server_efficiency, Candidate s.server_to_days acc.2 ss ∧
          slotOf (engineerTurn s cap acc (e, target)).1 e 0 = ss.2 ∧
          (ss.2.toNat < acc.2.length →
            (engineerTurn s cap acc (e, target)).2.getD ss.2.toNat false = true)) := by
  have mono : ∀ (u v : List Bool), (∀ j, v.getD j false = false → u.getD j false = false) →
      ∀ j, u.getD j false = true → v.getD j false = true := by
    intro u v h j hj
    cases hv : v.getD j false
    · rw [h j hv] at hj
      exact absurd hj (by simp)
    · rfl
  show (fillLoop s.server_to_days cap e target s.server_efficiency
      (prePass s.server_to_days cap e s.server_efficiency
        { allocation := acc.1, server_used := acc.2, current_work_days := [],
          servers_assigned := 0 })).server_used.length = acc.2.length ∧
    (∀ j, acc.2.getD j false = true →
      (fillLoop s.server_to_days cap e target s.server_efficiency
        (prePass s.server_to_days cap e s.server_efficiency
          { allocation := acc.1, server_used := acc.2, current_work_days := [],
            servers_assigned := 0 })).server_used.getD j false = true) ∧
    ((∃ ss ∈ s.server_efficiency, Candidate s.server_to_days acc.2 ss) →
      ∃ ss ∈ s.server_efficiency, Candidate s.server_to_days acc.2 ss ∧
        slotOf (fillLoop s.server_to_days cap e target s.server_efficiency
          (prePass s.server_to_days cap e s.server_efficiency
            { allocation := acc.1, server_used := acc.2, current_work_days := [],
              servers_assigned := 0 })).allocation e 0 = ss.2 ∧
        (ss.2.toNat < acc.2.length →
          (fillLoop s.server_to_days cap e target s.server_efficiency
            (prePass s.server_to_days cap e s.server_efficiency
              { allocation := acc.1, server_used := acc.2, current_work_days := [],
                servers_assigned := 0 })).server_used.getD ss.2.toNat false = true))
  rcases prePass_spec s.server_to_days cap e s.server_efficiency
    { allocation := acc.1, server_used := acc.2, current_work_days := [],
      servers_assigned := 0 } hcap with ⟨h1, hno⟩ | ⟨l1, ss, l2, hl, hc, _, h4⟩
  · rw [h1]
    obtain ⟨_, _, _, h8⟩ := fillLoop_inv s.server_to_days he target s.server_efficiency
      { allocation := acc.1, server_used := acc.2, current_work_days := [],
        servers_assigned := 0 } hs
    refine ⟨fillLoop_used_length _ _ _ _ _ _, mono _ _ h8, ?_⟩
    rintro ⟨ss, hss, hcand⟩
    exact absurd hcand (hno ss hss)
  · rw [h4]
    have hs1 : Shape rows cap (setSlot acc.1 e 0 ss.2) := shape_set_row hs e _ _
    obtain ⟨_, h6, _, h8⟩ := fillLoop_inv s.server_to_days he target s.server_efficiency
      { allocation := setSlot acc.1 e 0 ss.2
        server_used := acc.2.set ss.2.toNat true
        current_work_days := setInsertAll (mapGet s.server_to_days ss.2) []
        servers_assigned := 0 + 1 } hs1
    have hmono := mono _ _ h8
    refine ⟨?_, fun j hj => ?_, fun _ => ⟨ss, ?_, hc, ?_, fun hlt => ?_⟩⟩
    · rw [fillLoop_used_length]
      exact List.length_set _ _ _
    · apply hmono
      show (acc.2.set ss.2.toNat true).getD j false = true
      rw [getD_set_eq]
      split_ifs
      · rfl
      · exact hj
    · rw [hl]
      exact List.mem_append_right _ (List.mem_cons_self _ _)
    · rw [h6 e 0 (Or.inr (by show 0 < 0 + 1; omega))]
      show slotOf (setSlot acc.1 e 0 ss.2) e 0 = ss.2
      rw [slotOf_setSlot hs he hcap, if_pos ⟨rfl, rfl⟩]
    · apply hmono
      show (acc.2.set ss.2.toNat true).getD ss.2.toNat false = true
      rw [getD_set_eq, if_pos ⟨rfl, hlt⟩]

theorem phase1Upto_used (s : Solver) (n : Nat) (hn : n ≤ NUM_ENGINEERS) :
    (phase1Upto s n).2.length = NUM_SERVERS := by
  induction n with
  | zero => exact List.length_replicate _ _
  | succ k ih =>
    obtain ⟨t, ht⟩ := phase1Upto_succ s (show k < NUM_ENGINEERS by omega)
    rw [ht, (engineerTurn_used s (by decide) _ (phase1Upto_inv s k (by omega)).1
      (show k < NUM_ENGINEERS by omega) t).1]
    exact ih (by omega)

theorem phase1Upto_mono (s : Solver) (n : Nat) :
    ∀ m, n ≤ m → m ≤ NUM_ENGINEERS →
      (∀ j, (phase1Upto s n).2.getD j false = true → (phase1Upto s m).2.getD j false = true) ∧
      (∀ e i, e < n → slotOf (phase1Upto s m).1 e i = slotOf (phase1Upto s n).1 e i) := by
  intro m
  induction m with
  | zero =>
    intro h1 _
    have h2 : n = 0 := by omega
    rw [h2]
    exact ⟨fun _ h => h, fun _ _ _ => rfl⟩
  | succ k ih =>
    intro h1 h2
    by_cases c : n = k + 1
    · rw [c]
      exact ⟨fun _ h => h, fun _ _ _ => rfl⟩
    · obtain ⟨j1, j2⟩ := ih (by omega) (by omega)
      obtain ⟨t, ht⟩ := phase1Upto_succ s (show k < NUM_ENGINEERS by omega)
      have hs := (phase1Upto_inv s k (by omega)).1
      have hk : k < NUM_ENGINEERS := by omega
      rw [ht]
      refine ⟨fun j hj => (engineerTurn_used s (by decide) _ hs hk t).2.1 j (j1 j hj),
        fun e i he => ?_⟩
      rw [(engineerTurn_frame s _ hs hk t).2 e i (by omega)]
      exact j2 e i he

/-- The turn of engineer `e` in Phase 1, on a table with server ids in
range: the engineer holds a server with a day below 14 when Phase 1 ends
exactly when the ranking has a candidate at the start of its turn; then slot 0
holds a candidate of that moment, which is marked used from the end of the
turn on. -/
theorem phase1_turn_summary (lines : List (List Int))
    (hid : ∀ l ∈ lines, ∀ k ∈ l, 0 ≤ k ∧ k < (NUM_SERVERS : Int))
    (e : Nat) (he : e < NUM_ENGINEERS) :
    ((∃ i, i < MAX_SERVERS_PER_ENGINEER ∧
        slotOf (phase1 (loadAlarmData lines)).1 e i ≠ -1 ∧
        Window (loadAlarmData lines).server_to_days
          (slotOf (phase1 (loadAlarmData lines)).1 e i)) ↔
      ∃ ss ∈ (loadAlarmData lines).server_efficiency,
        Candidate (loadAlarmData lines).server_to_days
          (phase1Upto (loadAlarmData lines) e).2 ss) ∧
    ((∃ ss ∈ (loadAlarmData lines).server_efficiency,
        Candidate (loadAlarmData lines).server_to_days
          (phase1Upto (loadAlarmData lines) e).2 ss) →
      (phase1Upto (loadAlarmData lines) e).2.getD
          (slotOf (phase1 (loadAlarmData lines)).1 e 0).toNat false = false ∧
        Window (loadAlarmData lines).server_to_days (slotOf (phase1 (loadAlarmData lines)).1 e 0) ∧
        (phase1Upto (loadAlarmData lines) (e + 1)).2.getD
          (slotOf (phase1 (loadAlarmData lines)).1 e 0).toNat false = true) := by
  have hrange : ∀ ss ∈ (loadAlarmData lines).server_efficiency,
      0 ≤ ss.2 ∧ ss.2 < (NUM_SERVERS : Int) := by
    intro ss hss
    have h3 : ss.2 ∈ ((loadAlarmData lines).server_efficiency).map Prod.snd :=
      List.mem_map_of_mem _ hss
    rw [(server_efficiency_ids lines).mem_iff] at h3
    obtain ⟨l, hl, hk⟩ := (mem_keys_buildServerToDays lines ss.2).mp h3
    exact hid l hl ss.2 hk
  obtain ⟨h1, h2⟩ := phase1Upto_inv (loadAlarmData lines) e (by omega)
  obtain ⟨t, ht⟩ := phase1Upto_succ (loadAlarmData lines) he
  have hrow : ∀ i, slotOf (phase1 (loadAlarmData lines)).1 e i
      = slotOf (engineerTurn (loadAlarmData lines) MAX_SERVERS_PER_ENGINEER
          (phase1Upto (loadAlarmData lines) e) (e, t)).1 e i := by
    intro i
    rw [← phase1Upto_all, ← ht]
    exact (phase1Upto_mono (loadAlarmData lines) (e + 1) NUM_ENGINEERS (by omega)
      (le_refl _)).2 e i (by omega)
  have hw := engineerTurn_window (loadAlarmData lines) (show 0 < MAX_SERVERS_PER_ENGINEER by decide)
    _ h1 he t (fun i => h2 e i (le_refl _)) (fun ss hss hneg => by
      have h4 := (hrange ss hss).1
      omega)
  have hu := engineerTurn_used (loadAlarmData lines) (show 0 < MAX_SERVERS_PER_ENGINEER by decide)
    _ h1 he t
  simp only [hrow]
  refine ⟨hw.1, fun hc => ?_⟩
  obtain ⟨ss, hss, hcand, hslot, hused⟩ := hu.2.2 hc
  rw [hslot, ht]
  refine ⟨hcand.1, hcand.2, hused ?_⟩
  rw [phase1Upto_used _ e (by omega)]
  have h4 := hrange ss hss
  omega

end UltimateConstraintSolver
namespace UltimateConstraintSolver

theorem mem_windowServers (lines : List (List Int)) (k : Int) :
    k ∈ windowServers lines ↔ Window (loadAlarmData lines).server_to_days k := by
  unfold windowServers Window
  rw [List.mem_dedup, List.mem_flatten]
  constructor
  · rintro ⟨l, hl, hk⟩
    obtain ⟨d, hd, rfl⟩ := List.mem_take_iff_getElem.mp hl
    have hd1 : d < lines.length := (lt_min_iff.mp hd).2
    refine ⟨d, ?_, (lt_min_iff.mp hd).1⟩
    show d ∈ mapGet (buildServerToDays lines) k
    rw [mem_buildServerToDays, List.getD_eq_getElem?_getD, List.getElem?_eq_getElem hd1]
    exact hk
  · rintro ⟨d, hd, hlt⟩
    have h1 : k ∈ lines.getD d [] := (mem_buildServerToDays lines k d).mp hd
    have hd1 : d < lines.length := day_lt_of_mem_buildServerToDays hd
    rw [List.getD_eq_getElem?_getD, List.getElem?_eq_getElem hd1] at h1
    exact ⟨lines[d], List.mem_take_iff_getElem.mpr ⟨d, lt_min_iff.mpr ⟨hlt, hd1⟩, rfl⟩, h1⟩

/-- An engineer works on a day below 14 in the solution of `solve` exactly
when it holds a server that is active on a day below 14. -/
theorem solve_first14_iff (lines : List (List Int)) (e : Nat) (he : e < NUM_ENGINEERS) :
    (rowHasFirst14 (loadAlarmData lines).num_days
        ((solve (loadAlarmData lines)).daily_work.getD e []) = true ↔
      ∃ i, i < MAX_SERVERS_PER_ENGINEER ∧
        slotOf (phase1 (loadAlarmData lines)).1 e i ≠ -1 ∧
        Window (loadAlarmData lines).server_to_days
          (slotOf (phase1 (loadAlarmData lines)).1 e i)) ∧
    ((∃ d, d < 14 ∧ worksOn (solve (loadAlarmData lines)).daily_work e d = true) ↔
      ∃ i, i < MAX_SERVERS_PER_ENGINEER ∧
        slotOf (phase1 (loadAlarmData lines)).1 e i ≠ -1 ∧
        Window (loadAlarmData lines).server_to_days
          (slotOf (phase1 (loadAlarmData lines)).1 e i)) := by
  have hsolve : solve (loadAlarmData lines)
      = evaluate lines (phase1 (loadAlarmData lines)).1 := rfl
  have hact : (∃ d, d < 14 ∧ activeOn lines (phase1 (loadAlarmData lines)).1 e d = true) ↔
      ∃ i, i < MAX_SERVERS_PER_ENGINEER ∧
        slotOf (phase1 (loadAlarmData lines)).1 e i ≠ -1 ∧
        Window (loadAlarmData lines).server_to_days
          (slotOf (phase1 (loadAlarmData lines)).1 e i) := by
    constructor
    · rintro ⟨d, hd, h⟩
      obtain ⟨i, hi, h1, h2⟩ := (activeOn_iff _ _ _ _).mp h
      exact ⟨i, List.mem_range.mp hi, h1, d, (mem_buildServerToDays lines _ d).mpr h2, hd⟩
    · rintro ⟨i, hi, h1, d, h2, hd⟩
      exact ⟨d, hd, (activeOn_iff _ _ _ _).mpr
        ⟨i, List.mem_range.mpr hi, h1, (mem_buildServerToDays lines _ d).mp h2⟩⟩
  rw [hsolve]
  refine ⟨(evaluate_first14 lines _ e he).trans hact, ?_⟩
  unfold worksOn
  simp only [evaluate_worksOn lines _ e _ he]
  exact hact

/-- C39. On a table with server ids in `0 .. NUM_SERVERS-1`, in the solution
that `solve` returns: when an engineer `e1` works on a day below 14, so does
every engineer `e` before it; and `engineers_with_first_14_work`, the number
of engineers that work on a day below 14, is at most the number of distinct
servers listed on a day below 14. -/
theorem window_engineers_form_prefix (lines : List (List Int))
    (hid : ∀ l ∈ lines, ∀ k ∈ l, 0 ≤ k ∧ k < (NUM_SERVERS : Int)) :
    (∀ e e1, e < e1 → e1 < NUM_ENGINEERS →
      (∃ d, d < 14 ∧ worksOn (solve (loadAlarmData lines)).daily_work e1 d = true) →
      ∃ d, d < 14 ∧ worksOn (solve (loadAlarmData lines)).daily_work e d = true) ∧
    engineersWithFirst14For NUM_ENGINEERS (loadAlarmData lines).num_days
        (solve (loadAlarmData lines)).daily_work
      ≤ (windowServers lines).length := by
  have hcand : ∀ e e1, e ≤ e1 → e1 ≤ NUM_ENGINEERS →
      (∃ ss ∈ (loadAlarmData lines).server_efficiency,
        Candidate (loadAlarmData lines).server_to_days
          (phase1Upto (loadAlarmData lines) e1).2 ss) →
      ∃ ss ∈ (loadAlarmData lines).server_efficiency,
        Candidate (loadAlarmData lines).server_to_days
          (phase1Upto (loadAlarmData lines) e).2 ss := by
    rintro e e1 h1 h2 ⟨ss, hss, hu, hw⟩
    refine ⟨ss, hss, ?_, hw⟩
    cases hv : (phase1Upto (loadAlarmData lines) e).2.getD ss.2.toNat false
    · rfl
    · have h3 := (phase1Upto_mono (loadAlarmData lines) e e1 h1 h2).1 _ hv
      rw [hu] at h3
      exact absurd h3 (by simp)
  constructor
  · intro e e1 hlt he1 hw
    have he : e < NUM_ENGINEERS := by omega
    rw [(solve_first14_iff lines e he).2]
    rw [(solve_first14_iff lines e1 he1).2] at hw
    rw [(phase1_turn_summary lines hid e he).1]
    rw [(phase1_turn_summary lines hid e1 he1).1] at hw
    exact hcand e e1 (by omega) (by omega) hw
  · unfold engineersWithFirst14For
    have hW : ∀ x ∈ (List.range NUM_ENGINEERS).filter
          (fun e => rowHasFirst14 (loadAlarmData lines).num_days
            ((solve (loadAlarmData lines)).daily_work.getD e [])),
        x < NUM_ENGINEERS ∧
          ∃ ss ∈ (loadAlarmData lines).server_efficiency,
            Candidate (loadAlarmData lines).server_to_days
              (phase1Upto (loadAlarmData lines) x).2 ss := by
      intro x hx
      obtain ⟨h1, h2⟩ := List.mem_filter.mp hx
      have hx1 := List.mem_range.mp h1
      refine ⟨hx1, ?_⟩
      rw [← (phase1_turn_summary lines hid x hx1).1]
      exact (solve_first14_iff lines x hx1).1.mp h2
    have hlt : ∀ x y, x < y → y < NUM_ENGINEERS →
        (∃ ss ∈ (loadAlarmData lines).server_efficiency,
          Candidate (loadAlarmData lines).server_to_days
            (phase1Upto (loadAlarmData lines) x).2 ss) →
        (∃ ss ∈ (loadAlarmData lines).server_efficiency,
          Candidate (loadAlarmData lines).server_to_days
            (phase1Upto (loadAlarmData lines) y).2 ss) →
        slotOf (phase1 (loadAlarmData lines)).1 x 0
          ≠ slotOf (phase1 (loadAlarmData lines)).1 y 0 := by
      intro x y hxy hy cx cy heq
      obtain ⟨_, _, h3⟩ := (phase1_turn_summary lines hid x (by omega)).2 cx
      obtain ⟨h4, _, _⟩ := (phase1_turn_summary lines hid y hy).2 cy
      have h5 := (phase1Upto_mono (loadAlarmData lines) (x + 1) y (by omega) (by omega)).1 _ h3
      rw [heq, h4] at h5
      exact absurd h5 (by simp)
    have hnd : (((List.range NUM_ENGINEERS).filter
          (fun e => rowHasFirst14 (loadAlarmData lines).num_days
            ((solve (loadAlarmData lines)).daily_work.getD e []))).map
        (fun e => slotOf (phase1 (loadAlarmData lines)).1 e 0)).Nodup := by
      refine List.Nodup.map_on ?_ (List.Nodup.filter _ (List.nodup_range _))
      intro x hx y hy heq
      obtain ⟨hx1, cx⟩ := hW x hx
      obtain ⟨hy1, cy⟩ := hW y hy
      rcases Nat.lt_trichotomy x y with h | h | h
      · exact absurd heq (hlt x y h hy1 cx cy)
      · exact h
      · exact absurd heq.symm (hlt y x h hx1 cy cx)
    have hsub : ((List.range NUM_ENGINEERS).filter
          (fun e => rowHasFirst14 (loadAlarmData lines).num_days
            ((solve (loadAlarmData lines)).daily_work.getD e []))).map
        (fun e => slotOf (phase1 (loadAlarmData lines)).1 e 0) ⊆ windowServers lines := by
      intro k hk
      obtain ⟨x, hx, rfl⟩ := List.mem_map.mp hk
      obtain ⟨hx1, cx⟩ := hW x hx
      rw [mem_windowServers]
      exact ((phase1_turn_summary lines hid x hx1).2 cx).2.1
    have hlen := (List.Nodup.subperm hnd hsub).length_le
    rw [List.length_map] at hlen
    exact hlen

end UltimateConstraintSolver
/-! ### main.cpp: `optimalWorkDaysAllocation` and the servers of the first 14 days -/

theorem sorted_setInsert_int (x : Int) (l : List Int) (h : l.Pairwise (fun a b => a < b)) :
    (setInsert x l).Pairwise (fun a b => a < b) := by
  induction l with
  | nil => simp [setInsert]
  | cons y ys ih =>
    simp only [List.pairwise_cons] at h
    simp only [setInsert]
    split_ifs with h1 h2
    · simp only [List.pairwise_cons, List.mem_cons]
      refine ⟨?_, h.1, h.2⟩
      rintro a (rfl | ha)
      · exact h1
      · exact lt_trans h1 (h.1 a ha)
    · simp only [List.pairwise_cons]
      exact h
    · simp only [List.pairwise_cons]
      refine ⟨?_, ih h.2⟩
      intro a ha
      rcases (mem_setInsert x a ys).mp ha with h3 | h3
      · rw [h3]; omega
      · exact h.1 a h3

theorem sorted_setInsertAll_int (xs : List Int) :
    ∀ s : List Int, s.Pairwise (fun a b => a < b) →
      (setInsertAll xs s).Pairwise (fun a b => a < b) := by
  induction xs with
  | nil => intro s h; exact h
  | cons z zs ih =>
    intro s h
    have h1 : setInsertAll (z :: zs) s = setInsertAll zs (setInsert z s) := rfl
    rw [h1]
    exact ih _ (sorted_setInsert_int z s h)

theorem mem_windowServers_iff (daily_alarms : List (List Int)) (x : Int) :
    x ∈ windowServers daily_alarms ↔ ∃ d, d < 14 ∧ x ∈ daily_alarms.getD d [] := by
  unfold windowServers
  rw [List.mem_dedup, List.mem_flatten]
  constructor
  · rintro ⟨l, hl, hk⟩
    obtain ⟨d, hd, rfl⟩ := List.mem_take_iff_getElem.mp hl
    have hd1 : d < daily_alarms.length := (lt_min_iff.mp hd).2
    refine ⟨d, (lt_min_iff.mp hd).1, ?_⟩
    rw [List.getD_eq_getElem?_getD, List.getElem?_eq_getElem hd1]
    exact hk
  · rintro ⟨d, hlt, h1⟩
    have hd1 : d < daily_alarms.length := by
      by_contra hc
      rw [List.getD_eq_getElem?_getD, List.getElem?_eq_none (by omega)] at h1
      exact absurd h1 (List.not_mem_nil _)
    rw [List.getD_eq_getElem?_getD, List.getElem?_eq_getElem hd1] at h1
    exact ⟨daily_alarms[d], List.mem_take_iff_getElem.mpr ⟨d, lt_min_iff.mpr ⟨hlt, hd1⟩, rfl⟩, h1⟩

namespace ServerAllocationSolver

theorem first14_fold (daily_alarms : List (List Int)) (days : List Nat) :
    ∀ acc : List Int, acc.Pairwise (fun a b => a < b) →
      (days.foldl (fun acc day => setInsertAll (daily_alarms.getD day []) acc) acc).Pairwise
          (fun a b => a < b) ∧
        ∀ x, x ∈ days.foldl (fun acc day => setInsertAll (daily_alarms.getD day []) acc) acc ↔
          ((∃ d ∈ days, x ∈ daily_alarms.getD d []) ∨ x ∈ acc) := by
  induction days with
  | nil => intro acc h; exact ⟨h, fun x => by simp⟩
  | cons d ds ih =>
    intro acc h
    simp only [List.foldl_cons]
    obtain ⟨h1, h2⟩ := ih _ (sorted_setInsertAll_int (daily_alarms.getD d []) acc h)
    refine ⟨h1, fun x => ?_⟩
    rw [h2 x, mem_setInsertAll]
    constructor
    · rintro (⟨d1, hd1, h3⟩ | h3 | h3)
      · exact Or.inl ⟨d1, List.mem_cons_of_mem _ hd1, h3⟩
      · exact Or.inl ⟨d, List.mem_cons_self _ _, h3⟩
      · exact Or.inr h3
    · rintro (⟨d1, hd1, h3⟩ | h3)
      · rcases List.mem_cons.mp hd1 with h4 | h4
        · exact Or.inr (Or.inl (h4 ▸ h3))
        · exact Or.inl ⟨d1, h4, h3⟩
      · exact Or.inr (Or.inr h3)

/-- The vector `first_14_list` holds each server of the days 0..13 once. -/
theorem first14List_spec (daily_alarms : List (List Int)) :
    (first14List daily_alarms).Nodup ∧
      (∀ x, x ∈ first14List daily_alarms ↔ ∃ d, d < 14 ∧ x ∈ daily_alarms.getD d []) ∧
      (first14List daily_alarms).length = (windowServers daily_alarms).length := by
  obtain ⟨h1, h2⟩ := first14_fold daily_alarms (List.range 14) [] List.Pairwise.nil
  have hnd : (first14List daily_alarms).Nodup :=
    List.Pairwise.imp (fun hab => ne_of_lt hab) h1
  have hmem : ∀ x, x ∈ first14List daily_alarms ↔ ∃ d, d < 14 ∧ x ∈ daily_alarms.getD d [] := by
    intro x
    unfold first14List
    rw [h2 x]
    simp only [List.mem_range, List.not_mem_nil, or_false]
  refine ⟨hnd, hmem, ?_⟩
  have hnd2 : (windowServers daily_alarms).Nodup := List.nodup_dedup _
  refine List.Perm.length_eq ((List.perm_ext_iff_of_nodup hnd hnd2).mpr (fun x => ?_))
  rw [hmem x, mem_windowServers_iff]

theorem ownerOf_setOwner (ste : List Int) (server : Int) (engineer : Int) (s : Int) :
    ownerOf (setOwner ste server engineer) s
      = if s.toNat = server.toNat ∧ server.toNat < ste.length then engineer else ownerOf ste s := by
  unfold ownerOf setOwner
  rw [getD_set_eq]

/-- Phase 1 on the pairs `ps`: a server of a pair is owned by the engineer of
the pair, when the servers of the pairs are distinct and in range. -/
theorem owner_foldl_assign (ps : List (Nat × Int)) :
    ∀ st : AllocState, st.server_to_engineer.length = NUM_SERVERS →
      (ps.map Prod.snd).Nodup →
      (∀ p ∈ ps, 0 ≤ p.2 ∧ p.2 < (NUM_SERVERS : Int)) →
      (ps.foldl (fun st es => assignServer st es.1 es.2) st).server_to_engineer.length
          = NUM_SERVERS ∧
        (∀ p ∈ ps, ownerOf (ps.foldl (fun st es => assignServer st es.1 es.2)
          st).server_to_engineer p.2 = (p.1 : Int)) ∧
        (∀ s : Int, 0 ≤ s → (∀ p ∈ ps, p.2 ≠ s) →
          ownerOf (ps.foldl (fun st es => assignServer st es.1 es.2) st).server_to_engineer s
            = ownerOf st.server_to_engineer s) := by
  induction ps with
  | nil => intro st h _ _; exact ⟨h, fun p hp => absurd hp (List.not_mem_nil _), fun _ _ _ => rfl⟩
  | cons p ps ih =>
    intro st hlen hnd hr
    simp only [List.foldl_cons]
    rw [List.map_cons, List.nodup_cons] at hnd
    have hp := hr p (List.mem_cons_self _ _)
    have hlen1 : (assignServer st p.1 p.2).server_to_engineer.length = NUM_SERVERS := by
      show (st.server_to_engineer.set p.2.toNat (p.1 : Int)).length = NUM_SERVERS
      rw [List.length_set]
      exact hlen
    obtain ⟨k1, k2, k3⟩ := ih (assignServer st p.1 p.2) hlen1 hnd.2
      (fun q hq => hr q (List.mem_cons_of_mem _ hq))
    refine ⟨k1, fun q hq => ?_, fun s hs hne => ?_⟩
    · rcases List.mem_cons.mp hq with h1 | h1
      · rw [h1, k3 p.2 hp.1 (fun q1 hq1 heq => hnd.1 (heq ▸ List.mem_map_of_mem Prod.snd hq1))]
        show ownerOf (setOwner st.server_to_engineer p.2 (p.1 : Int)) p.2 = (p.1 : Int)
        rw [ownerOf_setOwner, if_pos ⟨rfl, by rw [hlen]; omega⟩]
      · exact k2 q h1
    · rw [k3 s hs (fun q hq => hne q (List.mem_cons_of_mem _ hq))]
      show ownerOf (setOwner st.server_to_engineer p.2 (p.1 : Int)) s = _
      rw [ownerOf_setOwner, if_neg]
      rintro ⟨h1, _⟩
      have h2 := hne p (List.mem_cons_self _ _)
      omega

theorem ownerKept_refl (ste : List Int) : OwnerKept ste ste := fun _ _ => rfl

theorem ownerKept_trans {a b c : List Int} (h1 : OwnerKept a b) (h2 : OwnerKept b c) :
    OwnerKept a c := by
  intro s h
  have h3 := h1 s h
  rw [h2 s (by rw [h3]; exact h), h3]

/-- A turn of Phase 2 gives away only a server that has no owner. -/
theorem ownerKept_passStep (server_days : List (Int × List Nat))
    (server_coverage : List (Int × Nat)) (work_days : List (List Nat))
    (acc : AllocState × Bool) (de : Int × Int) :
    OwnerKept acc.1.server_to_engineer
      (passStep server_days server_coverage work_days acc de).1.server_to_engineer := by
  simp only [passStep]
  split_ifs with h1 h2
  · exact ownerKept_refl _
  · simp only [Bool.and_eq_true, decide_eq_true_eq] at h2
    obtain ⟨_, _, _, _, hfree, _⟩ := bestServer_firstBest server_days server_coverage
      acc.1.server_to_engineer (work_days.getD de.2.toNat []) h2.2
    intro s hs
    show ownerOf (setOwner acc.1.server_to_engineer _ _) s = _
    rw [ownerOf_setOwner, if_neg]
    rintro ⟨h3, _⟩
    apply hs
    unfold ownerOf at hfree ⊢
    rw [h3]
    exact hfree
  · exact ownerKept_refl _

theorem ownerKept_phase2Pass (server_days : List (Int × List Nat))
    (server_coverage : List (Int × Nat)) (st : AllocState) :
    OwnerKept st.server_to_engineer
      (phase2Pass server_days server_coverage st).1.server_to_engineer := by
  unfold phase2Pass
  simp only
  generalize engineerDeficit _ st.engineer_load = des
  generalize (List.range NUM_ENGINEERS).map (engineerWorkDays server_days st.allocation) = wd
  have key : ∀ (des : List (Int × Int)) (acc : AllocState × Bool),
      OwnerKept acc.1.server_to_engineer
        (des.foldl (passStep server_days server_coverage wd) acc).1.server_to_engineer := by
    intro des
    induction des with
    | nil => intro acc; exact ownerKept_refl _
    | cons de des ih =>
      intro acc
      simp only [List.foldl_cons]
      exact ownerKept_trans (ownerKept_passStep server_days server_coverage wd acc de) (ih _)
  exact key des (st, false)

theorem ownerKept_phase2Loop (server_days : List (Int × List Nat))
    (server_coverage : List (Int × Nat)) (fuel : Nat) :
    ∀ st : AllocState, OwnerKept st.server_to_engineer
      (phase2Loop server_days server_coverage fuel st).server_to_engineer := by
  induction fuel with
  | zero => intro st; exact ownerKept_refl _
  | succ n ih =>
    intro st
    simp only [phase2Loop]
    split_ifs
    · exact ownerKept_trans (ownerKept_phase2Pass server_days server_coverage st) (ih _)
    · exact ownerKept_phase2Pass server_days server_coverage st

end ServerAllocationSolver
theorem map_snd_zip_sublist {α β : Type} (l1 : List α) :
    ∀ l2 : List β, ((l1.zip l2).map Prod.snd).Sublist l2 := by
  induction l1 with
  | nil => intro l2; simp
  | cons a as ih =>
    intro l2
    cases l2 with
    | nil => simp
    | cons b bs =>
      simp only [List.zip_cons_cons, List.map_cons]
      exact (ih bs).cons₂ b

namespace ServerAllocationSolver

/-- When `first_14_list` has at least `NUM_ENGINEERS` entries, all in range,
Phase 1 makes engineer `e` the owner of entry `e`, and Phase 2 keeps it so. -/
theorem optimalAssign_owner (sort : List (Int × Nat) → List (Int × Nat))
    (daily_alarms : List (List Int))
    (hid : ∀ l ∈ daily_alarms, ∀ k ∈ l, 0 ≤ k ∧ k < (NUM_SERVERS : Int))
    (hlen : NUM_ENGINEERS ≤ (first14List daily_alarms).length) (e : Nat)
    (he : e < NUM_ENGINEERS) :
    ownerOf (optimalAssign sort daily_alarms).server_to_engineer
      ((first14List daily_alarms).getD e 0) = (e : Int) := by
  obtain ⟨hnd, hmem, _⟩ := first14List_spec daily_alarms
  have hsub := map_snd_zip_sublist (List.range NUM_ENGINEERS) (first14List daily_alarms)
  have hr : ∀ p ∈ (List.range NUM_ENGINEERS).zip (first14List daily_alarms),
      0 ≤ p.2 ∧ p.2 < (NUM_SERVERS : Int) := by
    intro p hp
    have h1 : p.2 ∈ first14List daily_alarms := hsub.subset (List.mem_map_of_mem Prod.snd hp)
    obtain ⟨d, _, h2⟩ := (hmem p.2).mp h1
    obtain ⟨l, hl, hk⟩ := occurs_of_mem_getD h2
    exact hid l hl p.2 hk
  obtain ⟨_, k2, _⟩ := owner_foldl_assign ((List.range NUM_ENGINEERS).zip (first14List daily_alarms))
    { allocation := List.replicate NUM_ENGINEERS []
      server_to_engineer := List.replicate NUM_SERVERS (-1)
      engineer_load := List.replicate NUM_ENGINEERS 0 }
    (List.length_replicate _ _) (hnd.sublist hsub) hr
  have he2 : e < (first14List daily_alarms).length := by omega
  have hzl : e < ((List.range NUM_ENGINEERS).zip (first14List daily_alarms)).length := by
    rw [List.length_zip, List.length_range]
    exact lt_min_iff.mpr ⟨he, he2⟩
  have hp : (e, (first14List daily_alarms).getD e 0)
      ∈ (List.range NUM_ENGINEERS).zip (first14List daily_alarms) := by
    have h1 := List.getElem_mem hzl
    rw [List.getElem_zip, List.getElem_range] at h1
    rw [List.getD_eq_getElem?_getD, List.getElem?_eq_getElem he2]
    exact h1
  have h3 : ownerOf (phase1 (first14List daily_alarms)).server_to_engineer
      ((first14List daily_alarms).getD e 0) = (e : Int) := k2 _ hp
  have h4 := ownerKept_phase2Loop (buildServerDays daily_alarms)
    (serverCoverage sort (buildServerDays daily_alarms)
      (phase1 (first14List daily_alarms)).server_to_engineer) 1000
    (phase1 (first14List daily_alarms)) ((first14List daily_alarms).getD e 0)
    (by rw [h3]; omega)
  rw [h3] at h4
  exact h4

/-- The flag `valid` of `optimalWorkDaysAllocation` and the number of window
servers, whatever order the sort gives to `server_coverage`. -/
theorem valid_iff_window_servers (sort : List (Int × Nat) → List (Int × Nat))
    (daily_alarms : List (List Int))
    (hid : ∀ l ∈ daily_alarms, ∀ k ∈ l, 0 ≤ k ∧ k < (NUM_SERVERS : Int)) :
    (optimalWorkDaysAllocation sort daily_alarms).1.valid = true ↔
      NUM_ENGINEERS ≤ (windowServers daily_alarms).length := by
  obtain ⟨hnd, hmem, hlen⟩ := first14List_spec daily_alarms
  have hv : (optimalWorkDaysAllocation sort daily_alarms).1.valid = true ↔
      ∀ e, e < NUM_ENGINEERS → ∃ d, d < 14 ∧
        ∃ s ∈ daily_alarms.getD d [],
          ownerOf (optimalAssign sort daily_alarms).server_to_engineer s ≠ -1 ∧
          (ownerOf (optimalAssign sort daily_alarms).server_to_engineer s).toNat = e := by
    show (calculateDailyWork daily_alarms (optimalAssign sort daily_alarms).server_to_engineer
      { Solution.init with
        allocation := (optimalAssign sort daily_alarms).allocation.map padRow }).valid = true ↔ _
    rw [calculateDailyWork_valid_spec]
    constructor
    · intro h e he
      obtain ⟨d, hd, hw⟩ := h e he
      obtain ⟨_, _, h3⟩ := (calculateDailyWork_daily_work daily_alarms _ _
        (shape_replicate _ _ _) e d).mp hw
      exact ⟨d, hd, h3⟩
    · intro h e he
      obtain ⟨d, hd, h3⟩ := h e he
      refine ⟨d, hd, (calculateDailyWork_daily_work daily_alarms _ _
        (shape_replicate _ _ _) e d).mpr ⟨?_, he, h3⟩⟩
      unfold NUM_DAYS
      omega
  rw [hv]
  constructor
  · intro h
    have hsub : List.range NUM_ENGINEERS ⊆ (windowServers daily_alarms).map
        (fun s => (ownerOf (optimalAssign sort daily_alarms).server_to_engineer s).toNat) := by
      intro e he
      obtain ⟨d, hd, s, hs, _, h2⟩ := h e (List.mem_range.mp he)
      exact List.mem_map.mpr ⟨s, (mem_windowServers_iff daily_alarms s).mpr ⟨d, hd, hs⟩, h2⟩
    have h1 := (List.Nodup.subperm (List.nodup_range NUM_ENGINEERS) hsub).length_le
    rw [List.length_range, List.length_map] at h1
    exact h1
  · intro h e he
    rw [← hlen] at h
    have h1 := optimalAssign_owner sort daily_alarms hid h e he
    have he2 : e < (first14List daily_alarms).length := by omega
    have h2 : (first14List daily_alarms).getD e 0 ∈ first14List daily_alarms := by
      rw [List.getD_eq_getElem?_getD, List.getElem?_eq_getElem he2]
      exact List.getElem_mem _
    obtain ⟨d, hd, h3⟩ := (hmem _).mp h2
    refine ⟨d, hd, _, h3, ?_, ?_⟩
    · rw [h1]; omega
    · rw [h1]; exact Int.toNat_ofNat e

/-- C38. For every alarm table with server ids in `0 .. NUM_SERVERS-1`, and
for every sorting function that line 1253 may stand for, whatever order it
gives to `server_coverage`, the solution that `optimalWorkDaysAllocation`
returns has `valid == true` exactly when at least `NUM_ENGINEERS = 336`
distinct servers are listed on the days 0..13. -/
theorem optimalWorkDaysAllocation_valid_iff_window
    (sort : List (Int × Nat) → List (Int × Nat)) (daily_alarms : List (List Int))
    (hid : ∀ l ∈ daily_alarms, ∀ k ∈ l, 0 ≤ k ∧ k < (NUM_SERVERS : Int)) :
    (optimalWorkDaysAllocation sort daily_alarms).1.valid = true ↔
      NUM_ENGINEERS ≤ (windowServers daily_alarms).length :=
  valid_iff_window_servers sort daily_alarms hid

end ServerAllocationSolver
/-! ### mathematical_solver.cpp: Phase 2 adds no work day -/

theorem subset_of_union_length_le (D W : List Nat) (hW : DaySet W)
    (h : (setInsertAll D W).length ≤ W.length) : ∀ d ∈ D, d ∈ W := by
  have hnd : W.Nodup := List.Pairwise.imp (fun hab => Nat.ne_of_lt hab) hW
  have hsub : W ⊆ setInsertAll D W := fun d hd => (mem_setInsertAll _ _ _).mpr (Or.inr hd)
  have hperm := (List.Nodup.subperm hnd hsub).perm_of_length_le h
  intro d hd
  exact hperm.mem_iff.mpr ((mem_setInsertAll _ _ _).mpr (Or.inl hd))

theorem union_length_mono (D W W1 : List Nat) (hW : DaySet W) (hsub : ∀ d ∈ W, d ∈ W1) :
    (setInsertAll D W).length ≤ (setInsertAll D W1).length := by
  refine daySet_length_le_of_subset (daySet_setInsertAll D W hW) (fun d hd => ?_)
  rcases (mem_setInsertAll _ _ _).mp hd with h | h
  · exact (mem_setInsertAll _ _ _).mpr (Or.inl h)
  · exact (mem_setInsertAll _ _ _).mpr (Or.inr (hsub d h))

theorem slotOf_pushSlot_row (a : List (List Int)) {e k : Nat} (v : Int) (i : Nat)
    (he : e < a.length) (hk : (rowOf a e).length = k) :
    slotOf (pushSlot a e v) e i = if i = k then v else slotOf a e i := by
  unfold slotOf
  rw [ServerAllocationSolver.rowOf_pushSlot, if_pos ⟨rfl, he⟩]
  by_cases h1 : i < k
  · rw [List.getD_append _ _ _ _ (by rw [hk]; exact h1), if_neg (by omega)]
  · rw [List.getD_append_right _ _ _ _ (by rw [hk]; omega), hk]
    by_cases h2 : i = k
    · rw [if_pos h2, h2, Nat.sub_self]
      rfl
    · rw [if_neg h2, List.getD_eq_getElem?_getD, List.getD_eq_getElem?_getD,
        List.getElem?_eq_none (by simp only [List.length_singleton]; omega),
        List.getElem?_eq_none (by rw [hk]; omega)]

theorem mem_rowDays_pushSlot (std : List (Int × List Nat)) (a : List (List Int)) {e k : Nat}
    {v : Int} (he : e < a.length) (hk : (rowOf a e).length = k) (hk5 : k < 5) (hv : v ≠ -1)
    (d : Nat) :
    d ∈ rowDays std (pushSlot a e v) e ↔ d ∈ mapGet std v ∨ d ∈ rowDays std a e := by
  rw [mem_rowDays, mem_rowDays]
  have hempty : slotOf a e k = -1 := by
    unfold slotOf
    rw [List.getD_eq_getElem?_getD, List.getElem?_eq_none (by rw [hk])]
    rfl
  constructor
  · rintro ⟨i, hi, h1, h2⟩
    rw [slotOf_pushSlot_row a v i he hk] at h1 h2
    by_cases c : i = k
    · rw [if_pos c] at h2
      exact Or.inl h2
    · rw [if_neg c] at h1 h2
      exact Or.inr ⟨i, hi, h1, h2⟩
  · rintro (h | ⟨i, hi, h1, h2⟩)
    · refine ⟨k, hk5, ?_, ?_⟩
      · rw [slotOf_pushSlot_row a v k he hk, if_pos rfl]; exact hv
      · rw [slotOf_pushSlot_row a v k he hk, if_pos rfl]; exact h
    · have c : i ≠ k := fun c => h1 (c ▸ hempty)
      refine ⟨i, hi, ?_, ?_⟩
      · rw [slotOf_pushSlot_row a v i he hk, if_neg c]; exact h1
      · rw [slotOf_pushSlot_row a v i he hk, if_neg c]; exact h2

namespace MathematicalServerAllocationSolver

theorem grows_refl (e : Nat) (a : Assign) : Grows e a a := ⟨fun _ h => h, fun _ h => h⟩

theorem grows_trans {e : Nat} {a b c : Assign} (h1 : Grows e a b) (h2 : Grows e b c) :
    Grows e a c :=
  ⟨fun d hd => h2.1 d (h1.1 d hd), fun j hj => h2.2 j (h1.2 j hj)⟩

theorem frame_refl (e : Nat) (a : Assign) : Frame e a a := fun _ _ => ⟨rfl, rfl⟩

theorem frame_trans {e : Nat} {a b c : Assign} (h1 : Frame e a b) (h2 : Frame e b c) :
    Frame e a c := by
  intro e1 hne
  obtain ⟨k1, k2⟩ := h1 e1 hne
  obtain ⟨j1, j2⟩ := h2 e1 hne
  exact ⟨j1.trans k1, j2.trans k2⟩

theorem tested_mono (std : List (Int × List Nat)) {a a1 : Assign} {k k1 e : Nat}
    {sc : Int × Int × Int} (h : Tested std a k e sc) (hg : Grows e a a1) (hk : k ≤ k1)
    (hW : DaySet (a.engineer_work_days.getD e [])) : Tested std a1 k1 e sc := by
  intro hfree
  have hfree0 : a.server_assigned.getD sc.2.2.toNat false = false := by
    cases hv : a.server_assigned.getD sc.2.2.toNat false
    · rfl
    · rw [hg.2 _ hv] at hfree
      exact absurd hfree (by simp)
  rcases h hfree0 with h1 | h1 | h1
  · exact Or.inl (by omega)
  · exact Or.inr (Or.inl (lt_of_lt_of_le h1 (union_length_mono _ _ _ hW hg.1)))
  · exact Or.inr (Or.inr (fun d hd => hg.1 d (h1 d hd)))

/-- The assignment of Phase 1 (lines 133-137) in the turn of engineer `e`. -/
theorem basic_assign (std : List (Int × List Nat))
    {e : Nat} (he : e < NUM_ENGINEERS) (a : Assign) (k : Nat) (server : Int)
    (hs : 0 ≤ server ∧ server < (NUM_SERVERS : Int)) (hb : Basic std a k e)
    (hk : k < MAX_SERVERS_PER_ENGINEER)
    (hle : (setInsertAll (mapGet std server) (a.engineer_work_days.getD e [])).length
      ≤ targetDays e) :
    Basic std
        { allocation := pushSlot a.allocation e server
          server_assigned := a.server_assigned.set server.toNat true
          engineer_work_days := a.engineer_work_days.set e
            (setInsertAll (mapGet std server) (a.engineer_work_days.getD e [])) } (k + 1) e ∧
      Grows e a
        { allocation := pushSlot a.allocation e server
          server_assigned := a.server_assigned.set server.toNat true
          engineer_work_days := a.engineer_work_days.set e
            (setInsertAll (mapGet std server) (a.engineer_work_days.getD e [])) } ∧
      Frame e a
        { allocation := pushSlot a.allocation e server
          server_assigned := a.server_assigned.set server.toNat true
          engineer_work_days := a.engineer_work_days.set e
            (setInsertAll (mapGet std server) (a.engineer_work_days.getD e [])) } ∧
      (a.server_assigned.set server.toNat true).getD server.toNat false = true := by
  obtain ⟨h1, h2, h3, h4, _, h6, _, h8, h9⟩ := hb
  have hW : (a.engineer_work_days.set e
      (setInsertAll (mapGet std server) (a.engineer_work_days.getD e []))).getD e []
      = setInsertAll (mapGet std server) (a.engineer_work_days.getD e []) := by
    rw [getD_set_eq, if_pos ⟨rfl, by rw [h2]; exact he⟩]
  have hrow : rowOf (pushSlot a.allocation e server) e = rowOf a.allocation e ++ [server] := by
    rw [ServerAllocationSolver.rowOf_pushSlot, if_pos ⟨rfl, by rw [h1]; exact he⟩]
  have hv : server ≠ -1 := by omega
  refine ⟨⟨?_, ?_, ?_, ?_, ?_, ?_, ?_, ?_, ?_⟩, ⟨?_, ?_⟩, ?_, ?_⟩
  · show (pushSlot a.allocation e server).length = NUM_ENGINEERS
    unfold pushSlot
    rw [List.length_set]
    exact h1
  · show (a.engineer_work_days.set e _).length = NUM_ENGINEERS
    rw [List.length_set]
    exact h2
  · show (a.server_assigned.set server.toNat true).length = NUM_SERVERS
    rw [List.length_set]
    exact h3
  · show DaySet ((a.engineer_work_days.set e _).getD e [])
    rw [hW]
    exact daySet_setInsertAll _ _ h4
  · show ((a.engineer_work_days.set e _).getD e []).length ≤ targetDays e
    rw [hW]
    exact hle
  · show (rowOf (pushSlot a.allocation e server) e).length = k + 1
    rw [hrow, List.length_append, h6]
    rfl
  · omega
  · show ∀ x ∈ rowOf (pushSlot a.allocation e server) e, x ≠ -1
    rw [hrow]
    intro x hx
    rcases List.mem_append.mp hx with h | h
    · exact h8 x h
    · rw [List.mem_singleton.mp h]
      exact hv
  · intro d
    show d ∈ (a.engineer_work_days.set e _).getD e []
      ↔ d ∈ rowDays std (pushSlot a.allocation e server) e
    rw [hW, mem_setInsertAll,
      mem_rowDays_pushSlot std a.allocation (by rw [h1]; exact he) h6 hk hv, h9 d]
  · intro d hd
    show d ∈ (a.engineer_work_days.set e _).getD e []
    rw [hW]
    exact (mem_setInsertAll _ _ _).mpr (Or.inr hd)
  · intro j hj
    show (a.server_assigned.set server.toNat true).getD j false = true
    rw [getD_set_eq]
    split_ifs
    · rfl
    · exact hj
  · intro e1 hne
    constructor
    · show rowOf (pushSlot a.allocation e server) e1 = _
      rw [ServerAllocationSolver.rowOf_pushSlot, if_neg (fun c => hne c.1)]
    · show (a.engineer_work_days.set e _).getD e1 [] = _
      rw [getD_set_eq, if_neg (fun c => hne c.1)]
  · rw [getD_set_eq, if_pos ⟨rfl, by rw [h3]; omega⟩]

/-- The loop of Phase 1 over the entries of `server_scores` that remain in
the turn of engineer `e`: at its end the engineer is at its target, or every
entry passed is of no use to the engineer. -/
theorem assignLoop_turn (std : List (Int × List Nat)) {e : Nat} (he : e < NUM_ENGINEERS)
    (l : List (Int × Int × Int))
    (hl : ∀ sc ∈ l, 0 ≤ sc.2.2 ∧ sc.2.2 < (NUM_SERVERS : Int)) :
    ∀ st : Assign × Nat, Basic std st.1 st.2 e →
      Basic std (assignLoop std e l st).1 (assignLoop std e l st).2 e ∧
        Grows e st.1 (assignLoop std e l st).1 ∧
        st.2 ≤ (assignLoop std e l st).2 ∧
        Frame e st.1 (assignLoop std e l st).1 ∧
        (((assignLoop std e l st).1.engineer_work_days.getD e []).length = targetDays e ∨
          ∀ sc ∈ l, Tested std (assignLoop std e l st).1 (assignLoop std e l st).2 e sc) := by
  induction l with
  | nil =>
    intro st hb
    exact ⟨hb, grows_refl _ _, le_refl _, frame_refl _ _,
      Or.inr (fun sc hsc => absurd hsc (List.not_mem_nil _))⟩
  | cons sc rest ih =>
    intro st hb
    have hrest := fun x hx => hl x (List.mem_cons_of_mem _ hx)
    have hsc := hl sc (List.mem_cons_self _ _)
    have hW := hb.2.2.2.1
    have skip : Tested std st.1 st.2 e sc →
        Basic std (assignLoop std e rest st).1 (assignLoop std e rest st).2 e ∧
          Grows e st.1 (assignLoop std e rest st).1 ∧
          st.2 ≤ (assignLoop std e rest st).2 ∧
          Frame e st.1 (assignLoop std e rest st).1 ∧
          (((assignLoop std e rest st).1.engineer_work_days.getD e []).length = targetDays e ∨
            ∀ x ∈ sc :: rest,
              Tested std (assignLoop std e rest st).1 (assignLoop std e rest st).2 e x) := by
      intro ht
      obtain ⟨i1, i2, i3, i4, i5⟩ := ih hrest st hb
      refine ⟨i1, i2, i3, i4, i5.imp id (fun h x hx => ?_)⟩
      rcases List.mem_cons.mp hx with h1 | h1
      · rw [h1]
        exact tested_mono std ht i2 i3 hW
      · exact h x h1
    simp only [assignLoop]
    split_ifs with c1 c2 c3
    · apply skip
      intro hfree
      simp only [Bool.or_eq_true, decide_eq_true_eq] at c1
      rcases c1 with c | c
      · rw [hfree] at c
        exact absurd c (by simp)
      · exact Or.inl c
    · simp only [Bool.or_eq_true, decide_eq_true_eq, not_or, Bool.not_eq_true] at c1
      obtain ⟨k1, k2, k3, _⟩ := basic_assign std he st.1 st.2 sc.2.2 hsc hb (by omega) c2.1
      refine ⟨k1, k2, Nat.le_succ _, k3, Or.inl ?_⟩
      show ((st.1.engineer_work_days.set e _).getD e []).length = targetDays e
      rw [getD_set_eq, if_pos ⟨rfl, by rw [hb.2.1]; exact he⟩]
      exact c3
    · simp only [Bool.or_eq_true, decide_eq_true_eq, not_or, Bool.not_eq_true] at c1
      obtain ⟨k1, k2, k3, k4⟩ := basic_assign std he st.1 st.2 sc.2.2 hsc hb (by omega) c2.1
      obtain ⟨i1, i2, i3, i4, i5⟩ := ih hrest
        ({ allocation := pushSlot st.1.allocation e sc.2.2
           server_assigned := st.1.server_assigned.set sc.2.2.toNat true
           engineer_work_days := st.1.engineer_work_days.set e
             (setInsertAll (mapGet std sc.2.2) (st.1.engineer_work_days.getD e [])) },
          st.2 + 1) k1
      refine ⟨i1, grows_trans k2 i2, by have := i3; simp only at this; omega,
        frame_trans k3 i4, i5.imp id (fun h x hx => ?_)⟩
      rcases List.mem_cons.mp hx with h1 | h1
      · rw [h1]
        refine tested_mono std ?_ i2 i3 k1.2.2.2.1
        intro hfree
        rw [k4] at hfree
        exact absurd hfree (by simp)
      · exact h x h1
    · apply skip
      intro _
      by_cases c4 : (setInsertAll (mapGet std sc.2.2) (st.1.engineer_work_days.getD e [])).length
          ≤ targetDays e
      · have c5 : (setInsertAll (mapGet std sc.2.2) (st.1.engineer_work_days.getD e [])).length
            ≤ (st.1.engineer_work_days.getD e []).length := by
          by_contra c6
          exact c2 ⟨c4, by omega⟩
        exact Or.inr (Or.inr (subset_of_union_length_le _ _ hW c5))
      · exact Or.inr (Or.inl (by omega))

end MathematicalServerAllocationSolver
theorem getD_append_replicate_default {α : Type} (l : List α) (m i : Nat) (d : α) :
    (l ++ List.replicate m d).getD i d = l.getD i d := by
  by_cases h : i < l.length
  · rw [List.getD_append _ _ _ _ h]
  · rw [List.getD_append_right _ _ _ _ (by omega), getD_replicate_eq,
      List.getD_eq_getElem?_getD, List.getElem?_eq_none (by omega)]
    rfl

namespace MathematicalServerAllocationSolver

/-- Later changes that leave the row and the work-day set of engineer `e`
alone and free no server keep the engineer settled. -/
theorem settled_of_frame (std : List (Int × List Nat)) (scores : List (Int × Int × Int))
    {a a1 : Assign} {e : Nat} (h : Settled std scores a e)
    (hrow : ∀ i, slotOf a1.allocation e i = slotOf a.allocation e i)
    (hW : a1.engineer_work_days.getD e [] = a.engineer_work_days.getD e [])
    (hmono : ∀ j, a.server_assigned.getD j false = true → a1.server_assigned.getD j false = true) :
    Settled std scores a1 e := by
  obtain ⟨h1, h2, h3, h4⟩ := h
  refine ⟨by rw [hW]; exact h1, by rw [hW]; exact h2, ?_, ?_⟩
  · intro d
    rw [hW, rowDays_congr std a1.allocation a.allocation e hrow]
    exact h3 d
  · rcases h4 with h | h | h
    · exact Or.inl (by rw [hW]; exact h)
    · exact Or.inr (Or.inl (fun i hi => by rw [hrow i]; exact h i hi))
    · refine Or.inr (Or.inr (fun sc hsc hfree => ?_))
      rw [hW]
      apply h sc hsc
      cases hv : a.server_assigned.getD sc.2.2.toNat false
      · rfl
      · rw [hmono _ hv] at hfree
        exact absurd hfree (by simp)

/-- The turn of engineer `n` in Phase 1 (lines 115-151). -/
theorem phase1Inv_turn (std : List (Int × List Nat)) (scores : List (Int × Int × Int))
    (hsc : ∀ sc ∈ scores, 0 ≤ sc.2.2 ∧ sc.2.2 < (NUM_SERVERS : Int))
    {n : Nat} (hn : n < NUM_ENGINEERS) (a : Assign) (h : Phase1Inv std scores n a) :
    Phase1Inv std scores (n + 1)
      { (assignLoop std n scores (a, 0)).1 with
        allocation := (assignLoop std n scores (a, 0)).1.allocation.set n
          (padRow (rowOf (assignLoop std n scores (a, 0)).1.allocation n)) } := by
  obtain ⟨h1, h2, h3, h4, h5⟩ := h
  obtain ⟨hrow0, hW0⟩ := h5 n (le_refl _)
  have hslot0 : ∀ i, slotOf a.allocation n i = -1 := by
    intro i
    unfold slotOf
    rw [hrow0]
    rfl
  have hb : Basic std (a, 0).1 (a, 0).2 n := by
    refine ⟨h1, h2, h3, ?_, ?_, ?_, Nat.zero_le _, ?_, ?_⟩
    · show DaySet (a.engineer_work_days.getD n [])
      rw [hW0]
      exact List.Pairwise.nil
    · show (a.engineer_work_days.getD n []).length ≤ targetDays n
      rw [hW0]
      exact Nat.zero_le _
    · show (rowOf a.allocation n).length = 0
      rw [hrow0]
      rfl
    · show ∀ x ∈ rowOf a.allocation n, x ≠ -1
      rw [hrow0]
      intro x hx
      exact absurd hx (List.not_mem_nil _)
    · intro d
      show d ∈ a.engineer_work_days.getD n [] ↔ d ∈ rowDays std a.allocation n
      rw [hW0]
      exact PreciseILPSolver.rowDays_empty std _ n (fun i _ => hslot0 i) d
  obtain ⟨b, g, _, fr, fin⟩ := assignLoop_turn std hn scores hsc (a, 0) hb
  obtain ⟨b1, b2, b3, b4, b5, b6, b7, b8, b9⟩ := b
  have hlen : n < (assignLoop std n scores (a, 0)).1.allocation.length := by
    rw [b1]; exact hn
  have hrowOf : ∀ e1, rowOf ((assignLoop std n scores (a, 0)).1.allocation.set n
      (padRow (rowOf (assignLoop std n scores (a, 0)).1.allocation n))) e1
      = if e1 = n then padRow (rowOf (assignLoop std n scores (a, 0)).1.allocation n)
        else rowOf (assignLoop std n scores (a, 0)).1.allocation e1 := by
    intro e1
    unfold rowOf
    rw [getD_set_eq]
    by_cases c : e1 = n
    · rw [if_pos ⟨c, hlen⟩, if_pos c]
    · rw [if_neg (fun c1 => c c1.1), if_neg c]
  have hslot : ∀ e1 i, slotOf ((assignLoop std n scores (a, 0)).1.allocation.set n
      (padRow (rowOf (assignLoop std n scores (a, 0)).1.allocation n))) e1 i
      = slotOf (assignLoop std n scores (a, 0)).1.allocation e1 i := by
    intro e1 i
    unfold slotOf
    rw [hrowOf e1]
    by_cases c : e1 = n
    · rw [if_pos c, c]
      unfold padRow
      exact getD_append_replicate_default _ _ _ _
    · rw [if_neg c]
  refine ⟨?_, b2, b3, fun e he => ?_, fun e he => ?_⟩
  · show ((assignLoop std n scores (a, 0)).1.allocation.set n _).length = NUM_ENGINEERS
    rw [List.length_set]
    exact b1
  · by_cases c : e = n
    · rw [c]
      constructor
      · refine ⟨b4, b5, ?_, ?_⟩
        · intro d
          show d ∈ (assignLoop std n scores (a, 0)).1.engineer_work_days.getD n [] ↔
            d ∈ rowDays std ((assignLoop std n scores (a, 0)).1.allocation.set n _) n
          rw [rowDays_congr std _ (assignLoop std n scores (a, 0)).1.allocation n (hslot n)]
          exact b9 d
        · rcases fin with fin | fin
          · exact Or.inl fin
          · by_cases c5 : MAX_SERVERS_PER_ENGINEER ≤ (assignLoop std n scores (a, 0)).2
            · refine Or.inr (Or.inl (fun i hi => ?_))
              show slotOf ((assignLoop std n scores (a, 0)).1.allocation.set n _) n i ≠ -1
              rw [hslot n i]
              unfold slotOf
              have hi2 : i < (rowOf (assignLoop std n scores (a, 0)).1.allocation n).length := by
                rw [b6]; omega
              rw [List.getD_eq_getElem?_getD, List.getElem?_eq_getElem hi2, Option.getD_some]
              exact b8 _ (List.getElem_mem _)
            · refine Or.inr (Or.inr (fun sc hs hfree => ?_))
              rcases fin sc hs hfree with f | f | f
              · exact absurd f c5
              · exact Or.inl f
              · exact Or.inr f
      · show (rowOf ((assignLoop std n scores (a, 0)).1.allocation.set n _) n).length
          = MAX_SERVERS_PER_ENGINEER
        rw [hrowOf n, if_pos rfl]
        unfold padRow
        rw [List.length_append, List.length_replicate, b6]
        omega
    · have he1 : e < n := by omega
      obtain ⟨k1, k2⟩ := h4 e he1
      obtain ⟨f1, f2⟩ := fr e c
      constructor
      · refine settled_of_frame std scores k1 (fun i => ?_) f2 g.2
        show slotOf ((assignLoop std n scores (a, 0)).1.allocation.set n _) e i = _
        rw [hslot e i]
        unfold slotOf
        rw [f1]
      · show (rowOf ((assignLoop std n scores (a, 0)).1.allocation.set n _) e).length = _
        rw [hrowOf e, if_neg c, f1]
        exact k2
  · have c : e ≠ n := by omega
    obtain ⟨f1, f2⟩ := fr e c
    obtain ⟨k1, k2⟩ := h5 e (by omega)
    constructor
    · show rowOf ((assignLoop std n scores (a, 0)).1.allocation.set n _) e = []
      rw [hrowOf e, if_neg c, f1]
      exact k1
    · show (assignLoop std n scores (a, 0)).1.engineer_work_days.getD e [] = []
      rw [f2]
      exact k2

theorem phase1Upto_next (std : List (Int × List Nat)) (scores : List (Int × Int × Int))
    (n : Nat) :
    phase1Upto std scores (n + 1)
      = { (assignLoop std n scores (phase1Upto std scores n, 0)).1 with
          allocation := (assignLoop std n scores (phase1Upto std scores n, 0)).1.allocation.set n
            (padRow (rowOf (assignLoop std n scores (phase1Upto std scores n, 0)).1.allocation
              n)) } := by
  unfold phase1Upto
  rw [List.range_succ, List.foldl_append]
  rfl

theorem phase1Inv_upto (std : List (Int × List Nat)) (scores : List (Int × Int × Int))
    (hsc : ∀ sc ∈ scores, 0 ≤ sc.2.2 ∧ sc.2.2 < (NUM_SERVERS : Int)) (n : Nat)
    (hn : n ≤ NUM_ENGINEERS) : Phase1Inv std scores n (phase1Upto std scores n) := by
  induction n with
  | zero =>
    refine ⟨List.length_replicate _ _, List.length_replicate _ _, List.length_replicate _ _,
      fun e he => absurd he (Nat.not_lt_zero _), fun e _ => ⟨?_, ?_⟩⟩
    · show (List.replicate NUM_ENGINEERS ([] : List Int)).getD e [] = []
      exact getD_replicate_eq _ _ _
    · show (List.replicate NUM_ENGINEERS ([] : List Nat)).getD e [] = []
      exact getD_replicate_eq _ _ _
  | succ k ih =>
    rw [phase1Upto_next]
    exact phase1Inv_turn std scores hsc (by omega) _ (ih (by omega))

/-- When Phase 1 ends the allocation has its shape and every engineer is
settled. -/
theorem phase2Inv_phase1 (std : List (Int × List Nat)) (scores : List (Int × Int × Int))
    (hsc : ∀ sc ∈ scores, 0 ≤ sc.2.2 ∧ sc.2.2 < (NUM_SERVERS : Int)) :
    Phase2Inv std scores (phase1 std scores) := by
  have h : phase1 std scores = phase1Upto std scores NUM_ENGINEERS := rfl
  rw [h]
  obtain ⟨h1, h2, _, h4, _⟩ := phase1Inv_upto std scores hsc NUM_ENGINEERS (le_refl _)
  refine ⟨⟨h1, fun r hr => ?_⟩, h2, fun e he => (h4 e he).1⟩
  obtain ⟨e, he, hget⟩ := List.getElem_of_mem hr
  have h5 := (h4 e (by rw [← h1]; exact he)).2
  unfold rowOf at h5
  rw [List.getD_eq_getElem?_getD, List.getElem?_eq_getElem he, Option.getD_some, hget] at h5
  exact h5

end MathematicalServerAllocationSolver
theorem set_getD_self {α : Type} (l : List α) (e : Nat) (d : α) : l.set e (l.getD e d) = l := by
  by_cases he : e < l.length
  · apply List.ext_getElem
    · rw [List.length_set]
    · intro i h1 h2
      rw [List.getElem_set]
      split_ifs with c
      · subst c
        rw [List.getD_eq_getElem?_getD, List.getElem?_eq_getElem he, Option.getD_some]
      · rfl
  · exact List.set_eq_of_length_le (by omega)

namespace MathematicalServerAllocationSolver

/-- A top-up of Phase 2 (lines 174-201) for an engineer below its target:
the state stays settled and no work-day set changes. -/
theorem topUpLoop_quiet (std : List (Int × List Nat)) (scores : List (Int × Int × Int))
    (hid : ∀ sc ∈ scores, sc.2.2 ≠ -1) {e : Nat} (he : e < NUM_ENGINEERS)
    (l : List (Int × Int × Int)) (hl : ∀ sc ∈ l, sc ∈ scores) :
    ∀ a : Assign, Phase2Inv std scores a →
      (a.engineer_work_days.getD e []).length < targetDays e →
      Phase2Inv std scores (topUpLoop std e l a).1 ∧
        (topUpLoop std e l a).1.engineer_work_days = a.engineer_work_days := by
  induction l with
  | nil => intro a ha _; exact ⟨ha, rfl⟩
  | cons sc rest ih =>
    intro a ha hlt
    have hrest := fun x hx => hl x (List.mem_cons_of_mem _ hx)
    have hsc := hl sc (List.mem_cons_self _ _)
    simp only [topUpLoop]
    split_ifs with c1 c2
    · split
      · exact ih hrest a ha hlt
      · rename_i k hk
        have hk5 : k < MAX_SERVERS_PER_ENGINEER := List.mem_range.mp (List.mem_of_find?_eq_some hk)
        have hempty : slotOf a.allocation e k = -1 := by
          have h1 := List.find?_some hk
          simpa using h1
        obtain ⟨hs, hlen, hall⟩ := ha
        obtain ⟨s1, s2, s3, s4⟩ := hall e he
        have hfree : a.server_assigned.getD sc.2.2.toNat false = false := by
          simpa using c1
        have hquiet : Quiet std scores a e := by
          rcases s4 with h | h | h
          · omega
          · exact absurd hempty (h k hk5)
          · exact h
        have hsub : ∀ d ∈ mapGet std sc.2.2, d ∈ a.engineer_work_days.getD e [] := by
          rcases hquiet sc hsc hfree with h | h
          · omega
          · exact h
        have hnew : setInsertAll (mapGet std sc.2.2) (a.engineer_work_days.getD e [])
            = a.engineer_work_days.getD e [] := setInsertAll_of_subset _ _ s1 hsub
        have hewd : a.engineer_work_days.set e
            (setInsertAll (mapGet std sc.2.2) (a.engineer_work_days.getD e []))
            = a.engineer_work_days := by
          rw [hnew, set_getD_self]
        have hmono : ∀ j, a.server_assigned.getD j false = true →
            (a.server_assigned.set sc.2.2.toNat true).getD j false = true := by
          intro j hj
          rw [getD_set_eq]
          split_ifs
          · rfl
          · exact hj
        refine ⟨⟨shape_set_row hs e k sc.2.2, by rw [hewd]; exact hlen, fun e1 he1 => ?_⟩, hewd⟩
        by_cases c : e1 = e
        · rw [c]
          refine ⟨?_, ?_, ?_, Or.inr (Or.inr ?_)⟩
          · show DaySet ((a.engineer_work_days.set e _).getD e [])
            rw [hewd]; exact s1
          · show ((a.engineer_work_days.set e _).getD e []).length ≤ targetDays e
            rw [hewd]; exact s2
          · intro d
            show d ∈ (a.engineer_work_days.set e _).getD e [] ↔
              d ∈ rowDays std (setSlot a.allocation e k sc.2.2) e
            rw [hewd, PreciseILPSolver.mem_rowDays_assign hs he hk5 hempty (hid sc hsc), s3 d]
            constructor
            · exact Or.inr
            · rintro (h | h)
              · exact (s3 d).mp (hsub d h)
              · exact h
          · intro x hx hfx
            show targetDays e < (setInsertAll (mapGet std x.2.2)
                ((a.engineer_work_days.set e _).getD e [])).length ∨
              ∀ d ∈ mapGet std x.2.2, d ∈ (a.engineer_work_days.set e _).getD e []
            rw [hewd]
            apply hquiet x hx
            cases hv : a.server_assigned.getD x.2.2.toNat false
            · rfl
            · have h5 : (a.server_assigned.set sc.2.2.toNat true).getD x.2.2.toNat false = true :=
                hmono _ hv
              rw [h5] at hfx
              exact absurd hfx (by simp)
        · refine settled_of_frame std scores (hall e1 he1) (fun i => ?_) ?_ hmono
          · show slotOf (setSlot a.allocation e k sc.2.2) e1 i = _
            rw [slotOf_setSlot hs he hk5, if_neg (fun c1 => c c1.1)]
          · show (a.engineer_work_days.set e _).getD e1 [] = _
            rw [hewd]
    · split
      · exact ih hrest a ha hlt
      · exact ih hrest a ha hlt
    · exact ih hrest a ha hlt

/-- The turn of an engineer in an iteration of Phase 2 (lines 166-228): the
removal branch is not entered, and no work-day set changes. -/
theorem adjustEngineer_quiet (std : List (Int × List Nat)) (scores : List (Int × Int × Int))
    (hid : ∀ sc ∈ scores, sc.2.2 ≠ -1) (acc : Assign × Bool) {e : Nat}
    (he : e < NUM_ENGINEERS) (ha : Phase2Inv std scores acc.1) :
    Phase2Inv std scores (adjustEngineer std scores acc e).1 ∧
      (adjustEngineer std scores acc e).1.engineer_work_days = acc.1.engineer_work_days := by
  unfold adjustEngineer
  simp only
  split_ifs with c1 c2
  · exact topUpLoop_quiet std scores hid he scores (fun _ h => h) acc.1 ha c1
  · have h := (ha.2.2 e he).2.1
    omega
  · exact ⟨ha, rfl⟩

theorem adjust_fold_quiet (std : List (Int × List Nat)) (scores : List (Int × Int × Int))
    (hid : ∀ sc ∈ scores, sc.2.2 ≠ -1) :
    ∀ (engineers : List Nat), (∀ e ∈ engineers, e < NUM_ENGINEERS) →
      ∀ acc : Assign × Bool, Phase2Inv std scores acc.1 →
        Phase2Inv std scores (engineers.foldl (adjustEngineer std scores) acc).1 ∧
          (engineers.foldl (adjustEngineer std scores) acc).1.engineer_work_days
            = acc.1.engineer_work_days := by
  intro engineers
  induction engineers with
  | nil => intro _ acc ha; exact ⟨ha, rfl⟩
  | cons e rest ih =>
    intro hes acc ha
    simp only [List.foldl_cons]
    obtain ⟨h1, h2⟩ := adjustEngineer_quiet std scores hid acc (hes e (List.mem_cons_self _ _)) ha
    obtain ⟨h3, h4⟩ := ih (fun x hx => hes x (List.mem_cons_of_mem _ hx)) _ h1
    exact ⟨h3, h4.trans h2⟩

theorem phase2_quiet (std : List (Int × List Nat)) (scores : List (Int × Int × Int))
    (hid : ∀ sc ∈ scores, sc.2.2 ≠ -1) :
    ∀ (fuel : Nat) (a : Assign), Phase2Inv std scores a →
      Phase2Inv std scores (phase2 std scores fuel a) ∧
        (phase2 std scores fuel a).engineer_work_days = a.engineer_work_days := by
  intro fuel
  induction fuel with
  | zero => intro a ha; exact ⟨ha, rfl⟩
  | succ n ih =>
    intro a ha
    obtain ⟨h1, h2⟩ := adjust_fold_quiet std scores hid (List.range NUM_ENGINEERS)
      (fun _ hx => List.mem_range.mp hx) (a, false) ha
    simp only [phase2]
    split_ifs
    · obtain ⟨h3, h4⟩ := ih _ h1
      exact ⟨h3, h4.trans h2⟩
    · exact ⟨h1, h2⟩

end MathematicalServerAllocationSolver
namespace MathematicalServerAllocationSolver

/-- In a settled state the scan of `calculateDailyWork` marks, for engineer
`e`, the days of `engineer_work_days[e]`. -/
theorem scanRow_of_settled (daily_alarms : List (List Int)) (scores : List (Int × Int × Int))
    (a : Assign) (hinv : Phase2Inv (serverToDays daily_alarms) scores a) {e : Nat}
    (he : e < NUM_ENGINEERS) (row : List Bool) (d : Nat) :
    (scanRow daily_alarms NUM_DAYS (rowOf a.allocation e) row).getD d false = true ↔
      d < row.length ∧ d ∈ a.engineer_work_days.getD e [] := by
  obtain ⟨hs, _, hall⟩ := hinv
  obtain ⟨_, _, s3, _⟩ := hall e he
  have hrow : (rowOf a.allocation e).length = MAX_SERVERS_PER_ENGINEER := shape_row_length hs he
  have hmap := (serverToDays_inv daily_alarms).2.2
  rw [(scanRow_getD_iff _ _ _ _ d).2, s3 d, mem_rowDays]
  constructor
  · rintro ⟨h1, h2, server, hsv, h3, h4⟩
    refine ⟨h1, ?_⟩
    obtain ⟨i, hi, hget⟩ := List.getElem_of_mem hsv
    have hslot : slotOf a.allocation e i = server := by
      unfold slotOf
      rw [List.getD_eq_getElem?_getD, List.getElem?_eq_getElem hi, Option.getD_some, hget]
    refine ⟨i, by rw [hrow] at hi; exact hi, by rw [hslot]; exact h3, ?_⟩
    rw [hslot, hmap server d]
    exact ⟨h2, h4⟩
  · rintro ⟨h1, i, hi, h3, h4⟩
    have hi2 : i < (rowOf a.allocation e).length := by rw [hrow]; exact hi
    have hslot : slotOf a.allocation e i = (rowOf a.allocation e)[i] := by
      unfold slotOf
      rw [List.getD_eq_getElem?_getD, List.getElem?_eq_getElem hi2, Option.getD_some]
    obtain ⟨h5, h6⟩ := (hmap _ d).mp h4
    exact ⟨h1, h5, slotOf a.allocation e i, by rw [hslot]; exact List.getElem_mem _, h3, h6⟩

/-- Two settled states with the same work-day sets give `calculateDailyWork`
the same rows. -/
theorem scanRow_congr_settled (daily_alarms : List (List Int)) (scores : List (Int × Int × Int))
    (a a1 : Assign) (h : Phase2Inv (serverToDays daily_alarms) scores a)
    (h1 : Phase2Inv (serverToDays daily_alarms) scores a1)
    (hW : a1.engineer_work_days = a.engineer_work_days) {e : Nat} (he : e < NUM_ENGINEERS)
    (row : List Bool) :
    scanRow daily_alarms NUM_DAYS (rowOf a.allocation e) row
      = scanRow daily_alarms NUM_DAYS (rowOf a1.allocation e) row := by
  refine list_ext_getD false ?_ (fun d => ?_)
  · rw [(scanRow_getD_iff _ _ _ _ 0).1, (scanRow_getD_iff _ _ _ _ 0).1]
  · rw [Bool.eq_iff_iff, scanRow_of_settled daily_alarms scores a h he,
      scanRow_of_settled daily_alarms scores a1 h1 he, hW]

theorem serverScores_ids (daily_alarms : List (List Int))
    (hid : ∀ l ∈ daily_alarms, ∀ k ∈ l, 0 ≤ k ∧ k < (NUM_SERVERS : Int)) :
    ∀ sc ∈ serverScores (serverToDays daily_alarms),
      0 ≤ sc.2.2 ∧ sc.2.2 < (NUM_SERVERS : Int) := by
  intro sc hsc
  unfold serverScores at hsc
  rw [mem_sortBy] at hsc
  obtain ⟨kv, hkv, rfl⟩ := List.mem_map.mp hsc
  have hkey : kv.1 ∈ (serverToDays daily_alarms).map Prod.fst := List.mem_map_of_mem _ hkv
  obtain ⟨d, _, hd⟩ := ((serverToDays_spec daily_alarms).2.1 kv.1).mp hkey
  obtain ⟨l, hl, hk⟩ := occurs_of_mem_getD hd
  exact hid l hl kv.1 hk

/-- C33. For every alarm table with server ids in `0 .. NUM_SERVERS-1`:
after any number of iterations of Phase 2, and after the turns of the first
`n` engineers of a further iteration, `engineer_work_days` is what Phase 1
left, so a server assigned in Phase 2 adds no day; no engineer has more work
days than its target, so the removal branch `current_days > target_days` is
not entered; and the solution that `solve` returns has the `daily_work` and
the `total_rest_days` that `calculateDailyWork` computes for the allocation
of Phase 1. -/
theorem phase2_keeps_work_day_sets (daily_alarms : List (List Int))
    (hid : ∀ l ∈ daily_alarms, ∀ k ∈ l, 0 ≤ k ∧ k < (NUM_SERVERS : Int)) :
    (∀ fuel : Nat,
      (phase2 (serverToDays daily_alarms) (serverScores (serverToDays daily_alarms)) fuel
          (phase1 (serverToDays daily_alarms)
            (serverScores (serverToDays daily_alarms)))).engineer_work_days
        = (phase1 (serverToDays daily_alarms)
            (serverScores (serverToDays daily_alarms))).engineer_work_days) ∧
    (∀ fuel n : Nat, n ≤ NUM_ENGINEERS →
      ((List.range n).foldl
          (adjustEngineer (serverToDays daily_alarms) (serverScores (serverToDays daily_alarms)))
          (phase2 (serverToDays daily_alarms) (serverScores (serverToDays daily_alarms)) fuel
            (phase1 (serverToDays daily_alarms) (serverScores (serverToDays daily_alarms))),
            false)).1.engineer_work_days
        = (phase1 (serverToDays daily_alarms)
            (serverScores (serverToDays daily_alarms))).engineer_work_days) ∧
    (∀ e, e < NUM_ENGINEERS →
      ((phase1 (serverToDays daily_alarms)
        (serverScores (serverToDays daily_alarms))).engineer_work_days.getD e []).length
        ≤ targetDays e) ∧
    (calculateDailyWork daily_alarms
        { Solution.init with
          allocation := (phase1 (serverToDays daily_alarms)
            (serverScores (serverToDays daily_alarms))).allocation,
          valid := true }).daily_work = (solve daily_alarms).daily_work ∧
    (calculateDailyWork daily_alarms
        { Solution.init with
          allocation := (phase1 (serverToDays daily_alarms)
            (serverScores (serverToDays daily_alarms))).allocation,
          valid := true }).total_rest_days = (solve daily_alarms).total_rest_days := by
  have hsc := serverScores_ids daily_alarms hid
  have hne : ∀ sc ∈ serverScores (serverToDays daily_alarms), sc.2.2 ≠ -1 := by
    intro sc h
    have := (hsc sc h).1
    omega
  have h1 := phase2Inv_phase1 (serverToDays daily_alarms) _ hsc
  have h2 := phase2_quiet (serverToDays daily_alarms) _ hne
  have hdw : ∀ (dw : List (List Bool)),
      (dw.enum).map (fun er => if er.1 < NUM_ENGINEERS then
          scanRow daily_alarms NUM_DAYS
            (rowOf (phase1 (serverToDays daily_alarms)
              (serverScores (serverToDays daily_alarms))).allocation er.1) er.2 else er.2)
        = (dw.enum).map (fun er => if er.1 < NUM_ENGINEERS then
          scanRow daily_alarms NUM_DAYS
            (rowOf (phase2 (serverToDays daily_alarms) (serverScores (serverToDays daily_alarms))
              100 (phase1 (serverToDays daily_alarms)
                (serverScores (serverToDays daily_alarms)))).allocation er.1) er.2
          else er.2) := by
    intro dw
    refine List.map_congr_left (fun er _ => ?_)
    by_cases he : er.1 < NUM_ENGINEERS
    · rw [if_pos he, if_pos he]
      exact scanRow_congr_settled daily_alarms _ _ _ h1 (h2 100 _ h1).1 (h2 100 _ h1).2 he er.2
    · rw [if_neg he, if_neg he]
  refine ⟨fun fuel => (h2 fuel _ h1).2, fun fuel n hn => ?_, fun e he => (h1.2.2 e he).2.1, ?_, ?_⟩
  · obtain ⟨k1, k2⟩ := h2 fuel _ h1
    have k3 := (adjust_fold_quiet (serverToDays daily_alarms) _ hne (List.range n)
      (fun x hx => by have := List.mem_range.mp hx; omega)
      (phase2 (serverToDays daily_alarms) (serverScores (serverToDays daily_alarms)) fuel
        (phase1 (serverToDays daily_alarms) (serverScores (serverToDays daily_alarms))), false)
      k1).2
    exact k3.trans k2
  · unfold solve calculateDailyWork
    dsimp only
    exact hdw _
  · unfold solve calculateDailyWork
    dsimp only
    rw [hdw]

end MathematicalServerAllocationSolver

/-! ### Evaluations at concrete inputs -/

namespace ServerAllocationSolver

set_option maxRecDepth 100000 in
/-- C7, counterexample. With the servers 0..335 active on day 0 only and
server `s` owned by engineer `s`, `calculateDailyWork` sets `valid` to true
although `total_rest_days` is 7056, above `MAX_REST_DAYS`. -/
theorem calculateDailyWork_valid_above_budget :
    (calculateDailyWork dayZeroTable dayZeroOwners Solution.init).valid = true ∧
      (calculateDailyWork dayZeroTable dayZeroOwners Solution.init).total_rest_days = 7056 ∧
      MAX_REST_DAYS < 7056 := by
  decide!

end ServerAllocationSolver

namespace ServerAllocationSolver

end ServerAllocationSolver

namespace FinalOptimalSolver

set_option maxRecDepth 100000 in
/-- C11 fails as stated: on `overshootTable` Phase 1 gives engineer 0 the
servers 0 and 2 and engineer 1 the servers 1 and 3 (25 work days each, target
24); the first iteration of Phase 2 accepts the swap of servers 0 and 1,
after which both work 24 days, and the global rest-day total rises from 9358
to 9360. -/
theorem phase2_swap_raises_rest_total :
    (iteration (loadAlarmData overshootTable) (phase1 (loadAlarmData overshootTable)).1).2 = true ∧
      restTotal (loadAlarmData overshootTable) (phase1 (loadAlarmData overshootTable)).1 = 9358 ∧
      restTotal (loadAlarmData overshootTable)
        (iteration (loadAlarmData overshootTable)
          (phase1 (loadAlarmData overshootTable)).1).1 = 9360 := by
  decide!

set_option maxRecDepth 100000 in
/-- On `overshootTable` the first iteration of Phase 2 accepts a swap, so the
amended C11 applies to it. -/
theorem phase2_accepted_swap_lowers_error_witness :
    (iteration (loadAlarmData overshootTable)
        (phase2 (loadAlarmData overshootTable) 0
          (phase1 (loadAlarmData overshootTable)).1)).2 = true ∧
      ∃ e1 e2 : Nat, e1 < e2 ∧ e2 < NUM_ENGINEERS :=
  ⟨by decide!,
    (phase2_accepted_swap_lowers_error overshootTable 0 (by decide!)).elim
      (fun e1 h1 => h1.elim (fun e2 h2 => h2.elim (fun _ h3 => h3.elim
        (fun _ h4 => ⟨e1, e2, h4.1, h4.2.1⟩))))⟩

set_option maxRecDepth 100000 in
/-- On `overshootTable` engineer 0 works on a day below 14 after Phase 1, so
C12 applies: the engineer still does after the first iteration of Phase 2. -/
theorem phase2_swap_keeps_first14_witness :
    0 < NUM_ENGINEERS ∧
      hasDayBelow14 (rowDays (loadAlarmData overshootTable).server_to_days
        (phase2 (loadAlarmData overshootTable) 0
          (phase1 (loadAlarmData overshootTable)).1) 0) = true ∧
      hasDayBelow14 (rowDays (loadAlarmData overshootTable).server_to_days
        (iteration (loadAlarmData overshootTable)
          (phase2 (loadAlarmData overshootTable) 0
            (phase1 (loadAlarmData overshootTable)).1)).1 0) = true :=
  ⟨by decide, by decide!,
    phase2_swap_keeps_first14 overshootTable 0 0 (by decide) (by decide!)⟩

end FinalOptimalSolver

namespace ServerAllocationSolver

theorem shape_twoHolders :
    Shape NUM_ENGINEERS MAX_SERVERS_PER_ENGINEER twoHolders.allocation :=
  shape_set_row (shape_set_row (shape_replicate _ _ _) 0 0 5) 1 0 7

set_option maxRecDepth 100000 in
theorem agrees_twoHolders : Agrees twoHolders.allocation twoHolders.server_to_engineer := by
  have h : ∀ e, e < NUM_ENGINEERS → ∀ i, i < MAX_SERVERS_PER_ENGINEER →
      slotOf twoHolders.allocation e i ≠ -1 →
      ownerOf twoHolders.server_to_engineer (slotOf twoHolders.allocation e i) = (e : Int) := by
    decide!
  intro e i he hi hne
  exact h e he i hi hne

set_option maxRecDepth 100000 in
/-- With servers 5 and 7 listed on day 0 and no work day stored yet, the swap
of the two holders is kept, so C13 applies. -/
theorem tryAggressiveServerSwap_kept_first14_witness :
    (tryAggressiveServerSwap [[5, 7]] blankWork 0 1 twoHolders).improved = true ∧
      ∃ d, d < FIRST_14_DAYS ∧ ∃ s ∈ ([[5, 7]] : List (List Int)).getD d [],
        ownerOf (tryAggressiveServerSwap [[5, 7]] blankWork 0 1 twoHolders).server_to_engineer s
          ≠ -1 ∧
        (ownerOf (tryAggressiveServerSwap [[5, 7]] blankWork 0 1
          twoHolders).server_to_engineer s).toNat = 0 :=
  ⟨by decide!,
    (tryAggressiveServerSwap_kept_first14 [[5, 7]] blankWork 0 1 twoHolders (by decide!)).1⟩

set_option maxRecDepth 100000 in
/-- With servers 5 and 7 listed on day 0 and the work days stored as the map
gives them, no swap of the two holders improves, the call returns false, and
C14 applies. -/
theorem tryAggressiveServerSwap_false_restores_witness :
    Agrees twoHolders.allocation twoHolders.server_to_engineer ∧
      (tryAggressiveServerSwap [[5, 7]]
        (markAlarms [[5, 7]] twoHolders.server_to_engineer blankWork) 0 1 twoHolders).improved
        = false ∧
      (tryAggressiveServerSwap [[5, 7]]
        (markAlarms [[5, 7]] twoHolders.server_to_engineer blankWork) 0 1 twoHolders).allocation
        = twoHolders.allocation :=
  ⟨agrees_twoHolders, by decide!,
    (tryAggressiveServerSwap_false_restores [[5, 7]]
      (markAlarms [[5, 7]] twoHolders.server_to_engineer blankWork) 0 1 twoHolders
      shape_twoHolders agrees_twoHolders (by decide!)).1⟩

end ServerAllocationSolver

/-- C27, counterexample: on `tieTable` servers 0 and 1 have the same score 12,
server 0 is listed on 6 days and server 1 on one day, and the ranking puts
server 1 before server 0. -/
theorem UltimateConstraintSolver.server_efficiency_tie_lower_coverage_first :
    (UltimateConstraintSolver.loadAlarmData UltimateConstraintSolver.tieTable).server_efficiency
        = [(178, 2), (12, 1), (12, 0)] ∧
      (activeDays UltimateConstraintSolver.tieTable 0).length = 6 ∧
      (activeDays UltimateConstraintSolver.tieTable 1).length = 1 := by
  decide

set_option maxRecDepth 100000 in
/-- C24 on `overshootTable`: the first iteration of Phase 2 accepts a swap,
the error sum falls from 8280 to 8278, and a loop of 50 iterations accepts one
swap. -/
theorem FinalOptimalSolver.phase2_accepted_swaps_bounded_witness :
    (FinalOptimalSolver.iteration (FinalOptimalSolver.loadAlarmData FinalOptimalSolver.overshootTable)
        (FinalOptimalSolver.phase2 (FinalOptimalSolver.loadAlarmData FinalOptimalSolver.overshootTable) 0
          (FinalOptimalSolver.phase1
            (FinalOptimalSolver.loadAlarmData FinalOptimalSolver.overshootTable)).1)).2 = true ∧
      FinalOptimalSolver.errorTotal (FinalOptimalSolver.loadAlarmData FinalOptimalSolver.overshootTable)
          (FinalOptimalSolver.iteration
            (FinalOptimalSolver.loadAlarmData FinalOptimalSolver.overshootTable)
            (FinalOptimalSolver.phase2
              (FinalOptimalSolver.loadAlarmData FinalOptimalSolver.overshootTable) 0
              (FinalOptimalSolver.phase1
                (FinalOptimalSolver.loadAlarmData FinalOptimalSolver.overshootTable)).1)).1
        < FinalOptimalSolver.errorTotal
            (FinalOptimalSolver.loadAlarmData FinalOptimalSolver.overshootTable)
            (FinalOptimalSolver.phase2
              (FinalOptimalSolver.loadAlarmData FinalOptimalSolver.overshootTable) 0
              (FinalOptimalSolver.phase1
                (FinalOptimalSolver.loadAlarmData FinalOptimalSolver.overshootTable)).1) :=
  ⟨by decide!,
    (FinalOptimalSolver.phase2_accepted_swaps_bounded FinalOptimalSolver.overshootTable).1 0
      (by decide!)⟩

set_option maxRecDepth 100000 in
/-- C22 fails as stated: on `overshootTable` the loop of engineer 0, whose
target is 24, started as `solve` starts it, has taken server 0 (23 days, day
0 among them) when it is through the first two entries of
`server_efficiency`, and on the third entry it accepts server 2, which brings
the day count of the engineer from 23 to 25; Phase 1 ends with the servers 0
and 2 in the row of engineer 0 and 25 work days. -/
theorem FinalOptimalSolver.phase1_accepts_above_target :
    (FinalOptimalSolver.loadAlarmData FinalOptimalSolver.overshootTable).server_efficiency
        = [(509, 0), (417, 1), (35, 2), (34, 3)] ∧
      FinalOptimalSolver.targetWorkDays 0 = 24 ∧
      rowOf (FinalOptimalSolver.assignLoop
          (FinalOptimalSolver.loadAlarmData FinalOptimalSolver.overshootTable).server_to_days 0
          (FinalOptimalSolver.targetWorkDays 0) [(509, 0), (417, 1)]
          { allocation := List.replicate FinalOptimalSolver.NUM_ENGINEERS
              (List.replicate FinalOptimalSolver.MAX_SERVERS_PER_ENGINEER (-1))
            server_used := List.replicate FinalOptimalSolver.NUM_SERVERS false
            current_work_days := []
            servers_assigned := 0 }).allocation 0 = [0, -1, -1, -1, -1] ∧
      (FinalOptimalSolver.assignLoop
          (FinalOptimalSolver.loadAlarmData FinalOptimalSolver.overshootTable).server_to_days 0
          (FinalOptimalSolver.targetWorkDays 0) [(509, 0), (417, 1)]
          { allocation := List.replicate FinalOptimalSolver.NUM_ENGINEERS
              (List.replicate FinalOptimalSolver.MAX_SERVERS_PER_ENGINEER (-1))
            server_used := List.replicate FinalOptimalSolver.NUM_SERVERS false
            current_work_days := []
            servers_assigned := 0 }).current_work_days.length = 23 ∧
      hasDayBelow14 (FinalOptimalSolver.assignLoop
          (FinalOptimalSolver.loadAlarmData FinalOptimalSolver.overshootTable).server_to_days 0
          (FinalOptimalSolver.targetWorkDays 0) [(509, 0), (417, 1)]
          { allocation := List.replicate FinalOptimalSolver.NUM_ENGINEERS
              (List.replicate FinalOptimalSolver.MAX_SERVERS_PER_ENGINEER (-1))
            server_used := List.replicate FinalOptimalSolver.NUM_SERVERS false
            current_work_days := []
            servers_assigned := 0 }).current_work_days = true ∧
      rowOf (FinalOptimalSolver.assignLoop
          (FinalOptimalSolver.loadAlarmData FinalOptimalSolver.overshootTable).server_to_days 0
          (FinalOptimalSolver.targetWorkDays 0) [(35, 2)]
          (FinalOptimalSolver.assignLoop
            (FinalOptimalSolver.loadAlarmData FinalOptimalSolver.overshootTable).server_to_days 0
            (FinalOptimalSolver.targetWorkDays 0) [(509, 0), (417, 1)]
            { allocation := List.replicate FinalOptimalSolver.NUM_ENGINEERS
                (List.replicate FinalOptimalSolver.MAX_SERVERS_PER_ENGINEER (-1))
              server_used := List.replicate FinalOptimalSolver.NUM_SERVERS false
              current_work_days := []
              servers_assigned := 0 })).allocation 0 = [0, 2, -1, -1, -1] ∧
      (FinalOptimalSolver.assignLoop
          (FinalOptimalSolver.loadAlarmData FinalOptimalSolver.overshootTable).server_to_days 0
          (FinalOptimalSolver.targetWorkDays 0) [(35, 2)]
          (FinalOptimalSolver.assignLoop
            (FinalOptimalSolver.loadAlarmData FinalOptimalSolver.overshootTable).server_to_days 0
            (FinalOptimalSolver.targetWorkDays 0) [(509, 0), (417, 1)]
            { allocation := List.replicate FinalOptimalSolver.NUM_ENGINEERS
                (List.replicate FinalOptimalSolver.MAX_SERVERS_PER_ENGINEER (-1))
              server_used := List.replicate FinalOptimalSolver.NUM_SERVERS false
              current_work_days := []
              servers_assigned := 0 })).current_work_days.length = 25 ∧
      rowOf (FinalOptimalSolver.phase1
        (FinalOptimalSolver.loadAlarmData FinalOptimalSolver.overshootTable)).1 0
        = [0, 2, -1, -1, -1] ∧
      (rowDays (FinalOptimalSolver.loadAlarmData FinalOptimalSolver.overshootTable).server_to_days
        (FinalOptimalSolver.phase1
          (FinalOptimalSolver.loadAlarmData FinalOptimalSolver.overshootTable)).1 0).length = 25 := by
  decide!

/-- C21 on a table of one day line with server 7: the ids are in range, the
ranking has an unassigned server with a day below 14 when the turn of
engineer 0 starts, and the engineer ends its turn holding one. -/
theorem UltimateConstraintSolver.phase1_window_server_iff_witness :
    (∀ l ∈ ([[7]] : List (List Int)), ∀ k ∈ l,
        0 ≤ k ∧ k < (UltimateConstraintSolver.NUM_SERVERS : Int)) ∧
      0 < UltimateConstraintSolver.NUM_ENGINEERS ∧
      ∃ i, i < UltimateConstraintSolver.MAX_SERVERS_PER_ENGINEER ∧
        slotOf (UltimateConstraintSolver.phase1Upto
          (UltimateConstraintSolver.loadAlarmData [[7]]) (0 + 1)).1 0 i ≠ -1 ∧
        UltimateConstraintSolver.Window
          (UltimateConstraintSolver.loadAlarmData [[7]]).server_to_days
          (slotOf (UltimateConstraintSolver.phase1Upto
            (UltimateConstraintSolver.loadAlarmData [[7]]) (0 + 1)).1 0 i) :=
  ⟨by decide, by decide,
    (UltimateConstraintSolver.phase1_window_server_iff [[7]] (by decide) 0 (by decide)).1.mpr
      ⟨(12, 7), by decide, by decide, 0, by decide, by decide⟩⟩

/-- C29 with server 7 and the budget 410 of the file. -/
theorem UltimateConstraintSolver.solveFor_single_server_witness :
    (0 : Int) ≤ 7 ∧ (7 : Int) < (UltimateConstraintSolver.NUM_SERVERS : Int) ∧
      UltimateConstraintSolver.solveFor 3 1 410 (UltimateConstraintSolver.loadAlarmData [[7]])
        = { allocation := [[7], [-1], [-1]]
            daily_work := [[true], [false], [false]]
            total_rest_days := 2
            num_days := 1
            valid := false } :=
  ⟨by decide, by decide,
    (UltimateConstraintSolver.solveFor_single_server 7 410 (by decide) (by decide)).1⟩


/-- C32 fails as stated: on a file with one day line, `0`, `loadAlarmData`
of main.cpp stores the line as day 0 and returns false, and `main` exits with
code 1 without a solution. -/
theorem ServerAllocationSolver.loadAlarmData_partial_load_fails :
    (ServerAllocationSolver.loadAlarmData [[0]]).2 = false ∧
      (ServerAllocationSolver.loadAlarmData [[0]]).1.getD 0 [] = [0] ∧
      ∀ sort : List (Int × Nat) → List (Int × Nat),
        ServerAllocationSolver.main sort [[0]] = (1, none) :=
  ⟨by decide, by decide, fun _ => rfl⟩
/-- The file whose only day line is `2000`: the identifier is not below
`NUM_SERVERS = 1620`, and it is kept; `server_efficiency` is the one entry
`(1, 1, 2000)`, so the first read of `server_used` in `solve` (line 118,
engineer 0) has index 2000 in a vector of 1620 entries. -/
theorem ConstraintBasedSolver.loadAlarmData_keeps_every_id_witness :
    (0 < ConstraintBasedSolver.NUM_DAYS ∧ (2000 : Int) ∈ ([[2000]] : List (List Int)).getD 0 [] ∧
        ¬ ((2000 : Int) < (ConstraintBasedSolver.NUM_SERVERS : Int))) ∧
      StdSort ConstraintBasedSolver.efficiencyBefore
        (sortBy ConstraintBasedSolver.efficiencyBefore) ∧
      ((2000 : Int) ∈ (ConstraintBasedSolver.loadAlarmData
          (sortBy ConstraintBasedSolver.efficiencyBefore) [[2000]]).daily_alarms.getD 0 [] ∧
        0 ∈ mapGet (ConstraintBasedSolver.loadAlarmData
          (sortBy ConstraintBasedSolver.efficiencyBefore) [[2000]]).server_to_days 2000 ∧
        ∃ entry ∈ (ConstraintBasedSolver.loadAlarmData
            (sortBy ConstraintBasedSolver.efficiencyBefore) [[2000]]).server_efficiency,
          entry.2.2 = 2000) :=
  ⟨by decide, ConstraintBasedSolver.stdSort_efficiency,
    ConstraintBasedSolver.loadAlarmData_keeps_every_id
      (sortBy ConstraintBasedSolver.efficiencyBefore) [[2000]] 0 2000
      ConstraintBasedSolver.stdSort_efficiency (by decide) (by decide)⟩

/-- The ranking built from the file whose only day line is `2000`, for every
sorting function with the guarantee of `std::sort`: a list of one entry has
one order. -/
theorem ConstraintBasedSolver.loadAlarmData_single_out_of_range
    (sort : List (Int × Int × Int) → List (Int × Int × Int))
    (hsort : StdSort ConstraintBasedSolver.efficiencyBefore sort) :
    (ConstraintBasedSolver.loadAlarmData sort [[2000]]).server_efficiency = [(1, 1, 2000)] :=
  List.perm_singleton.mp (hsort [(1, 1, 2000)]).1

/-- The one-line table `7` has its server id in range, so C39 applies to it:
one server is listed on a day below 14, and at most one engineer works in the
first 14 days. -/
theorem UltimateConstraintSolver.window_engineers_form_prefix_witness :
    (∀ l ∈ ([[7]] : List (List Int)), ∀ k ∈ l,
        0 ≤ k ∧ k < (UltimateConstraintSolver.NUM_SERVERS : Int)) ∧
      UltimateConstraintSolver.engineersWithFirst14For UltimateConstraintSolver.NUM_ENGINEERS
          (UltimateConstraintSolver.loadAlarmData [[7]]).num_days
          (UltimateConstraintSolver.solve (UltimateConstraintSolver.loadAlarmData [[7]])).daily_work
        ≤ (windowServers [[7]]).length :=
  ⟨by decide, (UltimateConstraintSolver.window_engineers_form_prefix [[7]] (by decide)).2⟩

/-- The table with servers 0 and 1 on day 0 and server 2 on day 1 has its
server ids in range, so C38 applies to it. -/
theorem ServerAllocationSolver.optimalWorkDaysAllocation_valid_iff_window_witness :
    (∀ l ∈ ([[0, 1], [2]] : List (List Int)), ∀ k ∈ l,
        0 ≤ k ∧ k < (ServerAllocationSolver.NUM_SERVERS : Int)) ∧
      ((ServerAllocationSolver.optimalWorkDaysAllocation
          (sortBy ServerAllocationSolver.coverageBefore) [[0, 1], [2]]).1.valid = true ↔
        ServerAllocationSolver.NUM_ENGINEERS ≤ (windowServers [[0, 1], [2]]).length) :=
  ⟨by decide,
    ServerAllocationSolver.optimalWorkDaysAllocation_valid_iff_window
      (sortBy ServerAllocationSolver.coverageBefore) [[0, 1], [2]] (by decide)⟩

/-- The table with servers 0 and 1 on day 0 and server 1 on day 1 has its
server ids in range, so C33 applies to it: the 100 iterations of Phase 2
leave `engineer_work_days` as Phase 1 built it. -/
theorem MathematicalServerAllocationSolver.phase2_keeps_work_day_sets_witness :
    (∀ l ∈ ([[0, 1], [1]] : List (List Int)), ∀ k ∈ l,
        0 ≤ k ∧ k < (MathematicalServerAllocationSolver.NUM_SERVERS : Int)) ∧
      (MathematicalServerAllocationSolver.phase2
          (MathematicalServerAllocationSolver.serverToDays [[0, 1], [1]])
          (MathematicalServerAllocationSolver.serverScores
            (MathematicalServerAllocationSolver.serverToDays [[0, 1], [1]])) 100
          (MathematicalServerAllocationSolver.phase1
            (MathematicalServerAllocationSolver.serverToDays [[0, 1], [1]])
            (MathematicalServerAllocationSolver.serverScores
              (MathematicalServerAllocationSolver.serverToDays [[0, 1], [1]])))).engineer_work_days
        = (MathematicalServerAllocationSolver.phase1
            (MathematicalServerAllocationSolver.serverToDays [[0, 1], [1]])
            (MathematicalServerAllocationSolver.serverScores
              (MathematicalServerAllocationSolver.serverToDays [[0, 1], [1]]))).engineer_work_days :=
  ⟨by decide,
    (MathematicalServerAllocationSolver.phase2_keeps_work_day_sets [[0, 1], [1]]
      (by decide)).1 100⟩
/-! ### Evaluations with a sorting function -/

/-- On the alarm table without any server `solve` of main.cpp returns the
default `Solution`, whatever the sorting function is. -/
theorem ServerAllocationSolver.solve_emptyTable
    (sort : List (Int × Nat) → List (Int × Nat)) :
    ServerAllocationSolver.solve sort ServerAllocationSolver.emptyTable
      = ServerAllocationSolver.Solution.init := by
  apply ServerAllocationSolver.solve_default_of_initial
  rw [← Bool.not_eq_true,
    ServerAllocationSolver.valid_iff_window_servers sort ServerAllocationSolver.emptyTable
      (by decide)]
  decide

set_option maxRecDepth 100000 in
/-- C8, counterexample. On the alarm table without any server `solve`
returns the default `Solution`, with the insertion sort and with every other
sorting function: no row has a slot, and `total_rest_days` is 0 although the
`daily_work` it carries has 7392 rest entries. -/
theorem ServerAllocationSolver.solve_emptyTable_default :
    ServerAllocationSolver.solve (sortBy ServerAllocationSolver.coverageBefore)
        ServerAllocationSolver.emptyTable = ServerAllocationSolver.Solution.init ∧
      (∀ sort : List (Int × Nat) → List (Int × Nat),
        ServerAllocationSolver.solve sort ServerAllocationSolver.emptyTable
          = ServerAllocationSolver.Solution.init) ∧
      (ServerAllocationSolver.solve (sortBy ServerAllocationSolver.coverageBefore)
        ServerAllocationSolver.emptyTable).valid = false ∧
      (∀ row ∈ (ServerAllocationSolver.solve (sortBy ServerAllocationSolver.coverageBefore)
        ServerAllocationSolver.emptyTable).allocation, row.length = 0) ∧
      (ServerAllocationSolver.solve (sortBy ServerAllocationSolver.coverageBefore)
        ServerAllocationSolver.emptyTable).total_rest_days = 0 ∧
      ((List.range ServerAllocationSolver.NUM_ENGINEERS).map
        (ServerAllocationSolver.restCount
          (ServerAllocationSolver.solve (sortBy ServerAllocationSolver.coverageBefore)
            ServerAllocationSolver.emptyTable).daily_work)).sum = 7392 :=
  ⟨by decide!, ServerAllocationSolver.solve_emptyTable, by decide!, by decide!, by decide!,
    by decide!⟩

/-- C2 on the table with servers 0 and 1 on day 0 and server 2 on day 1, with
the insertion sort, which has the guarantee of `std::sort`. -/
theorem ServerAllocationSolver.optimalWorkDaysAllocation_rows_witness :
    StdSort ServerAllocationSolver.coverageBefore
        (sortBy ServerAllocationSolver.coverageBefore) ∧
      Shape ServerAllocationSolver.NUM_ENGINEERS ServerAllocationSolver.MAX_SERVERS_PER_ENGINEER
        (ServerAllocationSolver.optimalWorkDaysAllocation
          (sortBy ServerAllocationSolver.coverageBefore) [[0, 1], [2]]).1.allocation ∧
      (∀ row ∈ (ServerAllocationSolver.optimalWorkDaysAllocation
          (sortBy ServerAllocationSolver.coverageBefore) [[0, 1], [2]]).1.allocation,
        ∀ s ∈ row, s = -1 ∨ ∃ l ∈ ([[0, 1], [2]] : List (List Int)), s ∈ l) :=
  ⟨ServerAllocationSolver.stdSort_coverage,
    (ServerAllocationSolver.optimalWorkDaysAllocation_rows
      (sortBy ServerAllocationSolver.coverageBefore) [[0, 1], [2]]
      ServerAllocationSolver.stdSort_coverage).1,
    (ServerAllocationSolver.optimalWorkDaysAllocation_rows
      (sortBy ServerAllocationSolver.coverageBefore) [[0, 1], [2]]
      ServerAllocationSolver.stdSort_coverage).2.1⟩

